import Mathlib

/-!
# NEMU simple debugger: expression evaluator and watchpoint pool

A shallow embedding of `nemu/src/monitor/sdb/expr.c` (tokenizer `make_token`,
`check_parentheses`, `find_main_op`, `eval`, `expr`), of
`nemu/src/isa/riscv32/reg.c` (`isa_reg_str2val`) and of
`nemu/src/monitor/sdb/watchpoint.c` (`init_wp_pool`, `new_wp`, `free_wp`, `set_watchpoint`,
`delete_watchpoint`, `check_watchpoints`), followed by theorems about them.

Conventions of the embedding.

* A C string is the list of its characters; the list ends where the string ends, and a
  NUL character inside a list also ends the string at that point, as in C.
* `word_t` is `uint32_t` (riscv32): words are natural numbers below `2 ^ 32` and every
  arithmetic operation is reduced modulo `2 ^ 32` explicitly.
* The static array `tokens[1024]` together with `nr_token` is the list of the tokens stored
  so far (`nr_token` is its length). A store at index 1024 or beyond is outside the array:
  the embedding stops there with the outcome `overflow`.
* Loops are recursive functions on a counter; the two functions whose recursion is not
  structural (`make_token`, `eval`) take fuel, and a run that exhausts the fuel is a separate
  outcome (`out_of_fuel`, `none`) that is never confused with a result of the program.
* Diagnostics (`printf`, `Log`) are not modelled.
-/

namespace Nemu

/-! ## Machine words -/

/-- Number of values of a `word_t` (`uint32_t`). -/
def WORD : Nat := 4294967296

/-- Unsigned addition `val1 + val2`. -/
def wadd (a b : Nat) : Nat := (a + b) % WORD

/-- Unsigned negation `-val`. -/
def wneg (a : Nat) : Nat := (WORD - a % WORD) % WORD

/-- Unsigned subtraction `val1 - val2`. -/
def wsub (a b : Nat) : Nat := (a + (WORD - b % WORD)) % WORD

/-- Unsigned multiplication `val1 * val2`. -/
def wmul (a b : Nat) : Nat := (a * b) % WORD

/-- A C truth value as a word: `1` for true, `0` for false. -/
def ofBool (b : Bool) : Nat := if b then 1 else 0

/-! ## The machine state the evaluator reads -/

/-- The collaborators of the evaluator, taken as parameters: the program counter `cpu.pc`,
the register read `gpr(idx)` (a macro over `cpu.gpr`, declared outside the sources at hand)
and the memory read `vaddr_read(addr, len)`. -/
structure Machine where
  pc : Nat
  gpr : Nat → Nat
  vaddr_read : Nat → Nat → Nat

/-! ## Tokens -/

/-- The values of `token.type`: the enumeration `TK_NOTYPE = 256, TK_EQ, ...` and the six
character constants that double as kinds. `PLUS`, `MINUS`, `STAR`, `SLASH`, `LPAREN`,
`RPAREN` stand for the C values `'+'`, `'-'`, `'*'`, `'/'`, `'('`, `')'`. -/
inductive TokenType
  | TK_NOTYPE
  | TK_EQ
  | TK_NEQ
  | TK_AND
  | TK_OR
  | TK_NUM
  | TK_REG
  | TK_DEREF
  | TK_NEGATIVE
  | TK_BIT_AND
  | TK_BIT_OR
  | TK_BIT_XOR
  | PLUS
  | MINUS
  | STAR
  | SLASH
  | LPAREN
  | RPAREN
  deriving DecidableEq, Repr

open TokenType

/-- A `Token`: its kind and its text (`char str[32]`, NUL-terminated, so at most 31
characters). -/
structure Token where
  type : TokenType
  str : List Char
  deriving DecidableEq, Repr

/-- The NUL character that ends a C string. -/
def NUL : Char := Char.ofNat 0

/-! ## Regular expressions of the rule table -/

/-- One piece of a rule pattern: a character class, taken once or (`plus`) one or more
times. Every pattern of the rule table is a sequence of such pieces. -/
structure Piece where
  cls : Char → Bool
  plus : Bool

/-- Length of the longest run of characters of class `cls` at the start of the text. -/
def spanLen (cls : Char → Bool) : List Char → Nat
  | [] => 0
  | c :: cs => if cls c then spanLen cls cs + 1 else 0

/-- The call `regexec(&re[i], e + position, 1, &pmatch, 0) == 0 && pmatch.rm_so == 0`:
`some rm_eo` when the pattern matches at offset 0 of the text, `none` otherwise. POSIX
reports the longest match; in every pattern of the table a repeated piece is the last
one, so taking the longest run of that piece gives the longest match. -/
def regexec : List Piece → List Char → Option Nat
  | [], _ => some 0
  | pc :: ps, cs =>
    if pc.plus then
      if spanLen pc.cls cs = 0 then none
      else (regexec ps (cs.drop (spanLen pc.cls cs))).map (fun n => n + spanLen pc.cls cs)
    else
      match cs with
      | [] => none
      | c :: cs1 => if pc.cls c then (regexec ps cs1).map (fun n => n + 1) else none

/-- The pattern piece for one literal character. -/
def chr (c : Char) : Piece := ⟨fun x => x == c, false⟩

/-- The class `[0-9]`. -/
def isDec (c : Char) : Bool := decide (48 ≤ c.toNat ∧ c.toNat ≤ 57)

/-- The class `[0-9a-fA-F]`. -/
def isHex (c : Char) : Bool :=
  isDec c || decide (97 ≤ c.toNat ∧ c.toNat ≤ 102) || decide (65 ≤ c.toNat ∧ c.toNat ≤ 70)

/-- The class `[a-zA-Z0-9]`. -/
def isAlnum (c : Char) : Bool :=
  decide (97 ≤ c.toNat ∧ c.toNat ≤ 122) || decide (65 ≤ c.toNat ∧ c.toNat ≤ 90) || isDec c

/-- The class `[xX]`. -/
def isX (c : Char) : Bool := c == 'x' || c == 'X'

/-- The table `rules[]`, in the order of the source. -/
def rules : List (List Piece × TokenType) :=
  [ ([⟨fun x => x == ' ', true⟩], TK_NOTYPE),
    ([chr '+'], PLUS),
    ([chr '-'], MINUS),
    ([chr '*'], STAR),
    ([chr '/'], SLASH),
    ([chr '('], LPAREN),
    ([chr ')'], RPAREN),
    ([chr '=', chr '='], TK_EQ),
    ([chr '!', chr '='], TK_NEQ),
    ([chr '&', chr '&'], TK_AND),
    ([chr '|', chr '|'], TK_OR),
    ([chr '&'], TK_BIT_AND),
    ([chr '|'], TK_BIT_OR),
    ([chr '^'], TK_BIT_XOR),
    ([chr '0', ⟨isX, false⟩, ⟨isHex, true⟩], TK_NUM),
    ([⟨isDec, true⟩], TK_NUM),
    ([chr '$', ⟨isAlnum, true⟩], TK_REG) ]

/-- The inner `for` loop of `make_token`: the first rule, in table order, that matches at
offset 0, with the length of its match; `none` when the loop ends with `i == NR_REGEX`. -/
def first_match : List (List Piece × TokenType) → List Char → Option (Nat × TokenType)
  | [], _ => none
  | r :: rs, e =>
    match regexec r.1 e with
    | some len => some (len, r.2)
    | none => first_match rs e

/-! ## make_token -/

/-- How a run of the tokenizer ends: `done` is `return true` with the stored tokens,
`no_match` is `return false` at the given position, `overflow` is a store outside
`tokens[1024]`, and `out_of_fuel` is the embedding running out of fuel. -/
inductive LexOutcome
  | done (tokens : List Token)
  | no_match (position : Nat)
  | overflow
  | out_of_fuel
  deriving DecidableEq, Repr

/-- The `while (e[position] != 0)` loop of `make_token`. `e` is the text from `position`
on and `tokens` the tokens stored so far. -/
def make_token_loop : Nat → List Char → Nat → List Token → LexOutcome
  | 0, _, _, _ => LexOutcome.out_of_fuel
  | fuel + 1, e, position, tokens =>
    match e with
    | [] => LexOutcome.done tokens
    | c :: _ =>
      if c = NUL then LexOutcome.done tokens
      else
        match first_match rules e with
        | none => LexOutcome.no_match position
        | some (substr_len, token_type) =>
          if token_type = TK_NOTYPE then
            make_token_loop fuel (e.drop substr_len) (position + substr_len) tokens
          else if 1024 ≤ tokens.length then LexOutcome.overflow
          else
            make_token_loop fuel (e.drop substr_len) (position + substr_len)
              (tokens ++ [⟨token_type, e.take (min substr_len 31)⟩])

/-- The two `if` statements of the post-processing loop for the token at index `i`; `prev` is
`none` when `i == 0` and the kind of `tokens[i - 1]` otherwise. -/
def classify (prev : Option TokenType) (t : Token) : Token :=
  let unaryPos : Bool :=
    match prev with
    | none => true
    | some k => decide (k ≠ TK_NUM ∧ k ≠ TK_REG ∧ k ≠ RPAREN)
  let t1 : Token := if t.type = STAR ∧ unaryPos then ⟨TK_DEREF, t.str⟩ else t
  if t1.type = MINUS ∧ unaryPos then ⟨TK_NEGATIVE, t1.str⟩ else t1

/-- The post-processing loop `for (i = 0; i < nr_token; i++)`, which rewrites the array in
place from left to right: the token at `i - 1` has already been rewritten when the token at
`i` is examined. -/
def post_process : Option TokenType → List Token → List Token
  | _, [] => []
  | prev, t :: ts => classify prev t :: post_process (some (classify prev t).type) ts

/-- The function `make_token`. The fuel `e.length + 1` is enough, since every rule consumes
at least one character. -/
def make_token (e : List Char) : LexOutcome :=
  match make_token_loop (e.length + 1) e 0 [] with
  | LexOutcome.done tokens => LexOutcome.done (post_process none tokens)
  | r => r

/-! ## check_parentheses and find_main_op -/

/-- The value of `tokens[i]`. Indices outside the stored tokens are never read by `expr`; for
them the embedding gives a token of kind `TK_NOTYPE`, which no `case` of the program
selects. -/
def tok (tokens : List Token) (i : Int) : Token :=
  match i with
  | Int.ofNat n => tokens.getD n ⟨TK_NOTYPE, []⟩
  | Int.negSucc _ => ⟨TK_NOTYPE, []⟩

/-- The update of `count` in the loop of `check_parentheses` for the token `t`. -/
def paren_count (t : Token) (count : Int) : Int :=
  if t.type = LPAREN then count + 1
  else if t.type = RPAREN then count - 1
  else count

/-- The `for (i = p; i <= q; i++)` loop of `check_parentheses`; the first argument counts the
iterations left. At loop exit the function returns `count == 0`. -/
def check_parentheses_loop (tokens : List Token) (q : Int) : Nat → Int → Int → Bool
  | 0, _, count => decide (count = 0)
  | n + 1, i, count =>
    if paren_count (tok tokens i) count = 0 ∧ i < q then false
    else check_parentheses_loop tokens q n (i + 1) (paren_count (tok tokens i) count)

/-- The function `check_parentheses`. -/
def check_parentheses (tokens : List Token) (p q : Int) : Bool :=
  if (tok tokens p).type ≠ LPAREN ∨ (tok tokens q).type ≠ RPAREN then false
  else check_parentheses_loop tokens q (q - p + 1).toNat p 0

/-- The `switch` of `find_main_op` that sets `current_priority`. -/
def priority : TokenType → Int
  | TK_OR => 1
  | TK_AND => 2
  | TK_BIT_OR => 3
  | TK_BIT_XOR => 4
  | TK_BIT_AND => 5
  | TK_EQ => 6
  | TK_NEQ => 6
  | PLUS => 7
  | MINUS => 7
  | STAR => 8
  | SLASH => 8
  | TK_DEREF => 9
  | TK_NEGATIVE => 9
  | _ => 0

/-- The local variables of `find_main_op`. -/
structure ScanState where
  op_pos : Int
  op_priority : Int
  bracket_count : Int
  deriving DecidableEq, Repr

/-- One iteration of the loop of `find_main_op` at index `i`, where `t` is `tokens[i]`. -/
def find_main_op_step (t : Token) (i : Int) (s : ScanState) : ScanState :=
  if t.type = LPAREN then ⟨s.op_pos, s.op_priority, s.bracket_count + 1⟩
  else if t.type = RPAREN then ⟨s.op_pos, s.op_priority, s.bracket_count - 1⟩
  else if s.bracket_count > 0 then s
  else if priority t.type > 0 ∧ (s.op_pos = -1 ∨ priority t.type ≤ s.op_priority) then
    ⟨i, priority t.type, s.bracket_count⟩
  else s

/-- The `for (i = p; i <= q; i++)` loop of `find_main_op`; the first argument counts the
iterations left. -/
def find_main_op_loop (tokens : List Token) : Nat → Int → ScanState → ScanState
  | 0, _, s => s
  | n + 1, i, s => find_main_op_loop tokens n (i + 1) (find_main_op_step (tok tokens i) i s)

/-- The function `find_main_op`. -/
def find_main_op (tokens : List Token) (p q : Int) : Int :=
  (find_main_op_loop tokens (q - p + 1).toNat p ⟨-1, 0, 0⟩).op_pos

/-! ## The library functions the evaluator calls -/

/-- The C predicate `isspace` in the "C" locale. -/
def isSpace (c : Char) : Bool := decide (c.toNat = 32 ∨ (9 ≤ c.toNat ∧ c.toNat ≤ 13))

/-- Value of a digit character in bases up to 16. -/
def digitVal (c : Char) : Nat :=
  if isDec c then c.toNat - 48
  else if 97 ≤ c.toNat ∧ c.toNat ≤ 102 then c.toNat - 87
  else if 65 ≤ c.toNat ∧ c.toNat ≤ 70 then c.toNat - 55
  else 0

/-- Value of a string of digits in the given base, most significant digit first. -/
def digitsVal (base : Nat) (ds : List Char) : Nat :=
  ds.foldl (fun acc c => acc * base + digitVal c) 0

/-- An optional sign at the start of a number: whether it is `-`, and the text after it. -/
def takeSign : List Char → Bool × List Char
  | '-' :: r => (true, r)
  | '+' :: r => (false, r)
  | s => (false, s)

/-- What `sscanf` stores in an `unsigned int` for a numeral of magnitude `n` with or without
a minus sign. The C library converts in `unsigned long`, of 64 bits on the hosts NEMU is built
for: a magnitude of `2 ^ 64` or more gives the largest `unsigned long` whatever the sign, a
smaller one is negated when the sign is `-`, and the low 32 bits of the result are stored. -/
def scanned (neg : Bool) (n : Nat) : Nat :=
  if 18446744073709551616 ≤ n then WORD - 1
  else if neg then wneg n else n % WORD

/-- The call `sscanf(str, "%u", &val)`, returning the new content of `val`: white space is
skipped, a sign is accepted, and the decimal digits that follow are converted. Without a
digit nothing is stored. The stored value is an `unsigned int`: the value of the numeral
modulo `2 ^ 32` as long as it is below `2 ^ 64`, and `2 ^ 32 - 1` from there on. -/
def sscanf_u (str : List Char) (val : Nat) : Nat :=
  let s := takeSign (str.dropWhile isSpace)
  let ds := s.2.takeWhile isDec
  if ds = [] then val
  else scanned s.1 (digitsVal 10 ds)

/-- The text after an optional `0x` or `0X`, which `%x` accepts before the digits. -/
def takeHexMark : List Char → List Char
  | '0' :: x :: r => if isX x then r else '0' :: x :: r
  | s => s

/-- The call `sscanf(str, "%x", &val)`, returning the new content of `val`; like `sscanf_u`
with hexadecimal digits after an optional `0x` or `0X`. -/
def sscanf_x (str : List Char) (val : Nat) : Nat :=
  let s := takeSign (str.dropWhile isSpace)
  let ds := (takeHexMark s.2).takeWhile isHex
  if ds = [] then val
  else scanned s.1 (digitsVal 16 ds)

/-- The call `strtol(s, &endptr, 10)`: the value and the text `endptr` points to. White
space is skipped and a sign accepted; without a digit the value is 0 and `endptr` is `s`.
The value is clamped to the range of `long` (64 bits). -/
def strtol (s : List Char) : Int × List Char :=
  let t := takeSign (s.dropWhile isSpace)
  let ds := t.2.takeWhile isDec
  if ds = [] then (0, s)
  else
    let v : Int := if t.1 then -(digitsVal 10 ds : Int) else (digitsVal 10 ds : Int)
    (max (-9223372036854775808) (min v 9223372036854775807), t.2.dropWhile isDec)

/-! ## isa_reg_str2val -/

/-- The table `regs[]` of `reg.c`. -/
def regs : List (List Char) :=
  [ ['$', '0'], ['r', 'a'], ['s', 'p'], ['g', 'p'], ['t', 'p'], ['t', '0'], ['t', '1'],
    ['t', '2'], ['s', '0'], ['s', '1'], ['a', '0'], ['a', '1'], ['a', '2'], ['a', '3'],
    ['a', '4'], ['a', '5'], ['a', '6'], ['a', '7'], ['s', '2'], ['s', '3'], ['s', '4'],
    ['s', '5'], ['s', '6'], ['s', '7'], ['s', '8'], ['s', '9'], ['s', '1', '0'],
    ['s', '1', '1'], ['t', '3'], ['t', '4'], ['t', '5'], ['t', '6'] ]

/-- The loop `for (i = 0; i < 32; i++)` of `isa_reg_str2val`; the first argument counts the
iterations left. When the loop ends without a match the function sets `*success = false`
and returns 0. -/
def isa_reg_str2val_loop (m : Machine) (s : List Char) : Nat → Nat → Nat × Bool
  | 0, _ => (0, false)
  | n + 1, i =>
    if i = 0 ∧ s = ['z', 'e', 'r', 'o'] then (0, true)
    else if s = (regs.getD i []).drop (if i = 0 then 1 else 0) then (m.gpr i, true)
    else isa_reg_str2val_loop m s n (i + 1)

/-- The function `isa_reg_str2val`: the returned value and the final content of
`*success`. -/
def isa_reg_str2val (m : Machine) (s : List Char) : Nat × Bool :=
  if s = ['p', 'c'] then (m.pc, true)
  else if s.head? = some '$' ∧ (strtol (s.drop 1)).2.head?.all (fun c => c == NUL) ∧
      0 ≤ (strtol (s.drop 1)).1 ∧ (strtol (s.drop 1)).1 < 32 then
    (m.gpr (strtol (s.drop 1)).1.toNat, true)
  else isa_reg_str2val_loop m s 32 0

/-! ## eval and expr -/

/-- The single-token case of `eval` (`p == q`) for the token `t`, with the incoming content
of `*success`: a number is read by `sscanf`, in base 16 when its text starts with `0x` or
`0X`; a register is looked up by the name after the `$`; anything else fails. -/
def eval_single (m : Machine) (t : Token) (success : Bool) : Nat × Bool :=
  match t.type with
  | TK_NUM =>
    if t.str.getD 0 NUL = '0' ∧ isX (t.str.getD 1 NUL) then (sscanf_x t.str 0, success)
    else (sscanf_u t.str 0, success)
  | TK_REG =>
    if (isa_reg_str2val m (t.str.drop 1)).2 then isa_reg_str2val m (t.str.drop 1)
    else (0, false)
  | _ => (0, false)

/-- The final `switch` of `eval` on the kind of the main operator, applied to the values of
the two sides; `success` is true at that point and stays so unless the case clears it. -/
def eval_binary (type : TokenType) (val1 val2 : Nat) : Nat × Bool :=
  match type with
  | PLUS => (wadd val1 val2, true)
  | MINUS => (wsub val1 val2, true)
  | STAR => (wmul val1 val2, true)
  | SLASH => if val2 = 0 then (0, false) else (val1 / val2, true)
  | TK_EQ => (ofBool (decide (val1 = val2)), true)
  | TK_NEQ => (ofBool (decide (val1 ≠ val2)), true)
  | TK_AND => (ofBool (decide (val1 ≠ 0 ∧ val2 ≠ 0)), true)
  | TK_OR => (ofBool (decide (val1 ≠ 0 ∨ val2 ≠ 0)), true)
  | TK_BIT_AND => (val1 &&& val2, true)
  | TK_BIT_OR => (val1 ||| val2, true)
  | TK_BIT_XOR => (val1 ^^^ val2, true)
  | _ => (0, false)

/-- The function `eval(p, q, success)`: the returned word and the final content of
`*success`, the incoming content being the last argument. The first argument is fuel; `none`
means the fuel ran out. After a recursive call that leaves `*success` false the function
returns 0. -/
def eval (m : Machine) (tokens : List Token) : Nat → Int → Int → Bool → Option (Nat × Bool)
  | 0, _, _, _ => none
  | fuel + 1, p, q, success =>
    if p > q then some (0, false)
    else if p = q then some (eval_single m (tok tokens p) success)
    else if check_parentheses tokens p q then eval m tokens fuel (p + 1) (q - 1) success
    else if find_main_op tokens p q = -1 then some (0, false)
    else if (tok tokens (find_main_op tokens p q)).type = TK_DEREF then
      match eval m tokens fuel (find_main_op tokens p q + 1) q success with
      | none => none
      | some (addr, s1) => if s1 then some (m.vaddr_read addr 4, s1) else some (0, s1)
    else if (tok tokens (find_main_op tokens p q)).type = TK_NEGATIVE then
      match eval m tokens fuel (find_main_op tokens p q + 1) q success with
      | none => none
      | some (val, s1) => if s1 then some (wneg val, s1) else some (0, s1)
    else
      match eval m tokens fuel p (find_main_op tokens p q - 1) success with
      | none => none
      | some (val1, s1) =>
        if s1 then
          match eval m tokens fuel (find_main_op tokens p q + 1) q s1 with
          | none => none
          | some (val2, s2) =>
            if s2 then some (eval_binary (tok tokens (find_main_op tokens p q)).type val1 val2)
            else some (0, s2)
        else some (0, s1)

/-- How a call of `expr` ends: `returned val success` is the returned word with the final
`*success`; `overflow` is a store outside `tokens[1024]` during `make_token`; `out_of_fuel`
is the embedding running out of fuel. -/
inductive ExprOutcome
  | returned (val : Nat) (success : Bool)
  | overflow
  | out_of_fuel
  deriving DecidableEq, Repr

/-- The function `expr`. After `make_token` it runs the post-processing loop once more and
calls `eval(0, nr_token - 1, success)` with `*success = true`. Each recursive call of `eval`
is on a shorter range, so `nr_token + 1` is enough fuel. -/
def expr (m : Machine) (e : List Char) : ExprOutcome :=
  match make_token e with
  | LexOutcome.no_match _ => ExprOutcome.returned 0 false
  | LexOutcome.overflow => ExprOutcome.overflow
  | LexOutcome.out_of_fuel => ExprOutcome.out_of_fuel
  | LexOutcome.done tokens =>
    match eval m (post_process none tokens) ((post_process none tokens).length + 1) 0
        (((post_process none tokens).length : Int) - 1) true with
    | none => ExprOutcome.out_of_fuel
    | some r => ExprOutcome.returned r.1 r.2

/-! ## Definitions used to state and prove the theorems

The functions below restate the loops of the program on the list of the tokens of a range,
instead of on two indices into the token array. They are proved equal to the functions of
the program (`check_parentheses_eq`, `find_main_op_eq`, `eval_eq_evalL`) and serve in the
proofs only. -/

/-- The `while` loop with the fuel `make_token` gives it. -/
def lex (e : List Char) (position : Nat) (tokens : List Token) : LexOutcome :=
  make_token_loop (e.length + 1) e position tokens

/-- The token the embedding reads outside the stored tokens. -/
def noTok : Token := ⟨TK_NOTYPE, []⟩

/-- The loop of `check_parentheses` over the tokens of the range `[p, q]`; the test `i < q`
becomes "a token is left after this one". -/
def cpL : List Token → Int → Bool
  | [], count => decide (count = 0)
  | t :: ts, count =>
    if paren_count t count = 0 ∧ ts ≠ [] then false else cpL ts (paren_count t count)

/-- The function `check_parentheses` on the tokens of the range. -/
def check_parenthesesL (xs : List Token) : Bool :=
  if (xs.headD noTok).type ≠ LPAREN ∨ (xs.getLastD noTok).type ≠ RPAREN then false
  else cpL xs 0

/-- The loop of `find_main_op` over the tokens of a range whose first index is `i`. -/
def scanL : List Token → Int → ScanState → ScanState
  | [], _, s => s
  | t :: ts, i, s => scanL ts (i + 1) (find_main_op_step t i s)

/-- The function `find_main_op` on the tokens of the range, with indices counted from the
start of the range. -/
def find_main_opL (xs : List Token) : Int := (scanL xs 0 ⟨-1, 0, 0⟩).op_pos

/-- The function `eval` on the tokens of the range. -/
def evalL (m : Machine) : Nat → List Token → Bool → Option (Nat × Bool)
  | 0, _, _ => none
  | fuel + 1, xs, success =>
    if xs.length = 0 then some (0, false)
    else if xs.length = 1 then some (eval_single m (xs.headD noTok) success)
    else if check_parenthesesL xs then evalL m fuel xs.tail.dropLast success
    else if find_main_opL xs = -1 then some (0, false)
    else if (xs.getD (find_main_opL xs).toNat noTok).type = TK_DEREF then
      match evalL m fuel (xs.drop ((find_main_opL xs).toNat + 1)) success with
      | none => none
      | some (addr, s1) => if s1 then some (m.vaddr_read addr 4, s1) else some (0, s1)
    else if (xs.getD (find_main_opL xs).toNat noTok).type = TK_NEGATIVE then
      match evalL m fuel (xs.drop ((find_main_opL xs).toNat + 1)) success with
      | none => none
      | some (val, s1) => if s1 then some (wneg val, s1) else some (0, s1)
    else
      match evalL m fuel (xs.take (find_main_opL xs).toNat) success with
      | none => none
      | some (val1, s1) =>
        if s1 then
          match evalL m fuel (xs.drop ((find_main_opL xs).toNat + 1)) s1 with
          | none => none
          | some (val2, s2) =>
            if s2 then
              some (eval_binary (xs.getD (find_main_opL xs).toNat noTok).type val1 val2)
            else some (0, s2)
        else some (0, s1)

/-! ### Numeric literals -/

/-- The text is a decimal numeral: one or more decimal digits. -/
def isDecLit (s : List Char) : Bool := !s.isEmpty && s.all isDec

/-- The text is a hexadecimal numeral: `0x` or `0X` and one or more hexadecimal digits. -/
def isHexLit (s : List Char) : Bool :=
  match s with
  | '0' :: x :: hs => isX x && !hs.isEmpty && hs.all isHex
  | _ => false

/-- The text is a numeric literal: the whole of it is matched by one of the two number
rules. -/
def isNumLit (s : List Char) : Bool := isHexLit s || isDecLit s

/-- The value of a numeric literal: base 16 after `0x` or `0X`, base 10 otherwise. -/
def litVal (s : List Char) : Nat :=
  if isHexLit s then digitsVal 16 (s.drop 2) else digitsVal 10 s

/-- What the `while` loop of `make_token` guarantees about a stored token: its kind is `'*'`
exactly when its text is `*`, `'-'` exactly when its text is `-`, and it is neither of the
two kinds that only the post-processing loop assigns. -/
def RawOK (t : Token) : Prop :=
  (t.type = STAR ↔ t.str = ['*']) ∧ (t.type = MINUS ↔ t.str = ['-']) ∧
    t.type ≠ TK_DEREF ∧ t.type ≠ TK_NEGATIVE

/-- The condition under which the post-processing loop makes the token at index `i` of
`ts` unary: `i == 0`, or the kind of the token before it is none of `TK_NUM`, `TK_REG`,
`')'`. -/
def unaryPosition (ts : List Token) (i : Nat) : Prop :=
  i = 0 ∨ ((ts.getD (i - 1) noTok).type ≠ TK_NUM ∧ (ts.getD (i - 1) noTok).type ≠ TK_REG ∧
    (ts.getD (i - 1) noTok).type ≠ RPAREN)

/-- The characters that occur in the patterns of the rule table: the space, the operator
characters `+ - * / ( ) = ! & | ^ $`, and the ASCII letters and digits. -/
def inAlphabet (c : Char) : Bool :=
  c == ' ' || c == '+' || c == '-' || c == '*' || c == '/' || c == '(' || c == ')' ||
    c == '=' || c == '!' || c == '&' || c == '|' || c == '^' || c == '$' || isAlnum c

/-- The states of the `while` loop of `make_token` on the text `e`: `LoopAt e position tokens`
holds when the loop condition is evaluated with this `position` and these tokens stored. The
loop starts at position 0 with no token; an iteration at a character other than NUL, where
the first matching rule matches `len` characters, leads to `position + len`, with one more
token unless the rule is the one for spaces; the token needs room in `tokens[1024]`. -/
inductive LoopAt (e : List Char) : Nat → List Token → Prop
  | start : LoopAt e 0 []
  | skip (position : Nat) (tokens : List Token) (c : Char) (len : Nat) :
      LoopAt e position tokens → (e.drop position).head? = some c → c ≠ NUL →
      first_match rules (e.drop position) = some (len, TK_NOTYPE) →
      LoopAt e (position + len) tokens
  | store (position : Nat) (tokens : List Token) (c : Char) (len : Nat) (ty : TokenType) :
      LoopAt e position tokens → (e.drop position).head? = some c → c ≠ NUL →
      first_match rules (e.drop position) = some (len, ty) → ty ≠ TK_NOTYPE →
      tokens.length < 1024 →
      LoopAt e (position + len)
        (tokens ++ [⟨ty, (e.drop position).take (min len 31)⟩])

/-! ### The arithmetic grammar of C1 -/

/-- The four binary operators of the grammar `E ::= n | E+E | E-E | E*E | E/E | (E)`. -/
inductive ArithOp
  | add
  | sub
  | mul
  | div
  deriving DecidableEq, Repr

/-- Whether the operator is `+` or `-`. -/
def ArithOp.additive : ArithOp → Bool
  | ArithOp.add => true
  | ArithOp.sub => true
  | _ => false

/-- The character of an operator. -/
def ArithOp.char : ArithOp → Char
  | ArithOp.add => '+'
  | ArithOp.sub => '-'
  | ArithOp.mul => '*'
  | ArithOp.div => '/'

/-- The token kind of a binary operator. -/
def ArithOp.type : ArithOp → TokenType
  | ArithOp.add => PLUS
  | ArithOp.sub => MINUS
  | ArithOp.mul => STAR
  | ArithOp.div => SLASH

/-- The operation on 32-bit words: `+`, `-`, `*` modulo `2 ^ 32` and truncating `/`, which has
no value when the divisor is 0. -/
def ArithOp.apply (op : ArithOp) (a b : Nat) : Option Nat :=
  match op with
  | ArithOp.add => some ((a + b) % 2 ^ 32)
  | ArithOp.sub => some (Int.toNat (((a : Int) - (b : Int)) % 2 ^ 32))
  | ArithOp.mul => some ((a * b) % 2 ^ 32)
  | ArithOp.div => if b = 0 then none else some (a / b)

/-- Derivation trees of the grammar `E ::= n | E+E | E-E | E*E | E/E | (E)`. -/
inductive Arith
  | num (digits : List Char)
  | bin (op : ArithOp) (lhs rhs : Arith)
  | paren (e : Arith)
  deriving Repr

/-- The text a derivation tree generates. -/
def Arith.text : Arith → List Char
  | Arith.num ds => ds
  | Arith.bin op l r => l.text ++ [op.char] ++ r.text
  | Arith.paren e => '(' :: e.text ++ [')']

/-- The tokens of the text of a derivation tree. -/
def Arith.tokens : Arith → List Token
  | Arith.num ds => [⟨TK_NUM, ds⟩]
  | Arith.bin op l r => l.tokens ++ [⟨op.type, [op.char]⟩] ++ r.tokens
  | Arith.paren e => ⟨LPAREN, ['(']⟩ :: e.tokens ++ [⟨RPAREN, [')']⟩]

/-- The number of tokens of the text of a derivation tree. -/
def Arith.size : Arith → Nat
  | Arith.num _ => 1
  | Arith.bin _ l r => l.size + 1 + r.size
  | Arith.paren e => e.size + 2

/-- Every numeral of the tree is a decimal numeral of at most 31 characters and of value
below `2 ^ 32`. -/
def Arith.numeralsOK : Arith → Bool
  | Arith.num ds => isDecLit ds && decide (ds.length ≤ 31) && decide (digitsVal 10 ds < 2 ^ 32)
  | Arith.bin _ l r => l.numeralsOK && r.numeralsOK
  | Arith.paren e => e.numeralsOK

/-- The tree is a factor: a numeral or a parenthesised expression. -/
def Arith.isFactor : Arith → Bool
  | Arith.bin _ _ _ => false
  | _ => true

/-- The tree is a term: its root is not `+` or `-`. -/
def Arith.isTerm : Arith → Bool
  | Arith.bin op _ _ => !op.additive
  | _ => true

/-- The tree is the reading of its text with the usual conventions, that is, a derivation
of the stratified grammar `E ::= E+T | E-T | T`, `T ::= T*F | T/F | F`, `F ::= n | (E)`:
the right operand of `+` and `-` is a term, the left operand of `*` and `/` is a term and
their right operand is a factor, so `*` and `/` bind tighter than `+` and `-` and
operators of equal precedence associate to the left. -/
def Arith.conventional : Arith → Bool
  | Arith.num _ => true
  | Arith.paren e => e.conventional
  | Arith.bin op l r =>
    l.conventional && r.conventional &&
      (if op.additive then r.isTerm else l.isTerm && r.isFactor)

/-- The value of a tree on 32-bit words; `none` when a divisor evaluates to 0. -/
def Arith.value : Arith → Option Nat
  | Arith.num ds => some (digitsVal 10 ds)
  | Arith.paren e => e.value
  | Arith.bin op l r =>
    match l.value, r.value with
    | some a, some b => op.apply a b
    | _, _ => none

/-- The reading, with the usual conventions, of `l.text ++ op ++ r.text` for an additive
`op`, from the readings `l` and `r` of the two sides: `l` becomes the left operand of the
leftmost term of `r`. -/
def Arith.addGraft (op : ArithOp) (l : Arith) : Arith → Arith
  | Arith.bin op2 r1 r2 =>
    if op2.additive then Arith.bin op2 (Arith.addGraft op l r1) r2
    else Arith.bin op l (Arith.bin op2 r1 r2)
  | r => Arith.bin op l r

/-- The reading of `t.text ++ op ++ r.text` for a multiplicative `op` and a term `t`: `t`
becomes the left operand of the leftmost factor of `r`. -/
def Arith.mulGraft (op : ArithOp) (t : Arith) : Arith → Arith
  | Arith.bin op2 r1 r2 => Arith.bin op2 (Arith.mulGraft op t r1) r2
  | r => Arith.bin op t r

/-- The reading, with the usual conventions, of `l.text ++ op ++ r.text` from the readings
`l` and `r` of the two sides. -/
def Arith.plug (op : ArithOp) (l r : Arith) : Arith :=
  if op.additive then Arith.addGraft op l r
  else
    match l with
    | Arith.bin op1 l1 l2 =>
      if op1.additive then Arith.addGraft op1 l1 (Arith.mulGraft op l2 r)
      else Arith.mulGraft op l r
    | _ => Arith.mulGraft op l r

/-- The reading, with the usual conventions, of the text of any derivation tree. -/
def Arith.reading : Arith → Arith
  | Arith.num ds => Arith.num ds
  | Arith.paren e => Arith.paren e.reading
  | Arith.bin op l r => Arith.plug op l.reading r.reading

/-! ### Operators outside parentheses in a token range -/

/-- The parenthesis depth in front of the token at index `p + k` of the range that starts at
`p`: the number of `(` minus the number of `)` among the tokens at `p, ..., p + k - 1`. -/
def depthFrom (tokens : List Token) (p : Int) : Nat → Int
  | 0 => 0
  | k + 1 => paren_count (tok tokens (p + k)) (depthFrom tokens p k)

/-- The token at index `p + k` is an operator (it has a rank) at parenthesis depth 0 of the
range that starts at `p`. -/
@[reducible] def opAtDepth0 (tokens : List Token) (p : Int) (k : Nat) : Prop :=
  0 < priority (tok tokens (p + k)).type ∧ depthFrom tokens p k = 0

/-- The parentheses of the range `[p, q]` are balanced: the depth is never negative, and it
is zero at the end. -/
def balancedRange (tokens : List Token) (p q : Int) : Prop :=
  (∀ k, k ≤ (q - p + 1).toNat → 0 ≤ depthFrom tokens p k) ∧
    depthFrom tokens p (q - p + 1).toNat = 0

/-- The condition the loop of `find_main_op` keeps, after the tokens `p, ..., p + k - 1`:
`bracket_count` is the depth, and either no operator at depth 0 has been met and `op_pos`
is -1, or `op_pos` is the rightmost of the operators of lowest rank met at depth 0 and
`op_priority` is its rank. -/
def ScanInv (tokens : List Token) (p : Int) (k : Nat) (s : ScanState) : Prop :=
  s.bracket_count = depthFrom tokens p k ∧
    ((s.op_pos = -1 ∧ ∀ j, j < k → ¬ opAtDepth0 tokens p j) ∨
      ∃ r, r < k ∧ s.op_pos = p + (r : Int) ∧ opAtDepth0 tokens p r ∧
        s.op_priority = priority (tok tokens (p + r)).type ∧
        (∀ j, j < k → opAtDepth0 tokens p j →
          s.op_priority ≤ priority (tok tokens (p + j)).type) ∧
        (∀ j, r < j → j < k → opAtDepth0 tokens p j →
          s.op_priority < priority (tok tokens (p + j)).type))

/-- The tokens of the text `10-2-3`. -/
def tokens_10_minus_2_minus_3 : List Token :=
  [⟨TK_NUM, ['1', '0']⟩, ⟨MINUS, ['-']⟩, ⟨TK_NUM, ['2']⟩, ⟨MINUS, ['-']⟩, ⟨TK_NUM, ['3']⟩]

/-- The tokens of the text `2*-3`. -/
def tokens_2_star_minus_3 : List Token :=
  [⟨TK_NUM, ['2']⟩, ⟨STAR, ['*']⟩, ⟨TK_NEGATIVE, ['-']⟩, ⟨TK_NUM, ['3']⟩]

/-- The 31 ABI register names `ra, sp, gp, tp, t0..t6, s0..s11, a0..a7`. -/
def abiNames : List (List Char) :=
  [ ['r', 'a'], ['s', 'p'], ['g', 'p'], ['t', 'p'],
    ['t', '0'], ['t', '1'], ['t', '2'], ['t', '3'], ['t', '4'], ['t', '5'], ['t', '6'],
    ['s', '0'], ['s', '1'], ['s', '2'], ['s', '3'], ['s', '4'], ['s', '5'], ['s', '6'],
    ['s', '7'], ['s', '8'], ['s', '9'], ['s', '1', '0'], ['s', '1', '1'],
    ['a', '0'], ['a', '1'], ['a', '2'], ['a', '3'], ['a', '4'], ['a', '5'], ['a', '6'],
    ['a', '7'] ]

/-! ### Concrete machines and texts for the examples -/

/-- A machine whose program counter, registers and memory all read 0. -/
def zeroMachine : Machine := ⟨0, fun _ => 0, fun _ _ => 0⟩

/-- A machine in which the word read at an address is the address itself, and register
`i` holds `i`. -/
def addrMachine : Machine := ⟨0, fun i => i, fun addr _ => addr⟩

/-- The text of thirty-one characters `0`. -/
def zeros31 : List Char := List.replicate 31 '0'

/-! ## The watchpoint pool (`nemu/src/monitor/sdb/watchpoint.c`)

Conventions of this part.

* A `WP*` is either `NULL` or the address of a slot of `wp_pool`: a pointer is an optional
  index below `NR_WP`.
* The field `expr[256]` is read as a C string: its content is the list of the characters in
  front of the first NUL. The store `expr[0] = '\0'` makes it the empty string.
* The three loops that follow `next` pointers run on a counter of `NR_WP + 1` iterations. A
  walk that has not ended after that many iterations has met a slot twice, and from there the
  C loop repeats for ever; the embedding answers `none` for such a run.
-/

/-- The number of slots of `wp_pool`. -/
abbrev NR_WP : Nat := 32

/-- The record `struct watchpoint`. -/
structure WP where
  NO : Int
  next : Option (Fin NR_WP)
  expr : List Char
  old_val : Nat
  enabled : Bool
  deriving DecidableEq, Repr

/-- The static variables `wp_pool`, `head` and `free_`. -/
structure Pool where
  wp_pool : Fin NR_WP → WP
  head : Option (Fin NR_WP)
  free_ : Option (Fin NR_WP)

/-- The statics as the program starts, all zero. -/
def pool_start : Pool :=
  { wp_pool := fun _ => ⟨0, none, [], 0, false⟩, head := none, free_ := none }

/-- The length `strlen(s)` of a C string. -/
def strlen (s : List Char) : Nat := (s.takeWhile (fun c => decide (c ≠ NUL))).length

/-- The characters `strcpy` copies from the C string `s`, the final NUL left out. -/
def strcpy (s : List Char) : List Char := s.takeWhile (fun c => decide (c ≠ NUL))

/-- The function `init_wp_pool`. -/
def init_wp_pool (pool : Pool) : Pool :=
  { wp_pool := fun i =>
      { pool.wp_pool i with
        NO := (i.val : Int)
        next := if h : i.val + 1 < NR_WP then some ⟨i.val + 1, h⟩ else none
        enabled := false
        expr := [] }
    head := none
    free_ := some ⟨0, by decide⟩ }

/-- The function `new_wp`: the statics after the call, and the returned pointer. -/
def new_wp (pool : Pool) : Pool × Option (Fin NR_WP) :=
  match pool.free_ with
  | none => (pool, none)
  | some wp =>
    ({ wp_pool := Function.update pool.wp_pool wp
          { pool.wp_pool wp with next := pool.head, enabled := true }
       head := some wp
       free_ := (pool.wp_pool wp).next }, some wp)

/-- The loop `while (prev && prev->next != wp) prev = prev->next;` of `free_wp`: the final
`prev`, or `none` when the counter runs out. -/
def free_wp_loop (pool : Pool) (wp : Fin NR_WP) :
    Nat → Option (Fin NR_WP) → Option (Option (Fin NR_WP))
  | 0, _ => none
  | _ + 1, none => some none
  | fuel + 1, some prev =>
    if (pool.wp_pool prev).next ≠ some wp then free_wp_loop pool wp fuel (pool.wp_pool prev).next
    else some (some prev)

/-- The last four statements of `free_wp`, "add to free list". -/
def free_wp_add (pool : Pool) (wp : Fin NR_WP) : Pool :=
  { wp_pool := Function.update pool.wp_pool wp
      { pool.wp_pool wp with next := pool.free_, enabled := false, expr := [] }
    head := pool.head
    free_ := some wp }

/-- The function `free_wp`: the statics after the call; `none` when the search loop does not
end. -/
def free_wp (pool : Pool) (wp : Option (Fin NR_WP)) : Option Pool :=
  match wp with
  | none => some pool
  | some wp =>
    if pool.head = some wp then
      some (free_wp_add { pool with head := (pool.wp_pool wp).next } wp)
    else
      match free_wp_loop pool wp (NR_WP + 1) pool.head with
      | none => none
      | some none => some pool
      | some (some prev) =>
        some (free_wp_add
          { pool with
            wp_pool := Function.update pool.wp_pool prev
              { pool.wp_pool prev with next := (pool.wp_pool wp).next } } wp)

/-- The function `set_watchpoint`: the statics after the call and the returned pointer. The
answer is `none` when the call of `expr` does not return; with a text shorter than 256
characters it always returns. -/
def set_watchpoint (m : Machine) (pool : Pool) (expr_str : List Char) :
    Option (Pool × Option (Fin NR_WP)) :=
  if strlen expr_str ≥ 256 then some (pool, none)
  else
    match expr m expr_str with
    | ExprOutcome.returned val success =>
      if !success then some (pool, none)
      else
        match new_wp pool with
        | (pool1, none) => some (pool1, none)
        | (pool1, some wp) =>
          some ({ pool1 with
                  wp_pool := Function.update pool1.wp_pool wp
                    { pool1.wp_pool wp with expr := strcpy expr_str, old_val := val } },
                some wp)
    | _ => none

/-- The loop of `delete_watchpoint`: the first slot on the way from `wp` whose `NO` is `num`,
or `NULL`, or `none` when the counter runs out. -/
def delete_watchpoint_loop (pool : Pool) (num : Int) :
    Nat → Option (Fin NR_WP) → Option (Option (Fin NR_WP))
  | 0, _ => none
  | _ + 1, none => some none
  | fuel + 1, some wp =>
    if (pool.wp_pool wp).NO = num then some (some wp)
    else delete_watchpoint_loop pool num fuel (pool.wp_pool wp).next

/-- The function `delete_watchpoint`: the statics after the call and the returned truth
value. -/
def delete_watchpoint (pool : Pool) (num : Int) : Option (Pool × Bool) :=
  match delete_watchpoint_loop pool num (NR_WP + 1) pool.head with
  | none => none
  | some none => some (pool, false)
  | some (some wp) =>
    match free_wp pool (some wp) with
    | none => none
    | some pool1 => some (pool1, true)

/-- The loop of `check_watchpoints`, from the slot `wp` on, with the current `triggered`. -/
def check_watchpoints_loop (m : Machine) :
    Nat → Pool → Option (Fin NR_WP) → Bool → Option (Pool × Bool)
  | 0, _, _, _ => none
  | _ + 1, pool, none, triggered => some (pool, triggered)
  | fuel + 1, pool, some wp, triggered =>
    if !(pool.wp_pool wp).enabled then
      check_watchpoints_loop m fuel pool (pool.wp_pool wp).next triggered
    else
      match expr m (pool.wp_pool wp).expr with
      | ExprOutcome.returned new_val success =>
        if !success then check_watchpoints_loop m fuel pool (pool.wp_pool wp).next triggered
        else if new_val ≠ (pool.wp_pool wp).old_val then
          check_watchpoints_loop m fuel
            { pool with
              wp_pool := Function.update pool.wp_pool wp
                { pool.wp_pool wp with old_val := new_val } }
            (pool.wp_pool wp).next true
        else check_watchpoints_loop m fuel pool (pool.wp_pool wp).next triggered
      | _ => none

/-- The function `check_watchpoints`: the statics after the call and the returned truth
value. -/
def check_watchpoints (m : Machine) (pool : Pool) : Option (Pool × Bool) :=
  check_watchpoints_loop m (NR_WP + 1) pool pool.head false

/-! ### Pool states and their lists -/

/-- The pool states the program can be in: the one `init_wp_pool` leaves, and every state a
call of `new_wp`, `free_wp` (on `NULL` or on any slot), `set_watchpoint`, `delete_watchpoint`
or `check_watchpoints` returns in, from a state the program can be in. -/
inductive Reachable : Pool → Prop
  | init (pool : Pool) : Reachable (init_wp_pool pool)
  | new_wp {pool : Pool} : Reachable pool → Reachable (new_wp pool).1
  | free_wp {pool pool1 : Pool} (wp : Option (Fin NR_WP)) :
      Reachable pool → free_wp pool wp = some pool1 → Reachable pool1
  | set_watchpoint {pool pool1 : Pool} (m : Machine) (expr_str : List Char)
      (r : Option (Fin NR_WP)) :
      Reachable pool → set_watchpoint m pool expr_str = some (pool1, r) → Reachable pool1
  | delete_watchpoint {pool pool1 : Pool} (num : Int) (r : Bool) :
      Reachable pool → delete_watchpoint pool num = some (pool1, r) → Reachable pool1
  | check_watchpoints {pool pool1 : Pool} (m : Machine) (r : Bool) :
      Reachable pool → check_watchpoints m pool = some (pool1, r) → Reachable pool1

/-- Following `next` from the pointer `start` visits the slots of `l`, in this order, and
then arrives at the pointer `stop`. -/
def seg (pool : Pool) : Option (Fin NR_WP) → List (Fin NR_WP) → Option (Fin NR_WP) → Prop
  | start, [], stop => start = stop
  | start, a :: l, stop => start = some a ∧ seg pool (pool.wp_pool a).next l stop

/-- The list that starts at the pointer `start` is `l`: following `next` from `start` visits
the slots of `l`, in this order, and then meets `NULL`. -/
def chain (pool : Pool) (start : Option (Fin NR_WP)) (l : List (Fin NR_WP)) : Prop :=
  seg pool start l none

/-- The active list of the pool is `active` and its free list is `free`. -/
def lists (pool : Pool) (active free : List (Fin NR_WP)) : Prop :=
  chain pool pool.head active ∧ chain pool pool.free_ free

/-- The two records agree on everything but the pointer `next`. -/
def sameData (a b : WP) : Prop :=
  a.NO = b.NO ∧ a.expr = b.expr ∧ a.old_val = b.old_val ∧ a.enabled = b.enabled

/-- The slots of the pool, in the order of the array. -/
def all_slots : List (Fin NR_WP) :=
  [0, 1, 2, 3, 4, 5, 6, 7, 8, 9, 10, 11, 12, 13, 14, 15, 16, 17, 18, 19, 20, 21, 22, 23, 24, 25,
    26, 27, 28, 29, 30, 31]

/-- The two lists partition the slots, and every slot has the status of its list: no slot is
met twice, every slot is on one of the lists, the `NO` of slot `i` is `i`, the active slots
are enabled, the free slots are disabled and hold the empty text. -/
def PoolOK (pool : Pool) (active free : List (Fin NR_WP)) : Prop :=
  lists pool active free ∧ (active ++ free).Nodup ∧ (∀ i, i ∈ active ++ free) ∧
    (∀ i, (pool.wp_pool i).NO = (i.val : Int)) ∧
    (∀ i, i ∈ active → (pool.wp_pool i).enabled = true) ∧
    (∀ i, i ∈ free → (pool.wp_pool i).enabled = false ∧ (pool.wp_pool i).expr = [])

/-- The pool states after `n` successful calls of `set_watchpoint` since `init_wp_pool`, with
no deletion in between: besides the successful calls there may be calls of `set_watchpoint`
that return `NULL` and calls of `check_watchpoints`. -/
inductive SetRun : Nat → Pool → Prop
  | init (pool : Pool) : SetRun 0 (init_wp_pool pool)
  | set_ok {n : Nat} {pool pool1 : Pool} (m : Machine) (expr_str : List Char)
      (wp : Fin NR_WP) :
      SetRun n pool → set_watchpoint m pool expr_str = some (pool1, some wp) →
      SetRun (n + 1) pool1
  | set_null {n : Nat} {pool pool1 : Pool} (m : Machine) (expr_str : List Char) :
      SetRun n pool → set_watchpoint m pool expr_str = some (pool1, none) → SetRun n pool1
  | check {n : Nat} {pool pool1 : Pool} (m : Machine) (r : Bool) :
      SetRun n pool → check_watchpoints m pool = some (pool1, r) → SetRun n pool1

/-- The pool after `n` calls `set_watchpoint(e)` since `init_wp_pool` on the statics of the
program start. -/
def pool_after_sets (m : Machine) (e : List Char) : Nat → Pool
  | 0 => init_wp_pool pool_start
  | n + 1 =>
    match set_watchpoint m (pool_after_sets m e n) e with
    | some (pool1, _) => pool1
    | none => pool_after_sets m e n

/-- The slots of the pool but the first, in the order of the array. -/
def later_slots : List (Fin NR_WP) :=
  [1, 2, 3, 4, 5, 6, 7, 8, 9, 10, 11, 12, 13, 14, 15, 16, 17, 18, 19, 20, 21, 22, 23, 24, 25,
    26, 27, 28, 29, 30, 31]

/-! ### Texts and token lists of the later claims -/

/-- The tokens of the text `)(-3`. -/
def tokens_unbalanced : List Token :=
  [⟨RPAREN, [')']⟩, ⟨LPAREN, ['(']⟩, ⟨TK_NEGATIVE, ['-']⟩, ⟨TK_NUM, ['3']⟩]

/-- The tokens of the text `(1)+(2)`. -/
def tokens_two_groups : List Token :=
  [⟨LPAREN, ['(']⟩, ⟨TK_NUM, ['1']⟩, ⟨RPAREN, [')']⟩, ⟨PLUS, ['+']⟩, ⟨LPAREN, ['(']⟩,
    ⟨TK_NUM, ['2']⟩, ⟨RPAREN, [')']⟩]

/-- The text of 1025 numerals `1` separated by single spaces. -/
def ones1025 : List Char := (List.replicate 1024 ['1', ' ']).flatten ++ ['1']

/-- A machine in which register `a0` (`x10`) holds 5 and everything else reads 0. -/
def a0Machine : Machine := ⟨0, fun i => if i = 10 then 5 else 0, fun _ _ => 0⟩

/-- What one iteration of the loop of `check_watchpoints` leaves in the record it visits:
the record itself, with `old_val` replaced by the new value when the slot is enabled, the
evaluation succeeds and the value differs. -/
def checked (m : Machine) (w : WP) : WP :=
  if !w.enabled then w
  else
    match expr m w.expr with
    | ExprOutcome.returned new_val success =>
      if !success then w
      else if new_val ≠ w.old_val then { w with old_val := new_val }
      else w
    | _ => w

/-- Whether one iteration of the loop of `check_watchpoints` sets `triggered` on the record
it visits. -/
def fires (m : Machine) (w : WP) : Bool :=
  if !w.enabled then false
  else
    match expr m w.expr with
    | ExprOutcome.returned new_val success => success && decide (new_val ≠ w.old_val)
    | _ => false

/-- In the range that starts at `p`, the `)` that matches the `(` at index `p` is the token
at index `q`: `q` is after `p`, the depth is not zero after any of the tokens at
`p, ..., q - 1`, and it is zero after the token at `q`. -/
def closesAt (tokens : List Token) (p q : Int) : Prop :=
  p < q ∧ (∀ k : Nat, 1 ≤ k → k ≤ (q - p).toNat → depthFrom tokens p k ≠ 0) ∧
    depthFrom tokens p ((q - p).toNat + 1) = 0

/-- The function `expr` with its own post-processing loop left out: `make_token`, then
`eval(0, nr_token - 1, success)` on the tokens as `make_token` left them. -/
def expr_without_second_pass (m : Machine) (e : List Char) : ExprOutcome :=
  match make_token e with
  | LexOutcome.no_match _ => ExprOutcome.returned 0 false
  | LexOutcome.overflow => ExprOutcome.overflow
  | LexOutcome.out_of_fuel => ExprOutcome.out_of_fuel
  | LexOutcome.done tokens =>
    match eval m tokens (tokens.length + 1) 0 ((tokens.length : Int) - 1) true with
    | none => ExprOutcome.out_of_fuel
    | some r => ExprOutcome.returned r.1 r.2

/-! ## The tokenizer: matches are non-empty and stay inside the text -/

theorem spanLen_le (cls : Char → Bool) (cs : List Char) : spanLen cls cs ≤ cs.length := by
  induction cs with
  | nil => simp [spanLen]
  | cons c cs ih =>
    simp only [spanLen]
    split
    · simp
      omega
    · simp

theorem regexec_le (ps : List Piece) : ∀ (cs : List Char) (n : Nat),
    regexec ps cs = some n → n ≤ cs.length := by
  induction ps with
  | nil => intro cs n h; simp [regexec] at h; omega
  | cons pc ps ih =>
    intro cs n h
    unfold regexec at h
    split at h
    · split at h
      · simp at h
      · simp only [Option.map_eq_some'] at h
        obtain ⟨k, hk, rfl⟩ := h
        have h1 := ih _ _ hk
        have h2 := spanLen_le pc.cls cs
        simp only [List.length_drop] at h1
        omega
    · split at h
      · simp at h
      · split at h
        · simp only [Option.map_eq_some'] at h
          obtain ⟨k, hk, rfl⟩ := h
          have h1 := ih _ _ hk
          simp only [List.length_cons]
          omega
        · simp at h

theorem regexec_pos (pc : Piece) (ps : List Piece) (cs : List Char) (n : Nat)
    (h : regexec (pc :: ps) cs = some n) : 1 ≤ n := by
  unfold regexec at h
  split at h
  · split at h
    · simp at h
    · simp only [Option.map_eq_some'] at h
      obtain ⟨k, _, rfl⟩ := h
      omega
  · split at h
    · simp at h
    · split at h
      · simp only [Option.map_eq_some'] at h
        obtain ⟨k, _, rfl⟩ := h
        omega
      · simp at h

theorem first_match_mem (rs : List (List Piece × TokenType)) (e : List Char) (len : Nat)
    (ty : TokenType) (h : first_match rs e = some (len, ty)) :
    ∃ r ∈ rs, regexec r.1 e = some len ∧ r.2 = ty := by
  induction rs with
  | nil => simp [first_match] at h
  | cons r rs ih =>
    simp only [first_match] at h
    split at h
    · rename_i l hl
      simp only [Option.some.injEq, Prod.mk.injEq] at h
      exact ⟨r, List.mem_cons_self _ _, by rw [hl, h.1], h.2⟩
    · obtain ⟨r1, hr1, h1⟩ := ih h
      exact ⟨r1, List.mem_cons_of_mem _ hr1, h1⟩

theorem rules_nonempty : ∀ r ∈ rules, ∃ pc ps, r.1 = pc :: ps := by
  intro r hr
  simp only [rules, List.mem_cons, List.mem_singleton, List.not_mem_nil, or_false] at hr
  rcases hr with h | h | h | h | h | h | h | h | h | h | h | h | h | h | h | h | h <;>
    subst h <;> exact ⟨_, _, rfl⟩

theorem first_match_bounds (e : List Char) (len : Nat) (ty : TokenType)
    (h : first_match rules e = some (len, ty)) : 1 ≤ len ∧ len ≤ e.length := by
  obtain ⟨r, hr, h1, _⟩ := first_match_mem rules e len ty h
  obtain ⟨pc, ps, hp⟩ := rules_nonempty r hr
  rw [hp] at h1
  exact ⟨regexec_pos pc ps e len h1, regexec_le _ e len h1⟩

theorem make_token_loop_succ (fuel : Nat) (c : Char) (cs : List Char) (position : Nat)
    (tokens : List Token) :
    make_token_loop (fuel + 1) (c :: cs) position tokens =
      if c = NUL then LexOutcome.done tokens
      else
        match first_match rules (c :: cs) with
        | none => LexOutcome.no_match position
        | some (substr_len, token_type) =>
          if token_type = TK_NOTYPE then
            make_token_loop fuel ((c :: cs).drop substr_len) (position + substr_len) tokens
          else if 1024 ≤ tokens.length then LexOutcome.overflow
          else
            make_token_loop fuel ((c :: cs).drop substr_len) (position + substr_len)
              (tokens ++ [⟨token_type, (c :: cs).take (min substr_len 31)⟩]) := by
  rfl

/-- More fuel than the length of the text never changes the run of the `while` loop. -/
theorem make_token_loop_fuel : ∀ (fuel : Nat) (e : List Char) (position : Nat)
    (tokens : List Token), e.length < fuel →
    make_token_loop fuel e position tokens =
      make_token_loop (e.length + 1) e position tokens := by
  intro fuel
  induction fuel using Nat.strong_induction_on with
  | _ fuel ih =>
    intro e position tokens hlt
    cases fuel with
    | zero => omega
    | succ fuel =>
      cases e with
      | nil => simp [make_token_loop]
      | cons c cs =>
        simp only [List.length_cons] at hlt ⊢
        rw [make_token_loop_succ, make_token_loop_succ]
        split
        · rfl
        · cases hm : first_match rules (c :: cs) with
          | none => rfl
          | some r =>
            obtain ⟨len, ty⟩ := r
            have hb := first_match_bounds _ _ _ hm
            simp only [List.length_cons] at hb
            have hd : ((c :: cs).drop len).length < fuel := by
              simp only [List.length_drop, List.length_cons]; omega
            have hd2 : ((c :: cs).drop len).length < cs.length + 1 := by
              simp only [List.length_drop, List.length_cons]; omega
            simp only []
            rw [ih fuel (Nat.lt_succ_self _) _ _ _ hd]
            rw [ih fuel (Nat.lt_succ_self _) _ _ _ hd]
            rw [ih (cs.length + 1) (by omega) _ _ _ hd2]
            rw [ih (cs.length + 1) (by omega) _ _ _ hd2]

theorem lex_nil (position : Nat) (tokens : List Token) :
    lex [] position tokens = LexOutcome.done tokens := rfl

theorem lex_cons (c : Char) (cs : List Char) (position : Nat) (tokens : List Token) :
    lex (c :: cs) position tokens =
      if c = NUL then LexOutcome.done tokens
      else
        match first_match rules (c :: cs) with
        | none => LexOutcome.no_match position
        | some (substr_len, token_type) =>
          if token_type = TK_NOTYPE then
            lex ((c :: cs).drop substr_len) (position + substr_len) tokens
          else if 1024 ≤ tokens.length then LexOutcome.overflow
          else
            lex ((c :: cs).drop substr_len) (position + substr_len)
              (tokens ++ [⟨token_type, (c :: cs).take (min substr_len 31)⟩]) := by
  unfold lex
  simp only [List.length_cons]
  rw [make_token_loop_succ]
  split
  · rfl
  · cases hm : first_match rules (c :: cs) with
    | none => rfl
    | some r =>
      obtain ⟨len, ty⟩ := r
      have hb := first_match_bounds _ _ _ hm
      simp only [List.length_cons] at hb
      have hd2 : ((c :: cs).drop len).length < cs.length + 1 := by
        simp only [List.length_drop, List.length_cons]; omega
      simp only []
      rw [make_token_loop_fuel (cs.length + 1) _ _ _ hd2]
      rw [make_token_loop_fuel (cs.length + 1) _ _ _ hd2]

theorem make_token_eq (e : List Char) :
    make_token e =
      match lex e 0 [] with
      | LexOutcome.done tokens => LexOutcome.done (post_process none tokens)
      | r => r := rfl

/-! ## The functions on index ranges and the functions on lists agree -/

theorem tok_ofNat (tokens : List Token) (n : Nat) :
    tok tokens (n : Int) = tokens.getD n noTok := rfl

theorem tok_mid (pre xs post : List Token) (k : Nat) (hk : k < xs.length) :
    tok (pre ++ xs ++ post) ((pre.length : Int) + (k : Int)) = xs.getD k noTok := by
  have h : ((pre.length : Int) + (k : Int)) = ((pre.length + k : Nat) : Int) := by push_cast; rfl
  rw [h, tok_ofNat]
  simp only [List.getD_eq_getElem?_getD, List.append_assoc]
  rw [List.getElem?_append_right (by omega)]
  rw [List.getElem?_append_left (by omega)]
  simp

theorem tok_first (pre post : List Token) (x : Token) (xs : List Token) :
    tok (pre ++ (x :: xs) ++ post) (pre.length : Int) = x := by
  have h := tok_mid pre (x :: xs) post 0 (by simp)
  simpa using h

theorem check_parentheses_loop_eq (xs : List Token) : ∀ (pre post : List Token) (count : Int),
    check_parentheses_loop (pre ++ xs ++ post) ((pre.length : Int) + (xs.length : Int) - 1)
      xs.length (pre.length : Int) count = cpL xs count := by
  induction xs with
  | nil => intro pre post count; simp [check_parentheses_loop, cpL]
  | cons x xs ih =>
    intro pre post count
    simp only [check_parentheses_loop, cpL, List.length_cons]
    rw [tok_first]
    have hlt : ((pre.length : Int) < (pre.length : Int) + ((xs.length + 1 : Nat) : Int) - 1) ↔
        xs ≠ [] := by
      rw [← List.length_pos]; push_cast; omega
    simp only [hlt]
    have e1 : pre ++ x :: xs ++ post = (pre ++ [x]) ++ xs ++ post := by simp
    have e2 : ((pre.length : Int) + ((xs.length + 1 : Nat) : Int) - 1) =
        (((pre ++ [x]).length : Nat) : Int) + (xs.length : Int) - 1 := by
      simp only [List.length_append, List.length_singleton]; push_cast; omega
    have e3 : ((pre.length : Int) + 1) = (((pre ++ [x]).length : Nat) : Int) := by
      simp only [List.length_append, List.length_singleton]; push_cast; rfl
    rw [e1, e2, e3, ih]

theorem find_main_op_loop_eq (xs : List Token) : ∀ (pre post : List Token) (s : ScanState),
    find_main_op_loop (pre ++ xs ++ post) xs.length (pre.length : Int) s =
      scanL xs (pre.length : Int) s := by
  induction xs with
  | nil => intro pre post s; simp [find_main_op_loop, scanL]
  | cons x xs ih =>
    intro pre post s
    simp only [find_main_op_loop, scanL, List.length_cons]
    rw [tok_first]
    have e1 : pre ++ x :: xs ++ post = (pre ++ [x]) ++ xs ++ post := by simp
    have e3 : ((pre.length : Int) + 1) = (((pre ++ [x]).length : Nat) : Int) := by
      simp only [List.length_append, List.length_singleton]; push_cast; rfl
    rw [e1, e3, ih]

/-- Moving a scan state of `find_main_op` by `d` positions. -/
theorem scanL_shift (d : Int) (hd : 0 ≤ d) (xs : List Token) : ∀ (i : Int) (s : ScanState),
    0 ≤ i → (s.op_pos = -1 ∨ 0 ≤ s.op_pos) →
    scanL xs (i + d) ⟨if s.op_pos = -1 then -1 else s.op_pos + d, s.op_priority,
        s.bracket_count⟩ =
      ⟨if (scanL xs i s).op_pos = -1 then -1 else (scanL xs i s).op_pos + d,
        (scanL xs i s).op_priority, (scanL xs i s).bracket_count⟩ ∧
      ((scanL xs i s).op_pos = -1 ∨ 0 ≤ (scanL xs i s).op_pos) := by
  induction xs with
  | nil => intro i s _ hs; exact ⟨by simp [scanL], by simpa [scanL] using hs⟩
  | cons x xs ih =>
    intro i s hi hs
    simp only [scanL]
    have key : find_main_op_step x (i + d)
        ⟨if s.op_pos = -1 then -1 else s.op_pos + d, s.op_priority, s.bracket_count⟩ =
        ⟨if (find_main_op_step x i s).op_pos = -1 then -1
          else (find_main_op_step x i s).op_pos + d,
          (find_main_op_step x i s).op_priority, (find_main_op_step x i s).bracket_count⟩ ∧
        ((find_main_op_step x i s).op_pos = -1 ∨ 0 ≤ (find_main_op_step x i s).op_pos) := by
      unfold find_main_op_step
      by_cases h1 : x.type = LPAREN
      · simp only [h1, if_true]; exact ⟨trivial, hs⟩
      · by_cases h2 : x.type = RPAREN
        · rw [if_neg h1, if_pos h2, if_neg h1, if_pos h2]; exact ⟨rfl, hs⟩
        · by_cases h3 : s.bracket_count > 0
          · simp only [h1, h2, h3, if_true, if_false]; exact ⟨trivial, hs⟩
          · simp only [h1, h2, h3, if_false]
            have hne : ¬ (i = -1) := by omega
            have hne2 : ¬ (i + d = -1) := by omega
            by_cases h5 : s.op_pos = -1
            · simp only [h5, if_true, true_or, and_true]
              split
              · simp only [hne, if_false, true_and]; right; exact hi
              · simp only [h5, if_true, true_and]; left; trivial
            · have h6 : ¬ (s.op_pos + d = -1) := by omega
              have h7 : 0 ≤ s.op_pos := by omega
              simp only [h5, if_false, h6, false_or]
              split
              · simp only [hne, if_false, true_and]; right; exact hi
              · simp only [h5, if_false, true_and]; right; exact h7
    rw [show i + d + 1 = (i + 1) + d by ring, key.1]
    exact ih (i + 1) _ (by omega) key.2

theorem check_parentheses_eq (pre xs post : List Token) (hx : xs ≠ []) :
    check_parentheses (pre ++ xs ++ post) (pre.length : Int)
      ((pre.length : Int) + (xs.length : Int) - 1) = check_parenthesesL xs := by
  unfold check_parentheses check_parenthesesL
  have hlen : 0 < xs.length := List.length_pos.mpr hx
  have h1 : tok (pre ++ xs ++ post) (pre.length : Int) = xs.headD noTok := by
    cases xs with
    | nil => exact absurd rfl hx
    | cons x xs => rw [tok_first]; rfl
  have h2 : tok (pre ++ xs ++ post) ((pre.length : Int) + (xs.length : Int) - 1) =
      xs.getLastD noTok := by
    have e : ((pre.length : Int) + (xs.length : Int) - 1) =
        (pre.length : Int) + ((xs.length - 1 : Nat) : Int) := by omega
    rw [e, tok_mid pre xs post (xs.length - 1) (by omega)]
    rw [List.getLastD_eq_getLast?, List.getLast?_eq_getElem?, List.getD_eq_getElem?_getD]
  have h3 : ((pre.length : Int) + (xs.length : Int) - 1 - (pre.length : Int) + 1).toNat =
      xs.length := by omega
  rw [h1, h2, h3, check_parentheses_loop_eq]

theorem find_main_op_eq (pre xs post : List Token) :
    find_main_op (pre ++ xs ++ post) (pre.length : Int)
      ((pre.length : Int) + (xs.length : Int) - 1) =
      if find_main_opL xs = -1 then -1 else find_main_opL xs + (pre.length : Int) := by
  unfold find_main_op find_main_opL
  have h3 : ((pre.length : Int) + (xs.length : Int) - 1 - (pre.length : Int) + 1).toNat =
      xs.length := by omega
  rw [h3, find_main_op_loop_eq]
  have h := (scanL_shift (pre.length : Int) (by omega) xs 0 ⟨-1, 0, 0⟩ (le_refl _)
    (Or.inl rfl)).1
  simp only [zero_add, if_true] at h
  rw [h]

theorem find_main_op_step_bounds (x : Token) (i lo : Int) (s : ScanState) (hlo : lo ≤ i)
    (hs : s.op_pos = -1 ∨ (lo ≤ s.op_pos ∧ s.op_pos < i)) :
    (find_main_op_step x i s).op_pos = -1 ∨
      (lo ≤ (find_main_op_step x i s).op_pos ∧ (find_main_op_step x i s).op_pos < i + 1) := by
  unfold find_main_op_step
  split
  · rcases hs with h | h
    · left; exact h
    · right; exact ⟨h.1, by simp only []; omega⟩
  · split
    · rcases hs with h | h
      · left; exact h
      · right; exact ⟨h.1, by simp only []; omega⟩
    · split
      · rcases hs with h | h
        · left; exact h
        · right; exact ⟨h.1, by omega⟩
      · split
        · right; simp only []; omega
        · rcases hs with h | h
          · left; exact h
          · right; exact ⟨h.1, by omega⟩

theorem scanL_bounds (xs : List Token) : ∀ (i lo : Int) (s : ScanState), lo ≤ i →
    (s.op_pos = -1 ∨ (lo ≤ s.op_pos ∧ s.op_pos < i)) →
    (scanL xs i s).op_pos = -1 ∨
      (lo ≤ (scanL xs i s).op_pos ∧ (scanL xs i s).op_pos < i + (xs.length : Int)) := by
  induction xs with
  | nil => intro i lo s _ hs; simpa [scanL] using hs
  | cons x xs ih =>
    intro i lo s hlo hs
    simp only [scanL, List.length_cons]
    have h := ih (i + 1) lo _ (by omega) (find_main_op_step_bounds x i lo s hlo hs)
    push_cast
    rcases h with h | h
    · left; exact h
    · right; exact ⟨h.1, by omega⟩

theorem find_main_opL_bounds (xs : List Token) :
    find_main_opL xs = -1 ∨ (0 ≤ find_main_opL xs ∧ find_main_opL xs < (xs.length : Int)) := by
  have h := scanL_bounds xs 0 0 ⟨-1, 0, 0⟩ (le_refl _) (Or.inl rfl)
  simpa [find_main_opL] using h

/-- On a range `[p, q]` of the token array, `eval` computes what `evalL` computes on the list
of the tokens of the range. -/
theorem eval_eq_evalL_aux (m : Machine) : ∀ (fuel : Nat) (tokens pre xs post : List Token)
    (p q : Int) (success : Bool), tokens = pre ++ xs ++ post → p = (pre.length : Int) →
    q = p + (xs.length : Int) - 1 →
    eval m tokens fuel p q success = evalL m fuel xs success := by
  intro fuel
  induction fuel with
  | zero => intro tokens pre xs post p q success _ _ _; rfl
  | succ fuel ih =>
    intro tokens pre xs post p q success ht hp hq
    unfold eval evalL
    by_cases h0 : xs.length = 0
    · have : p > q := by omega
      simp [h0, this]
    · have hpq : ¬ p > q := by omega
      rw [if_neg hpq, if_neg h0]
      have hx : xs ≠ [] := by intro h; apply h0; rw [h]; rfl
      by_cases h1 : xs.length = 1
      · have : p = q := by omega
        rw [if_pos this, if_pos h1]
        obtain ⟨x, xs1, rfl⟩ := List.exists_cons_of_ne_nil hx
        rw [ht, hp, tok_first]; rfl
      · have hne : ¬ p = q := by omega
        rw [if_neg hne, if_neg h1]
        have hcp : check_parentheses tokens p q = check_parenthesesL xs := by
          rw [ht, hq, hp]; exact check_parentheses_eq pre xs post hx
        have hfm : find_main_op tokens p q =
            if find_main_opL xs = -1 then -1 else find_main_opL xs + (pre.length : Int) := by
          rw [ht, hq, hp]; exact find_main_op_eq pre xs post
        rw [hcp]
        by_cases h2 : check_parenthesesL xs = true
        · rw [if_pos h2, if_pos h2]
          obtain ⟨x, xs1, rfl⟩ := List.exists_cons_of_ne_nil hx
          have hx1 : xs1 ≠ [] := by
            intro h; apply h1; rw [h]; rfl
          apply ih tokens (pre ++ [x]) _ ([xs1.getLast hx1] ++ post)
          · rw [ht]
            have hsplit : xs1 = xs1.dropLast ++ [xs1.getLast hx1] :=
              (List.dropLast_append_getLast hx1).symm
            conv_lhs => rw [hsplit]
            simp only [List.tail_cons, List.append_assoc, List.singleton_append,
              List.cons_append, List.nil_append]
          · rw [hp]; simp
          · rw [hq, hp]
            simp only [List.tail_cons, List.length_cons, List.length_dropLast]
            have : 0 < xs1.length := List.length_pos.mpr hx1
            push_cast
            omega
        · rw [if_neg h2, if_neg h2, hfm]
          rcases find_main_opL_bounds xs with hb | hb
          · simp [hb]
          · have hk : ¬ (find_main_opL xs = -1) := by omega
            have hk2 : ¬ (find_main_opL xs + (pre.length : Int) = -1) := by omega
            rw [if_neg hk, if_neg hk2, if_neg hk]
            obtain ⟨k, hkk⟩ : ∃ k : Nat, find_main_opL xs = (k : Int) :=
              ⟨(find_main_opL xs).toNat, by omega⟩
            have hklt : k < xs.length := by omega
            rw [hkk]
            have htok : tok tokens ((k : Int) + (pre.length : Int)) = xs.getD k noTok := by
              rw [ht, add_comm]; exact tok_mid pre xs post k hklt
            rw [htok]
            simp only [Int.toNat_ofNat]
            have hR : ∀ s, eval m tokens fuel ((k : Int) + (pre.length : Int) + 1) q s =
                evalL m fuel (xs.drop (k + 1)) s := by
              intro s
              apply ih tokens (pre ++ xs.take (k + 1)) _ post
              · rw [ht]
                conv_lhs => rw [← List.take_append_drop (k + 1) xs]
                simp only [List.append_assoc]
              · simp only [List.length_append, List.length_take]
                rw [Nat.min_eq_left (by omega)]; push_cast; omega
              · rw [hq, hp]; simp only [List.length_drop]; omega
            have hL : ∀ s, eval m tokens fuel p ((k : Int) + (pre.length : Int) - 1) s =
                evalL m fuel (xs.take k) s := by
              intro s
              apply ih tokens pre _ (xs.drop k ++ post)
              · rw [ht]
                conv_lhs => rw [← List.take_append_drop k xs]
                simp only [List.append_assoc]
              · exact hp
              · rw [hp]; simp only [List.length_take]
                rw [Nat.min_eq_left (by omega)]; omega
            simp only [hR, hL]
            try rfl

theorem eval_eq_evalL (m : Machine) (fuel : Nat) (xs : List Token) (success : Bool) :
    eval m xs fuel 0 ((xs.length : Int) - 1) success = evalL m fuel xs success := by
  apply eval_eq_evalL_aux m fuel xs [] xs [] <;> simp

/-! ## Fuel -/

/-- A result obtained with some fuel is obtained with any larger fuel. -/
theorem evalL_mono (m : Machine) : ∀ (fuel : Nat) (xs : List Token) (success : Bool)
    (r : Nat × Bool), evalL m fuel xs success = some r →
    evalL m (fuel + 1) xs success = some r := by
  intro fuel
  induction fuel with
  | zero => intro xs success r h; simp [evalL] at h
  | succ fuel ih =>
    intro xs success r h
    rw [evalL] at h
    rw [evalL]
    split
    · rename_i h0; rw [if_pos h0] at h; exact h
    · rename_i h0; rw [if_neg h0] at h
      split
      · rename_i h1; rw [if_pos h1] at h; exact h
      · rename_i h1; rw [if_neg h1] at h
        split
        · rename_i h2; rw [if_pos h2] at h; exact ih _ _ _ h
        · rename_i h2; rw [if_neg h2] at h
          split
          · rename_i h3; rw [if_pos h3] at h; exact h
          · rename_i h3; rw [if_neg h3] at h
            split
            · rename_i h4; rw [if_pos h4] at h
              cases hr : evalL m fuel (xs.drop ((find_main_opL xs).toNat + 1)) success with
              | none => rw [hr] at h; simp at h
              | some a => rw [hr] at h; rw [ih _ _ _ hr]; exact h
            · rename_i h4; rw [if_neg h4] at h
              split
              · rename_i h5; rw [if_pos h5] at h
                cases hr : evalL m fuel (xs.drop ((find_main_opL xs).toNat + 1)) success with
                | none => rw [hr] at h; simp at h
                | some a => rw [hr] at h; rw [ih _ _ _ hr]; exact h
              · rename_i h5; rw [if_neg h5] at h
                cases hl : evalL m fuel (xs.take (find_main_opL xs).toNat) success with
                | none => rw [hl] at h; simp at h
                | some a =>
                  rw [hl] at h; rw [ih _ _ _ hl]
                  obtain ⟨v1, s1⟩ := a
                  cases s1 with
                  | false => exact h
                  | true =>
                    simp only [if_true] at h ⊢
                    cases hr : evalL m fuel (xs.drop ((find_main_opL xs).toNat + 1)) true with
                    | none => rw [hr] at h; simp at h
                    | some b => rw [hr] at h; rw [ih _ _ _ hr]; exact h

theorem evalL_mono_le (m : Machine) (fuel fuel1 : Nat) (xs : List Token) (success : Bool)
    (r : Nat × Bool) (h : evalL m fuel xs success = some r) (hle : fuel ≤ fuel1) :
    evalL m fuel1 xs success = some r := by
  induction fuel1 with
  | zero =>
    have : fuel = 0 := by omega
    rw [this] at h; exact h
  | succ n ih =>
    by_cases hn : fuel ≤ n
    · exact evalL_mono m n xs success r (ih hn)
    · have : fuel = n + 1 := by omega
      rw [this] at h; exact h

/-- With more fuel than tokens `evalL` returns: every recursive call is on a shorter list. -/
theorem evalL_total (m : Machine) : ∀ (fuel : Nat) (xs : List Token) (success : Bool),
    xs.length < fuel → ∃ r, evalL m fuel xs success = some r := by
  intro fuel
  induction fuel with
  | zero => intro xs success h; omega
  | succ fuel ih =>
    intro xs success hlt
    rw [evalL]
    split
    · exact ⟨_, rfl⟩
    · rename_i h0
      split
      · exact ⟨_, rfl⟩
      · rename_i h1
        split
        · apply ih
          simp only [List.length_dropLast, List.length_tail]; omega
        · split
          · exact ⟨_, rfl⟩
          · rename_i h3
            have hb := find_main_opL_bounds xs
            have hk : (find_main_opL xs).toNat < xs.length := by omega
            have hdrop : (xs.drop ((find_main_opL xs).toNat + 1)).length < fuel := by
              simp only [List.length_drop]; omega
            have htake : (xs.take (find_main_opL xs).toNat).length < fuel := by
              simp only [List.length_take]; omega
            split
            · obtain ⟨r, hr⟩ := ih _ success hdrop
              rw [hr]; obtain ⟨v, s⟩ := r
              cases s <;> exact ⟨_, rfl⟩
            · split
              · obtain ⟨r, hr⟩ := ih _ success hdrop
                rw [hr]; obtain ⟨v, s⟩ := r
                cases s <;> exact ⟨_, rfl⟩
              · obtain ⟨r, hr⟩ := ih _ success htake
                rw [hr]; obtain ⟨v, s⟩ := r
                cases s with
                | false => exact ⟨_, rfl⟩
                | true =>
                  obtain ⟨r2, hr2⟩ := ih _ true hdrop
                  simp only [if_true]
                  rw [hr2]; obtain ⟨v2, s2⟩ := r2
                  cases s2 <;> exact ⟨_, rfl⟩

/-- The result of `evalL` with any sufficient fuel is the result with the fuel `expr` gives. -/
theorem evalL_enough (m : Machine) (fuel : Nat) (xs : List Token) (success : Bool)
    (r : Nat × Bool) (h : evalL m fuel xs success = some r) :
    evalL m (xs.length + 1) xs success = some r := by
  obtain ⟨r1, h1⟩ := evalL_total m (xs.length + 1) xs success (Nat.lt_succ_self _)
  rcases Nat.le_total fuel (xs.length + 1) with hle | hle
  · exact evalL_mono_le m fuel _ xs success r h hle
  · have := evalL_mono_le m _ fuel xs success r1 h1 hle
    rw [h] at this
    rw [h1, ← this]

/-- The body of `expr` after a successful `make_token`, on lists. -/
theorem expr_eq (m : Machine) (e : List Char) :
    expr m e =
      match make_token e with
      | LexOutcome.no_match _ => ExprOutcome.returned 0 false
      | LexOutcome.overflow => ExprOutcome.overflow
      | LexOutcome.out_of_fuel => ExprOutcome.out_of_fuel
      | LexOutcome.done tokens =>
        match evalL m ((post_process none tokens).length + 1) (post_process none tokens)
            true with
        | none => ExprOutcome.out_of_fuel
        | some r => ExprOutcome.returned r.1 r.2 := by
  unfold expr
  cases make_token e with
  | done tokens =>
    simp only [eval_eq_evalL]
    try rfl
  | no_match p => rfl
  | overflow => rfl
  | out_of_fuel => rfl

/-- The form in which the theorems on `expr` are proved: the tokenizer succeeds with
`tokens`, the second post-processing pass gives `tokens1`, and `evalL` returns `(val, success)` on them with
some fuel. -/
theorem expr_of_evalL (m : Machine) (e : List Char) (tokens : List Token) (fuel : Nat)
    (val : Nat) (success : Bool) (h1 : make_token e = LexOutcome.done tokens)
    (h2 : evalL m fuel (post_process none tokens) true = some (val, success)) :
    expr m e = ExprOutcome.returned val success := by
  rw [expr_eq, h1]
  simp only [evalL_enough m fuel _ true _ h2]

/-! ## What the rule table matches -/

theorem spanLen_append (cls : Char → Bool) (ds rest : List Char) (hds : ∀ c ∈ ds, cls c = true)
    (hrest : ∀ c, rest.head? = some c → cls c = false) :
    spanLen cls (ds ++ rest) = ds.length := by
  induction ds with
  | nil =>
    cases rest with
    | nil => rfl
    | cons r rest => simp [spanLen, hrest r rfl]
  | cons d ds ih =>
    have hd : cls d = true := hds d (List.mem_cons_self _ _)
    have ih1 := ih (fun c hc => hds c (List.mem_cons_of_mem _ hc))
    rw [List.cons_append]
    simp only [spanLen, hd, if_true, List.length_cons, ih1]

theorem first_match_not_op (c : Char) (cs : List Char) (h1 : c ≠ ' ') (h2 : c ≠ '+')
    (h3 : c ≠ '-') (h4 : c ≠ '*') (h5 : c ≠ '/') (h6 : c ≠ '(') (h7 : c ≠ ')') (h8 : c ≠ '=')
    (h9 : c ≠ '!') (h10 : c ≠ '&') (h11 : c ≠ '|') (h12 : c ≠ '^') :
    first_match rules (c :: cs) =
      first_match [([chr '0', ⟨isX, false⟩, ⟨isHex, true⟩], TK_NUM), ([⟨isDec, true⟩], TK_NUM),
        ([chr '$', ⟨isAlnum, true⟩], TK_REG)] (c :: cs) := by
  simp [first_match, rules, regexec, chr, spanLen, h1, h2, h3, h4, h5, h6, h7, h8, h9, h10,
    h11, h12]

theorem isDec_not_op (c : Char) (h : isDec c = true) :
    c ≠ ' ' ∧ c ≠ '+' ∧ c ≠ '-' ∧ c ≠ '*' ∧ c ≠ '/' ∧ c ≠ '(' ∧ c ≠ ')' ∧ c ≠ '=' ∧
      c ≠ '!' ∧ c ≠ '&' ∧ c ≠ '|' ∧ c ≠ '^' ∧ c ≠ '$' ∧ c ≠ NUL ∧ isX c = false := by
  refine ⟨?_, ?_, ?_, ?_, ?_, ?_, ?_, ?_, ?_, ?_, ?_, ?_, ?_, ?_, ?_⟩
  all_goals first
    | (rintro rfl; revert h; decide)
    | (cases hx : isX c with
       | false => rfl
       | true =>
         simp only [isX, Bool.or_eq_true, beq_iff_eq] at hx
         rcases hx with rfl | rfl <;> (revert h; decide))

/-- A decimal numeral, followed by a character that continues neither a decimal nor a
hexadecimal number, is matched whole by the decimal rule. -/
theorem first_match_dec (ds rest : List Char) (hne : ds ≠ []) (hds : ∀ c ∈ ds, isDec c = true)
    (hrest : ∀ c, rest.head? = some c → isDec c = false ∧ isX c = false) :
    first_match rules (ds ++ rest) = some (ds.length, TK_NUM) := by
  obtain ⟨d, ds1, rfl⟩ := List.exists_cons_of_ne_nil hne
  have hd := hds d (List.mem_cons_self _ _)
  obtain ⟨h1, h2, h3, h4, h5, h6, h7, h8, h9, h10, h11, h12, _, _, _⟩ := isDec_not_op d hd
  rw [List.cons_append, first_match_not_op d _ h1 h2 h3 h4 h5 h6 h7 h8 h9 h10 h11 h12]
  have hsp : spanLen isDec (d :: (ds1 ++ rest)) = (d :: ds1).length := by
    rw [← List.cons_append]
    exact spanLen_append isDec _ _ hds (fun c hc => (hrest c hc).1)
  have hhex : regexec [chr '0', ⟨isX, false⟩, ⟨isHex, true⟩] (d :: (ds1 ++ rest)) = none := by
    simp only [regexec, chr]
    by_cases hd0 : d = '0'
    · cases ds1 with
      | nil =>
        cases rest with
        | nil => simp [hd0]
        | cons r rest => simp [hd0, (hrest r rfl).2]
      | cons d2 ds2 =>
        have hd2 := hds d2 (by simp)
        simp [hd0, (isDec_not_op d2 hd2).2.2.2.2.2.2.2.2.2.2.2.2.2.2]
    · simp [hd0]
  simp only [first_match, hhex]
  simp only [regexec, hsp]
  simp

theorem isHex_not_op (c : Char) (h : isHex c = true) :
    c ≠ ' ' ∧ c ≠ '+' ∧ c ≠ '-' ∧ c ≠ '*' ∧ c ≠ '/' ∧ c ≠ '(' ∧ c ≠ ')' ∧ c ≠ '=' ∧
      c ≠ '!' ∧ c ≠ '&' ∧ c ≠ '|' ∧ c ≠ '^' ∧ c ≠ '$' ∧ c ≠ NUL := by
  refine ⟨?_, ?_, ?_, ?_, ?_, ?_, ?_, ?_, ?_, ?_, ?_, ?_, ?_, ?_⟩
  all_goals (rintro rfl; revert h; decide)

theorem isAlnum_not_op (c : Char) (h : isAlnum c = true) :
    c ≠ ' ' ∧ c ≠ '+' ∧ c ≠ '-' ∧ c ≠ '*' ∧ c ≠ '/' ∧ c ≠ '(' ∧ c ≠ ')' ∧ c ≠ '=' ∧
      c ≠ '!' ∧ c ≠ '&' ∧ c ≠ '|' ∧ c ≠ '^' ∧ c ≠ '$' ∧ c ≠ NUL := by
  refine ⟨?_, ?_, ?_, ?_, ?_, ?_, ?_, ?_, ?_, ?_, ?_, ?_, ?_, ?_⟩
  all_goals (rintro rfl; revert h; decide)

theorem isDec_isAlnum (c : Char) (h : isDec c = true) : isAlnum c = true := by
  simp [isAlnum, h]

theorem isHex_isAlnum (c : Char) (h : isHex c = true) : isAlnum c = true := by
  simp only [isHex, isAlnum, isDec, Bool.or_eq_true, decide_eq_true_eq] at h ⊢
  omega

theorem isX_isAlnum (c : Char) (h : isX c = true) : isAlnum c = true := by
  simp only [isX, Bool.or_eq_true, beq_iff_eq] at h
  rcases h with rfl | rfl <;> decide

theorem not_isAlnum (c : Char) (h : isAlnum c = false) :
    isDec c = false ∧ isHex c = false ∧ isX c = false := by
  refine ⟨?_, ?_, ?_⟩
  · cases h1 : isDec c with
    | false => rfl
    | true => rw [isDec_isAlnum c h1] at h; exact absurd h (by simp)
  · cases h1 : isHex c with
    | false => rfl
    | true => rw [isHex_isAlnum c h1] at h; exact absurd h (by simp)
  · cases h1 : isX c with
    | false => rfl
    | true => rw [isX_isAlnum c h1] at h; exact absurd h (by simp)

/-- A hexadecimal numeral, followed by a character that is not a hexadecimal digit, is
matched whole by the hexadecimal rule. -/
theorem first_match_hex (x : Char) (hs rest : List Char) (hx : isX x = true) (hne : hs ≠ [])
    (hhs : ∀ c ∈ hs, isHex c = true) (hrest : ∀ c, rest.head? = some c → isHex c = false) :
    first_match rules ('0' :: x :: hs ++ rest) = some (hs.length + 2, TK_NUM) := by
  rw [List.cons_append, List.cons_append, first_match_not_op '0' _ (by decide) (by decide)
    (by decide) (by decide) (by decide) (by decide) (by decide) (by decide) (by decide)
    (by decide) (by decide) (by decide)]
  have hsp := spanLen_append isHex hs rest hhs hrest
  have hpos : hs.length ≠ 0 := by
    intro h; exact hne (List.length_eq_zero.mp h)
  simp [first_match, regexec, chr, hx, hsp, hpos]

/-- A numeric literal, followed by a character that is neither a letter nor a digit or by
nothing, is matched whole by the first rule that matches, and that is a number rule. -/
theorem first_match_num (s rest : List Char) (hs : isNumLit s = true)
    (hrest : ∀ c, rest.head? = some c → isAlnum c = false) :
    first_match rules (s ++ rest) = some (s.length, TK_NUM) := by
  simp only [isNumLit, Bool.or_eq_true] at hs
  rcases hs with hs | hs
  · unfold isHexLit at hs
    split at hs
    · rename_i x hs1
      simp only [Bool.and_eq_true, Bool.not_eq_true', List.all_eq_true] at hs
      have h := first_match_hex x hs1 rest hs.1.1 (by
        intro h; rw [h] at hs; simp at hs) hs.2 (fun c hc => (not_isAlnum c (hrest c hc)).2.1)
      simpa using h
    · simp at hs
  · simp only [isDecLit, Bool.and_eq_true, Bool.not_eq_true', List.all_eq_true] at hs
    exact first_match_dec s rest (by intro h; rw [h] at hs; simp at hs) hs.2
      (fun c hc => ⟨(not_isAlnum c (hrest c hc)).1, (not_isAlnum c (hrest c hc)).2.2⟩)

theorem isNumLit_head (s : List Char) (hs : isNumLit s = true) :
    ∃ d ds, s = d :: ds ∧ isDec d = true := by
  simp only [isNumLit, Bool.or_eq_true] at hs
  rcases hs with hs | hs
  · unfold isHexLit at hs
    split at hs
    · exact ⟨_, _, rfl, by decide⟩
    · simp at hs
  · simp only [isDecLit, Bool.and_eq_true, Bool.not_eq_true', List.all_eq_true] at hs
    cases s with
    | nil => simp at hs
    | cons d ds => exact ⟨d, ds, rfl, hs.2 d (List.mem_cons_self _ _)⟩

theorem take_min_length (l : List Char) (n : Nat) :
    l.take (min l.length n) = l.take n := by
  by_cases h : l.length ≤ n
  · rw [Nat.min_eq_left h, List.take_length, List.take_of_length_le h]
  · rw [Nat.min_eq_right (by omega)]

/-- One step of the `while` loop on a text that starts with a numeric literal. -/
theorem lex_num (s rest : List Char) (position : Nat) (tokens : List Token)
    (hs : isNumLit s = true) (hrest : ∀ c, rest.head? = some c → isAlnum c = false)
    (hlen : tokens.length < 1024) :
    lex (s ++ rest) position tokens =
      lex rest (position + s.length) (tokens ++ [⟨TK_NUM, s.take 31⟩]) := by
  obtain ⟨d, ds, rfl, hd⟩ := isNumLit_head s hs
  have hm := first_match_num (d :: ds) rest hs hrest
  rw [List.cons_append] at hm ⊢
  rw [lex_cons, if_neg (isDec_not_op d hd).2.2.2.2.2.2.2.2.2.2.2.2.2.1, hm]
  simp only [if_neg (show ¬ (1024 ≤ tokens.length) by omega)]
  rw [← List.cons_append, List.drop_left, List.take_append_eq_append_take]
  simp only [reduceCtorEq, if_false]
  have : min (d :: ds).length 31 - (d :: ds).length = 0 := by omega
  rw [this, List.take_zero, List.append_nil, take_min_length]

/-- One iteration of the `while` loop that stores a token. -/
theorem lex_step (c : Char) (cs : List Char) (position : Nat) (tokens : List Token)
    (len : Nat) (ty : TokenType) (hc : c ≠ NUL)
    (hm : first_match rules (c :: cs) = some (len, ty)) (hty : ty ≠ TK_NOTYPE)
    (hlen : tokens.length < 1024) :
    lex (c :: cs) position tokens =
      lex ((c :: cs).drop len) (position + len)
        (tokens ++ [⟨ty, (c :: cs).take (min len 31)⟩]) := by
  rw [lex_cons, if_neg hc, hm]
  simp only [if_neg hty, if_neg (show ¬ (1024 ≤ tokens.length) by omega)]

theorem lex_plus (rest : List Char) (position : Nat) (tokens : List Token)
    (hlen : tokens.length < 1024) :
    lex ('+' :: rest) position tokens = lex rest (position + 1) (tokens ++ [⟨PLUS, ['+']⟩]) := by
  rw [lex_step '+' rest position tokens 1 PLUS (by decide)
    (by simp [first_match, rules, regexec, chr, spanLen]) (by decide) hlen]
  rfl

theorem lex_minus (rest : List Char) (position : Nat) (tokens : List Token)
    (hlen : tokens.length < 1024) :
    lex ('-' :: rest) position tokens =
      lex rest (position + 1) (tokens ++ [⟨MINUS, ['-']⟩]) := by
  rw [lex_step '-' rest position tokens 1 MINUS (by decide)
    (by simp [first_match, rules, regexec, chr, spanLen]) (by decide) hlen]
  rfl

theorem lex_star (rest : List Char) (position : Nat) (tokens : List Token)
    (hlen : tokens.length < 1024) :
    lex ('*' :: rest) position tokens = lex rest (position + 1) (tokens ++ [⟨STAR, ['*']⟩]) := by
  rw [lex_step '*' rest position tokens 1 STAR (by decide)
    (by simp [first_match, rules, regexec, chr, spanLen]) (by decide) hlen]
  rfl

theorem lex_slash (rest : List Char) (position : Nat) (tokens : List Token)
    (hlen : tokens.length < 1024) :
    lex ('/' :: rest) position tokens =
      lex rest (position + 1) (tokens ++ [⟨SLASH, ['/']⟩]) := by
  rw [lex_step '/' rest position tokens 1 SLASH (by decide)
    (by simp [first_match, rules, regexec, chr, spanLen]) (by decide) hlen]
  rfl

theorem lex_lparen (rest : List Char) (position : Nat) (tokens : List Token)
    (hlen : tokens.length < 1024) :
    lex ('(' :: rest) position tokens =
      lex rest (position + 1) (tokens ++ [⟨LPAREN, ['(']⟩]) := by
  rw [lex_step '(' rest position tokens 1 LPAREN (by decide)
    (by simp [first_match, rules, regexec, chr, spanLen]) (by decide) hlen]
  rfl

theorem lex_rparen (rest : List Char) (position : Nat) (tokens : List Token)
    (hlen : tokens.length < 1024) :
    lex (')' :: rest) position tokens =
      lex rest (position + 1) (tokens ++ [⟨RPAREN, [')']⟩]) := by
  rw [lex_step ')' rest position tokens 1 RPAREN (by decide)
    (by simp [first_match, rules, regexec, chr, spanLen]) (by decide) hlen]
  rfl

theorem lex_oror (rest : List Char) (position : Nat) (tokens : List Token)
    (hlen : tokens.length < 1024) :
    lex ('|' :: '|' :: rest) position tokens =
      lex rest (position + 2) (tokens ++ [⟨TK_OR, ['|', '|']⟩]) := by
  rw [lex_step '|' ('|' :: rest) position tokens 2 TK_OR (by decide)
    (by simp [first_match, rules, regexec, chr, spanLen]) (by decide) hlen]
  rfl

theorem lex_andand (rest : List Char) (position : Nat) (tokens : List Token)
    (hlen : tokens.length < 1024) :
    lex ('&' :: '&' :: rest) position tokens =
      lex rest (position + 2) (tokens ++ [⟨TK_AND, ['&', '&']⟩]) := by
  rw [lex_step '&' ('&' :: rest) position tokens 2 TK_AND (by decide)
    (by simp [first_match, rules, regexec, chr, spanLen]) (by decide) hlen]
  rfl

/-! ## Reading a number token -/

theorem eval_single_num_flag (m : Machine) (str : List Char) (success : Bool) :
    (eval_single m ⟨TK_NUM, str⟩ success).2 = success := by
  simp only [eval_single]
  split <;> rfl

theorem takeWhile_all (p : Char → Bool) (l : List Char) (h : ∀ c ∈ l, p c = true) :
    l.takeWhile p = l := by
  induction l with
  | nil => rfl
  | cons a l ih =>
    simp only [List.takeWhile, h a (List.mem_cons_self _ _)]
    rw [ih (fun c hc => h c (List.mem_cons_of_mem _ hc))]

theorem takeSign_digit (d : Char) (ds : List Char) (hd : isHex d = true) :
    takeSign (d :: ds) = (false, d :: ds) := by
  have h := isHex_not_op d hd
  unfold takeSign
  split
  · rename_i r heq
    simp only [List.cons.injEq] at heq
    exact absurd heq.1 h.2.2.1
  · rename_i r heq
    simp only [List.cons.injEq] at heq
    exact absurd heq.1 h.2.1
  · rfl

theorem isDec_isHex (c : Char) (h : isDec c = true) : isHex c = true := by
  simp [isHex, h]

theorem isHex_not_space (c : Char) (h : isHex c = true) : isSpace c = false := by
  simp only [isHex, isDec, isSpace, Bool.or_eq_true, decide_eq_true_eq,
    decide_eq_false_iff_not] at h ⊢
  omega

theorem scanned_small (n : Nat) (hn : n < 2 ^ 64) : scanned false n = n % WORD := by
  have h : ¬ 18446744073709551616 ≤ n := by
    have h64 : (2 : Nat) ^ 64 = 18446744073709551616 := by norm_num
    omega
  simp [scanned, h]

theorem sscanf_u_dec (s : List Char) (val : Nat) (hs : isDecLit s = true)
    (hv : digitsVal 10 s < 2 ^ 64) : sscanf_u s val = digitsVal 10 s % WORD := by
  simp only [isDecLit, Bool.and_eq_true, Bool.not_eq_true', List.all_eq_true] at hs
  cases s with
  | nil => simp at hs
  | cons d ds =>
    have hd := hs.2 d (List.mem_cons_self _ _)
    unfold sscanf_u
    have h1 : (d :: ds).dropWhile isSpace = d :: ds := by
      simp [List.dropWhile, isHex_not_space d (isDec_isHex d hd)]
    simp only [h1, takeSign_digit d ds (isDec_isHex d hd), takeWhile_all isDec _ hs.2]
    rw [scanned_small _ hv]
    simp

theorem sscanf_x_hex (s : List Char) (val : Nat) (hs : isHexLit s = true)
    (hv : digitsVal 16 (s.drop 2) < 2 ^ 64) :
    sscanf_x s val = digitsVal 16 (s.drop 2) % WORD := by
  unfold isHexLit at hs
  split at hs
  · rename_i x hs1
    have hv1 : digitsVal 16 hs1 < 2 ^ 64 := hv
    simp only [Bool.and_eq_true, Bool.not_eq_true', List.all_eq_true] at hs
    unfold sscanf_x
    have h1 : ('0' :: x :: hs1).dropWhile isSpace = '0' :: x :: hs1 := by
      simp [List.dropWhile, isHex_not_space '0' (by decide)]
    have h2 : takeHexMark ('0' :: x :: hs1) = hs1 := by
      simp [takeHexMark, hs.1.1]
    have h3 : hs1 ≠ [] := by intro h; rw [h] at hs; simp at hs
    simp only [h1, takeSign_digit '0' _ (by decide), h2, takeWhile_all isHex _ hs.2]
    rw [scanned_small _ hv1]
    simp [h3]
  · simp at hs

/-- The single-token case of `eval` on a numeric literal stored whole, of value below
`2 ^ 64`: its value modulo `2 ^ 32`, base 16 after `0x` or `0X` and base 10 otherwise, with
`*success` untouched. -/
theorem eval_single_num (m : Machine) (s : List Char) (success : Bool)
    (hs : isNumLit s = true) (hv : litVal s < 2 ^ 64) :
    eval_single m ⟨TK_NUM, s⟩ success = (litVal s % WORD, success) := by
  simp only [eval_single, litVal]
  simp only [litVal] at hv
  cases hh : isHexLit s with
  | true =>
    have hc : s.getD 0 NUL = '0' ∧ isX (s.getD 1 NUL) = true := by
      unfold isHexLit at hh
      split at hh
      · simp only [Bool.and_eq_true] at hh
        simp [hh.1.1]
      · simp at hh
    rw [hh, if_pos rfl] at hv
    rw [if_pos hc, sscanf_x_hex s 0 hh hv]
    simp
  | false =>
    simp only [isNumLit, hh, Bool.false_or] at hs
    have hc : ¬ (s.getD 0 NUL = '0' ∧ isX (s.getD 1 NUL) = true) := by
      simp only [isDecLit, Bool.and_eq_true, Bool.not_eq_true', List.all_eq_true] at hs
      rintro ⟨_, h2⟩
      cases s with
      | nil => simp at hs
      | cons d ds =>
        cases ds with
        | nil => simp [isX, NUL] at h2
        | cons d2 ds2 =>
          have := (isDec_not_op d2 (hs.2 d2 (by simp))).2.2.2.2.2.2.2.2.2.2.2.2.2.2
          simp only [List.getD_cons_succ, List.getD_cons_zero] at h2
          rw [this] at h2
          exact absurd h2 (by simp)
    rw [hh, if_neg (by simp)] at hv
    rw [if_neg hc, sscanf_u_dec s 0 hs hv]
    simp

theorem make_token_of_lex (e : List Char) (tokens : List Token)
    (h : lex e 0 [] = LexOutcome.done tokens) :
    make_token e = LexOutcome.done (post_process none tokens) := by
  rw [make_token_eq, h]

theorem head_sep (c : Char) (rest : List Char) (hc : isAlnum c = false) :
    ∀ x, (c :: rest).head? = some x → isAlnum x = false := by
  intro x hx
  simp only [List.head?_cons, Option.some.injEq] at hx
  rw [← hx]; exact hc

theorem nil_sep : ∀ x, ([] : List Char).head? = some x → isAlnum x = false := by
  intro x hx; simp at hx

theorem take31 (s : List Char) (h : s.length ≤ 31) : s.take 31 = s :=
  List.take_of_length_le h

theorem isDecLit_not_hex (s : List Char) (h : isDecLit s = true) : isHexLit s = false := by
  simp only [isDecLit, Bool.and_eq_true, Bool.not_eq_true', List.all_eq_true] at h
  unfold isHexLit
  split
  · rename_i x hs
    have hx := (isDec_not_op x (h.2 x (by simp))).2.2.2.2.2.2.2.2.2.2.2.2.2.2
    simp [hx]
  · rfl

theorem or_and_lex (a b c : List Char) (ha : isNumLit a = true) (hb : isNumLit b = true)
    (hc : isNumLit c = true) :
    make_token (a ++ ['|', '|'] ++ b ++ ['&', '&'] ++ c) =
      LexOutcome.done [⟨TK_NUM, a.take 31⟩, ⟨TK_OR, ['|', '|']⟩, ⟨TK_NUM, b.take 31⟩,
        ⟨TK_AND, ['&', '&']⟩, ⟨TK_NUM, c.take 31⟩] := by
  have e1 : a ++ ['|', '|'] ++ b ++ ['&', '&'] ++ c =
      a ++ ('|' :: '|' :: (b ++ ('&' :: '&' :: (c ++ [])))) := by simp
  rw [e1]
  have hl : lex (a ++ ('|' :: '|' :: (b ++ ('&' :: '&' :: (c ++ []))))) 0 [] =
      LexOutcome.done [⟨TK_NUM, a.take 31⟩, ⟨TK_OR, ['|', '|']⟩, ⟨TK_NUM, b.take 31⟩,
        ⟨TK_AND, ['&', '&']⟩, ⟨TK_NUM, c.take 31⟩] := by
    rw [lex_num a _ _ _ ha (head_sep _ _ (by decide)) (by simp),
      lex_oror _ _ _ (by simp),
      lex_num b _ _ _ hb (head_sep _ _ (by decide)) (by simp),
      lex_andand _ _ _ (by simp),
      lex_num c _ _ _ hc nil_sep (by simp), lex_nil]
    rfl
  rw [make_token_of_lex _ _ hl]
  rfl

theorem or_and_eval (m : Machine) (a b c : List Char) (ha : isNumLit a = true)
    (hb : isNumLit b = true) (hc : isNumLit c = true) (va : litVal a < 2 ^ 64)
    (vb : litVal b < 2 ^ 64) (vc : litVal c < 2 ^ 64) :
    evalL m 3 [⟨TK_NUM, a⟩, ⟨TK_OR, ['|', '|']⟩, ⟨TK_NUM, b⟩, ⟨TK_AND, ['&', '&']⟩,
        ⟨TK_NUM, c⟩] true =
      some (ofBool (decide (litVal a % WORD ≠ 0 ∨
        ofBool (decide (litVal b % WORD ≠ 0 ∧ litVal c % WORD ≠ 0)) ≠ 0)), true) := by
  simp [evalL, check_parenthesesL, find_main_opL, scanL, find_main_op_step, priority, noTok,
    (fun s => eval_single_num m a s ha va), (fun s => eval_single_num m b s hb vb),
    (fun s => eval_single_num m c s hc vc), ha, hb, hc, eval_binary]

/-! ## The tokens stored do not depend on the tokens stored before -/

theorem lex_acc : ∀ (n : Nat) (e : List Char), e.length ≤ n → ∀ (position : Nat)
    (acc ts : List Token), lex e position acc = LexOutcome.done ts →
    ∃ suffix, ts = acc ++ suffix ∧ ∀ (position1 : Nat) (acc1 : List Token),
      acc1.length + suffix.length ≤ 1024 →
      lex e position1 acc1 = LexOutcome.done (acc1 ++ suffix) := by
  intro n
  induction n with
  | zero =>
    intro e he position acc ts h
    have : e = [] := List.length_eq_zero.mp (by omega)
    subst this
    rw [lex_nil] at h
    injection h with h
    exact ⟨[], by simp [h], fun _ _ _ => by simp [lex_nil]⟩
  | succ n ih =>
    intro e he position acc ts h
    cases e with
    | nil =>
      rw [lex_nil] at h
      injection h with h
      exact ⟨[], by simp [h], fun _ _ _ => by simp [lex_nil]⟩
    | cons c cs =>
      rw [lex_cons] at h
      by_cases hc : c = NUL
      · rw [if_pos hc] at h
        injection h with h
        exact ⟨[], by simp [h], fun _ _ _ => by rw [lex_cons, if_pos hc]; simp⟩
      · rw [if_neg hc] at h
        cases hm : first_match rules (c :: cs) with
        | none => rw [hm] at h; exact absurd h (by simp)
        | some r =>
          obtain ⟨len, ty⟩ := r
          rw [hm] at h
          simp only [] at h
          have hb := first_match_bounds _ _ _ hm
          have hd : ((c :: cs).drop len).length ≤ n := by
            simp only [List.length_drop, List.length_cons] at he ⊢; omega
          by_cases hty : ty = TK_NOTYPE
          · rw [if_pos hty] at h
            obtain ⟨suffix, hs1, hs2⟩ := ih _ hd _ _ _ h
            refine ⟨suffix, hs1, fun position1 acc1 hle => ?_⟩
            rw [lex_cons, if_neg hc, hm]
            simp only [if_pos hty]
            exact hs2 _ _ hle
          · rw [if_neg hty] at h
            by_cases hov : 1024 ≤ acc.length
            · rw [if_pos hov] at h; exact absurd h (by simp)
            · rw [if_neg hov] at h
              obtain ⟨suffix, hs1, hs2⟩ := ih _ hd _ _ _ h
              refine ⟨⟨ty, (c :: cs).take (min len 31)⟩ :: suffix, by simp [hs1],
                fun position1 acc1 hle => ?_⟩
              rw [lex_cons, if_neg hc, hm]
              simp only [List.length_cons] at hle
              simp only [if_neg hty, if_neg (show ¬ (1024 ≤ acc1.length) by omega)]
              have hfin := ih _ hd (position + len)
                (acc ++ [⟨ty, (c :: cs).take (min len 31)⟩]) ts h
              obtain ⟨suffix2, hs3, hs4⟩ := hfin
              have : suffix2 = suffix := by
                rw [hs1] at hs3
                exact (List.append_cancel_left hs3).symm
              subst this
              have := hs4 (position1 + len) (acc1 ++ [⟨ty, (c :: cs).take (min len 31)⟩])
                (by simp only [List.length_append, List.length_singleton]; omega)
              rw [this]
              simp

/-- If the `while` loop started on `e` with no token stored ends with the tokens `ts`, then
started with the tokens `acc` it ends with `acc ++ ts`, provided they fit in the array. -/
theorem lex_append_acc (e : List Char) (position : Nat) (ts acc : List Token)
    (h : lex e 0 [] = LexOutcome.done ts) (hle : acc.length + ts.length ≤ 1024) :
    lex e position acc = LexOutcome.done (acc ++ ts) := by
  obtain ⟨suffix, hs1, hs2⟩ := lex_acc e.length e (le_refl _) 0 [] ts h
  simp only [List.nil_append] at hs1
  subst hs1
  exact hs2 position acc hle

theorem make_token_done (e : List Char) (tokens : List Token)
    (h : make_token e = LexOutcome.done tokens) :
    ∃ raw, lex e 0 [] = LexOutcome.done raw ∧ tokens = post_process none raw := by
  rw [make_token_eq] at h
  cases hl : lex e 0 [] with
  | done raw =>
    rw [hl] at h
    simp only [LexOutcome.done.injEq] at h
    exact ⟨raw, rfl, h.symm⟩
  | no_match p => rw [hl] at h; exact absurd h (by simp)
  | overflow => rw [hl] at h; exact absurd h (by simp)
  | out_of_fuel => rw [hl] at h; exact absurd h (by simp)

/-! ## The post-processing loop -/

theorem post_process_length (ts : List Token) : ∀ prev : Option TokenType,
    (post_process prev ts).length = ts.length := by
  induction ts with
  | nil => intro prev; rfl
  | cons t ts ih => intro prev; simp [post_process, ih]

theorem classify_not_unary (prev : Option TokenType) (t : Token)
    (h1 : t.type ≠ STAR) (h2 : t.type ≠ MINUS) : classify prev t = t := by
  simp [classify, h1, h2]

theorem post_process_head (prev prev1 : Option TokenType) (t : Token) (ts : List Token)
    (h1 : t.type ≠ STAR) (h2 : t.type ≠ MINUS) :
    post_process prev (t :: ts) = post_process prev1 (t :: ts) := by
  simp only [post_process, classify_not_unary prev t h1 h2, classify_not_unary prev1 t h1 h2]

/-! ## A range enclosed in a matched pair of parentheses has no main operator -/

theorem scanL_inside (ts : List Token) : ∀ (count : Int) (i : Int) (pos prio : Int),
    1 ≤ count → ts ≠ [] → cpL ts count = true →
    scanL ts i ⟨pos, prio, count⟩ = ⟨pos, prio, 0⟩ := by
  induction ts with
  | nil => intro count i pos prio _ h; exact absurd rfl h
  | cons t ts ih =>
    intro count i pos prio hc _ hcp
    simp only [cpL] at hcp
    have hstep : find_main_op_step t i ⟨pos, prio, count⟩ = ⟨pos, prio, paren_count t count⟩ := by
      unfold find_main_op_step paren_count
      by_cases h1 : t.type = LPAREN
      · simp [h1]
      · by_cases h2 : t.type = RPAREN
        · simp [h2]
        · simp [h1, h2, hc]
          intro h; omega
    have hge : 0 ≤ paren_count t count := by
      unfold paren_count
      split
      · omega
      · split <;> omega
    simp only [scanL, hstep]
    cases ts with
    | nil =>
      simp only [ne_eq, not_true_eq_false, and_false, if_false, cpL, decide_eq_true_eq] at hcp
      simp [scanL, hcp]
    | cons t2 ts2 =>
      by_cases h0 : paren_count t count = 0
      · simp [h0] at hcp
      · simp only [h0, false_and, if_false] at hcp
        exact ih _ _ _ _ (by omega) (by simp) hcp

theorem check_parenthesesL_no_op (xs : List Token) (h2 : 2 ≤ xs.length)
    (h : check_parenthesesL xs = true) : find_main_opL xs = -1 := by
  unfold check_parenthesesL at h
  split at h
  · exact absurd h (by simp)
  · rename_i hcond
    simp only [not_or, not_not] at hcond
    cases xs with
    | nil => simp at h2
    | cons x xs =>
      have hx : x.type = LPAREN := by simpa using hcond.1
      have hne : xs ≠ [] := by
        intro hnil; rw [hnil] at h2; simp at h2
      simp only [cpL, paren_count, hx, if_true, zero_add] at h
      have h1 : cpL xs 1 = true := by
        simpa [hne] using h
      unfold find_main_opL
      simp only [scanL]
      have hs : find_main_op_step x 0 ⟨-1, 0, 0⟩ = ⟨-1, 0, 1⟩ := by
        simp [find_main_op_step, hx]
      rw [hs, scanL_inside xs 1 _ _ _ (le_refl _) hne h1]

theorem tok_in_range (tokens : List Token) (i : Int) (h : (tok tokens i).type ≠ TK_NOTYPE) :
    0 ≤ i ∧ i < (tokens.length : Int) := by
  cases i with
  | ofNat n =>
    refine ⟨Int.ofNat_nonneg n, ?_⟩
    by_contra hge
    apply h
    have hn : tokens.length ≤ n := by
      simp only [Int.ofNat_eq_coe, Int.ofNat_lt, not_lt] at hge; exact hge
    simp [tok, List.getD_eq_getElem?_getD, List.getElem?_eq_none hn]
  | negSucc n => exact absurd rfl h

/-- Every index range inside the stored tokens is the middle part of a split of the
token list. -/
theorem range_split (tokens : List Token) (p q : Int) (hp : 0 ≤ p) (hpq : p ≤ q)
    (hq : q < (tokens.length : Int)) :
    ∃ pre xs post, tokens = pre ++ xs ++ post ∧ p = (pre.length : Int) ∧
      q = p + (xs.length : Int) - 1 ∧ xs ≠ [] := by
  refine ⟨tokens.take p.toNat, (tokens.drop p.toNat).take (q - p + 1).toNat,
    (tokens.drop p.toNat).drop (q - p + 1).toNat, ?_, ?_, ?_, ?_⟩
  · rw [List.append_assoc, List.take_append_drop, List.take_append_drop]
  · simp only [List.length_take]; omega
  · simp only [List.length_take, List.length_drop]; omega
  · intro h
    have := congrArg List.length h
    simp only [List.length_take, List.length_drop, List.length_nil] at this
    omega

theorem check_parentheses_no_op (tokens : List Token) (p q : Int) (hpq : p < q)
    (h : check_parentheses tokens p q = true) : find_main_op tokens p q = -1 := by
  have hp : (tok tokens p).type = LPAREN ∧ (tok tokens q).type = RPAREN := by
    unfold check_parentheses at h
    split at h
    · exact absurd h (by simp)
    · rename_i hc; simpa using hc
  have hp1 := tok_in_range tokens p (by rw [hp.1]; decide)
  have hq1 := tok_in_range tokens q (by rw [hp.2]; decide)
  obtain ⟨pre, xs, post, ht, hpe, hqe, hx⟩ := range_split tokens p q hp1.1 (le_of_lt hpq) hq1.2
  rw [ht, hqe, hpe] at h ⊢
  rw [check_parentheses_eq pre xs post hx] at h
  rw [find_main_op_eq, check_parenthesesL_no_op xs (by omega) h]
  simp

/-! ## C1: the tokens of an arithmetic text -/

theorem arith_size_tokens (t : Arith) : t.tokens.length = t.size := by
  induction t with
  | num ds => rfl
  | bin op l r ihl ihr =>
    simp only [Arith.tokens, Arith.size, List.length_append, List.length_singleton, ihl, ihr]
  | paren e ih =>
    simp only [Arith.tokens, Arith.size, List.length_append, List.length_singleton,
      List.length_cons, List.length_nil, ih]

theorem arith_size_pos (t : Arith) : 1 ≤ t.size := by
  cases t <;> simp only [Arith.size] <;> omega

theorem lex_arith_op (op : ArithOp) (rest : List Char) (position : Nat) (tokens : List Token)
    (hlen : tokens.length < 1024) :
    lex (op.char :: rest) position tokens =
      lex rest (position + 1) (tokens ++ [⟨op.type, [op.char]⟩]) := by
  cases op
  · exact lex_plus rest position tokens hlen
  · exact lex_minus rest position tokens hlen
  · exact lex_star rest position tokens hlen
  · exact lex_slash rest position tokens hlen

theorem arith_op_not_alnum (op : ArithOp) : isAlnum op.char = false := by
  cases op <;> decide

/-- The `while` loop of `make_token` on the text of a derivation tree stores the tokens of
the tree. -/
theorem lex_arith (t : Arith) : ∀ (rest : List Char) (position : Nat) (acc : List Token),
    t.numeralsOK = true → acc.length + t.size ≤ 1024 →
    (∀ c, rest.head? = some c → isAlnum c = false) →
    ∃ position1, lex (t.text ++ rest) position acc = lex rest position1 (acc ++ t.tokens) := by
  induction t with
  | num ds =>
    intro rest position acc hn hlen hrest
    simp only [Arith.numeralsOK, Bool.and_eq_true, decide_eq_true_eq] at hn
    obtain ⟨⟨h1, h2⟩, _⟩ := hn
    have hnum : isNumLit ds = true := by simp [isNumLit, h1]
    simp only [Arith.size] at hlen
    refine ⟨position + ds.length, ?_⟩
    simp only [Arith.text, Arith.tokens]
    rw [lex_num ds rest position acc hnum hrest (by omega), take31 ds h2]
  | bin op l r ihl ihr =>
    intro rest position acc hn hlen hrest
    simp only [Arith.numeralsOK, Bool.and_eq_true] at hn
    obtain ⟨hnl, hnr⟩ := hn
    simp only [Arith.size] at hlen
    obtain ⟨p1, hp1⟩ := ihl (op.char :: (r.text ++ rest)) position acc hnl (by omega)
      (head_sep _ _ (arith_op_not_alnum op))
    have hlen2 : (acc ++ l.tokens).length < 1024 := by
      rw [List.length_append, arith_size_tokens]
      have := arith_size_pos r
      omega
    obtain ⟨p2, hp2⟩ := ihr rest (p1 + 1) (acc ++ l.tokens ++ [⟨op.type, [op.char]⟩]) hnr
      (by simp only [List.length_append, arith_size_tokens, List.length_singleton]; omega)
      hrest
    refine ⟨p2, ?_⟩
    have e1 : (Arith.bin op l r).text ++ rest = l.text ++ (op.char :: (r.text ++ rest)) := by
      simp [Arith.text]
    rw [e1, hp1, lex_arith_op op _ _ _ hlen2, hp2]
    simp [Arith.tokens]
  | paren e ih =>
    intro rest position acc hn hlen hrest
    simp only [Arith.size] at hlen
    have hn1 : e.numeralsOK = true := hn
    obtain ⟨p1, hp1⟩ := ih (')' :: rest) (position + 1)
      (acc ++ [(⟨LPAREN, ['(']⟩ : Token)]) hn1
      (by simp only [List.length_append, List.length_singleton]; omega)
      (head_sep _ _ (by decide))
    refine ⟨p1 + 1, ?_⟩
    have e1 : (Arith.paren e).text ++ rest = '(' :: (e.text ++ (')' :: rest)) := by
      simp [Arith.text]
    have hlen2 : (acc ++ [(⟨LPAREN, ['(']⟩ : Token)] ++ e.tokens).length < 1024 := by
      simp only [List.length_append, arith_size_tokens, List.length_singleton]; omega
    rw [e1, lex_lparen _ _ _ (by omega), hp1, lex_rparen _ _ _ hlen2]
    simp [Arith.tokens]

theorem classify_binary (k : TokenType) (t : Token) (hk : k = TK_NUM ∨ k = RPAREN) :
    classify (some k) t = t := by
  obtain ⟨ty, str⟩ := t
  rcases hk with rfl | rfl <;> simp [classify]

theorem classify_value (prev : Option TokenType) (t : Token)
    (ht : t.type = TK_NUM ∨ t.type = LPAREN ∨ t.type = RPAREN) : classify prev t = t := by
  apply classify_not_unary
  · rcases ht with h | h | h <;> rw [h] <;> decide
  · rcases ht with h | h | h <;> rw [h] <;> decide

/-- The post-processing loop leaves the tokens of a derivation tree as they are, since every
operator stands after a number or a closing parenthesis, and it goes on after them with the
kind of a number or of a closing parenthesis as the preceding kind. -/
theorem post_process_arith_append (t : Arith) : ∀ prev : Option TokenType,
    ∃ k, (k = TK_NUM ∨ k = RPAREN) ∧ ∀ more : List Token,
      post_process prev (t.tokens ++ more) = t.tokens ++ post_process (some k) more := by
  induction t with
  | num ds =>
    intro prev
    refine ⟨TK_NUM, Or.inl rfl, fun more => ?_⟩
    simp only [Arith.tokens, List.singleton_append, post_process]
    rw [classify_value prev _ (Or.inl rfl)]
    rfl
  | bin op l r ihl ihr =>
    intro prev
    obtain ⟨k1, hk1, h1⟩ := ihl prev
    obtain ⟨k2, hk2, h2⟩ := ihr (some op.type)
    refine ⟨k2, hk2, fun more => ?_⟩
    have e1 : (Arith.bin op l r).tokens ++ more =
        l.tokens ++ (⟨op.type, [op.char]⟩ :: (r.tokens ++ more)) := by
      simp [Arith.tokens]
    rw [e1, h1]
    simp only [post_process]
    rw [classify_binary k1 _ hk1, h2]
    simp [Arith.tokens]
  | paren e ih =>
    intro prev
    obtain ⟨k1, hk1, h1⟩ := ih (some LPAREN)
    refine ⟨RPAREN, Or.inr rfl, fun more => ?_⟩
    have e1 : (Arith.paren e).tokens ++ more =
        ⟨LPAREN, ['(']⟩ :: (e.tokens ++ (⟨RPAREN, [')']⟩ :: more)) := by
      simp [Arith.tokens]
    rw [e1]
    simp only [post_process]
    rw [classify_value prev _ (Or.inr (Or.inl rfl)), h1]
    simp only [post_process]
    rw [classify_value (some k1) _ (Or.inr (Or.inr rfl))]
    simp [Arith.tokens]

theorem post_process_arith (t : Arith) (prev : Option TokenType) :
    post_process prev t.tokens = t.tokens := by
  obtain ⟨k, _, h⟩ := post_process_arith_append t prev
  have := h []
  simpa [post_process] using this

/-- The tokenizer on the text of a derivation tree with at most 1024 tokens. -/
theorem make_token_arith (t : Arith) (hn : t.numeralsOK = true) (hs : t.size ≤ 1024) :
    make_token t.text = LexOutcome.done t.tokens := by
  obtain ⟨p1, hp1⟩ := lex_arith t [] 0 [] hn (by simpa using hs) nil_sep
  simp only [List.append_nil, List.nil_append, lex_nil] at hp1
  rw [make_token_of_lex _ _ hp1, post_process_arith]

/-! ## C1: parentheses and the main operator of an arithmetic token list -/

theorem cpL_cons_ne (x : Token) (rest : List Token) (c : Int) (h : paren_count x c ≠ 0) :
    cpL (x :: rest) c = cpL rest (paren_count x c) := by
  rw [cpL]
  simp [h]

/-- At depth 1 or more, the loop of `check_parentheses` passes over the tokens of a
derivation tree with the count unchanged. -/
theorem cpL_arith_skip (t : Arith) : ∀ (c : Int) (rest : List Token), 1 ≤ c →
    cpL (t.tokens ++ rest) c = cpL rest c := by
  induction t with
  | num ds =>
    intro c rest hc
    have hp : paren_count ⟨TK_NUM, ds⟩ c = c := by simp [paren_count]
    simp only [Arith.tokens, List.singleton_append]
    rw [cpL_cons_ne _ _ _ (by rw [hp]; omega), hp]
  | bin op l r ihl ihr =>
    intro c rest hc
    have hp : paren_count ⟨op.type, [op.char]⟩ c = c := by
      cases op <;> simp [paren_count, ArithOp.type]
    have e1 : (Arith.bin op l r).tokens ++ rest =
        l.tokens ++ (⟨op.type, [op.char]⟩ :: (r.tokens ++ rest)) := by
      simp [Arith.tokens]
    rw [e1, ihl c _ hc, cpL_cons_ne _ _ _ (by rw [hp]; omega), hp, ihr c rest hc]
  | paren e ih =>
    intro c rest hc
    have hp1 : paren_count ⟨LPAREN, ['(']⟩ c = c + 1 := by simp [paren_count]
    have hp2 : paren_count ⟨RPAREN, [')']⟩ (c + 1) = c := by simp [paren_count]
    have e1 : (Arith.paren e).tokens ++ rest =
        ⟨LPAREN, ['(']⟩ :: (e.tokens ++ (⟨RPAREN, [')']⟩ :: rest)) := by
      simp [Arith.tokens]
    rw [e1, cpL_cons_ne _ _ _ (by rw [hp1]; omega), hp1, ih (c + 1) _ (by omega),
      cpL_cons_ne _ _ _ (by rw [hp2]; omega), hp2]

/-- The tokens of a derivation tree followed by more tokens are not enclosed in a matched
pair of parentheses: the count is back to 0 at the end of the tree. -/
theorem cpL_arith_false (t : Arith) : ∀ rest : List Token, rest ≠ [] →
    cpL (t.tokens ++ rest) 0 = false := by
  induction t with
  | num ds =>
    intro rest hrest
    simp only [Arith.tokens, List.singleton_append]
    rw [cpL]
    simp [paren_count, hrest]
  | bin op l r ihl _ =>
    intro rest _
    have e1 : (Arith.bin op l r).tokens ++ rest =
        l.tokens ++ (⟨op.type, [op.char]⟩ :: (r.tokens ++ rest)) := by
      simp [Arith.tokens]
    rw [e1]
    exact ihl _ (by simp)
  | paren e _ =>
    intro rest hrest
    have hp1 : paren_count ⟨LPAREN, ['(']⟩ 0 = 1 := by simp [paren_count]
    have e1 : (Arith.paren e).tokens ++ rest =
        ⟨LPAREN, ['(']⟩ :: (e.tokens ++ (⟨RPAREN, [')']⟩ :: rest)) := by
      simp [Arith.tokens]
    rw [e1, cpL_cons_ne _ _ _ (by rw [hp1]; decide), hp1, cpL_arith_skip e 1 _ (le_refl _), cpL]
    simp [paren_count, hrest]

theorem check_parenthesesL_bin (op : ArithOp) (l r : Arith) :
    check_parenthesesL (Arith.bin op l r).tokens = false := by
  unfold check_parenthesesL
  split
  · rfl
  · have e1 : (Arith.bin op l r).tokens = l.tokens ++ (⟨op.type, [op.char]⟩ :: r.tokens) := by
      simp [Arith.tokens]
    rw [e1]
    exact cpL_arith_false l _ (by simp)

theorem check_parenthesesL_paren (e : Arith) :
    check_parenthesesL (Arith.paren e).tokens = true := by
  unfold check_parenthesesL
  have hlast : ((Arith.paren e).tokens.getLastD noTok).type = RPAREN := by
    simp only [Arith.tokens, ← List.cons_append]
    rw [List.getLastD_eq_getLast?, List.getLast?_append]
    simp
  have hhead : ((Arith.paren e).tokens.headD noTok).type = LPAREN := by
    simp [Arith.tokens]
  rw [if_neg (by rw [hhead, hlast]; simp)]
  have hp1 : paren_count ⟨LPAREN, ['(']⟩ 0 = 1 := by simp [paren_count]
  have e1 : (Arith.paren e).tokens = ⟨LPAREN, ['(']⟩ :: (e.tokens ++ [⟨RPAREN, [')']⟩]) := by
    simp [Arith.tokens]
  rw [e1, cpL_cons_ne _ _ _ (by rw [hp1]; decide), hp1, cpL_arith_skip e 1 _ (le_refl _), cpL]
  simp [paren_count, cpL]

theorem scanL_append (xs : List Token) : ∀ (ys : List Token) (i : Int) (s : ScanState),
    scanL (xs ++ ys) i s = scanL ys (i + (xs.length : Int)) (scanL xs i s) := by
  induction xs with
  | nil => intro ys i s; simp [scanL]
  | cons x xs ih =>
    intro ys i s
    rw [List.cons_append, scanL, scanL, ih, List.length_cons]
    congr 1
    push_cast
    ring

theorem step_lparen (str : List Char) (i : Int) (s : ScanState) :
    find_main_op_step ⟨LPAREN, str⟩ i s = ⟨s.op_pos, s.op_priority, s.bracket_count + 1⟩ := by
  simp [find_main_op_step]

theorem step_rparen (str : List Char) (i : Int) (s : ScanState) :
    find_main_op_step ⟨RPAREN, str⟩ i s = ⟨s.op_pos, s.op_priority, s.bracket_count - 1⟩ := by
  simp [find_main_op_step]

theorem step_num (str : List Char) (i : Int) (s : ScanState) :
    find_main_op_step ⟨TK_NUM, str⟩ i s = s := by
  simp [find_main_op_step, priority]

theorem step_op_inside (op : ArithOp) (i : Int) (s : ScanState) (h : 1 ≤ s.bracket_count) :
    find_main_op_step ⟨op.type, [op.char]⟩ i s = s := by
  have : s.bracket_count > 0 := by omega
  cases op <;> simp [find_main_op_step, ArithOp.type, this]

theorem step_op_outside (op : ArithOp) (i : Int) (s : ScanState) (h : s.bracket_count = 0) :
    find_main_op_step ⟨op.type, [op.char]⟩ i s =
      if s.op_pos = -1 ∨ (if op.additive then 7 else 8) ≤ s.op_priority then
        ⟨i, if op.additive then 7 else 8, 0⟩
      else s := by
  cases op <;> simp [find_main_op_step, ArithOp.type, ArithOp.additive, priority, h]

/-- Inside parentheses the loop of `find_main_op` passes over the tokens of a derivation
tree without touching its state. -/
theorem scanL_arith_inside (t : Arith) : ∀ (i : Int) (s : ScanState), 1 ≤ s.bracket_count →
    scanL t.tokens i s = s := by
  induction t with
  | num ds => intro i s _; simp [Arith.tokens, scanL, step_num]
  | bin op l r ihl ihr =>
    intro i s hs
    simp only [Arith.tokens]
    rw [scanL_append, scanL_append, ihl i s hs]
    simp only [scanL, step_op_inside op _ s hs]
    exact ihr _ s hs
  | paren e ih =>
    intro i s hs
    have e1 : (Arith.paren e).tokens =
        [⟨LPAREN, ['(']⟩] ++ (e.tokens ++ [⟨RPAREN, [')']⟩]) := by
      simp [Arith.tokens]
    rw [e1, scanL_append, scanL_append]
    simp only [scanL, step_lparen, step_rparen]
    rw [ih _ _ (by simp only []; omega)]
    simp

/-- Outside parentheses the loop passes over a factor without touching its state. -/
theorem scanL_factor (t : Arith) (i : Int) (s : ScanState) (hf : t.isFactor = true)
    (hs : s.bracket_count = 0) : scanL t.tokens i s = s := by
  cases t with
  | num ds => simp [Arith.tokens, scanL, step_num]
  | bin op l r => simp [Arith.isFactor] at hf
  | paren e =>
    have e1 : (Arith.paren e).tokens =
        [⟨LPAREN, ['(']⟩] ++ (e.tokens ++ [⟨RPAREN, [')']⟩]) := by
      simp [Arith.tokens]
    obtain ⟨a, b, c⟩ := s
    simp only at hs
    subst hs
    rw [e1, scanL_append, scanL_append]
    simp only [scanL, step_lparen, step_rparen]
    rw [scanL_arith_inside e _ _ (by simp only []; omega)]
    simp

/-- Once an operator `+` or `-` outside parentheses is recorded, the loop passes over a term
without touching its state: its operators outside parentheses are `*` and `/`. -/
theorem scanL_term (t : Arith) : ∀ (i : Int) (s : ScanState), t.conventional = true →
    t.isTerm = true → s.bracket_count = 0 → s.op_pos ≠ -1 → s.op_priority < 8 →
    scanL t.tokens i s = s := by
  induction t with
  | num ds => intro i s _ _ _ _ _; simp [Arith.tokens, scanL, step_num]
  | paren e _ => intro i s _ _ hs _ _; exact scanL_factor (Arith.paren e) i s rfl hs
  | bin op l r ihl _ =>
    intro i s hc ht hs hpos hprio
    simp only [Arith.isTerm, Bool.not_eq_true'] at ht
    simp only [Arith.conventional, ht, Bool.false_eq_true, if_false, Bool.and_eq_true] at hc
    simp only [Arith.tokens]
    rw [scanL_append, scanL_append, ihl i s hc.1.1 hc.2.1 hs hpos hprio]
    simp only [scanL, step_op_outside op _ s hs, ht, Bool.false_eq_true, if_false]
    rw [if_neg (by simp only [not_or]; exact ⟨hpos, by omega⟩)]
    exact scanL_factor r _ s hc.2.2 hs

/-- The state of the loop of `find_main_op` records no operator, or one of rank `k` or
more, and is outside parentheses. -/
theorem scanL_arith_inv (k : Int) (hk : k ≤ 7) (t : Arith) : ∀ (i : Int) (s : ScanState),
    s.bracket_count = 0 → (s.op_pos = -1 ∨ k ≤ s.op_priority) →
    (scanL t.tokens i s).bracket_count = 0 ∧
      ((scanL t.tokens i s).op_pos = -1 ∨ k ≤ (scanL t.tokens i s).op_priority) := by
  induction t with
  | num ds => intro i s h1 h2; simpa [Arith.tokens, scanL, step_num] using ⟨h1, h2⟩
  | paren e _ =>
    intro i s h1 h2
    rw [scanL_factor (Arith.paren e) i s rfl h1]; exact ⟨h1, h2⟩
  | bin op l r ihl ihr =>
    intro i s h1 h2
    simp only [Arith.tokens]
    rw [scanL_append, scanL_append]
    obtain ⟨h3, h4⟩ := ihl i s h1 h2
    simp only [scanL, step_op_outside op _ _ h3]
    cases hadd : op.additive with
    | true =>
      simp only [if_true]
      by_cases hcond : (scanL l.tokens i s).op_pos = -1 ∨ 7 ≤ (scanL l.tokens i s).op_priority
      · rw [if_pos hcond]
        exact ihr _ _ rfl (Or.inr hk)
      · rw [if_neg hcond]
        exact ihr _ _ h3 h4
    | false =>
      simp only [Bool.false_eq_true, if_false]
      by_cases hcond : (scanL l.tokens i s).op_pos = -1 ∨ 8 ≤ (scanL l.tokens i s).op_priority
      · rw [if_pos hcond]
        exact ihr _ _ rfl (Or.inr (by simp only []; omega))
      · rw [if_neg hcond]
        exact ihr _ _ h3 h4

/-- The same for a term and rank 8. -/
theorem scanL_term_inv (t : Arith) : ∀ (i : Int) (s : ScanState), t.conventional = true →
    t.isTerm = true → s.bracket_count = 0 → (s.op_pos = -1 ∨ 8 ≤ s.op_priority) →
    (scanL t.tokens i s).bracket_count = 0 ∧
      ((scanL t.tokens i s).op_pos = -1 ∨ 8 ≤ (scanL t.tokens i s).op_priority) := by
  induction t with
  | num ds => intro i s _ _ h1 h2; simpa [Arith.tokens, scanL, step_num] using ⟨h1, h2⟩
  | paren e _ =>
    intro i s _ _ h1 h2
    rw [scanL_factor (Arith.paren e) i s rfl h1]; exact ⟨h1, h2⟩
  | bin op l r ihl _ =>
    intro i s hc ht h1 h2
    simp only [Arith.isTerm, Bool.not_eq_true'] at ht
    simp only [Arith.conventional, ht, Bool.false_eq_true, if_false, Bool.and_eq_true] at hc
    simp only [Arith.tokens]
    rw [scanL_append, scanL_append]
    obtain ⟨h3, h4⟩ := ihl i s hc.1.1 hc.2.1 h1 h2
    simp only [scanL, step_op_outside op _ _ h3, ht, Bool.false_eq_true, if_false]
    rw [if_pos h4, scanL_factor r _ _ hc.2.2 rfl]
    exact ⟨rfl, Or.inr (le_refl _)⟩

/-- The main operator of the tokens of `l op r`, read with the usual conventions, is the
token of `op`. -/
theorem find_main_opL_bin (op : ArithOp) (l r : Arith)
    (hc : (Arith.bin op l r).conventional = true) :
    find_main_opL (Arith.bin op l r).tokens = (l.size : Int) := by
  unfold find_main_opL
  simp only [Arith.tokens]
  rw [scanL_append, scanL_append]
  simp only [scanL, arith_size_tokens, zero_add]
  cases hadd : op.additive with
  | true =>
    simp only [Arith.conventional, hadd, if_true, Bool.and_eq_true] at hc
    obtain ⟨h3, h4⟩ := scanL_arith_inv 7 (le_refl _) l 0 ⟨-1, 0, 0⟩ rfl (Or.inl rfl)
    rw [step_op_outside op _ _ h3]
    simp only [hadd, if_true]
    rw [if_pos h4, scanL_term r _ _ hc.1.2 hc.2 rfl (by
      simp only [ne_eq]; have := Int.ofNat_nonneg l.size; omega) (by simp only []; omega)]
  | false =>
    simp only [Arith.conventional, hadd, Bool.false_eq_true, if_false, Bool.and_eq_true] at hc
    obtain ⟨h3, h4⟩ := scanL_term_inv l 0 ⟨-1, 0, 0⟩ hc.1.1 hc.2.1 rfl (Or.inl rfl)
    rw [step_op_outside op _ _ h3]
    simp only [hadd, Bool.false_eq_true, if_false]
    rw [if_pos h4, scanL_factor r _ _ hc.2.2 rfl]

/-! ## C1: the value `eval` returns on an arithmetic token list -/

theorem wsub_eq (a b : Nat) :
    wsub a b = Int.toNat (((a : Int) - (b : Int)) % 2 ^ 32) := by
  unfold wsub WORD
  norm_num
  omega

theorem eval_binary_arith (op : ArithOp) (a b v : Nat) (h : op.apply a b = some v) :
    eval_binary op.type a b = (v, true) := by
  cases op
  · simp only [ArithOp.apply, Option.some.injEq] at h
    simp only [ArithOp.type, eval_binary, wadd, WORD]
    rw [← h]; norm_num
  · simp only [ArithOp.apply, Option.some.injEq] at h
    simp only [ArithOp.type, eval_binary, wsub_eq]
    rw [← h]
  · simp only [ArithOp.apply, Option.some.injEq] at h
    simp only [ArithOp.type, eval_binary, wmul, WORD]
    rw [← h]; norm_num
  · simp only [ArithOp.apply] at h
    split at h
    · simp at h
    · rename_i hb
      simp only [Option.some.injEq] at h
      simp only [ArithOp.type, eval_binary, hb, if_false]
      rw [h]

theorem arith_op_type (op : ArithOp) : op.type ≠ TK_DEREF ∧ op.type ≠ TK_NEGATIVE := by
  cases op <;> exact ⟨by decide, by decide⟩

/-- On the tokens of a tree read with the usual conventions, whose numerals fit a word and
in which no divisor evaluates to 0, `eval` succeeds and returns the value of the tree. -/
theorem evalL_arith (m : Machine) (t : Arith) : ∀ v : Nat, t.conventional = true →
    t.numeralsOK = true → t.value = some v →
    ∃ fuel, evalL m fuel t.tokens true = some (v, true) := by
  induction t with
  | num ds =>
    intro v _ hn hv
    simp only [Arith.numeralsOK, Bool.and_eq_true, decide_eq_true_eq] at hn
    obtain ⟨⟨h1, _⟩, h3⟩ := hn
    simp only [Arith.value, Option.some.injEq] at hv
    refine ⟨1, ?_⟩
    have hnum : isNumLit ds = true := by simp [isNumLit, h1]
    have h3' : digitsVal 10 ds < WORD := h3
    rw [evalL]
    simp only [Arith.tokens, List.length_singleton, one_ne_zero, if_false, if_true,
      List.headD_cons]
    rw [eval_single_num m ds true hnum
      (by simp only [litVal, isDecLit_not_hex ds h1, Bool.false_eq_true, if_false]
          exact lt_trans h3' (by norm_num [WORD]))]
    simp only [litVal, isDecLit_not_hex ds h1, Bool.false_eq_true, if_false,
      Nat.mod_eq_of_lt h3']
    rw [hv]
  | paren e ih =>
    intro v hc hn hv
    obtain ⟨fuel, hf⟩ := ih v hc hn hv
    refine ⟨fuel + 1, ?_⟩
    have hlen : (Arith.paren e).tokens.length = e.size + 2 := arith_size_tokens _
    have hpos := arith_size_pos e
    rw [evalL, if_neg (by rw [hlen]; omega), if_neg (by rw [hlen]; omega),
      if_pos (check_parenthesesL_paren e)]
    have e1 : (Arith.paren e).tokens.tail.dropLast = e.tokens := by
      simp [Arith.tokens]
    rw [e1, hf]
  | bin op l r ihl ihr =>
    intro v hc hn hv
    have hc0 := hc
    simp only [Arith.conventional, Bool.and_eq_true] at hc
    simp only [Arith.numeralsOK, Bool.and_eq_true] at hn
    obtain ⟨hnl, hnr⟩ := hn
    simp only [Arith.value] at hv
    cases hlv : l.value with
    | none => rw [hlv] at hv; simp at hv
    | some a =>
      cases hrv : r.value with
      | none => rw [hlv, hrv] at hv; simp at hv
      | some b =>
        rw [hlv, hrv] at hv
        simp only at hv
        obtain ⟨fl, hfl⟩ := ihl a hc.1.1 hnl hlv
        obtain ⟨fr, hfr⟩ := ihr b hc.1.2 hnr hrv
        have hfl1 := evalL_mono_le m fl (max fl fr) _ _ _ hfl (le_max_left _ _)
        have hfr1 := evalL_mono_le m fr (max fl fr) _ _ _ hfr (le_max_right _ _)
        refine ⟨max fl fr + 1, ?_⟩
        have hlen : (Arith.bin op l r).tokens.length = l.size + 1 + r.size :=
          arith_size_tokens _
        have hposl := arith_size_pos l
        have hposr := arith_size_pos r
        have hmain := find_main_opL_bin op l r hc0
        have htake : (Arith.bin op l r).tokens.take l.size = l.tokens := by
          simp only [Arith.tokens, List.append_assoc]
          rw [← arith_size_tokens l, List.take_left]
        have hdrop : (Arith.bin op l r).tokens.drop (l.size + 1) = r.tokens := by
          have : l.size + 1 = (l.tokens ++ [(⟨op.type, [op.char]⟩ : Token)]).length := by
            simp [arith_size_tokens]
          simp only [Arith.tokens]
          rw [this, List.drop_left]
        have hget : (Arith.bin op l r).tokens.getD l.size noTok = ⟨op.type, [op.char]⟩ := by
          simp only [Arith.tokens, List.append_assoc, List.getD_eq_getElem?_getD]
          rw [List.getElem?_append_right (by rw [arith_size_tokens])]
          simp [arith_size_tokens]
        rw [evalL, if_neg (by rw [hlen]; omega), if_neg (by rw [hlen]; omega),
          if_neg (by rw [check_parenthesesL_bin]; simp), hmain,
          if_neg (by have := Int.ofNat_nonneg l.size; omega)]
        simp only [Int.toNat_ofNat, hget, htake, hdrop]
        rw [if_neg (arith_op_type op).1, if_neg (arith_op_type op).2, hfl1]
        simp only [if_true, hfr1]
        rw [eval_binary_arith op a b v hv]

/-! ## C1: every text of the grammar has a reading with the usual conventions -/

theorem addGraft_text (op : ArithOp) (l : Arith) (r : Arith) :
    (Arith.addGraft op l r).text = l.text ++ [op.char] ++ r.text := by
  induction r with
  | num ds => rfl
  | paren e _ => rfl
  | bin op2 r1 r2 ih1 _ =>
    simp only [Arith.addGraft]
    split
    · simp only [Arith.text, ih1, List.append_assoc]
    · rfl

theorem mulGraft_text (op : ArithOp) (t : Arith) (r : Arith) :
    (Arith.mulGraft op t r).text = t.text ++ [op.char] ++ r.text := by
  induction r with
  | num ds => rfl
  | paren e _ => rfl
  | bin op2 r1 r2 ih1 _ =>
    simp only [Arith.mulGraft, Arith.text, ih1, List.append_assoc]

theorem plug_text (op : ArithOp) (l r : Arith) :
    (Arith.plug op l r).text = l.text ++ [op.char] ++ r.text := by
  unfold Arith.plug
  split
  · exact addGraft_text op l r
  · split
    · split
      · rw [addGraft_text, mulGraft_text]
        simp only [Arith.text, List.append_assoc]
      · exact mulGraft_text op _ r
    · exact mulGraft_text op l r

theorem reading_text (t : Arith) : t.reading.text = t.text := by
  induction t with
  | num ds => rfl
  | paren e ih => simp only [Arith.reading, Arith.text, ih]
  | bin op l r ihl ihr => simp only [Arith.reading, plug_text, Arith.text, ihl, ihr]

theorem conventional_add (op : ArithOp) (l r : Arith) (hop : op.additive = true) :
    (Arith.bin op l r).conventional = true ↔
      (l.conventional = true ∧ r.conventional = true ∧ r.isTerm = true) := by
  simp only [Arith.conventional, hop, if_true, Bool.and_eq_true]
  tauto

theorem conventional_mul (op : ArithOp) (l r : Arith) (hop : op.additive = false) :
    (Arith.bin op l r).conventional = true ↔
      (l.conventional = true ∧ r.conventional = true ∧ l.isTerm = true ∧
        r.isFactor = true) := by
  simp only [Arith.conventional, hop, Bool.false_eq_true, if_false, Bool.and_eq_true]
  tauto

theorem isTerm_bin (op : ArithOp) (l r : Arith) (hop : op.additive = false) :
    (Arith.bin op l r).isTerm = true := by
  simp [Arith.isTerm, hop]

theorem addGraft_conventional (op : ArithOp) (l : Arith) (hop : op.additive = true)
    (hl : l.conventional = true) (r : Arith) (hr : r.conventional = true) :
    (Arith.addGraft op l r).conventional = true := by
  induction r with
  | num ds => exact (conventional_add op l _ hop).mpr ⟨hl, rfl, rfl⟩
  | paren e _ => exact (conventional_add op l _ hop).mpr ⟨hl, hr, rfl⟩
  | bin op2 r1 r2 ih1 _ =>
    simp only [Arith.addGraft]
    cases h2 : op2.additive with
    | true =>
      simp only [if_true]
      obtain ⟨h3, h4, h5⟩ := (conventional_add op2 r1 r2 h2).mp hr
      exact (conventional_add op2 _ r2 h2).mpr ⟨ih1 h3, h4, h5⟩
    | false =>
      simp only [Bool.false_eq_true, if_false]
      exact (conventional_add op l _ hop).mpr ⟨hl, hr, isTerm_bin op2 r1 r2 h2⟩

theorem mulGraft_conventional (op : ArithOp) (t : Arith) (hop : op.additive = false)
    (ht : t.conventional = true) (htt : t.isTerm = true) (r : Arith)
    (hr : r.conventional = true) :
    (Arith.mulGraft op t r).conventional = true ∧
      (r.isTerm = true → (Arith.mulGraft op t r).isTerm = true) := by
  induction r with
  | num ds =>
    exact ⟨(conventional_mul op t _ hop).mpr ⟨ht, rfl, htt, rfl⟩,
      fun _ => isTerm_bin op t _ hop⟩
  | paren e _ =>
    exact ⟨(conventional_mul op t _ hop).mpr ⟨ht, hr, htt, rfl⟩,
      fun _ => isTerm_bin op t _ hop⟩
  | bin op2 r1 r2 ih1 _ =>
    simp only [Arith.mulGraft]
    cases h2 : op2.additive with
    | true =>
      obtain ⟨h3, h4, h5⟩ := (conventional_add op2 r1 r2 h2).mp hr
      refine ⟨(conventional_add op2 _ r2 h2).mpr ⟨(ih1 h3).1, h4, h5⟩, fun h => ?_⟩
      simp [Arith.isTerm, h2] at h
    | false =>
      obtain ⟨h3, h4, h5, h6⟩ := (conventional_mul op2 r1 r2 h2).mp hr
      exact ⟨(conventional_mul op2 _ r2 h2).mpr ⟨(ih1 h3).1, h4, (ih1 h3).2 h5, h6⟩,
        fun _ => isTerm_bin op2 _ r2 h2⟩

theorem plug_conventional (op : ArithOp) (l r : Arith) (hl : l.conventional = true)
    (hr : r.conventional = true) : (Arith.plug op l r).conventional = true := by
  unfold Arith.plug
  cases hop : op.additive with
  | true => simp only [if_true]; exact addGraft_conventional op l hop hl r hr
  | false =>
    simp only [Bool.false_eq_true, if_false]
    cases l with
    | num ds => exact (mulGraft_conventional op _ hop hl rfl r hr).1
    | paren e => exact (mulGraft_conventional op _ hop hl rfl r hr).1
    | bin op1 l1 l2 =>
      simp only []
      cases h1 : op1.additive with
      | true =>
        obtain ⟨h3, h4, h5⟩ := (conventional_add op1 l1 l2 h1).mp hl
        simp only [if_true]
        exact addGraft_conventional op1 l1 h1 h3 _ (mulGraft_conventional op l2 hop h4 h5 r hr).1
      | false =>
        simp only [Bool.false_eq_true, if_false]
        exact (mulGraft_conventional op _ hop hl (isTerm_bin op1 l1 l2 h1) r hr).1

theorem reading_conventional (t : Arith) : t.reading.conventional = true := by
  induction t with
  | num ds => rfl
  | paren e ih => simpa [Arith.reading, Arith.conventional] using ih
  | bin op l r ihl ihr => exact plug_conventional op _ _ ihl ihr

theorem addGraft_numeralsOK (op : ArithOp) (l : Arith) (r : Arith) :
    (Arith.addGraft op l r).numeralsOK = (l.numeralsOK && r.numeralsOK) := by
  induction r with
  | num ds => rfl
  | paren e _ => rfl
  | bin op2 r1 r2 ih1 _ =>
    simp only [Arith.addGraft]
    split
    · simp only [Arith.numeralsOK, ih1, Bool.and_assoc]
    · rfl

theorem mulGraft_numeralsOK (op : ArithOp) (t : Arith) (r : Arith) :
    (Arith.mulGraft op t r).numeralsOK = (t.numeralsOK && r.numeralsOK) := by
  induction r with
  | num ds => rfl
  | paren e _ => rfl
  | bin op2 r1 r2 ih1 _ =>
    simp only [Arith.mulGraft, Arith.numeralsOK, ih1, Bool.and_assoc]

theorem plug_numeralsOK (op : ArithOp) (l r : Arith) :
    (Arith.plug op l r).numeralsOK = (l.numeralsOK && r.numeralsOK) := by
  unfold Arith.plug
  split
  · exact addGraft_numeralsOK op l r
  · split
    · split
      · rw [addGraft_numeralsOK, mulGraft_numeralsOK]
        simp only [Arith.numeralsOK, Bool.and_assoc]
      · exact mulGraft_numeralsOK op _ r
    · exact mulGraft_numeralsOK op l r

theorem reading_numeralsOK (t : Arith) : t.reading.numeralsOK = t.numeralsOK := by
  induction t with
  | num ds => rfl
  | paren e ih => simpa [Arith.reading, Arith.numeralsOK] using ih
  | bin op l r ihl ihr => simp only [Arith.reading, plug_numeralsOK, Arith.numeralsOK, ihl, ihr]

theorem addGraft_size (op : ArithOp) (l : Arith) (r : Arith) :
    (Arith.addGraft op l r).size = l.size + 1 + r.size := by
  induction r with
  | num ds => rfl
  | paren e _ => rfl
  | bin op2 r1 r2 ih1 _ =>
    simp only [Arith.addGraft]
    split
    · simp only [Arith.size, ih1]; omega
    · rfl

theorem mulGraft_size (op : ArithOp) (t : Arith) (r : Arith) :
    (Arith.mulGraft op t r).size = t.size + 1 + r.size := by
  induction r with
  | num ds => rfl
  | paren e _ => rfl
  | bin op2 r1 r2 ih1 _ =>
    simp only [Arith.mulGraft, Arith.size, ih1]; omega

theorem plug_size (op : ArithOp) (l r : Arith) :
    (Arith.plug op l r).size = l.size + 1 + r.size := by
  unfold Arith.plug
  split
  · exact addGraft_size op l r
  · split
    · split
      · rw [addGraft_size, mulGraft_size]
        simp only [Arith.size]; omega
      · exact mulGraft_size op _ r
    · exact mulGraft_size op l r

theorem reading_size (t : Arith) : t.reading.size = t.size := by
  induction t with
  | num ds => rfl
  | paren e ih => simp only [Arith.reading, Arith.size, ih]
  | bin op l r ihl ihr => simp only [Arith.reading, plug_size, Arith.size, ihl, ihr]

/-- The evaluation of the text of a tree that is read with the usual conventions. -/
theorem expr_arith (m : Machine) (t : Arith) (v : Nat) (hc : t.conventional = true)
    (hn : t.numeralsOK = true) (hs : t.size ≤ 1024) (hv : t.value = some v) :
    expr m t.text = ExprOutcome.returned v true := by
  obtain ⟨fuel, hf⟩ := evalL_arith m t v hc hn hv
  apply expr_of_evalL m t.text t.tokens fuel v true (make_token_arith t hn hs)
  rw [post_process_arith]
  exact hf

/-- C1: arithmetic correctness of `expr`. Let `t` be any derivation tree of the grammar
`E ::= n | E+E | E-E | E*E | E/E | (E)` whose numerals are decimal, of at most 31 characters
and of value below `2 ^ 32`, and whose text has at most 1024 tokens. Its text has a reading
with the usual conventions, `t.reading` (`*` and `/` bind tighter than `+` and `-`,
operators of equal precedence associate to the left, parentheses group), and if no divisor
evaluates to 0 in that reading, so that it has a value `v` on 32-bit words (`+`, `-`, `*`
modulo `2 ^ 32`, `/` truncating), then `expr` on the text reports success and returns `v`.
The same holds for every reading `t1` of the text with the usual conventions. -/
theorem arithmetic_correct (m : Machine) (t : Arith) (hn : t.numeralsOK = true)
    (hs : t.size ≤ 1024) :
    (t.reading.conventional = true ∧ t.reading.text = t.text ∧
      ∀ v : Nat, t.reading.value = some v →
        expr m t.text = ExprOutcome.returned v true) ∧
    (∀ (t1 : Arith) (v : Nat), t1.conventional = true → t1.text = t.text →
      t1.numeralsOK = true → t1.size ≤ 1024 → t1.value = some v →
      expr m t.text = ExprOutcome.returned v true) := by
  have hmain : ∀ (t1 : Arith) (v : Nat), t1.conventional = true → t1.text = t.text →
      t1.numeralsOK = true → t1.size ≤ 1024 → t1.value = some v →
      expr m t.text = ExprOutcome.returned v true := by
    intro t1 v hc ht hn1 hs1 hv
    rw [← ht]
    exact expr_arith m t1 v hc hn1 hs1 hv
  refine ⟨⟨reading_conventional t, reading_text t, fun v hv => ?_⟩, hmain⟩
  exact hmain t.reading v (reading_conventional t) (reading_text t)
    (by rw [reading_numeralsOK]; exact hn) (by rw [reading_size]; exact hs) hv

/-- Witness for C1: `2+3*4` gives 14 (from the derivation `(2+3)*4` without parentheses, whose
reading is `2+(3*4)`), `(2+3)*4` gives 20, and `10-2-3` gives 5 (from the derivation
`10-(2-3)` without parentheses, whose reading is `(10-2)-3`). -/
theorem arithmetic_correct_witness :
    expr zeroMachine ['2', '+', '3', '*', '4'] = ExprOutcome.returned 14 true ∧
      expr zeroMachine ['(', '2', '+', '3', ')', '*', '4'] = ExprOutcome.returned 20 true ∧
      expr zeroMachine ['1', '0', '-', '2', '-', '3'] = ExprOutcome.returned 5 true :=
  ⟨(arithmetic_correct zeroMachine
      (Arith.bin ArithOp.mul (Arith.bin ArithOp.add (Arith.num ['2']) (Arith.num ['3']))
        (Arith.num ['4'])) (by decide) (by decide)).1.2.2 14 (by decide),
    (arithmetic_correct zeroMachine
      (Arith.bin ArithOp.mul
        (Arith.paren (Arith.bin ArithOp.add (Arith.num ['2']) (Arith.num ['3'])))
        (Arith.num ['4'])) (by decide) (by decide)).1.2.2 20 (by decide),
    (arithmetic_correct zeroMachine
      (Arith.bin ArithOp.sub (Arith.num ['1', '0'])
        (Arith.bin ArithOp.sub (Arith.num ['2']) (Arith.num ['3']))) (by decide)
      (by decide)).1.2.2 5 (by decide)⟩

theorem and_or_lex (a b c : List Char) (ha : isNumLit a = true) (hb : isNumLit b = true)
    (hc : isNumLit c = true) :
    make_token (a ++ ['&', '&'] ++ b ++ ['|', '|'] ++ c) =
      LexOutcome.done [⟨TK_NUM, a.take 31⟩, ⟨TK_AND, ['&', '&']⟩, ⟨TK_NUM, b.take 31⟩,
        ⟨TK_OR, ['|', '|']⟩, ⟨TK_NUM, c.take 31⟩] := by
  have e1 : a ++ ['&', '&'] ++ b ++ ['|', '|'] ++ c =
      a ++ ('&' :: '&' :: (b ++ ('|' :: '|' :: (c ++ [])))) := by simp
  rw [e1]
  have hl : lex (a ++ ('&' :: '&' :: (b ++ ('|' :: '|' :: (c ++ []))))) 0 [] =
      LexOutcome.done [⟨TK_NUM, a.take 31⟩, ⟨TK_AND, ['&', '&']⟩, ⟨TK_NUM, b.take 31⟩,
        ⟨TK_OR, ['|', '|']⟩, ⟨TK_NUM, c.take 31⟩] := by
    rw [lex_num a _ _ _ ha (head_sep _ _ (by decide)) (by simp),
      lex_andand _ _ _ (by simp),
      lex_num b _ _ _ hb (head_sep _ _ (by decide)) (by simp),
      lex_oror _ _ _ (by simp),
      lex_num c _ _ _ hc nil_sep (by simp), lex_nil]
    rfl
  rw [make_token_of_lex _ _ hl]
  rfl

theorem and_or_eval (m : Machine) (a b c : List Char) (ha : isNumLit a = true)
    (hb : isNumLit b = true) (hc : isNumLit c = true) (va : litVal a < 2 ^ 64)
    (vb : litVal b < 2 ^ 64) (vc : litVal c < 2 ^ 64) :
    evalL m 3 [⟨TK_NUM, a⟩, ⟨TK_AND, ['&', '&']⟩, ⟨TK_NUM, b⟩, ⟨TK_OR, ['|', '|']⟩,
        ⟨TK_NUM, c⟩] true =
      some (ofBool (decide (ofBool (decide (litVal a % WORD ≠ 0 ∧ litVal b % WORD ≠ 0)) ≠ 0 ∨
        litVal c % WORD ≠ 0)), true) := by
  simp [evalL, check_parenthesesL, find_main_opL, scanL, find_main_op_step, priority, noTok,
    (fun s => eval_single_num m a s ha va), (fun s => eval_single_num m b s hb vb),
    (fun s => eval_single_num m c s hc vc), ha, hb, hc, eval_binary]

theorem ofBool_ne_zero (b : Bool) : ofBool b ≠ 0 ↔ b = true := by
  cases b <;> simp [ofBool]

/-- C2 as stated fails on a literal of more than 31 characters: the numeral made of 31
zeros and a final `1` has the value 1, but its token keeps the 31 zeros only, so
`a||0&&0` evaluates to 0 although `a` is non-zero. -/
theorem or_and_over_long_literal :
    isNumLit (zeros31 ++ ['1']) = true ∧ litVal (zeros31 ++ ['1']) = 1 ∧
      expr zeroMachine (zeros31 ++ ['1'] ++ ['|', '|'] ++ ['0'] ++ ['&', '&'] ++ ['0']) =
        ExprOutcome.returned 0 true := by
  decide

/-- C2, amended: for numeric literals `a`, `b`, `c` of at most 31 characters and of value
below `2 ^ 32`, `a||b&&c` evaluates successfully to 1 when `a` is non-zero or both `b` and `c`
are non-zero and to 0 otherwise, and `a&&b||c` evaluates successfully to 1 when both `a` and
`b` are non-zero or `c` is non-zero and to 0 otherwise. -/
theorem or_binds_looser_than_and (m : Machine) (a b c : List Char)
    (ha : isNumLit a = true) (hb : isNumLit b = true) (hc : isNumLit c = true)
    (la : a.length ≤ 31) (lb : b.length ≤ 31) (lc : c.length ≤ 31)
    (va : litVal a < 2 ^ 32) (vb : litVal b < 2 ^ 32) (vc : litVal c < 2 ^ 32) :
    expr m (a ++ ['|', '|'] ++ b ++ ['&', '&'] ++ c) =
        ExprOutcome.returned
          (if litVal a ≠ 0 ∨ (litVal b ≠ 0 ∧ litVal c ≠ 0) then 1 else 0) true ∧
      expr m (a ++ ['&', '&'] ++ b ++ ['|', '|'] ++ c) =
        ExprOutcome.returned
          (if (litVal a ≠ 0 ∧ litVal b ≠ 0) ∨ litVal c ≠ 0 then 1 else 0) true := by
  have wa : litVal a % WORD = litVal a := Nat.mod_eq_of_lt va
  have wb : litVal b % WORD = litVal b := Nat.mod_eq_of_lt vb
  have wc : litVal c % WORD = litVal c := Nat.mod_eq_of_lt vc
  have ua : litVal a < 2 ^ 64 := lt_trans va (by norm_num)
  have ub : litVal b < 2 ^ 64 := lt_trans vb (by norm_num)
  have uc : litVal c < 2 ^ 64 := lt_trans vc (by norm_num)
  constructor
  · apply expr_of_evalL m _ _ 3 _ _ (or_and_lex a b c ha hb hc)
    rw [take31 a la, take31 b lb, take31 c lc]
    have hp : post_process none [⟨TK_NUM, a⟩, ⟨TK_OR, ['|', '|']⟩, ⟨TK_NUM, b⟩,
        ⟨TK_AND, ['&', '&']⟩, ⟨TK_NUM, c⟩] = [⟨TK_NUM, a⟩, ⟨TK_OR, ['|', '|']⟩, ⟨TK_NUM, b⟩,
        ⟨TK_AND, ['&', '&']⟩, ⟨TK_NUM, c⟩] := rfl
    rw [hp, or_and_eval m a b c ha hb hc ua ub uc, wa, wb, wc]
    simp only [ofBool_ne_zero, decide_eq_true_eq, ofBool]
    simp
  · apply expr_of_evalL m _ _ 3 _ _ (and_or_lex a b c ha hb hc)
    rw [take31 a la, take31 b lb, take31 c lc]
    have hp : post_process none [⟨TK_NUM, a⟩, ⟨TK_AND, ['&', '&']⟩, ⟨TK_NUM, b⟩,
        ⟨TK_OR, ['|', '|']⟩, ⟨TK_NUM, c⟩] = [⟨TK_NUM, a⟩, ⟨TK_AND, ['&', '&']⟩, ⟨TK_NUM, b⟩,
        ⟨TK_OR, ['|', '|']⟩, ⟨TK_NUM, c⟩] := rfl
    rw [hp, and_or_eval m a b c ha hb hc ua ub uc, wa, wb, wc]
    simp only [ofBool_ne_zero, decide_eq_true_eq, ofBool]
    simp

/-- Witness for C2: `1||0&&0` evaluates to 1. -/
theorem or_binds_looser_than_and_witness :
    expr zeroMachine ['1', '|', '|', '0', '&', '&', '0'] = ExprOutcome.returned 1 true :=
  (or_binds_looser_than_and zeroMachine ['1'] ['0'] ['0'] (by decide) (by decide) (by decide)
    (by decide) (by decide) (by decide) (by decide) (by decide) (by decide)).1

theorem neg_lex (a : List Char) (ha : isNumLit a = true) :
    make_token ('-' :: a) =
      LexOutcome.done [⟨TK_NEGATIVE, ['-']⟩, ⟨TK_NUM, a.take 31⟩] := by
  have e1 : '-' :: a = '-' :: (a ++ []) := by simp
  rw [e1]
  have hl : lex ('-' :: (a ++ [])) 0 [] =
      LexOutcome.done [⟨MINUS, ['-']⟩, ⟨TK_NUM, a.take 31⟩] := by
    rw [lex_minus _ _ _ (by simp), lex_num a _ _ _ ha nil_sep (by simp), lex_nil]
    rfl
  rw [make_token_of_lex _ _ hl]
  rfl

theorem neg_plus_lex (a b : List Char) (ha : isNumLit a = true) (hb : isNumLit b = true) :
    make_token ('-' :: a ++ '+' :: b) =
      LexOutcome.done [⟨TK_NEGATIVE, ['-']⟩, ⟨TK_NUM, a.take 31⟩, ⟨PLUS, ['+']⟩,
        ⟨TK_NUM, b.take 31⟩] := by
  have e1 : '-' :: a ++ '+' :: b = '-' :: (a ++ ('+' :: (b ++ []))) := by simp
  rw [e1]
  have hl : lex ('-' :: (a ++ ('+' :: (b ++ [])))) 0 [] =
      LexOutcome.done [⟨MINUS, ['-']⟩, ⟨TK_NUM, a.take 31⟩, ⟨PLUS, ['+']⟩,
        ⟨TK_NUM, b.take 31⟩] := by
    rw [lex_minus _ _ _ (by simp),
      lex_num a _ _ _ ha (head_sep _ _ (by decide)) (by simp),
      lex_plus _ _ _ (by simp),
      lex_num b _ _ _ hb nil_sep (by simp), lex_nil]
    rfl
  rw [make_token_of_lex _ _ hl]
  rfl

theorem neg_eval (m : Machine) (a : List Char) (ha : isNumLit a = true)
    (va : litVal a < 2 ^ 64) :
    evalL m 2 [⟨TK_NEGATIVE, ['-']⟩, ⟨TK_NUM, a⟩] true =
      some (wneg (litVal a % WORD), true) := by
  simp [evalL, check_parenthesesL, find_main_opL, scanL, find_main_op_step, priority, noTok,
    (fun s => eval_single_num m a s ha va), ha]

theorem neg_plus_eval (m : Machine) (a b : List Char) (ha : isNumLit a = true)
    (hb : isNumLit b = true) (va : litVal a < 2 ^ 64) (vb : litVal b < 2 ^ 64) :
    evalL m 3 [⟨TK_NEGATIVE, ['-']⟩, ⟨TK_NUM, a⟩, ⟨PLUS, ['+']⟩, ⟨TK_NUM, b⟩] true =
      some (wadd (wneg (litVal a % WORD)) (litVal b % WORD), true) := by
  simp [evalL, check_parenthesesL, find_main_opL, scanL, find_main_op_step, priority, noTok,
    (fun s => eval_single_num m a s ha va), (fun s => eval_single_num m b s hb vb), ha, hb,
    eval_binary]

/-- C3 as stated fails on a literal of more than 31 characters: the numeral made of 31
zeros and a final `7` has the value 7, but its token keeps the 31 zeros only, so `-a`
evaluates to 0 and not to `2 ^ 32 - 7`. -/
theorem negation_over_long_literal :
    isNumLit (zeros31 ++ ['7']) = true ∧ litVal (zeros31 ++ ['7']) = 7 ∧
      expr zeroMachine ('-' :: (zeros31 ++ ['7'])) = ExprOutcome.returned 0 true := by
  decide

/-- C3, amended: for numeric literals `a`, `b` of at most 31 characters and of value below
`2 ^ 32`, `-a` evaluates successfully to `(2 ^ 32 - a) mod 2 ^ 32` and `-a+b` evaluates
successfully to `(b - a) mod 2 ^ 32`: the leading minus negates `a` only. -/
theorem leading_minus_negates (m : Machine) (a b : List Char)
    (ha : isNumLit a = true) (hb : isNumLit b = true)
    (la : a.length ≤ 31) (lb : b.length ≤ 31)
    (va : litVal a < 2 ^ 32) (vb : litVal b < 2 ^ 32) :
    expr m ('-' :: a) = ExprOutcome.returned ((2 ^ 32 - litVal a) % 2 ^ 32) true ∧
      expr m ('-' :: a ++ '+' :: b) =
        ExprOutcome.returned (Int.toNat (((litVal b : Int) - (litVal a : Int)) % 2 ^ 32))
          true := by
  have wa : litVal a % WORD = litVal a := Nat.mod_eq_of_lt va
  have wb : litVal b % WORD = litVal b := Nat.mod_eq_of_lt vb
  have ua : litVal a < 2 ^ 64 := lt_trans va (by norm_num)
  have ub : litVal b < 2 ^ 64 := lt_trans vb (by norm_num)
  constructor
  · apply expr_of_evalL m _ _ 2 _ _ (neg_lex a ha)
    rw [take31 a la]
    have hp : post_process none [⟨TK_NEGATIVE, ['-']⟩, ⟨TK_NUM, a⟩] =
        [⟨TK_NEGATIVE, ['-']⟩, ⟨TK_NUM, a⟩] := rfl
    rw [hp, neg_eval m a ha ua, wa]
    have va1 : litVal a < 4294967296 := va
    simp only [wneg, WORD, Nat.mod_eq_of_lt va1]
    norm_num
  · apply expr_of_evalL m _ _ 3 _ _ (neg_plus_lex a b ha hb)
    rw [take31 a la, take31 b lb]
    have hp : post_process none [⟨TK_NEGATIVE, ['-']⟩, ⟨TK_NUM, a⟩, ⟨PLUS, ['+']⟩,
        ⟨TK_NUM, b⟩] = [⟨TK_NEGATIVE, ['-']⟩, ⟨TK_NUM, a⟩, ⟨PLUS, ['+']⟩, ⟨TK_NUM, b⟩] := rfl
    rw [hp, neg_plus_eval m a b ha hb ua ub, wa, wb]
    have va1 : litVal a < 4294967296 := va
    have vb1 : litVal b < 4294967296 := vb
    simp only [wadd, wneg, WORD, Nat.mod_eq_of_lt va1]
    norm_num
    omega

/-- Witness for C3: `-3` evaluates to `2 ^ 32 - 3` and `-3+5` to 2. -/
theorem leading_minus_negates_witness :
    expr zeroMachine ['-', '3'] = ExprOutcome.returned 4294967293 true ∧
      expr zeroMachine ['-', '3', '+', '5'] = ExprOutcome.returned 2 true :=
  leading_minus_negates zeroMachine ['3'] ['5'] (by decide) (by decide) (by decide)
    (by decide) (by decide) (by decide)

theorem classify_idem (prev : Option TokenType) (t : Token) :
    classify prev (classify prev t) = classify prev t := by
  obtain ⟨ty, str⟩ := t
  cases prev with
  | none => cases ty <;> simp [classify]
  | some k => cases ty <;> by_cases h : (k ≠ TK_NUM ∧ k ≠ TK_REG ∧ k ≠ RPAREN) <;> simp [classify, h]

/-- Running the post-processing loop a second time changes nothing. -/
theorem post_process_idem (ts : List Token) : ∀ prev : Option TokenType,
    post_process prev (post_process prev ts) = post_process prev ts := by
  induction ts with
  | nil => intro prev; rfl
  | cons t ts ih =>
    intro prev
    simp only [post_process, classify_idem, ih]

theorem deref_lex (a : List Char) (ha : isNumLit a = true) :
    make_token ('*' :: a) =
      LexOutcome.done [⟨TK_DEREF, ['*']⟩, ⟨TK_NUM, a.take 31⟩] := by
  have e1 : '*' :: a = '*' :: (a ++ []) := by simp
  rw [e1]
  have hl : lex ('*' :: (a ++ [])) 0 [] =
      LexOutcome.done [⟨STAR, ['*']⟩, ⟨TK_NUM, a.take 31⟩] := by
    rw [lex_star _ _ _ (by simp), lex_num a _ _ _ ha nil_sep (by simp), lex_nil]
    rfl
  rw [make_token_of_lex _ _ hl]
  rfl

theorem deref_eval (m : Machine) (a : List Char) (ha : isNumLit a = true)
    (va : litVal a < 2 ^ 64) :
    evalL m 2 [⟨TK_DEREF, ['*']⟩, ⟨TK_NUM, a⟩] true =
      some (m.vaddr_read (litVal a % WORD) 4, true) := by
  simp [evalL, check_parenthesesL, find_main_opL, scanL, find_main_op_step, priority, noTok,
    (fun s => eval_single_num m a s ha va), ha]

theorem check_parenthesesL_shape (ts : List Token) (h : check_parenthesesL ts = true) :
    ∃ x y xs, ts = x :: y :: xs ∧ x.type = LPAREN ∧ cpL (y :: xs) 1 = true := by
  unfold check_parenthesesL at h
  split at h
  · exact absurd h (by simp)
  · rename_i hcond
    simp only [not_or, not_not] at hcond
    cases ts with
    | nil => simp [noTok] at hcond
    | cons x xs =>
      have hx : x.type = LPAREN := by simpa using hcond.1
      cases xs with
      | nil =>
        have h2 := hcond.2
        simp only [List.getLastD_cons, List.getLastD_nil] at h2
        rw [hx] at h2; exact absurd h2 (by decide)
      | cons y ys =>
        refine ⟨x, y, ys, rfl, hx, ?_⟩
        have hp : paren_count x 0 = 1 := by simp [paren_count, hx]
        rw [cpL, hp] at h
        simpa using h

/-- A dereference in front of a range enclosed in a matched pair of parentheses reads memory
at the value of that range. -/
theorem evalL_deref_paren (m : Machine) (fuel : Nat) (s : List Char) (ts : List Token)
    (v : Nat) (hcp : check_parenthesesL ts = true)
    (hv : evalL m fuel ts true = some (v, true)) :
    evalL m (fuel + 1) (⟨TK_DEREF, s⟩ :: ts) true = some (m.vaddr_read v 4, true) := by
  obtain ⟨x, y, xs, rfl, hx, hin⟩ := check_parenthesesL_shape ts hcp
  have hfm : find_main_opL (⟨TK_DEREF, s⟩ :: x :: y :: xs) = 0 := by
    unfold find_main_opL
    have h1 : find_main_op_step ⟨TK_DEREF, s⟩ 0 ⟨-1, 0, 0⟩ = ⟨0, 9, 0⟩ := by
      simp [find_main_op_step, priority]
    have h2 : find_main_op_step x (0 + 1) ⟨0, 9, 0⟩ = ⟨0, 9, 1⟩ := by
      simp [find_main_op_step, hx]
    rw [scanL, h1, scanL, h2, scanL_inside (y :: xs) 1 _ _ _ (le_refl _) (by simp) hin]
  have hcp2 : check_parenthesesL (⟨TK_DEREF, s⟩ :: x :: y :: xs) = false := by
    simp [check_parenthesesL]
  rw [evalL]
  simp only [List.length_cons, hcp2, hfm]
  simp only [Int.toNat_zero, List.getD_cons_zero, zero_add, List.drop_succ_cons, List.drop_zero, hv]
  simp

/-- C4 as stated fails on a literal of more than 31 characters: the numeral made of 31
zeros and a final `4` has the value 4, but its token keeps the 31 zeros only, so `*a` reads
memory at address 0 and not at address 4 (in `addrMachine` the word at an address is the
address). -/
theorem deref_over_long_literal :
    isNumLit (zeros31 ++ ['4']) = true ∧ litVal (zeros31 ++ ['4']) = 4 ∧
      addrMachine.vaddr_read 4 4 = 4 ∧
      expr addrMachine ('*' :: (zeros31 ++ ['4'])) = ExprOutcome.returned 0 true := by
  decide

/-- C4, amended: a leading `*` is a memory dereference. For every numeric literal `a` of at
most 31 characters and of value below `2 ^ 32`, `*a` evaluates successfully to
`vaddr_read(a, 4)`. For every text `(E)` that is tokenized into at most 1023 tokens of which
the first and the last are a matched pair of parentheses, and that evaluates successfully to
`v`, the text `*(E)` evaluates successfully to `vaddr_read(v, 4)`. -/
theorem leading_star_dereferences (m : Machine) :
    (∀ a : List Char, isNumLit a = true → a.length ≤ 31 → litVal a < 2 ^ 32 →
      expr m ('*' :: a) = ExprOutcome.returned (m.vaddr_read (litVal a) 4) true) ∧
    (∀ (E : List Char) (tokens : List Token) (v : Nat),
      make_token ('(' :: E ++ [')']) = LexOutcome.done tokens →
      tokens.length ≤ 1023 →
      check_parentheses tokens 0 ((tokens.length : Int) - 1) = true →
      expr m ('(' :: E ++ [')']) = ExprOutcome.returned v true →
      expr m ('*' :: '(' :: E ++ [')']) = ExprOutcome.returned (m.vaddr_read v 4) true) := by
  constructor
  · intro a ha la va
    apply expr_of_evalL m _ _ 2 _ _ (deref_lex a ha)
    rw [take31 a la]
    have hp : post_process none [⟨TK_DEREF, ['*']⟩, ⟨TK_NUM, a⟩] =
        [⟨TK_DEREF, ['*']⟩, ⟨TK_NUM, a⟩] := rfl
    have va1 : litVal a < WORD := va
    rw [hp, deref_eval m a ha (lt_trans va (by norm_num)), Nat.mod_eq_of_lt va1]
  · intro E tokens v hmt hlen hcp hexpr
    obtain ⟨raw, hraw, htok⟩ := make_token_done _ _ hmt
    have hrawlen : raw.length = tokens.length := by
      rw [htok, post_process_length]
    -- the tokens of `(E)` start with the token of the parenthesis
    have hne : tokens ≠ [] := by
      intro h
      rw [h] at hcp
      simp [check_parentheses, tok] at hcp
    have hcpL : check_parenthesesL tokens = true := by
      have := check_parentheses_eq [] tokens [] hne
      simp only [List.nil_append, List.append_nil, List.length_nil, Int.ofNat_zero,
        Nat.cast_zero, zero_add] at this
      rw [← this]; exact hcp
    obtain ⟨x, y, xs, hshape, hx, _⟩ := check_parenthesesL_shape tokens hcpL
    -- the tokens of `*(E)`
    have hl2 : lex ('*' :: '(' :: E ++ [')']) 0 [] =
        LexOutcome.done (⟨STAR, ['*']⟩ :: raw) := by
      have e1 : '*' :: '(' :: E ++ [')'] = '*' :: ('(' :: E ++ [')']) := by simp
      rw [e1, lex_star _ _ _ (by simp)]
      have := lex_append_acc ('(' :: E ++ [')']) (0 + 1) raw [⟨STAR, ['*']⟩] hraw
        (by simp only [List.length_singleton]; omega)
      simpa using this
    have hmt2 : make_token ('*' :: '(' :: E ++ [')']) =
        LexOutcome.done (⟨TK_DEREF, ['*']⟩ :: tokens) := by
      rw [make_token_of_lex _ _ hl2]
      have hraw2 : raw ≠ [] := by
        intro h; rw [h] at hrawlen; rw [hshape] at hrawlen; simp at hrawlen
      obtain ⟨r, rs, hr⟩ := List.exists_cons_of_ne_nil hraw2
      have hrt : r.type ≠ STAR ∧ r.type ≠ MINUS := by
        have h1 : (classify none r).type = LPAREN := by
          have : tokens = classify none r :: post_process (some (classify none r).type) rs := by
            rw [htok, hr]; rfl
          rw [hshape] at this
          simp only [List.cons.injEq] at this
          rw [← this.1]; exact hx
        constructor
        · intro h; simp [classify, h] at h1
        · intro h; simp [classify, h] at h1
      have hpp : post_process none (⟨STAR, ['*']⟩ :: raw) =
          ⟨TK_DEREF, ['*']⟩ :: post_process (some TK_DEREF) raw := rfl
      rw [hpp, hr, post_process_head (some TK_DEREF) none r rs hrt.1 hrt.2, ← hr, ← htok]
    -- the value of `(E)`
    have hv : evalL m (tokens.length + 1) tokens true = some (v, true) := by
      rw [expr_eq, hmt] at hexpr
      have hid : post_process none tokens = tokens := by
        rw [htok, post_process_idem]
      simp only [hid] at hexpr
      cases he : evalL m (tokens.length + 1) tokens true with
      | none => rw [he] at hexpr; exact absurd hexpr (by simp)
      | some r =>
        rw [he] at hexpr
        simp only [ExprOutcome.returned.injEq] at hexpr
        obtain ⟨r1, r2⟩ := r
        simp only at hexpr
        rw [hexpr.1, hexpr.2]
    apply expr_of_evalL m _ _ (tokens.length + 1 + 1) _ _ hmt2
    have hpp2 : post_process none (⟨TK_DEREF, ['*']⟩ :: tokens) =
        ⟨TK_DEREF, ['*']⟩ :: tokens := by
      have hxt : x.type ≠ STAR ∧ x.type ≠ MINUS := by rw [hx]; exact ⟨by decide, by decide⟩
      have h1 : post_process none (⟨TK_DEREF, ['*']⟩ :: tokens) =
          ⟨TK_DEREF, ['*']⟩ :: post_process (some TK_DEREF) tokens := rfl
      rw [h1, hshape, post_process_head (some TK_DEREF) none x (y :: xs) hxt.1 hxt.2, ← hshape]
      rw [htok, post_process_idem]
    rw [hpp2]
    exact evalL_deref_paren m _ _ tokens v hcpL hv

/-- Witness for C4: `*0` reads memory at address 0, and `*(2+3)` reads memory at address 5. -/
theorem leading_star_dereferences_witness :
    expr addrMachine ['*', '0'] = ExprOutcome.returned (addrMachine.vaddr_read 0 4) true ∧
      expr addrMachine ['*', '(', '2', '+', '3', ')'] =
        ExprOutcome.returned (addrMachine.vaddr_read 5 4) true :=
  ⟨(leading_star_dereferences addrMachine).1 ['0'] (by decide) (by decide) (by decide),
    (leading_star_dereferences addrMachine).2 ['2', '+', '3']
      [⟨LPAREN, ['(']⟩, ⟨TK_NUM, ['2']⟩, ⟨PLUS, ['+']⟩, ⟨TK_NUM, ['3']⟩, ⟨RPAREN, [')']⟩] 5
      (by decide) (by decide) (by decide) (by decide)⟩

theorem eval_empty_range (m : Machine) (tokens : List Token) (fuel : Nat) (p q : Int)
    (success : Bool) (v : Nat) (h : eval m tokens fuel p q success = some (v, true)) :
    p ≤ q := by
  by_contra hlt
  cases fuel with
  | zero => simp [eval] at h
  | succ fuel =>
    rw [eval, if_pos (by omega)] at h
    simp at h

theorem div_lex (a : List Char) (ha : isNumLit a = true) :
    make_token (a ++ ['/', '0']) =
      LexOutcome.done [⟨TK_NUM, a.take 31⟩, ⟨SLASH, ['/']⟩, ⟨TK_NUM, ['0']⟩] := by
  have e1 : a ++ ['/', '0'] = a ++ ('/' :: (['0'] ++ [])) := by simp
  rw [e1]
  have hl : lex (a ++ ('/' :: (['0'] ++ []))) 0 [] =
      LexOutcome.done [⟨TK_NUM, a.take 31⟩, ⟨SLASH, ['/']⟩, ⟨TK_NUM, ['0']⟩] := by
    rw [lex_num a _ _ _ ha (head_sep _ _ (by decide)) (by simp),
      lex_slash _ _ _ (by simp),
      lex_num ['0'] _ _ _ (by decide) nil_sep (by simp), lex_nil]
    rfl
  rw [make_token_of_lex _ _ hl]
  rfl

theorem div_zero_eval (m : Machine) (s : List Char) :
    evalL m 2 [⟨TK_NUM, s⟩, ⟨SLASH, ['/']⟩, ⟨TK_NUM, ['0']⟩] true = some (0, false) := by
  have h0 : eval_single m ⟨TK_NUM, ['0']⟩ true = (0, true) := by
    rw [eval_single_num m ['0'] true (by decide) (by decide)]; rfl
  have hs : eval_single m ⟨TK_NUM, s⟩ true = ((eval_single m ⟨TK_NUM, s⟩ true).1, true) := by
    have := eval_single_num_flag m s true
    exact Prod.ext rfl this
  simp only [evalL, List.length_cons, List.length_nil, check_parenthesesL, find_main_opL, scanL,
    find_main_op_step, priority, noTok]
  simp only [List.headD_cons, List.take, List.drop, List.getD_cons_zero]
  rw [hs]
  simp [h0, eval_binary]

/-- C5: division by zero is a reported failure. In a token range whose main operator is a
`/`, if the left range evaluates successfully and the right range evaluates successfully to
0, then `eval` on the whole range clears `*success` and returns 0; and for every numeric
literal `a` the call `expr("a/0")` returns 0 with `*success` false. -/
theorem division_by_zero_fails (m : Machine) :
    (∀ (tokens : List Token) (fuel : Nat) (p q : Int) (v1 : Nat),
      (tok tokens (find_main_op tokens p q)).type = SLASH →
      eval m tokens fuel p (find_main_op tokens p q - 1) true = some (v1, true) →
      eval m tokens fuel (find_main_op tokens p q + 1) q true = some (0, true) →
      eval m tokens (fuel + 1) p q true = some (0, false)) ∧
    (∀ a : List Char, isNumLit a = true →
      expr m (a ++ ['/', '0']) = ExprOutcome.returned 0 false) := by
  constructor
  · intro tokens fuel p q v1 hop hl hr
    have h1 := eval_empty_range m tokens fuel _ _ _ _ hl
    have h2 := eval_empty_range m tokens fuel _ _ _ _ hr
    have hne : find_main_op tokens p q ≠ -1 := by
      intro h; rw [h] at hop
      have : tok tokens (-1) = ⟨TK_NOTYPE, []⟩ := rfl
      rw [this] at hop; exact absurd hop (by decide)
    rw [eval, if_neg (by omega), if_neg (by omega)]
    have hcp : ¬ (check_parentheses tokens p q = true) := by
      intro h
      exact hne (check_parentheses_no_op tokens p q (by omega) h)
    rw [if_neg hcp, if_neg hne, hop]
    simp only [reduceCtorEq, if_false, hl, if_true, hr]
    rfl
  · intro a ha
    apply expr_of_evalL m _ _ 2 _ _ (div_lex a ha)
    have hp : post_process none [⟨TK_NUM, a.take 31⟩, ⟨SLASH, ['/']⟩, ⟨TK_NUM, ['0']⟩] =
        [⟨TK_NUM, a.take 31⟩, ⟨SLASH, ['/']⟩, ⟨TK_NUM, ['0']⟩] := rfl
    rw [hp, div_zero_eval]

/-- Witness for C5: the tokens of `5/0`, whose main operator is the `/` at index 1, and the
text `5/0`. -/
theorem division_by_zero_fails_witness :
    eval zeroMachine [⟨TK_NUM, ['5']⟩, ⟨SLASH, ['/']⟩, ⟨TK_NUM, ['0']⟩] 2 0 2 true =
        some (0, false) ∧
      expr zeroMachine ['5', '/', '0'] = ExprOutcome.returned 0 false :=
  ⟨(division_by_zero_fails zeroMachine).1
      [⟨TK_NUM, ['5']⟩, ⟨SLASH, ['/']⟩, ⟨TK_NUM, ['0']⟩] 1 0 2 5 (by decide) (by decide)
      (by decide),
    (division_by_zero_fails zeroMachine).2 ['5'] (by decide)⟩

theorem spanLen_all (cls : Char → Bool) (cs : List Char) (h : ∀ c ∈ cs, cls c = true) :
    spanLen cls cs = cs.length := by
  have := spanLen_append cls cs [] h (by intro c hc; simp at hc)
  simpa using this

theorem lex_spaces (e : List Char) (position : Nat) (tokens : List Token)
    (h : ∀ c ∈ e, c = ' ') : lex e position tokens = LexOutcome.done tokens := by
  cases e with
  | nil => rfl
  | cons c cs =>
    have hc : c = ' ' := h c (List.mem_cons_self _ _)
    subst hc
    have hsp : spanLen (fun x => x == ' ') cs = cs.length :=
      spanLen_all _ cs (fun c hc => by simp [h c (List.mem_cons_of_mem _ hc)])
    have hm : first_match rules (' ' :: cs) = some (cs.length + 1, TK_NOTYPE) := by
      simp [first_match, rules, regexec, chr, spanLen, hsp]
    rw [lex_cons, if_neg (by decide), hm]
    simp only [if_true, List.drop_succ_cons, List.drop_length, lex_nil]

theorem eval_single_other (m : Machine) (t : Token) (success : Bool) (h1 : t.type ≠ TK_NUM)
    (h2 : t.type ≠ TK_REG) : eval_single m (classify none t) success = (0, false) := by
  obtain ⟨ty, str⟩ := t
  cases ty <;> simp_all [eval_single, classify]

/-- C6: empty and single-non-value inputs fail cleanly. For every text that consists of
spaces only, the empty text included, and for every text that is tokenized into exactly one
token that is neither a number nor a register reference, `expr` returns 0 with `*success`
false. -/
theorem empty_and_single_non_value_fail (m : Machine) :
    (∀ e : List Char, (∀ c ∈ e, c = ' ') → expr m e = ExprOutcome.returned 0 false) ∧
    (∀ (e : List Char) (t : Token), make_token e = LexOutcome.done [t] →
      t.type ≠ TK_NUM → t.type ≠ TK_REG → expr m e = ExprOutcome.returned 0 false) := by
  constructor
  · intro e he
    have hl := lex_spaces e 0 [] he
    apply expr_of_evalL m e [] 1 _ _ (make_token_of_lex _ _ hl)
    rfl
  · intro e t hmt h1 h2
    apply expr_of_evalL m e [t] 1 _ _ hmt
    have hp : post_process none [t] = [classify none t] := rfl
    rw [hp, evalL]
    simp only [List.length_singleton, one_ne_zero, if_false, if_true, List.headD_cons]
    rw [eval_single_other m t true h1 h2]

/-- Witness for C6: the empty text, a text of three spaces, and the texts `(` and `-`. -/
theorem empty_and_single_non_value_fail_witness :
    expr zeroMachine [] = ExprOutcome.returned 0 false ∧
      expr zeroMachine [' ', ' ', ' '] = ExprOutcome.returned 0 false ∧
      expr zeroMachine ['('] = ExprOutcome.returned 0 false ∧
      expr zeroMachine ['-'] = ExprOutcome.returned 0 false :=
  ⟨(empty_and_single_non_value_fail zeroMachine).1 [] (by decide),
    (empty_and_single_non_value_fail zeroMachine).1 [' ', ' ', ' '] (by decide),
    (empty_and_single_non_value_fail zeroMachine).2 ['('] ⟨LPAREN, ['(']⟩ (by decide)
      (by decide) (by decide),
    (empty_and_single_non_value_fail zeroMachine).2 ['-'] ⟨TK_NEGATIVE, ['-']⟩ (by decide)
      (by decide) (by decide)⟩

/-! ## Lexical errors -/

/-- From a state the loop passes through, the run continues as `lex` does. -/
theorem loopAt_lex (e : List Char) (position : Nat) (tokens : List Token)
    (h : LoopAt e position tokens) : lex e 0 [] = lex (e.drop position) position tokens := by
  induction h with
  | start => rfl
  | skip position tokens c len _ hc hnul hm ih =>
    rw [ih]
    obtain ⟨cs, hcs⟩ : ∃ cs, e.drop position = c :: cs := by
      cases hd : e.drop position with
      | nil => rw [hd] at hc; simp at hc
      | cons x xs => rw [hd] at hc; simp at hc; exact ⟨xs, by rw [hc]⟩
    rw [hcs] at hm ⊢
    rw [lex_cons, if_neg hnul, hm]
    simp only [if_true]
    rw [← hcs, List.drop_drop]
  | store position tokens c len ty _ hc hnul hm hty hlen ih =>
    rw [ih]
    obtain ⟨cs, hcs⟩ : ∃ cs, e.drop position = c :: cs := by
      cases hd : e.drop position with
      | nil => rw [hd] at hc; simp at hc
      | cons x xs => rw [hd] at hc; simp at hc; exact ⟨xs, by rw [hc]⟩
    rw [hcs] at hm ⊢
    rw [lex_step c cs position tokens len ty hnul hm hty hlen]
    rw [← hcs, List.drop_drop]

theorem expr_of_no_match (m : Machine) (e : List Char) (position : Nat)
    (h : make_token e = LexOutcome.no_match position) :
    expr m e = ExprOutcome.returned 0 false := by
  rw [expr_eq, h]

theorem spanLen_take (cls : Char → Bool) (e : List Char) :
    ∀ c ∈ e.take (spanLen cls e), cls c = true := by
  induction e with
  | nil => intro c hc; simp at hc
  | cons x xs ih =>
    intro c hc
    by_cases hx : cls x = true
    · simp only [spanLen, hx, if_true, List.take_succ_cons, List.mem_cons] at hc
      rcases hc with rfl | hc
      · exact hx
      · exact ih c hc
    · simp [spanLen, hx] at hc

theorem regexec_classes (ps : List Piece) : ∀ (e : List Char) (n : Nat),
    regexec ps e = some n → ∀ c ∈ e.take n, ∃ pc ∈ ps, pc.cls c = true := by
  induction ps with
  | nil =>
    intro e n h c hc
    simp only [regexec, Option.some.injEq] at h
    rw [← h] at hc; simp at hc
  | cons pc ps ih =>
    intro e n h c hc
    unfold regexec at h
    split at h
    · split at h
      · simp at h
      · simp only [Option.map_eq_some'] at h
        obtain ⟨k, hk, rfl⟩ := h
        rw [Nat.add_comm, List.take_add, List.mem_append] at hc
        rcases hc with hc | hc
        · exact ⟨pc, List.mem_cons_self _ _, spanLen_take pc.cls e c hc⟩
        · obtain ⟨pc1, h1, h2⟩ := ih _ _ hk c hc
          exact ⟨pc1, List.mem_cons_of_mem _ h1, h2⟩
    · split at h
      · simp at h
      · rename_i x xs
        split at h
        · rename_i hx
          simp only [Option.map_eq_some'] at h
          obtain ⟨k, hk, rfl⟩ := h
          simp only [List.take_succ_cons, List.mem_cons] at hc
          rcases hc with rfl | hc
          · exact ⟨pc, List.mem_cons_self _ _, hx⟩
          · obtain ⟨pc1, h1, h2⟩ := ih _ _ hk c hc
            exact ⟨pc1, List.mem_cons_of_mem _ h1, h2⟩
        · simp at h

theorem isAlnum_inAlphabet (c : Char) (h : isAlnum c = true) : inAlphabet c = true := by
  simp [inAlphabet, h]

theorem rules_alphabet : ∀ r ∈ rules, ∀ pc ∈ r.1, ∀ c, pc.cls c = true → inAlphabet c = true := by
  intro r hr pc hpc c hc
  simp only [rules, List.mem_cons, List.mem_singleton, List.not_mem_nil, or_false] at hr
  rcases hr with hr | hr | hr | hr | hr | hr | hr | hr | hr | hr | hr | hr | hr | hr | hr |
    hr | hr
  all_goals subst hr
  all_goals simp only [List.mem_cons, List.mem_singleton, List.not_mem_nil, or_false] at hpc
  all_goals first
    | (subst hpc
       simp only [chr, beq_iff_eq] at hc
       first
         | (subst hc; decide)
         | exact isAlnum_inAlphabet c (isDec_isAlnum c hc))
    | (rcases hpc with hpc | hpc
       all_goals subst hpc
       all_goals simp only [chr, beq_iff_eq] at hc
       all_goals first
         | (subst hc; decide)
         | exact isAlnum_inAlphabet c hc)
    | (rcases hpc with hpc | hpc | hpc
       all_goals subst hpc
       all_goals simp only [chr, beq_iff_eq] at hc
       all_goals first
         | (subst hc; decide)
         | exact isAlnum_inAlphabet c (isX_isAlnum c hc)
         | exact isAlnum_inAlphabet c (isHex_isAlnum c hc))

/-- A match consumes characters of the alphabet only. -/
theorem first_match_alphabet (e : List Char) (len : Nat) (ty : TokenType)
    (h : first_match rules e = some (len, ty)) : ∀ c ∈ e.take len, inAlphabet c = true := by
  intro c hc
  obtain ⟨r, hr, h1, _⟩ := first_match_mem rules e len ty h
  obtain ⟨pc, hpc, hcls⟩ := regexec_classes r.1 e len h1 c hc
  exact rules_alphabet r hr pc hpc c hcls

/-- A text with a character outside the alphabet is never tokenized: the loop ends with
`return false`, as long as its stores stay inside `tokens[1024]`. -/
theorem lex_bad_character : ∀ (n : Nat) (e : List Char), e.length ≤ n → NUL ∉ e →
    (∃ c ∈ e, inAlphabet c = false) → ∀ (position : Nat) (acc : List Token),
    (∃ p, lex e position acc = LexOutcome.no_match p) ∨
      lex e position acc = LexOutcome.overflow := by
  intro n
  induction n with
  | zero =>
    intro e he _ hbad
    have : e = [] := List.length_eq_zero.mp (by omega)
    subst this
    obtain ⟨c, hc, _⟩ := hbad
    simp at hc
  | succ n ih =>
    intro e he hnul hbad position acc
    cases e with
    | nil => obtain ⟨c, hc, _⟩ := hbad; simp at hc
    | cons x xs =>
      have hx : x ≠ NUL := fun h => hnul (by rw [← h]; exact List.mem_cons_self _ _)
      rw [lex_cons, if_neg hx]
      cases hm : first_match rules (x :: xs) with
      | none => exact Or.inl ⟨position, rfl⟩
      | some r =>
        obtain ⟨len, ty⟩ := r
        have hb := first_match_bounds _ _ _ hm
        have hd : ((x :: xs).drop len).length ≤ n := by
          simp only [List.length_drop, List.length_cons] at he ⊢; omega
        have hnul2 : NUL ∉ (x :: xs).drop len := fun h => hnul (List.mem_of_mem_drop h)
        have hbad2 : ∃ c ∈ (x :: xs).drop len, inAlphabet c = false := by
          obtain ⟨c, hc, hcb⟩ := hbad
          refine ⟨c, ?_, hcb⟩
          rw [← List.take_append_drop len (x :: xs), List.mem_append] at hc
          rcases hc with hc | hc
          · rw [first_match_alphabet _ _ _ hm c hc] at hcb
            exact absurd hcb (by simp)
          · exact hc
        simp only []
        split
        · exact ih _ hd hnul2 hbad2 _ _
        · split
          · exact Or.inr rfl
          · exact ih _ hd hnul2 hbad2 _ _

/-- For a text with a character outside the alphabet, `expr` returns 0 with `*success`
false, as long as the stores of `make_token` stay inside `tokens[1024]`. -/
theorem bad_character_fails (m : Machine) (e : List Char) (hnul : NUL ∉ e)
    (hbad : ∃ c ∈ e, inAlphabet c = false) :
    expr m e = ExprOutcome.returned 0 false ∨ make_token e = LexOutcome.overflow := by
  rcases lex_bad_character e.length e (le_refl _) hnul hbad 0 [] with ⟨p, hp⟩ | hov
  · left
    apply expr_of_no_match m e p
    rw [make_token_eq, hp]
  · right
    rw [make_token_eq, hov]

theorem lex_one_space (rest : List Char) (position : Nat) (acc : List Token)
    (hlen : acc.length < 1024) (hrest : ∀ c, rest.head? = some c → c ≠ ' ') :
    lex ('1' :: ' ' :: rest) position acc =
      lex rest (position + 1 + 1) (acc ++ [⟨TK_NUM, ['1']⟩]) := by
  have h1 := lex_num ['1'] (' ' :: rest) position acc (by decide) (head_sep _ _ (by decide)) hlen
  have hsp : spanLen (fun x => x == ' ') rest = 0 := by
    cases rest with
    | nil => rfl
    | cons r rs => simp [spanLen, hrest r rfl]
  have hm : first_match rules (' ' :: rest) = some (1, TK_NOTYPE) := by
    simp [first_match, rules, regexec, chr, spanLen, hsp]
  have h2 : ['1'] ++ ' ' :: rest = '1' :: ' ' :: rest := rfl
  rw [h2] at h1
  rw [h1, lex_cons, if_neg (by decide), hm]
  simp only [if_true, List.drop_succ_cons, List.drop_zero]
  rfl

theorem lex_ones : ∀ (k : Nat) (rest : List Char) (position : Nat) (acc : List Token),
    acc.length + k ≤ 1024 → (∀ c, rest.head? = some c → c ≠ ' ') →
    ∃ position1, lex ((List.replicate k ['1', ' ']).flatten ++ rest) position acc =
      lex rest position1 (acc ++ List.replicate k ⟨TK_NUM, ['1']⟩) := by
  intro k
  induction k with
  | zero => intro rest position acc _ _; exact ⟨position, by simp⟩
  | succ k ih =>
    intro rest position acc hlen hrest
    have e1 : (List.replicate (k + 1) ['1', ' ']).flatten ++ rest =
        '1' :: ' ' :: ((List.replicate k ['1', ' ']).flatten ++ rest) := by
      simp [List.replicate_succ]
    have hhead : ∀ c, ((List.replicate k ['1', ' ']).flatten ++ rest).head? = some c → c ≠ ' ' := by
      intro c hc
      cases k with
      | zero => exact hrest c (by simpa using hc)
      | succ j =>
        simp [List.replicate_succ] at hc
        rw [← hc]; decide
    rw [e1, lex_one_space _ _ _ (by omega) hhead]
    obtain ⟨p1, hp1⟩ := ih rest (position + 1 + 1) (acc ++ [⟨TK_NUM, ['1']⟩])
      (by simp only [List.length_append, List.length_singleton]; omega) hrest
    refine ⟨p1, ?_⟩
    rw [hp1, List.append_assoc]
    rfl

theorem replicate_join_last (k : Nat) (x rest : List Char) :
    (List.replicate (k + 1) x).flatten ++ rest = (List.replicate k x).flatten ++ (x ++ rest) := by
  rw [List.replicate_succ', List.flatten_append]
  simp

theorem num_lex (s : List Char) (hs : isNumLit s = true) (hlen : s.length ≤ 31) :
    make_token s = LexOutcome.done [⟨TK_NUM, s⟩] := by
  have hl : lex (s ++ []) 0 [] = LexOutcome.done [⟨TK_NUM, s⟩] := by
    rw [lex_num s _ _ _ hs nil_sep (by simp), lex_nil, take31 s hlen]
    rfl
  rw [List.append_nil] at hl
  rw [make_token_of_lex _ _ hl]
  rfl

theorem num_expr (m : Machine) (s : List Char) (hs : isNumLit s = true)
    (hlen : s.length ≤ 31) (hv : litVal s < 2 ^ 64) :
    expr m s = ExprOutcome.returned (litVal s % WORD) true := by
  apply expr_of_evalL m s _ 1 _ _ (num_lex s hs hlen)
  have hp : post_process none [⟨TK_NUM, s⟩] = [⟨TK_NUM, s⟩] := rfl
  rw [hp, evalL]
  simp only [List.length_singleton, one_ne_zero, if_false, if_true, List.headD_cons]
  rw [eval_single_num m s true hs hv]

/-- C8: numeric literals are lexed as one token and read in the right base. A text made of
`0x` or `0X` and one or more hexadecimal digits, of at most 31 characters and of value below
`2 ^ 32`, is stored as one number token and `expr` returns its base-16 value; a text made
of one or more decimal digits, of at most 31 characters and of value below `2 ^ 32`, is
stored as one number token and `expr` returns its base-10 value, also when it starts with
`0`. -/
theorem numeric_literal_value (m : Machine) :
    (∀ s : List Char, isHexLit s = true → s.length ≤ 31 → digitsVal 16 (s.drop 2) < 2 ^ 32 →
      make_token s = LexOutcome.done [⟨TK_NUM, s⟩] ∧
      expr m s = ExprOutcome.returned (digitsVal 16 (s.drop 2)) true) ∧
    (∀ s : List Char, isDecLit s = true → s.length ≤ 31 → digitsVal 10 s < 2 ^ 32 →
      make_token s = LexOutcome.done [⟨TK_NUM, s⟩] ∧
      expr m s = ExprOutcome.returned (digitsVal 10 s) true) := by
  constructor
  · intro s hs hlen hv
    have hn : isNumLit s = true := by simp [isNumLit, hs]
    refine ⟨num_lex s hn hlen, ?_⟩
    have hv1 : digitsVal 16 (s.drop 2) < WORD := hv
    rw [num_expr m s hn hlen (by
      simp only [litVal, hs, if_true]
      exact lt_trans hv (by norm_num))]
    simp only [litVal, hs, if_true, Nat.mod_eq_of_lt hv1]
  · intro s hs hlen hv
    have hn : isNumLit s = true := by simp [isNumLit, hs]
    refine ⟨num_lex s hn hlen, ?_⟩
    have hv1 : digitsVal 10 s < WORD := hv
    rw [num_expr m s hn hlen (by
      simp only [litVal, isDecLit_not_hex s hs, Bool.false_eq_true, if_false]
      exact lt_trans hv (by norm_num))]
    simp [litVal, isDecLit_not_hex s hs, Nat.mod_eq_of_lt hv1]

/-- Witness for C8: `0x10` is 16, `0XfF` is 255, `010` is 10. -/
theorem numeric_literal_value_witness :
    expr zeroMachine ['0', 'x', '1', '0'] = ExprOutcome.returned 16 true ∧
      expr zeroMachine ['0', 'X', 'f', 'F'] = ExprOutcome.returned 255 true ∧
      expr zeroMachine ['0', '1', '0'] = ExprOutcome.returned 10 true :=
  ⟨((numeric_literal_value zeroMachine).1 ['0', 'x', '1', '0'] (by decide) (by decide)
      (by decide)).2,
    ((numeric_literal_value zeroMachine).1 ['0', 'X', 'f', 'F'] (by decide) (by decide)
      (by decide)).2,
    ((numeric_literal_value zeroMachine).2 ['0', '1', '0'] (by decide) (by decide)
      (by decide)).2⟩

/-- A register reference, followed by a character that is neither a letter nor a digit or
by nothing, is matched whole by the register rule. -/
theorem first_match_reg (n rest : List Char) (hne : n ≠ [])
    (hal : ∀ c ∈ n, isAlnum c = true) (hrest : ∀ c, rest.head? = some c → isAlnum c = false) :
    first_match rules ('$' :: n ++ rest) = some (n.length + 1, TK_REG) := by
  rw [List.cons_append, first_match_not_op '$' _ (by decide) (by decide)
    (by decide) (by decide) (by decide) (by decide) (by decide) (by decide) (by decide)
    (by decide) (by decide) (by decide)]
  have hsp := spanLen_append isAlnum n rest hal hrest
  have hpos : n.length ≠ 0 := by
    intro h; exact hne (List.length_eq_zero.mp h)
  have hd : isDec '$' = false := by decide
  simp [first_match, regexec, chr, hsp, hpos, spanLen, hd]

theorem reg_lex (n : List Char) (hne : n ≠ []) (hlen : n.length ≤ 30)
    (hal : ∀ c ∈ n, isAlnum c = true) :
    make_token ('$' :: n) = LexOutcome.done [⟨TK_REG, '$' :: n⟩] := by
  have hm := first_match_reg n [] hne hal (by intro c hc; simp at hc)
  rw [List.append_nil] at hm
  have hl : lex ('$' :: n) 0 [] = LexOutcome.done [⟨TK_REG, '$' :: n⟩] := by
    rw [lex_step '$' n 0 [] _ _ (by decide) hm (by decide) (by simp)]
    have h1 : ('$' :: n).drop (n.length + 1) = [] := by simp
    have h2 : ('$' :: n).take (min (n.length + 1) 31) = '$' :: n := by
      rw [Nat.min_eq_left (by omega)]; simp
    rw [h1, h2, lex_nil]
    rfl
  rw [make_token_of_lex _ _ hl]
  rfl

theorem reg_expr (m : Machine) (n : List Char) (hne : n ≠ []) (hlen : n.length ≤ 30)
    (hal : ∀ c ∈ n, isAlnum c = true) :
    expr m ('$' :: n) =
      if (isa_reg_str2val m n).2 = true then ExprOutcome.returned (isa_reg_str2val m n).1 true
      else ExprOutcome.returned 0 false := by
  by_cases h : (isa_reg_str2val m n).2 = true
  · rw [if_pos h]
    apply expr_of_evalL m _ _ 1 _ _ (reg_lex n hne hlen hal)
    have hp : post_process none [⟨TK_REG, '$' :: n⟩] = [⟨TK_REG, '$' :: n⟩] := rfl
    rw [hp, evalL]
    simp only [List.length_singleton, one_ne_zero, if_false, if_true, List.headD_cons,
      eval_single, List.drop_succ_cons, List.drop_zero, h]
    rw [← h]
  · rw [if_neg h]
    apply expr_of_evalL m _ _ 1 _ _ (reg_lex n hne hlen hal)
    have hp : post_process none [⟨TK_REG, '$' :: n⟩] = [⟨TK_REG, '$' :: n⟩] := rfl
    rw [hp, evalL]
    simp only [List.length_singleton, one_ne_zero, if_false, if_true, List.headD_cons,
      eval_single, List.drop_succ_cons, List.drop_zero, h]
    simp

/-- The loop of `isa_reg_str2val` ends without a result when no iteration matches. -/
theorem isa_reg_str2val_loop_miss (m : Machine) (n : List Char) : ∀ (k i : Nat),
    (∀ j, i ≤ j → j < i + k → ¬ (j = 0 ∧ n = ['z', 'e', 'r', 'o']) ∧
      n ≠ (regs.getD j []).drop (if j = 0 then 1 else 0)) →
    isa_reg_str2val_loop m n k i = (0, false) := by
  intro k
  induction k with
  | zero => intro i _; rfl
  | succ k ih =>
    intro i h
    have hi := h i (le_refl _) (by omega)
    rw [isa_reg_str2val_loop, if_neg hi.1, if_neg hi.2]
    exact ih (i + 1) (fun j h1 h2 => h j (by omega) (by omega))

theorem alnum_head (n : List Char) (hal : ∀ c ∈ n, isAlnum c = true) :
    ¬ (n.head? = some '$') := by
  intro h
  cases n with
  | nil => simp at h
  | cons c cs =>
    simp only [List.head?_cons, Option.some.injEq] at h
    have := hal c (List.mem_cons_self _ _)
    rw [h] at this
    exact absurd this (by decide)

theorem isa_reg_str2val_alnum (m : Machine) (n : List Char)
    (hal : ∀ c ∈ n, isAlnum c = true) :
    isa_reg_str2val m n =
      if n = ['p', 'c'] then (m.pc, true) else isa_reg_str2val_loop m n 32 0 := by
  unfold isa_reg_str2val
  have h := alnum_head n hal
  simp only [h, false_and, if_false]

theorem abiNames_regs (n : List Char) :
    n ∈ abiNames ↔ ∃ i, 1 ≤ i ∧ i < 32 ∧ n = regs.getD i [] := by
  constructor
  · intro h
    simp only [abiNames, List.mem_cons, List.mem_singleton, List.not_mem_nil, or_false] at h
    rcases h with h | h | h | h | h | h | h | h | h | h | h | h | h | h | h | h | h | h | h |
      h | h | h | h | h | h | h | h | h | h | h | h
    · exact ⟨1, by omega, by omega, h⟩
    · exact ⟨2, by omega, by omega, h⟩
    · exact ⟨3, by omega, by omega, h⟩
    · exact ⟨4, by omega, by omega, h⟩
    · exact ⟨5, by omega, by omega, h⟩
    · exact ⟨6, by omega, by omega, h⟩
    · exact ⟨7, by omega, by omega, h⟩
    · exact ⟨28, by omega, by omega, h⟩
    · exact ⟨29, by omega, by omega, h⟩
    · exact ⟨30, by omega, by omega, h⟩
    · exact ⟨31, by omega, by omega, h⟩
    · exact ⟨8, by omega, by omega, h⟩
    · exact ⟨9, by omega, by omega, h⟩
    · exact ⟨18, by omega, by omega, h⟩
    · exact ⟨19, by omega, by omega, h⟩
    · exact ⟨20, by omega, by omega, h⟩
    · exact ⟨21, by omega, by omega, h⟩
    · exact ⟨22, by omega, by omega, h⟩
    · exact ⟨23, by omega, by omega, h⟩
    · exact ⟨24, by omega, by omega, h⟩
    · exact ⟨25, by omega, by omega, h⟩
    · exact ⟨26, by omega, by omega, h⟩
    · exact ⟨27, by omega, by omega, h⟩
    · exact ⟨10, by omega, by omega, h⟩
    · exact ⟨11, by omega, by omega, h⟩
    · exact ⟨12, by omega, by omega, h⟩
    · exact ⟨13, by omega, by omega, h⟩
    · exact ⟨14, by omega, by omega, h⟩
    · exact ⟨15, by omega, by omega, h⟩
    · exact ⟨16, by omega, by omega, h⟩
    · exact ⟨17, by omega, by omega, h⟩
  · rintro ⟨i, h1, h2, rfl⟩
    interval_cases i <;> decide

/-- C9: register references resolve by bare name. For a name `n` of 1 to 30 letters and
digits, `expr("$n")` returns the program counter for `pc`, 0 for `zero`, `gpr(0)` for `0`
and `gpr(i)` for the name at index `i` of `regs` (`1 ≤ i < 32`), each with `*success` true;
for every other name it returns 0 with `*success` false. So it succeeds exactly for `pc`,
`zero`, `0` and the 31 ABI names. -/
theorem register_reference (m : Machine) (n : List Char) (hne : n ≠ [])
    (hlen : n.length ≤ 30) (hal : ∀ c ∈ n, isAlnum c = true) :
    (n = ['p', 'c'] → expr m ('$' :: n) = ExprOutcome.returned m.pc true) ∧
    (n = ['z', 'e', 'r', 'o'] → expr m ('$' :: n) = ExprOutcome.returned 0 true) ∧
    (n = ['0'] → expr m ('$' :: n) = ExprOutcome.returned (m.gpr 0) true) ∧
    (∀ i, 1 ≤ i → i < 32 → n = regs.getD i [] →
      expr m ('$' :: n) = ExprOutcome.returned (m.gpr i) true) ∧
    ((n ≠ ['p', 'c'] ∧ n ≠ ['z', 'e', 'r', 'o'] ∧ n ≠ ['0'] ∧ n ∉ abiNames) →
      expr m ('$' :: n) = ExprOutcome.returned 0 false) ∧
    ((∃ v, expr m ('$' :: n) = ExprOutcome.returned v true) ↔
      (n = ['p', 'c'] ∨ n = ['z', 'e', 'r', 'o'] ∨ n = ['0'] ∨ n ∈ abiNames)) := by
  have hA : n = ['p', 'c'] → expr m ('$' :: n) = ExprOutcome.returned m.pc true := by
    rintro rfl; rfl
  have hB : n = ['z', 'e', 'r', 'o'] → expr m ('$' :: n) = ExprOutcome.returned 0 true := by
    rintro rfl; rfl
  have hC : n = ['0'] → expr m ('$' :: n) = ExprOutcome.returned (m.gpr 0) true := by
    rintro rfl; rfl
  have hD : ∀ i, 1 ≤ i → i < 32 → n = regs.getD i [] →
      expr m ('$' :: n) = ExprOutcome.returned (m.gpr i) true := by
    intro i h1 h2 h
    subst h
    interval_cases i <;> rfl
  have hE : (n ≠ ['p', 'c'] ∧ n ≠ ['z', 'e', 'r', 'o'] ∧ n ≠ ['0'] ∧ n ∉ abiNames) →
      expr m ('$' :: n) = ExprOutcome.returned 0 false := by
    rintro ⟨h1, h2, h3, h4⟩
    have hloop : isa_reg_str2val_loop m n 32 0 = (0, false) := by
      apply isa_reg_str2val_loop_miss
      intro j _ hj
      refine ⟨fun h => h2 h.2, ?_⟩
      by_cases hj0 : j = 0
      · subst hj0; exact h3
      · rw [if_neg hj0, List.drop_zero]
        intro h
        exact h4 ((abiNames_regs n).mpr ⟨j, by omega, by omega, h⟩)
    rw [reg_expr m n hne hlen hal, isa_reg_str2val_alnum m n hal, if_neg h1, hloop]
    simp
  refine ⟨hA, hB, hC, hD, hE, ?_⟩
  constructor
  · rintro ⟨v, hv⟩
    by_contra hcon
    simp only [not_or] at hcon
    rw [hE ⟨hcon.1, hcon.2.1, hcon.2.2.1, hcon.2.2.2⟩] at hv
    simp at hv
  · rintro (h | h | h | h)
    · exact ⟨_, hA h⟩
    · exact ⟨_, hB h⟩
    · exact ⟨_, hC h⟩
    · obtain ⟨i, h1, h2, h3⟩ := (abiNames_regs n).mp h
      exact ⟨_, hD i h1 h2 h3⟩

/-- Witness for C9: `$a0` is register 10 and `$x1` is not a register name. -/
theorem register_reference_witness :
    expr addrMachine ['$', 'a', '0'] = ExprOutcome.returned 10 true ∧
      expr addrMachine ['$', 'x', '1'] = ExprOutcome.returned 0 false :=
  ⟨(register_reference addrMachine ['a', '0'] (by decide) (by decide) (by decide)).2.2.2.1 10
      (by decide) (by decide) (by decide),
    (register_reference addrMachine ['x', '1'] (by decide) (by decide) (by decide)).2.2.2.2.1
      (by decide)⟩

theorem regexec_head (pc : Piece) (ps : List Piece) (e : List Char) (len : Nat)
    (h : regexec (pc :: ps) e = some len) :
    ∃ c cs, e = c :: cs ∧ pc.cls c = true := by
  unfold regexec at h
  split at h
  · split at h
    · simp at h
    · rename_i hsp
      cases e with
      | nil => simp [spanLen] at hsp
      | cons c cs =>
        refine ⟨c, cs, rfl, ?_⟩
        by_contra hc
        simp [spanLen, hc] at hsp
  · split at h
    · simp at h
    · rename_i c cs
      split at h
      · rename_i hc; exact ⟨c, cs, rfl, hc⟩
      · simp at h

theorem regexec_single (cls : Char → Bool) (e : List Char) (len : Nat)
    (h : regexec [⟨cls, false⟩] e = some len) : len = 1 := by
  unfold regexec at h
  simp only [Bool.false_eq_true, if_false] at h
  split at h
  · simp at h
  · split at h
    · simp [regexec] at h; omega
    · simp at h

theorem take_head (c : Char) (cs : List Char) (len : Nat) (h : 1 ≤ len) :
    ∃ tl, (c :: cs).take (min len 31) = c :: tl := by
  have : min len 31 = (min len 31 - 1) + 1 := by omega
  rw [this, List.take_succ_cons]
  exact ⟨_, rfl⟩

/-- Every token the `while` loop stores has the kind of its text, as far as `*` and `-` are
concerned. -/
theorem first_match_rawOK (e : List Char) (len : Nat) (ty : TokenType)
    (h : first_match rules e = some (len, ty)) : RawOK ⟨ty, e.take (min len 31)⟩ := by
  obtain ⟨r, hr, h1, h2⟩ := first_match_mem rules e len ty h
  have hb := first_match_bounds e len ty h
  obtain ⟨pc, ps, hp⟩ := rules_nonempty r hr
  have h1' := h1
  rw [hp] at h1'
  obtain ⟨c, cs, rfl, hc⟩ := regexec_head pc ps _ len h1'
  obtain ⟨tl, htl⟩ := take_head c cs len hb.1
  simp only [rules, List.mem_cons, List.mem_singleton, List.not_mem_nil, or_false] at hr
  unfold RawOK
  rw [htl]
  rcases hr with hr | hr | hr | hr | hr | hr | hr | hr | hr | hr | hr | hr | hr | hr | hr |
    hr | hr
  all_goals subst hr
  all_goals simp only [List.cons.injEq] at hp
  all_goals obtain ⟨hp1, hp2⟩ := hp
  all_goals subst hp1
  all_goals subst h2
  all_goals simp only [chr, beq_iff_eq] at hc
  all_goals dsimp only at h1 ⊢
  all_goals first
    | (refine ⟨?_, ?_, by decide, by decide⟩
       · constructor
         · intro hh; exact absurd hh (by decide)
         · intro hh
           simp only [List.cons.injEq] at hh
           rw [hh.1] at hc
           revert hc; decide
       · constructor
         · intro hh; exact absurd hh (by decide)
         · intro hh
           simp only [List.cons.injEq] at hh
           rw [hh.1] at hc
           revert hc; decide)
    | (have hl := regexec_single _ _ _ h1
       subst hl
       subst hc
       simp at htl
       simp [← htl])

theorem lex_rawOK : ∀ (n : Nat) (e : List Char), e.length ≤ n → ∀ (position : Nat)
    (acc ts : List Token), lex e position acc = LexOutcome.done ts →
    (∀ t ∈ acc, RawOK t) → ∀ t ∈ ts, RawOK t := by
  intro n
  induction n with
  | zero =>
    intro e he position acc ts h hacc
    have : e = [] := List.length_eq_zero.mp (by omega)
    subst this
    rw [lex_nil] at h
    injection h with h
    rw [← h]; exact hacc
  | succ n ih =>
    intro e he position acc ts h hacc
    cases e with
    | nil =>
      rw [lex_nil] at h
      injection h with h
      rw [← h]; exact hacc
    | cons c cs =>
      rw [lex_cons] at h
      by_cases hc : c = NUL
      · rw [if_pos hc] at h
        injection h with h
        rw [← h]; exact hacc
      · rw [if_neg hc] at h
        cases hm : first_match rules (c :: cs) with
        | none => rw [hm] at h; exact absurd h (by simp)
        | some r =>
          obtain ⟨len, ty⟩ := r
          rw [hm] at h
          simp only [] at h
          have hb := first_match_bounds _ _ _ hm
          have hd : ((c :: cs).drop len).length ≤ n := by
            simp only [List.length_drop, List.length_cons] at he ⊢; omega
          by_cases hty : ty = TK_NOTYPE
          · rw [if_pos hty] at h
            exact ih _ hd _ _ _ h hacc
          · rw [if_neg hty] at h
            by_cases hov : 1024 ≤ acc.length
            · rw [if_pos hov] at h; exact absurd h (by simp)
            · rw [if_neg hov] at h
              apply ih _ hd _ _ _ h
              intro t ht
              simp only [List.mem_append, List.mem_singleton] at ht
              rcases ht with ht | ht
              · exact hacc t ht
              · rw [ht]; exact first_match_rawOK _ _ _ hm

theorem getD_mem (ts : List Token) (i : Nat) (hi : i < ts.length) : ts.getD i noTok ∈ ts := by
  rw [List.getD_eq_getElem?_getD, List.getElem?_eq_getElem hi]
  exact List.getElem_mem _

/-- The token the post-processing loop leaves at index `i`: the two `if` statements applied
to the stored token, with the kind of the rewritten token at `i - 1`. -/
theorem post_process_getD (ts : List Token) : ∀ (prev : Option TokenType) (i : Nat),
    i < ts.length →
    (post_process prev ts).getD i noTok =
      classify (if i = 0 then prev else some ((post_process prev ts).getD (i - 1) noTok).type)
        (ts.getD i noTok) := by
  induction ts with
  | nil => intro prev i hi; simp at hi
  | cons t ts ih =>
    intro prev i hi
    cases i with
    | zero => simp [post_process]
    | succ i =>
      simp only [List.length_cons, Nat.add_lt_add_iff_right] at hi
      simp only [post_process, List.getD_cons_succ, Nat.add_sub_cancel, Nat.add_one_ne_zero,
        if_false]
      rw [ih _ i hi]
      cases i with
      | zero => simp
      | succ j => simp

theorem classify_spec (prev : Option TokenType) (r : Token) (hr : RawOK r) :
    (classify prev r).str = r.str ∧
    ((classify prev r).type = TK_DEREF ↔ r.str = ['*'] ∧
      (prev = none ∨ ∃ k, prev = some k ∧ k ≠ TK_NUM ∧ k ≠ TK_REG ∧ k ≠ RPAREN)) ∧
    ((classify prev r).type = TK_NEGATIVE ↔ r.str = ['-'] ∧
      (prev = none ∨ ∃ k, prev = some k ∧ k ≠ TK_NUM ∧ k ≠ TK_REG ∧ k ≠ RPAREN)) ∧
    ((classify prev r).type = STAR ↔ r.str = ['*'] ∧
      ¬ (prev = none ∨ ∃ k, prev = some k ∧ k ≠ TK_NUM ∧ k ≠ TK_REG ∧ k ≠ RPAREN)) ∧
    ((classify prev r).type = MINUS ↔ r.str = ['-'] ∧
      ¬ (prev = none ∨ ∃ k, prev = some k ∧ k ≠ TK_NUM ∧ k ≠ TK_REG ∧ k ≠ RPAREN)) ∧
    (r.str ≠ ['*'] → r.str ≠ ['-'] → (classify prev r).type = r.type) := by
  obtain ⟨ty, str⟩ := r
  obtain ⟨h1, h2, h3, h4⟩ := hr
  simp only at h1 h2 h3 h4
  have hne : ¬ (str = ['*'] ∧ str = ['-']) := by
    rintro ⟨ha, hb⟩; rw [ha] at hb; exact absurd hb (by decide)
  by_cases hs : ty = STAR
  · have hstr := h1.mp hs
    subst hs; subst hstr
    cases prev with
    | none => simp [classify]
    | some k =>
      by_cases hk : (k ≠ TK_NUM ∧ k ≠ TK_REG ∧ k ≠ RPAREN)
      · simp [classify, hk]
      · simp [classify, hk]
  · by_cases hm : ty = MINUS
    · have hstr := h2.mp hm
      subst hm; subst hstr
      cases prev with
      | none => simp [classify]
      | some k =>
        by_cases hk : (k ≠ TK_NUM ∧ k ≠ TK_REG ∧ k ≠ RPAREN)
        · simp [classify, hk]
        · simp [classify, hk]
    · have hs1 : str ≠ ['*'] := fun h => hs (h1.mpr h)
      have hm1 : str ≠ ['-'] := fun h => hm (h2.mpr h)
      simp [classify, hs, hm, hs1, hm1, h3, h4]

/-- C10: unary/binary disambiguation is purely positional. After a successful `make_token`
with tokens `ts`, where `raw` are the tokens as the `while` loop stored them (each with the
kind of the rule that matched it), for every index `i`: the token has the text stored for
it; its kind is `TK_DEREF` exactly when its text is `*` and `i = 0` or the kind of token
`i - 1` is none of `TK_NUM`, `TK_REG`, `')'`; `TK_NEGATIVE` exactly when its text is `-` under
the same condition; `'*'` (respectively `'-'`) exactly when its text is `*` (respectively
`-`) and token `i - 1` exists and is `TK_NUM`, `TK_REG` or `')'`; and every other token
keeps the kind of the rule that matched it. -/
theorem unary_binary_positional (e : List Char) (ts : List Token)
    (h : make_token e = LexOutcome.done ts) :
    ∃ raw, make_token_loop (e.length + 1) e 0 [] = LexOutcome.done raw ∧
      ts.length = raw.length ∧
      ∀ i, i < ts.length →
        (ts.getD i noTok).str = (raw.getD i noTok).str ∧
        ((ts.getD i noTok).type = TK_DEREF ↔
          (ts.getD i noTok).str = ['*'] ∧ unaryPosition ts i) ∧
        ((ts.getD i noTok).type = TK_NEGATIVE ↔
          (ts.getD i noTok).str = ['-'] ∧ unaryPosition ts i) ∧
        ((ts.getD i noTok).type = STAR ↔
          (ts.getD i noTok).str = ['*'] ∧ ¬ unaryPosition ts i) ∧
        ((ts.getD i noTok).type = MINUS ↔
          (ts.getD i noTok).str = ['-'] ∧ ¬ unaryPosition ts i) ∧
        ((ts.getD i noTok).str ≠ ['*'] → (ts.getD i noTok).str ≠ ['-'] →
          (ts.getD i noTok).type = (raw.getD i noTok).type) := by
  obtain ⟨raw, hraw, hts⟩ := make_token_done e ts h
  refine ⟨raw, hraw, by rw [hts, post_process_length], ?_⟩
  intro i hi
  have hi2 : i < raw.length := by rw [hts, post_process_length] at hi; exact hi
  have hok : RawOK (raw.getD i noTok) :=
    lex_rawOK e.length e (le_refl _) 0 [] raw hraw (by simp) _ (getD_mem raw i hi2)
  have hget := post_process_getD raw none i hi2
  rw [← hts] at hget
  have hspec := classify_spec
    (if i = 0 then none else some (ts.getD (i - 1) noTok).type) (raw.getD i noTok) hok
  rw [← hget] at hspec
  have hpos : (((if i = 0 then none else some (ts.getD (i - 1) noTok).type) :
      Option TokenType) = none ∨
      ∃ k, (if i = 0 then none else some (ts.getD (i - 1) noTok).type) = some k ∧
        k ≠ TK_NUM ∧ k ≠ TK_REG ∧ k ≠ RPAREN) ↔ unaryPosition ts i := by
    unfold unaryPosition
    by_cases h0 : i = 0
    · simp [h0]
    · simp [h0]
  rw [hpos] at hspec
  obtain ⟨s1, s2, s3, s4, s5, s6⟩ := hspec
  rw [← s1] at s2 s3 s4 s5 s6
  exact ⟨s1, s2, s3, s4, s5, s6⟩

/-- Witness for C10: the tokens of `2*-3`; the `*` after a number stays binary and the
`-` after it becomes unary. -/
theorem unary_binary_positional_witness :
    make_token ['2', '*', '-', '3'] = LexOutcome.done tokens_2_star_minus_3 ∧
      ∃ raw, make_token_loop (['2', '*', '-', '3'].length + 1) ['2', '*', '-', '3'] 0 [] =
          LexOutcome.done raw ∧
        ((tokens_2_star_minus_3.getD 2 noTok).type = TK_NEGATIVE ↔
          (tokens_2_star_minus_3.getD 2 noTok).str = ['-'] ∧
            unaryPosition tokens_2_star_minus_3 2) :=
  ⟨by decide,
    (unary_binary_positional ['2', '*', '-', '3'] tokens_2_star_minus_3 (by decide)).imp
      (fun _ h => ⟨h.1, (h.2.2 2 (by decide)).2.2.1⟩)⟩

/-! ## C11, C12: the main operator -/

theorem priority_nonneg (t : TokenType) : 0 ≤ priority t := by
  cases t <;> decide

theorem priority_tok_neg_one (tokens : List Token) :
    ¬ 0 < priority (tok tokens (-1)).type := by
  have h : tok tokens (-1) = ⟨TK_NOTYPE, []⟩ := rfl
  rw [h]; decide

theorem priority_paren (t : TokenType) (h : t = LPAREN ∨ t = RPAREN) : priority t = 0 := by
  rcases h with rfl | rfl <;> rfl

/-- One iteration of the loop of `find_main_op` keeps `ScanInv`, as long as the depth is not
negative. -/
theorem scanInv_step (tokens : List Token) (p : Int) (k : Nat) (s : ScanState)
    (hd : 0 ≤ depthFrom tokens p k) (h : ScanInv tokens p k s) :
    ScanInv tokens p (k + 1) (find_main_op_step (tok tokens (p + k)) (p + k) s) := by
  obtain ⟨hc, hop⟩ := h
  -- what the invariant says when the token at `p + k` is not an operator at depth 0
  have hkeep : ¬ opAtDepth0 tokens p k → ∀ c : Int,
      c = depthFrom tokens p (k + 1) → ScanInv tokens p (k + 1) ⟨s.op_pos, s.op_priority, c⟩ := by
    intro hno c hcv
    refine ⟨hcv, ?_⟩
    rcases hop with ⟨h1, h2⟩ | ⟨r, hr, h1, h2, h3, h4, h5⟩
    · left
      refine ⟨h1, fun j hj => ?_⟩
      by_cases hjk : j = k
      · rw [hjk]; exact hno
      · exact h2 j (by omega)
    · right
      refine ⟨r, by omega, h1, h2, h3, fun j hj hj0 => ?_, fun j hrj hj hj0 => ?_⟩
      · by_cases hjk : j = k
        · rw [hjk] at hj0; exact absurd hj0 hno
        · exact h4 j (by omega) hj0
      · by_cases hjk : j = k
        · rw [hjk] at hj0; exact absurd hj0 hno
        · exact h5 j hrj (by omega) hj0
  unfold find_main_op_step
  by_cases h1 : (tok tokens (p + k)).type = LPAREN
  · rw [if_pos h1]
    apply hkeep
    · intro hh; have := hh.1; rw [h1] at this; exact absurd this (by decide)
    · simp only [depthFrom, paren_count, h1, if_true, hc]
  · rw [if_neg h1]
    by_cases h2 : (tok tokens (p + k)).type = RPAREN
    · rw [if_pos h2]
      apply hkeep
      · intro hh; have := hh.1; rw [h2] at this; exact absurd this (by decide)
      · simp only [depthFrom, paren_count, h2, hc]
        rw [if_neg (by decide)]; simp only [if_true]
    · rw [if_neg h2]
      have hdep : depthFrom tokens p (k + 1) = depthFrom tokens p k := by
        simp only [depthFrom, paren_count, h1, h2, if_false]
      by_cases h3 : s.bracket_count > 0
      · rw [if_pos h3]
        have := hkeep (by intro hh; have := hh.2; omega) s.bracket_count (by rw [hdep, hc])
        exact this
      · rw [if_neg h3]
        have hzero : depthFrom tokens p k = 0 := by omega
        by_cases h4 : priority (tok tokens (p + k)).type > 0 ∧
            (s.op_pos = -1 ∨ priority (tok tokens (p + k)).type ≤ s.op_priority)
        · rw [if_pos h4]
          refine ⟨by simp only []; rw [hdep, hc], Or.inr ⟨k, by omega, rfl, ⟨h4.1, hzero⟩, rfl,
            fun j hj hj0 => ?_, fun j hkj hj _ => by omega⟩⟩
          simp only []
          by_cases hjk : j = k
          · rw [hjk]
          · rcases hop with ⟨_, h6⟩ | ⟨r, hr, h5, h6, h7, h8, h9⟩
            · exact absurd hj0 (h6 j (by omega))
            · have hmin := h8 j (by omega) hj0
              rcases h4.2 with h10 | h10
              · rw [h10] at h5
                have := h6.1
                have hneg : tok tokens (p + (r : Int)) = tok tokens (-1) := by rw [← h5]
                rw [hneg] at this
                exact absurd this (priority_tok_neg_one tokens)
              · omega
        · rw [if_neg h4]
          by_cases h5 : priority (tok tokens (p + k)).type > 0
          · -- an operator of higher rank than the one recorded
            have h6 : ¬ (s.op_pos = -1) ∧ s.op_priority < priority (tok tokens (p + k)).type := by
              constructor
              · intro h; exact h4 ⟨h5, Or.inl h⟩
              · by_contra hle; exact h4 ⟨h5, Or.inr (by omega)⟩
            refine ⟨by rw [hdep, hc], ?_⟩
            rcases hop with ⟨h7, _⟩ | ⟨r, hr, h7, h8, h9, h10, h11⟩
            · exact absurd h7 h6.1
            · right
              refine ⟨r, by omega, h7, h8, h9, fun j hj hj0 => ?_, fun j hrj hj hj0 => ?_⟩
              · by_cases hjk : j = k
                · rw [hjk]; omega
                · exact h10 j (by omega) hj0
              · by_cases hjk : j = k
                · rw [hjk]; exact h6.2
                · exact h11 j hrj (by omega) hj0
          · have := hkeep (by intro hh; exact h5 hh.1) s.bracket_count (by rw [hdep, hc])
            exact this

theorem scanInv_loop (tokens : List Token) (p : Int) : ∀ (n k : Nat) (s : ScanState),
    (∀ j, j ≤ k + n → 0 ≤ depthFrom tokens p j) → ScanInv tokens p k s →
    ScanInv tokens p (k + n) (find_main_op_loop tokens n (p + k) s) := by
  intro n
  induction n with
  | zero => intro k s _ h; exact h
  | succ n ih =>
    intro k s hd h
    rw [find_main_op_loop]
    have h1 := scanInv_step tokens p k s (hd k (by omega)) h
    have h2 := ih (k + 1) _ (fun j hj => hd j (by omega)) h1
    have e1 : p + ((k + 1 : Nat) : Int) = p + (k : Int) + 1 := by push_cast; ring
    have e2 : k + 1 + n = k + (n + 1) := by omega
    rw [e1, e2] at h2
    exact h2

/-- At the end of its loop, `find_main_op` on a range whose depth is never negative holds the
rightmost of the operators of lowest rank at depth 0, or -1 if there is none. -/
theorem find_main_op_inv (tokens : List Token) (p q : Int)
    (hd : ∀ k, k ≤ (q - p + 1).toNat → 0 ≤ depthFrom tokens p k) :
    ScanInv tokens p (q - p + 1).toNat
      (find_main_op_loop tokens (q - p + 1).toNat p ⟨-1, 0, 0⟩) := by
  have h := scanInv_loop tokens p (q - p + 1).toNat 0 ⟨-1, 0, 0⟩
    (fun j hj => hd j (by omega)) ⟨rfl, Or.inl ⟨rfl, fun j hj => by omega⟩⟩
  simpa using h

theorem opAtDepth0_ne_neg_one (tokens : List Token) (p : Int) (r : Nat)
    (h : opAtDepth0 tokens p r) : p + (r : Int) ≠ -1 := by
  intro heq
  have := h.1
  rw [heq] at this
  exact absurd this (priority_tok_neg_one tokens)

/-- C11: the main operator has the loosest precedence outside parentheses. For every token
range `[p, q]` whose parentheses are balanced, `find_main_op(p, q)` returns -1 if and only if
no token of the range is an operator at parenthesis depth 0; otherwise it returns the index
of an operator at depth 0 in the range whose rank is less than or equal to the rank of
every operator at depth 0 in the range. The ranks are `OR` 1, `AND` 2, `BIT_OR` 3,
`BIT_XOR` 4, `BIT_AND` 5, `EQ` and `NEQ` 6, binary `+` and `-` 7, binary `*` and `/` 8,
`DEREF` and `NEGATIVE` 9. -/
theorem main_operator_loosest (tokens : List Token) (p q : Int)
    (hb : balancedRange tokens p q) :
    (find_main_op tokens p q = -1 ↔
      ∀ k, k < (q - p + 1).toNat → ¬ opAtDepth0 tokens p k) ∧
    (find_main_op tokens p q ≠ -1 →
      ∃ k, k < (q - p + 1).toNat ∧ find_main_op tokens p q = p + (k : Int) ∧
        opAtDepth0 tokens p k ∧
        ∀ j, j < (q - p + 1).toNat → opAtDepth0 tokens p j →
          priority (tok tokens (p + k)).type ≤ priority (tok tokens (p + j)).type) ∧
    (priority TK_OR = 1 ∧ priority TK_AND = 2 ∧ priority TK_BIT_OR = 3 ∧
      priority TK_BIT_XOR = 4 ∧ priority TK_BIT_AND = 5 ∧ priority TK_EQ = 6 ∧
      priority TK_NEQ = 6 ∧ priority PLUS = 7 ∧ priority MINUS = 7 ∧ priority STAR = 8 ∧
      priority SLASH = 8 ∧ priority TK_DEREF = 9 ∧ priority TK_NEGATIVE = 9) := by
  obtain ⟨_, hinv⟩ := find_main_op_inv tokens p q hb.1
  refine ⟨?_, ?_, by decide⟩
  · unfold find_main_op
    constructor
    · intro h
      rcases hinv with ⟨_, h2⟩ | ⟨r, _, h1, h2, _⟩
      · exact h2
      · rw [h1] at h; exact absurd h (opAtDepth0_ne_neg_one tokens p r h2)
    · intro h
      rcases hinv with ⟨h1, _⟩ | ⟨r, hr, _, h2, _⟩
      · exact h1
      · exact absurd h2 (h r hr)
  · unfold find_main_op
    intro h
    rcases hinv with ⟨h1, _⟩ | ⟨r, hr, h1, h2, h3, h4, _⟩
    · exact absurd h1 h
    · exact ⟨r, hr, h1, h2, fun j hj hj0 => by rw [← h3]; exact h4 j hj hj0⟩

theorem balanced_10_minus_2_minus_3 : balancedRange tokens_10_minus_2_minus_3 0 4 :=
  ⟨fun k hk => by
    have hk5 : k ≤ 5 := hk
    interval_cases k <;> decide, by decide⟩

/-- Witness for C11: the parentheses of the tokens of `10-2-3` are balanced, and the main
operator is an operator at depth 0. -/
theorem main_operator_loosest_witness :
    balancedRange tokens_10_minus_2_minus_3 0 4 ∧
      find_main_op tokens_10_minus_2_minus_3 0 4 ≠ -1 ∧
      ∃ k : Nat, k < 5 ∧ find_main_op tokens_10_minus_2_minus_3 0 4 = 0 + (k : Int) ∧
        opAtDepth0 tokens_10_minus_2_minus_3 0 k :=
  ⟨balanced_10_minus_2_minus_3, by decide,
    ((main_operator_loosest tokens_10_minus_2_minus_3 0 4
      balanced_10_minus_2_minus_3).2.1 (by decide)).imp
      (fun _ h => ⟨h.1, h.2.1, h.2.2.1⟩)⟩

/-- C12, as the specification states it, fails: in the tokens of `10-2-3` the two `-` at
indices 1 and 3 are the operators of lowest rank outside parentheses, and `find_main_op`
returns 3, not the leftmost of them, 1. -/
theorem leftmost_tie_refuted :
    make_token ['1', '0', '-', '2', '-', '3'] = LexOutcome.done tokens_10_minus_2_minus_3 ∧
    opAtDepth0 tokens_10_minus_2_minus_3 0 1 ∧ opAtDepth0 tokens_10_minus_2_minus_3 0 3 ∧
    (∀ j, j < 5 → opAtDepth0 tokens_10_minus_2_minus_3 0 j →
      priority (tok tokens_10_minus_2_minus_3 1).type ≤
        priority (tok tokens_10_minus_2_minus_3 (0 + (j : Int))).type) ∧
    priority (tok tokens_10_minus_2_minus_3 3).type =
      priority (tok tokens_10_minus_2_minus_3 1).type ∧
    find_main_op tokens_10_minus_2_minus_3 0 4 = 3 ∧
    find_main_op tokens_10_minus_2_minus_3 0 4 ≠ 1 := by
  refine ⟨by decide, by decide, by decide, ?_, by decide, by decide, by decide⟩
  intro j hj
  interval_cases j <;> decide

/-- C12, amended: ties for the main operator between binary operators are broken to the
right. For every token range `[p, q]` whose parentheses are balanced, if the token at index
`p + k` is a binary operator (an operator other than `DEREF` and `NEGATIVE`) at depth 0
whose rank is the lowest among the operators at depth 0 of the range, and every operator at
depth 0 to its right has a strictly higher rank, then `find_main_op(p, q)` returns `p + k`:
of the operators of lowest rank outside parentheses, the rightmost, which makes the binary
operators associate to the left. Ranges in which the lowest rank present is that of the
unary operators are not covered. -/
theorem rightmost_tie (tokens : List Token) (p q : Int) (k : Nat)
    (hb : balancedRange tokens p q) (hk : k < (q - p + 1).toNat)
    (hop : opAtDepth0 tokens p k)
    (hbin : (tok tokens (p + k)).type ≠ TK_DEREF ∧ (tok tokens (p + k)).type ≠ TK_NEGATIVE)
    (hmin : ∀ j, j < (q - p + 1).toNat → opAtDepth0 tokens p j →
      priority (tok tokens (p + k)).type ≤ priority (tok tokens (p + j)).type)
    (hright : ∀ j, k < j → j < (q - p + 1).toNat → opAtDepth0 tokens p j →
      priority (tok tokens (p + k)).type < priority (tok tokens (p + j)).type) :
    find_main_op tokens p q = p + (k : Int) ∧
      (tok tokens (find_main_op tokens p q)).type ≠ TK_DEREF ∧
      (tok tokens (find_main_op tokens p q)).type ≠ TK_NEGATIVE := by
  have main : find_main_op tokens p q = p + (k : Int) := by
    obtain ⟨_, hinv⟩ := find_main_op_inv tokens p q hb.1
    unfold find_main_op
    rcases hinv with ⟨_, h2⟩ | ⟨r, hr, h1, h2, h3, h4, h5⟩
    · exact absurd hop (h2 k hk)
    · rw [h1]
      rcases Nat.lt_trichotomy r k with hlt | heq | hgt
      · have := h5 k hlt hk hop
        have := hmin r hr h2
        omega
      · rw [heq]
      · have := hright r hgt hr h2
        have := h4 k hk hop
        omega
  rw [main]
  exact ⟨rfl, hbin⟩

/-- Witness for C12, amended: in the tokens of `10-2-3` the main operator is the second
`-`, at index 3, a binary operator. -/
theorem rightmost_tie_witness :
    balancedRange tokens_10_minus_2_minus_3 0 4 ∧ opAtDepth0 tokens_10_minus_2_minus_3 0 3 ∧
      (tok tokens_10_minus_2_minus_3 (0 + ((3 : Nat) : Int))).type = MINUS ∧
      find_main_op tokens_10_minus_2_minus_3 0 4 = 0 + ((3 : Nat) : Int) :=
  ⟨balanced_10_minus_2_minus_3, by decide, by decide,
    (rightmost_tie tokens_10_minus_2_minus_3 0 4 3 balanced_10_minus_2_minus_3 (by decide)
      (by decide) (by decide) (fun j hj => by
        have hj5 : j < 5 := hj
        interval_cases j <;> decide)
      (fun j h3 hj => by
        have hj5 : j < 5 := hj
        interval_cases j
        decide)).1⟩

/-! ## C13: no short circuit -/

theorem single_operator_fails (m : Machine) (t : Token) (p : Int) (success : Bool)
    (h : (find_main_op_step t p ⟨-1, 0, 0⟩).op_pos ≠ -1) :
    eval_single m t success = (0, false) := by
  rcases t with ⟨ty, str⟩
  cases ty <;> simp [find_main_op_step, priority, eval_single] at h ⊢

theorem guarded_lex (a : List Char) (ha : isNumLit a = true) (c : Char) (ty : TokenType)
    (hc : isAlnum c = false)
    (hstep : ∀ rest position tokens, tokens.length < 1024 →
      lex (c :: c :: rest) position tokens = lex rest (position + 2) (tokens ++ [⟨ty, [c, c]⟩])) :
    lex (a ++ [c, c, '(', '1', '/', '0', ')']) 0 [] =
      LexOutcome.done [⟨TK_NUM, a.take 31⟩, ⟨ty, [c, c]⟩, ⟨LPAREN, ['(']⟩, ⟨TK_NUM, ['1']⟩,
        ⟨SLASH, ['/']⟩, ⟨TK_NUM, ['0']⟩, ⟨RPAREN, [')']⟩] := by
  have e1 : a ++ [c, c, '(', '1', '/', '0', ')'] =
      a ++ (c :: c :: '(' :: (['1'] ++ ('/' :: (['0'] ++ (')' :: []))))) := by simp
  rw [e1, lex_num a _ _ _ ha (head_sep _ _ hc) (by simp),
    hstep _ _ _ (by simp), lex_lparen _ _ _ (by simp),
    lex_num ['1'] _ _ _ (by decide) (head_sep _ _ (by decide)) (by simp),
    lex_slash _ _ _ (by simp),
    lex_num ['0'] _ _ _ (by decide) (head_sep _ _ (by decide)) (by simp),
    lex_rparen _ _ _ (by simp), lex_nil]
  rfl

theorem paren_div_zero_eval (m : Machine) :
    evalL m 3 [⟨LPAREN, ['(']⟩, ⟨TK_NUM, ['1']⟩, ⟨SLASH, ['/']⟩, ⟨TK_NUM, ['0']⟩,
      ⟨RPAREN, [')']⟩] true = some (0, false) := by
  rw [evalL, if_neg (by decide), if_neg (by decide), if_pos (by decide)]
  exact div_zero_eval m ['1']

theorem guarded_eval (m : Machine) (s : List Char) (ty : TokenType) (c : List Char)
    (hty : ty = TK_AND ∨ ty = TK_OR) :
    evalL m 4 [⟨TK_NUM, s⟩, ⟨ty, c⟩, ⟨LPAREN, ['(']⟩, ⟨TK_NUM, ['1']⟩,
        ⟨SLASH, ['/']⟩, ⟨TK_NUM, ['0']⟩, ⟨RPAREN, [')']⟩] true = some (0, false) := by
  have hs : eval_single m ⟨TK_NUM, s⟩ true = ((eval_single m ⟨TK_NUM, s⟩ true).1, true) := by
    have := eval_single_num_flag m s true
    exact Prod.ext rfl this
  have hl : evalL m 3 [⟨TK_NUM, s⟩] true = some ((eval_single m ⟨TK_NUM, s⟩ true).1, true) := by
    rw [evalL, if_neg (by simp), if_pos (by simp)]
    exact congrArg some hs
  rcases hty with rfl | rfl
  · have hop : find_main_opL [⟨TK_NUM, s⟩, ⟨TK_AND, c⟩, ⟨LPAREN, ['(']⟩, ⟨TK_NUM, ['1']⟩,
        ⟨SLASH, ['/']⟩, ⟨TK_NUM, ['0']⟩, ⟨RPAREN, [')']⟩] = 1 := rfl
    rw [evalL, if_neg (by simp), if_neg (by simp),
      if_neg (by simp [check_parenthesesL]), hop, if_neg (by decide)]
    simp only [Int.toNat_one, List.getD_cons_succ, List.getD_cons_zero, reduceCtorEq, if_false,
      List.take, List.drop, hl, if_true, paren_div_zero_eval]
  · have hop : find_main_opL [⟨TK_NUM, s⟩, ⟨TK_OR, c⟩, ⟨LPAREN, ['(']⟩, ⟨TK_NUM, ['1']⟩,
        ⟨SLASH, ['/']⟩, ⟨TK_NUM, ['0']⟩, ⟨RPAREN, [')']⟩] = 1 := rfl
    rw [evalL, if_neg (by simp), if_neg (by simp),
      if_neg (by simp [check_parenthesesL]), hop, if_neg (by decide)]
    simp only [Int.toNat_one, List.getD_cons_succ, List.getD_cons_zero, reduceCtorEq, if_false,
      List.take, List.drop, hl, if_true, paren_div_zero_eval]

/-- C13: binary operators never short-circuit, and a failure on either side is fatal. In a
token range whose main operator is binary (it exists and is neither `DEREF` nor
`NEGATIVE`), if the evaluation of the left range `[p, op - 1]` fails, or the evaluation of
the right range `[op + 1, q]` fails, then `eval` on the whole range clears `*success` and
returns 0, whatever the operator, `&&` and `||` included. For every numeric literal `a`
(`0` and `1` among them) the calls `expr("a&&(1/0)")` and `expr("a||(1/0)")` return 0 with
`*success` false. -/
theorem binary_never_short_circuits (m : Machine) :
    (∀ (tokens : List Token) (fuel : Nat) (p q : Int) (success : Bool) (v1 v2 : Nat)
        (s1 s2 : Bool),
      find_main_op tokens p q ≠ -1 →
      (tok tokens (find_main_op tokens p q)).type ≠ TK_DEREF →
      (tok tokens (find_main_op tokens p q)).type ≠ TK_NEGATIVE →
      eval m tokens fuel p (find_main_op tokens p q - 1) success = some (v1, s1) →
      eval m tokens fuel (find_main_op tokens p q + 1) q true = some (v2, s2) →
      (s1 = false ∨ s2 = false) →
      eval m tokens (fuel + 1) p q success = some (0, false)) ∧
    (∀ a : List Char, isNumLit a = true →
      expr m (a ++ ['&', '&', '(', '1', '/', '0', ')']) = ExprOutcome.returned 0 false ∧
      expr m (a ++ ['|', '|', '(', '1', '/', '0', ')']) = ExprOutcome.returned 0 false) ∧
    expr m ['0', '&', '&', '(', '1', '/', '0', ')'] = ExprOutcome.returned 0 false ∧
    expr m ['1', '|', '|', '(', '1', '/', '0', ')'] = ExprOutcome.returned 0 false := by
  have htext : ∀ a : List Char, isNumLit a = true →
      expr m (a ++ ['&', '&', '(', '1', '/', '0', ')']) = ExprOutcome.returned 0 false ∧
      expr m (a ++ ['|', '|', '(', '1', '/', '0', ')']) = ExprOutcome.returned 0 false := by
    intro a ha
    constructor
    · apply expr_of_evalL m _ _ 4 _ _
        (make_token_of_lex _ _ (guarded_lex a ha '&' TK_AND (by decide) lex_andand))
      have hp : ∀ l : List Token, post_process none l = l → post_process none
          (post_process none l) = l := fun l h => by rw [h, h]
      rw [hp _ rfl]
      exact guarded_eval m _ TK_AND _ (Or.inl rfl)
    · apply expr_of_evalL m _ _ 4 _ _
        (make_token_of_lex _ _ (guarded_lex a ha '|' TK_OR (by decide) lex_oror))
      have hp : ∀ l : List Token, post_process none l = l → post_process none
          (post_process none l) = l := fun l h => by rw [h, h]
      rw [hp _ rfl]
      exact guarded_eval m _ TK_OR _ (Or.inr rfl)
  refine ⟨?_, htext, (htext ['0'] (by decide)).1, (htext ['1'] (by decide)).2⟩
  intro tokens fuel p q success v1 v2 s1 s2 hne hd hn hl hr hs
  rw [eval]
  by_cases hpq : p > q
  · rw [if_pos hpq]
  · rw [if_neg hpq]
    by_cases heq : p = q
    · rw [if_pos heq]
      subst heq
      have h1 : find_main_op tokens p p =
          (find_main_op_step (tok tokens p) p ⟨-1, 0, 0⟩).op_pos := by
        unfold find_main_op
        have : (p - p + 1).toNat = 1 := by simp
        rw [this]
        rfl
      rw [h1] at hne
      rw [single_operator_fails m _ p success hne]
    · rw [if_neg heq]
      have hcp : ¬ (check_parentheses tokens p q = true) := by
        intro h
        exact hne (check_parentheses_no_op tokens p q (by omega) h)
      rw [if_neg hcp, if_neg hne, if_neg hd, if_neg hn, hl]
      cases s1 with
      | false => rfl
      | true =>
        simp only [if_true, hr]
        rcases hs with h | h
        · exact absurd h (by decide)
        · rw [h]; rfl

/-- Witness for C13: in the tokens of `0&&(1/0)` the main operator is the `&&` at index 1;
the left range evaluates to 0 and the right range fails. -/
theorem binary_never_short_circuits_witness :
    eval zeroMachine [⟨TK_NUM, ['0']⟩, ⟨TK_AND, ['&', '&']⟩, ⟨LPAREN, ['(']⟩, ⟨TK_NUM, ['1']⟩,
        ⟨SLASH, ['/']⟩, ⟨TK_NUM, ['0']⟩, ⟨RPAREN, [')']⟩] 3 (1 + 1) 6 true = some (0, false) ∧
      eval zeroMachine [⟨TK_NUM, ['0']⟩, ⟨TK_AND, ['&', '&']⟩, ⟨LPAREN, ['(']⟩, ⟨TK_NUM, ['1']⟩,
        ⟨SLASH, ['/']⟩, ⟨TK_NUM, ['0']⟩, ⟨RPAREN, [')']⟩] 4 0 6 true = some (0, false) ∧
      expr zeroMachine ['5', '&', '&', '(', '1', '/', '0', ')'] =
        ExprOutcome.returned 0 false :=
  ⟨by decide,
    (binary_never_short_circuits zeroMachine).1
      [⟨TK_NUM, ['0']⟩, ⟨TK_AND, ['&', '&']⟩, ⟨LPAREN, ['(']⟩, ⟨TK_NUM, ['1']⟩,
        ⟨SLASH, ['/']⟩, ⟨TK_NUM, ['0']⟩, ⟨RPAREN, [')']⟩] 3 0 6 true 0 0 true false
      (by decide) (by decide) (by decide) (by decide) (by decide) (Or.inr rfl),
    ((binary_never_short_circuits zeroMachine).2.1 ['5'] (by decide)).1⟩

/-! ## The lists of the watchpoint pool -/

theorem seg_nil (pool : Pool) (s t : Option (Fin NR_WP)) : seg pool s [] t ↔ s = t := by
  rw [seg]

theorem seg_cons (pool : Pool) (s t : Option (Fin NR_WP)) (a : Fin NR_WP)
    (l : List (Fin NR_WP)) :
    seg pool s (a :: l) t ↔ s = some a ∧ seg pool (pool.wp_pool a).next l t := by
  rw [seg]

/-- A walk only reads the `next` pointers of the slots it visits. -/
theorem seg_congr (pool pool1 : Pool) : ∀ (l : List (Fin NR_WP)) (s t : Option (Fin NR_WP)),
    (∀ a, a ∈ l → (pool1.wp_pool a).next = (pool.wp_pool a).next) →
    seg pool s l t → seg pool1 s l t := by
  intro l
  induction l with
  | nil => intro s t _ h; rw [seg_nil] at h ⊢; exact h
  | cons a l ih =>
    intro s t hn h
    rw [seg_cons] at h ⊢
    refine ⟨h.1, ?_⟩
    rw [hn a (List.mem_cons_self _ _)]
    exact ih _ _ (fun b hb => hn b (List.mem_cons_of_mem _ hb)) h.2

theorem seg_append (pool : Pool) : ∀ (l1 l2 : List (Fin NR_WP)) (s t : Option (Fin NR_WP)),
    seg pool s (l1 ++ l2) t ↔ ∃ mid, seg pool s l1 mid ∧ seg pool mid l2 t := by
  intro l1
  induction l1 with
  | nil =>
    intro l2 s t
    simp only [List.nil_append, seg_nil]
    constructor
    · intro h; exact ⟨s, rfl, h⟩
    · rintro ⟨mid, rfl, h⟩; exact h
  | cons a l1 ih =>
    intro l2 s t
    simp only [List.cons_append, seg_cons, ih]
    constructor
    · rintro ⟨h1, mid, h2, h3⟩; exact ⟨mid, ⟨h1, h2⟩, h3⟩
    · rintro ⟨mid, ⟨h1, h2⟩, h3⟩; exact ⟨h1, mid, h2, h3⟩

/-- The list that starts at a pointer is determined by the pool. -/
theorem chain_unique (pool : Pool) : ∀ (l1 l2 : List (Fin NR_WP)) (s : Option (Fin NR_WP)),
    chain pool s l1 → chain pool s l2 → l1 = l2 := by
  intro l1
  unfold chain
  induction l1 with
  | nil =>
    intro l2 s h1 h2
    rw [seg_nil] at h1
    cases l2 with
    | nil => rfl
    | cons b l2 => rw [seg_cons, h1] at h2; exact absurd h2.1 (by simp)
  | cons a l1 ih =>
    intro l2 s h1 h2
    rw [seg_cons] at h1
    cases l2 with
    | nil => rw [seg_nil, h1.1] at h2; exact absurd h2 (by simp)
    | cons b l2 =>
      rw [seg_cons, h1.1] at h2
      have hab : a = b := Option.some.inj h2.1
      subst hab
      rw [ih l2 _ h1.2 h2.2]

theorem chain_head (pool : Pool) (s : Option (Fin NR_WP)) (a : Fin NR_WP)
    (l : List (Fin NR_WP)) (h : chain pool s (a :: l)) : s = some a := by
  unfold chain at h; rw [seg_cons] at h; exact h.1

theorem chain_nil (pool : Pool) (s : Option (Fin NR_WP)) : chain pool s [] ↔ s = none := by
  unfold chain; rw [seg_nil]

theorem chain_none (pool : Pool) (l : List (Fin NR_WP)) (h : chain pool none l) : l = [] := by
  cases l with
  | nil => rfl
  | cons a l => exact absurd (chain_head pool none a l h) (by simp)

/-- A list without repetition over the 32 slots has at most 32 slots. -/
theorem nodup_length_le (l : List (Fin NR_WP)) (h : l.Nodup) : l.length ≤ NR_WP := by
  have := List.Nodup.length_le_card h
  simpa using this

/-- A list without repetition that holds every slot has 32 slots. -/
theorem nodup_all_length (l : List (Fin NR_WP)) (h : l.Nodup) (hall : ∀ i, i ∈ l) :
    l.length = NR_WP := by
  have h1 : l.toFinset = Finset.univ := by
    ext i; simp [hall i]
  have h2 := List.toFinset_card_of_nodup h
  rw [h1] at h2
  simpa using h2.symm

theorem all_slots_nodup : all_slots.Nodup := by decide

theorem all_slots_mem : ∀ i : Fin NR_WP, i ∈ all_slots := by decide

/-! ## The pool after `init_wp_pool` and after `new_wp` -/

theorem init_lists (pool : Pool) : lists (init_wp_pool pool) [] all_slots := by
  refine ⟨rfl, ?_⟩
  unfold chain all_slots
  simp only [seg_cons, seg_nil]
  refine ⟨rfl, rfl, rfl, rfl, rfl, rfl, rfl, rfl, rfl, rfl, rfl, rfl, rfl, rfl, rfl, rfl, rfl,
    rfl, rfl, rfl, rfl, rfl, rfl, rfl, rfl, rfl, rfl, rfl, rfl, rfl, rfl, rfl, rfl⟩

/-- After `init_wp_pool` the active list is empty and the free list holds the 32 slots in
the order of the array. -/
theorem init_ok (pool : Pool) : PoolOK (init_wp_pool pool) [] all_slots :=
  ⟨init_lists pool, by simpa using all_slots_nodup, by simpa using all_slots_mem,
    fun _ => rfl, fun i hi => absurd hi (List.not_mem_nil i), fun _ _ => ⟨rfl, rfl⟩⟩

theorem new_wp_none (pool : Pool) (h : pool.free_ = none) : new_wp pool = (pool, none) := by
  unfold new_wp; rw [h]

theorem new_wp_some (pool : Pool) (wp : Fin NR_WP) (h : pool.free_ = some wp) :
    new_wp pool =
      ({ wp_pool := Function.update pool.wp_pool wp
            { pool.wp_pool wp with next := pool.head, enabled := true }
         head := some wp
         free_ := (pool.wp_pool wp).next }, some wp) := by
  unfold new_wp; rw [h]

/-- On a pool whose free list starts with the slot `s`, `new_wp` returns `s`, moves it to the
front of the active list, enables it, and leaves the rest of every record as it was. -/
theorem new_wp_ok (pool : Pool) (active free : List (Fin NR_WP)) (s : Fin NR_WP)
    (h : PoolOK pool active (s :: free)) :
    (new_wp pool).2 = some s ∧ PoolOK (new_wp pool).1 (s :: active) free ∧
      (∀ i, i ≠ s → (new_wp pool).1.wp_pool i = pool.wp_pool i) ∧
      (new_wp pool).1.wp_pool s = { pool.wp_pool s with next := pool.head, enabled := true } := by
  obtain ⟨⟨ha, hf⟩, hnd, hall, hno, hen, hfr⟩ := h
  have hfree := chain_head pool _ s free hf
  rw [new_wp_some pool s hfree]
  have hsa : s ∉ active := by
    intro hmem
    have := List.nodup_append.mp hnd
    exact this.2.2 hmem (List.mem_cons_self _ _)
  have hsf : s ∉ free := by
    have := (List.nodup_append.mp hnd).2.1
    exact (List.nodup_cons.mp this).1
  unfold chain at ha hf
  rw [seg_cons] at hf
  refine ⟨rfl, ⟨⟨?_, ?_⟩, ?_, ?_, ?_, ?_, ?_⟩, ?_, ?_⟩
  · unfold chain
    rw [seg_cons]
    refine ⟨rfl, ?_⟩
    simp only [Function.update_same]
    apply seg_congr pool _ active _ _ _ ha
    intro a hmem
    have : a ≠ s := fun e => hsa (e ▸ hmem)
    simp only [Function.update_noteq this]
  · unfold chain
    apply seg_congr pool _ free _ _ _ hf.2
    intro a hmem
    have : a ≠ s := fun e => hsf (e ▸ hmem)
    simp only [Function.update_noteq this]
  · have hp : (s :: active ++ free).Perm (active ++ s :: free) := List.perm_middle.symm
    exact hp.nodup_iff.mpr hnd
  · intro i
    have := hall i
    simp only [List.mem_append, List.mem_cons] at this ⊢
    tauto
  · intro i
    by_cases his : i = s
    · subst his; simp only [Function.update_same]; exact hno i
    · simp only [Function.update_noteq his]; exact hno i
  · intro i hi
    by_cases his : i = s
    · subst his; simp only [Function.update_same]
    · simp only [Function.update_noteq his]
      rcases List.mem_cons.mp hi with h1 | h1
      · exact absurd h1 his
      · exact hen i h1
  · intro i hi
    have his : i ≠ s := fun e => hsf (e ▸ hi)
    simp only [Function.update_noteq his]
    exact hfr i (List.mem_cons_of_mem _ hi)
  · intro i his
    simp only [Function.update_noteq his]
  · simp only [Function.update_same]

/-- A pool state that differs from another one only in stored values has the same lists and
statuses. -/
theorem PoolOK_congr (pool pool1 : Pool) (active free : List (Fin NR_WP))
    (hh : pool1.head = pool.head) (hf : pool1.free_ = pool.free_)
    (hs : ∀ i, (pool1.wp_pool i).NO = (pool.wp_pool i).NO ∧
      (pool1.wp_pool i).next = (pool.wp_pool i).next ∧
      (pool1.wp_pool i).expr = (pool.wp_pool i).expr ∧
      (pool1.wp_pool i).enabled = (pool.wp_pool i).enabled)
    (h : PoolOK pool active free) : PoolOK pool1 active free := by
  obtain ⟨⟨ha, hfl⟩, hnd, hall, hno, hen, hfr⟩ := h
  refine ⟨⟨?_, ?_⟩, hnd, hall, ?_, ?_, ?_⟩
  · unfold chain at ha ⊢; rw [hh]
    exact seg_congr pool pool1 active _ _ (fun a _ => (hs a).2.1) ha
  · unfold chain at hfl ⊢; rw [hf]
    exact seg_congr pool pool1 free _ _ (fun a _ => (hs a).2.1) hfl
  · intro i; rw [(hs i).1]; exact hno i
  · intro i hi; rw [(hs i).2.2.2]; exact hen i hi
  · intro i hi; rw [(hs i).2.2.2, (hs i).2.2.1]; exact hfr i hi

/-! ## The pool after `free_wp` -/

/-- The search loop of `free_wp` ends with `NULL` when no slot of the list has `wp` as its
successor. -/
theorem free_wp_loop_none (pool : Pool) (wp : Fin NR_WP) :
    ∀ (l : List (Fin NR_WP)) (s : Option (Fin NR_WP)) (fuel : Nat),
    chain pool s l → wp ∉ l.tail → l.length < fuel →
    free_wp_loop pool wp fuel s = some none := by
  intro l
  induction l with
  | nil =>
    intro s fuel hc _ hlen
    rw [chain_nil] at hc
    subst hc
    cases fuel with
    | zero => simp at hlen
    | succ fuel => rfl
  | cons a l ih =>
    intro s fuel hc hw hlen
    have hs := chain_head pool s a l hc
    subst hs
    unfold chain at hc
    rw [seg_cons] at hc
    cases fuel with
    | zero => simp at hlen
    | succ fuel =>
      simp only [List.length_cons, Nat.add_lt_add_iff_right] at hlen
      simp only [List.tail_cons] at hw
      have hne : (pool.wp_pool a).next ≠ some wp := by
        intro heq
        cases l with
        | nil =>
          have := hc.2; rw [seg_nil, heq] at this; exact absurd this (by simp)
        | cons b l =>
          have := chain_head pool _ b l hc.2
          rw [heq] at this
          have hb : wp = b := Option.some.inj this
          exact hw (hb ▸ List.mem_cons_self _ _)
      rw [free_wp_loop, if_pos hne]
      exact ih _ fuel hc.2 (fun hmem => hw (List.mem_of_mem_tail hmem)) hlen

/-- The search loop of `free_wp` ends at the slot in front of `wp`. -/
theorem free_wp_loop_some (pool : Pool) (wp prev : Fin NR_WP) (l2 : List (Fin NR_WP)) :
    ∀ (l1 : List (Fin NR_WP)) (s : Option (Fin NR_WP)) (fuel : Nat),
    chain pool s (l1 ++ prev :: wp :: l2) → wp ∉ l1 → wp ≠ prev →
    (l1 ++ prev :: wp :: l2).length < fuel →
    free_wp_loop pool wp fuel s = some (some prev) := by
  intro l1
  induction l1 with
  | nil =>
    intro s fuel hc _ _ hlen
    simp only [List.nil_append] at hc hlen
    have hs := chain_head pool s _ _ hc
    subst hs
    unfold chain at hc
    rw [seg_cons, seg_cons] at hc
    cases fuel with
    | zero => simp at hlen
    | succ fuel =>
      rw [free_wp_loop, if_neg (by rw [hc.2.1]; simp)]
  | cons a l1 ih =>
    intro s fuel hc hw hne hlen
    simp only [List.cons_append] at hc hlen
    have hs := chain_head pool s _ _ hc
    subst hs
    unfold chain at hc
    rw [seg_cons] at hc
    cases fuel with
    | zero => simp at hlen
    | succ fuel =>
      simp only [List.length_cons, Nat.add_lt_add_iff_right] at hlen
      have hnext : (pool.wp_pool a).next ≠ some wp := by
        intro heq
        cases l1 with
        | nil =>
          have := chain_head pool _ _ _ hc.2
          rw [heq] at this
          exact hne (Option.some.inj this)
        | cons b l1 =>
          have := chain_head pool _ _ _ hc.2
          rw [heq] at this
          have hb : wp = b := Option.some.inj this
          exact hw (hb ▸ List.mem_cons_of_mem _ (List.mem_cons_self _ _))
      rw [free_wp_loop, if_pos hnext]
      exact ih _ fuel hc.2 (fun hmem => hw (List.mem_cons_of_mem _ hmem)) hne
        (by simpa using hlen)

/-- On a slot that is not on the active list, `free_wp` changes nothing. -/
theorem free_wp_inactive (pool : Pool) (active free : List (Fin NR_WP)) (wp : Fin NR_WP)
    (h : PoolOK pool active free) (hw : wp ∉ active) :
    free_wp pool (some wp) = some pool := by
  obtain ⟨⟨ha, _⟩, hnd, _⟩ := h
  have hlen : active.length ≤ NR_WP := nodup_length_le active (List.nodup_append.mp hnd).1
  have hhead : pool.head ≠ some wp := by
    intro heq
    cases active with
    | nil => rw [chain_nil, heq] at ha; exact absurd ha (by simp)
    | cons a l =>
      have := chain_head pool _ a l ha
      rw [heq] at this
      exact hw ((Option.some.inj this) ▸ List.mem_cons_self _ _)
  unfold free_wp
  simp only [if_neg hhead]
  rw [free_wp_loop_none pool wp active pool.head (NR_WP + 1) ha
    (fun hmem => hw (List.mem_of_mem_tail hmem)) (by omega)]

/-- On an active slot, `free_wp` unlinks the slot from the active list, puts it in front of
the free list, disables it and empties its text; the other slots keep their place and
everything they hold. -/
theorem free_wp_active (pool : Pool) (active free : List (Fin NR_WP)) (wp : Fin NR_WP)
    (h : PoolOK pool active free) (hw : wp ∈ active) :
    ∃ pool1, free_wp pool (some wp) = some pool1 ∧
      PoolOK pool1 (active.erase wp) (wp :: free) ∧
      (∀ i, i ≠ wp → sameData (pool1.wp_pool i) (pool.wp_pool i)) ∧
      (pool1.wp_pool wp).NO = (pool.wp_pool wp).NO ∧
      (pool1.wp_pool wp).old_val = (pool.wp_pool wp).old_val := by
  obtain ⟨⟨ha, hf⟩, hnd, hall, hno, hen, hfr⟩ := h
  have hnda := (List.nodup_append.mp hnd).1
  have hlen : active.length ≤ NR_WP := nodup_length_le active hnda
  have hwf : wp ∉ free := fun hmem => (List.nodup_append.mp hnd).2.2 hw hmem
  have hperm : (active.erase wp ++ wp :: free).Perm (active ++ free) := by
    have h1 : (active.erase wp ++ wp :: free).Perm (wp :: (active.erase wp ++ free)) :=
      List.perm_middle
    have h2 : (wp :: (active.erase wp ++ free)).Perm (active ++ free) := by
      have := (List.perm_cons_erase hw).symm
      exact List.Perm.append_right free this
    exact h1.trans h2
  -- the common part of the two cases: the result is `pool1`, whose records are the old ones
  -- but for the pointers of `wp` and of one more active slot `prev`
  have key : ∀ (pool1 : Pool) (prev : Fin NR_WP), prev ∈ active →
      pool1.free_ = some wp → chain pool1 pool1.head (active.erase wp) →
      pool1.wp_pool wp =
        { pool.wp_pool wp with next := pool.free_, enabled := false, expr := [] } →
      (∀ i, i ≠ wp → sameData (pool1.wp_pool i) (pool.wp_pool i)) →
      (∀ i, i ≠ wp → i ≠ prev → (pool1.wp_pool i).next = (pool.wp_pool i).next) →
      PoolOK pool1 (active.erase wp) (wp :: free) ∧
      (∀ i, i ≠ wp → sameData (pool1.wp_pool i) (pool.wp_pool i)) ∧
      (pool1.wp_pool wp).NO = (pool.wp_pool wp).NO ∧
      (pool1.wp_pool wp).old_val = (pool.wp_pool wp).old_val := by
    intro pool1 prev hprev hfree hchain hwp hsame hnext
    refine ⟨⟨⟨hchain, ?_⟩, hperm.nodup_iff.mpr hnd, fun i => (hperm.mem_iff).mpr (hall i),
      ?_, ?_, ?_⟩, hsame, by rw [hwp], by rw [hwp]⟩
    · rw [hfree]
      unfold chain
      rw [seg_cons]
      refine ⟨rfl, ?_⟩
      rw [hwp]
      apply seg_congr pool pool1 free _ _ _ hf
      intro a hmem
      have h1 : a ≠ wp := fun e => hwf (e ▸ hmem)
      have h2 : a ≠ prev := fun e => (List.nodup_append.mp hnd).2.2 hprev (e ▸ hmem)
      exact hnext a h1 h2
    · intro i
      by_cases hi : i = wp
      · rw [hi, hwp]; exact hno wp
      · rw [(hsame i hi).1]; exact hno i
    · intro i hi
      have hia : i ∈ active := List.mem_of_mem_erase hi
      have hiw : i ≠ wp := fun e => (List.Nodup.mem_erase_iff hnda).mp hi |>.1 e
      rw [(hsame i hiw).2.2.2]
      exact hen i hia
    · intro i hi
      rcases List.mem_cons.mp hi with h1 | h1
      · rw [h1, hwp]; exact ⟨rfl, rfl⟩
      · have hiw : i ≠ wp := fun e => hwf (e ▸ h1)
        rw [(hsame i hiw).2.2.2, (hsame i hiw).2.1]
        exact hfr i h1
  obtain ⟨l1, l2, hsplit⟩ := List.append_of_mem hw
  subst hsplit
  have hw1 : wp ∉ l1 := by
    intro hmem
    have := (List.nodup_append.mp hnda).2.2 hmem (List.mem_cons_self _ _)
    exact this
  have hw2 : wp ∉ l2 := by
    have := (List.nodup_append.mp hnda).2.1
    exact (List.nodup_cons.mp this).1
  have herase : (l1 ++ wp :: l2).erase wp = l1 ++ l2 := by
    rw [List.erase_append_right _ hw1, List.erase_cons_head]
  rcases List.eq_nil_or_concat l1 with hnil | ⟨l0, prev, hcat⟩
  · -- the slot is the head of the active list
    subst hnil
    simp only [List.nil_append] at ha herase hw hperm key hnda hlen hen hnd hall
    have hhead := chain_head pool _ _ _ ha
    unfold chain at ha
    rw [seg_cons] at ha
    refine ⟨free_wp_add { pool with head := (pool.wp_pool wp).next } wp, ?_, ?_⟩
    · unfold free_wp
      simp only [if_pos hhead]
    · apply key _ wp (List.mem_cons_self _ _) rfl
      · rw [herase]
        unfold chain
        apply seg_congr pool _ l2 _ _ _ ha.2
        intro a hmem
        have : a ≠ wp := fun e => hw2 (e ▸ hmem)
        simp only [free_wp_add, Function.update_noteq this]
      · simp only [free_wp_add, Function.update_same]
      · intro i hi
        simp only [free_wp_add, Function.update_noteq hi]
        exact ⟨rfl, rfl, rfl, rfl⟩
      · intro i hi _
        simp only [free_wp_add, Function.update_noteq hi]
  · -- the slot has a predecessor `prev` on the active list
    subst hcat
    have hshape : l0.concat prev ++ wp :: l2 = l0 ++ prev :: wp :: l2 := by simp
    rw [hshape] at ha hw hperm key hnda hlen hen hnd hall herase ⊢
    have herase2 : l0.concat prev ++ l2 = l0 ++ prev :: l2 := by simp
    rw [herase2] at herase
    have hw0 : wp ∉ l0 := fun hmem => hw1 (by simp [hmem])
    have hwp : wp ≠ prev := fun e => hw1 (by simp [e])
    have hp0 : prev ∉ l0 := by
      intro hmem
      exact (List.nodup_append.mp hnda).2.2 hmem (List.mem_cons_self _ _)
    have hp2 : prev ∉ l2 := by
      have := (List.nodup_append.mp hnda).2.1
      have := (List.nodup_cons.mp this).1
      exact fun hmem => this (List.mem_cons_of_mem _ hmem)
    have hhead : pool.head ≠ some wp := by
      intro heq
      cases l0 with
      | nil =>
        have := chain_head pool _ _ _ ha
        rw [heq] at this
        exact hwp (Option.some.inj this)
      | cons b l0 =>
        have := chain_head pool _ _ _ ha
        rw [heq] at this
        exact hw0 ((Option.some.inj this) ▸ List.mem_cons_self _ _)
    have hloop := free_wp_loop_some pool wp prev l2 l0 pool.head (NR_WP + 1) ha hw0 hwp
      (by omega)
    unfold chain at ha
    rw [seg_append] at ha
    obtain ⟨mid, hseg0, hrest⟩ := ha
    rw [seg_cons, seg_cons] at hrest
    obtain ⟨hmid, _, hseg2⟩ := hrest
    subst hmid
    refine ⟨free_wp_add
      { pool with
        wp_pool := Function.update pool.wp_pool prev
          { pool.wp_pool prev with next := (pool.wp_pool wp).next } } wp, ?_, ?_⟩
    · unfold free_wp
      simp only [if_neg hhead, hloop]
    · apply key _ prev (by simp) rfl
      · rw [herase]
        unfold chain
        rw [seg_append]
        refine ⟨some prev, ?_, ?_⟩
        · apply seg_congr pool _ l0 _ _ _ hseg0
          intro a hmem
          have h1 : a ≠ wp := fun e => hw0 (e ▸ hmem)
          have h2 : a ≠ prev := fun e => hp0 (e ▸ hmem)
          simp only [free_wp_add, Function.update_noteq h1, Function.update_noteq h2]
        · rw [seg_cons]
          refine ⟨rfl, ?_⟩
          have hpw : prev ≠ wp := fun e => hwp e.symm
          simp only [free_wp_add, Function.update_noteq hpw, Function.update_same]
          apply seg_congr pool _ l2 _ _ _ hseg2
          intro a hmem
          have h1 : a ≠ wp := fun e => hw2 (e ▸ hmem)
          have h2 : a ≠ prev := fun e => hp2 (e ▸ hmem)
          simp only [Function.update_noteq h1, Function.update_noteq h2]
      · simp only [free_wp_add, Function.update_same, Function.update_noteq hwp]
      · intro i hi
        simp only [free_wp_add, Function.update_noteq hi]
        by_cases hip : i = prev
        · subst hip; simp only [Function.update_same]; exact ⟨rfl, rfl, rfl, rfl⟩
        · simp only [Function.update_noteq hip]; exact ⟨rfl, rfl, rfl, rfl⟩
      · intro i hi hip
        simp only [free_wp_add, Function.update_noteq hi, Function.update_noteq hip]

/-! ## `expr` on a text that fits a watchpoint -/

theorem inAlphabet_ne_NUL (c : Char) (h : inAlphabet c = true) : c ≠ NUL := by
  intro hc
  rw [hc] at h
  exact absurd h (by decide)

theorem strlen_nil : strlen [] = 0 := rfl

theorem strlen_le (e : List Char) : strlen e ≤ e.length := by
  unfold strlen
  exact (List.takeWhile_sublist _).length_le

theorem strlen_split (e : List Char) (len : Nat) (h : ∀ c, c ∈ e.take len → c ≠ NUL)
    (hlen : len ≤ e.length) : strlen e = len + strlen (e.drop len) := by
  unfold strlen
  conv_lhs => rw [← List.take_append_drop len e]
  rw [List.takeWhile_append_of_pos (fun a ha => by simpa using h a ha), List.length_append,
    List.length_take, Nat.min_eq_left hlen]

theorem strlen_of_no_NUL (e : List Char) (h : ∀ c, c ∈ e → c ≠ NUL) : strlen e = e.length := by
  unfold strlen
  rw [takeWhile_all _ e (fun c hc => by simpa using h c hc)]

theorem strcpy_of_no_NUL (e : List Char) (h : ∀ c, c ∈ e → c ≠ NUL) : strcpy e = e := by
  unfold strcpy
  rw [takeWhile_all _ e (fun c hc => by simpa using h c hc)]

theorem strcpy_length (e : List Char) : (strcpy e).length = strlen e := rfl

/-- The loop of `make_token` stores at most one token for each character of the text, so on
a text that leaves room in `tokens[1024]` it ends, with the tokens or at a character no rule
matches. -/
theorem lex_short : ∀ (n : Nat) (e : List Char) (position : Nat) (tokens : List Token),
    e.length ≤ n → tokens.length + strlen e ≤ 1024 →
    (∃ r, lex e position tokens = LexOutcome.done r) ∨
      ∃ k, lex e position tokens = LexOutcome.no_match k := by
  intro n
  induction n with
  | zero =>
    intro e position tokens hn _
    have : e = [] := List.length_eq_zero.mp (by omega)
    subst this
    exact Or.inl ⟨tokens, lex_nil _ _⟩
  | succ n ih =>
    intro e position tokens hn hroom
    cases e with
    | nil => exact Or.inl ⟨tokens, lex_nil _ _⟩
    | cons c cs =>
      rw [lex_cons]
      by_cases hc : c = NUL
      · rw [if_pos hc]; exact Or.inl ⟨tokens, rfl⟩
      · rw [if_neg hc]
        cases hm : first_match rules (c :: cs) with
        | none => exact Or.inr ⟨position, rfl⟩
        | some r =>
          obtain ⟨len, ty⟩ := r
          have hb := first_match_bounds _ _ _ hm
          have hal := first_match_alphabet _ _ _ hm
          have hsplit := strlen_split (c :: cs) len
            (fun x hx => inAlphabet_ne_NUL x (hal x hx)) hb.2
          have hdrop : ((c :: cs).drop len).length ≤ n := by
            simp only [List.length_drop, List.length_cons] at hn hb ⊢
            omega
          simp only []
          by_cases hty : ty = TK_NOTYPE
          · rw [if_pos hty]
            exact ih _ _ _ hdrop (by omega)
          · rw [if_neg hty, if_neg (by omega)]
            exact ih _ _ _ hdrop (by simp only [List.length_append, List.length_singleton]; omega)

/-- The function `expr` returns on every text of at most 1024 characters. -/
theorem expr_returns (m : Machine) (e : List Char) (h : strlen e ≤ 1024) :
    ∃ val success, expr m e = ExprOutcome.returned val success := by
  rw [expr_eq, make_token_eq]
  rcases lex_short e.length e 0 [] (le_refl _) (by simpa using h) with ⟨r, hr⟩ | ⟨k, hk⟩
  · rw [hr]
    simp only []
    obtain ⟨x, hx⟩ := evalL_total m ((post_process none (post_process none r)).length + 1)
      (post_process none (post_process none r)) true (Nat.lt_succ_self _)
    rw [hx]
    exact ⟨x.1, x.2, rfl⟩
  · rw [hk]
    exact ⟨0, false, rfl⟩

/-! ## The pool after `set_watchpoint`, `delete_watchpoint` and `check_watchpoints` -/

theorem set_watchpoint_long (m : Machine) (pool : Pool) (e : List Char) (h : 256 ≤ strlen e) :
    set_watchpoint m pool e = some (pool, none) := by
  unfold set_watchpoint
  rw [if_pos h]

theorem set_watchpoint_fail (m : Machine) (pool : Pool) (e : List Char) (val : Nat)
    (h : strlen e < 256) (hv : expr m e = ExprOutcome.returned val false) :
    set_watchpoint m pool e = some (pool, none) := by
  unfold set_watchpoint
  rw [if_neg (by omega), hv]
  rfl

theorem set_watchpoint_eval (m : Machine) (pool : Pool) (e : List Char) (val : Nat)
    (h : strlen e < 256) (hv : expr m e = ExprOutcome.returned val true) :
    set_watchpoint m pool e =
      match new_wp pool with
      | (pool1, none) => some (pool1, none)
      | (pool1, some wp) =>
        some ({ pool1 with
                wp_pool := Function.update pool1.wp_pool wp
                  { pool1.wp_pool wp with expr := strcpy e, old_val := val } },
              some wp) := by
  unfold set_watchpoint
  rw [if_neg (by omega), hv]
  rfl

theorem set_watchpoint_full (m : Machine) (pool : Pool) (e : List Char)
    (hfree : pool.free_ = none) : set_watchpoint m pool e = some (pool, none) := by
  by_cases h : 256 ≤ strlen e
  · exact set_watchpoint_long m pool e h
  · obtain ⟨val, success, hv⟩ := expr_returns m e (by omega)
    cases success with
    | false => exact set_watchpoint_fail m pool e val (by omega) hv
    | true =>
      rw [set_watchpoint_eval m pool e val (by omega) hv, new_wp_none pool hfree]

theorem set_watchpoint_some (m : Machine) (pool : Pool) (e : List Char) (val : Nat)
    (s : Fin NR_WP) (h : strlen e < 256) (hv : expr m e = ExprOutcome.returned val true)
    (hfree : pool.free_ = some s) :
    set_watchpoint m pool e =
      some ({ (new_wp pool).1 with
              wp_pool := Function.update (new_wp pool).1.wp_pool s
                { (new_wp pool).1.wp_pool s with expr := strcpy e, old_val := val } },
            some s) := by
  rw [set_watchpoint_eval m pool e val h hv, new_wp_some pool s hfree]

/-- The function `set_watchpoint` returns on every text. -/
theorem set_watchpoint_returns (m : Machine) (pool : Pool) (e : List Char) :
    ∃ pool1 r, set_watchpoint m pool e = some (pool1, r) := by
  by_cases h : 256 ≤ strlen e
  · exact ⟨_, _, set_watchpoint_long m pool e h⟩
  · obtain ⟨val, success, hv⟩ := expr_returns m e (by omega)
    cases success with
    | false => exact ⟨_, _, set_watchpoint_fail m pool e val (by omega) hv⟩
    | true =>
      cases hf : pool.free_ with
      | none => exact ⟨_, _, set_watchpoint_full m pool e hf⟩
      | some s => exact ⟨_, _, set_watchpoint_some m pool e val s (by omega) hv hf⟩

/-- The call `set_watchpoint` either changes nothing and returns `NULL`, or it is `new_wp`
on a pool with a free slot followed by the stores of the text and of the value. -/
theorem set_watchpoint_cases (m : Machine) (pool pool1 : Pool) (e : List Char)
    (r : Option (Fin NR_WP)) (h : set_watchpoint m pool e = some (pool1, r)) :
    (pool1 = pool ∧ r = none) ∨
      ∃ s val, pool.free_ = some s ∧ r = some s ∧ strlen e < 256 ∧
        expr m e = ExprOutcome.returned val true ∧
        pool1 = { (new_wp pool).1 with
                  wp_pool := Function.update (new_wp pool).1.wp_pool s
                    { (new_wp pool).1.wp_pool s with expr := strcpy e, old_val := val } } := by
  by_cases hl : 256 ≤ strlen e
  · rw [set_watchpoint_long m pool e hl] at h
    simp only [Option.some.injEq, Prod.mk.injEq] at h
    exact Or.inl ⟨h.1.symm, h.2.symm⟩
  · obtain ⟨val, success, hv⟩ := expr_returns m e (by omega)
    cases success with
    | false =>
      rw [set_watchpoint_fail m pool e val (by omega) hv] at h
      simp only [Option.some.injEq, Prod.mk.injEq] at h
      exact Or.inl ⟨h.1.symm, h.2.symm⟩
    | true =>
      cases hf : pool.free_ with
      | none =>
        rw [set_watchpoint_full m pool e hf] at h
        simp only [Option.some.injEq, Prod.mk.injEq] at h
        exact Or.inl ⟨h.1.symm, h.2.symm⟩
      | some s =>
        rw [set_watchpoint_some m pool e val s (by omega) hv hf] at h
        simp only [Option.some.injEq, Prod.mk.injEq] at h
        exact Or.inr ⟨s, val, rfl, h.2.symm, by omega, hv, h.1.symm⟩

/-- After a successful `set_watchpoint` the pool has the lists `new_wp` leaves. -/
theorem set_watchpoint_ok (m : Machine) (pool : Pool) (e : List Char) (val : Nat)
    (active free : List (Fin NR_WP)) (s : Fin NR_WP) (hok : PoolOK pool active (s :: free))
    (h : strlen e < 256) (hv : expr m e = ExprOutcome.returned val true) :
    ∃ pool1, set_watchpoint m pool e = some (pool1, some s) ∧
      PoolOK pool1 (s :: active) free ∧
      (∀ i, i ≠ s → sameData (pool1.wp_pool i) (pool.wp_pool i)) ∧
      (pool1.wp_pool s).NO = (pool.wp_pool s).NO ∧ (pool1.wp_pool s).enabled = true ∧
      (pool1.wp_pool s).expr = strcpy e ∧ (pool1.wp_pool s).old_val = val := by
  have hfree := chain_head pool _ s free hok.1.2
  obtain ⟨_, hok1, hother, hslot⟩ := new_wp_ok pool active free s hok
  refine ⟨_, set_watchpoint_some m pool e val s h hv hfree, ?_, ?_, ?_, ?_, ?_, ?_⟩
  · have hsf : s ∉ free := by
      have := hok1.2.1
      intro hmem
      exact (List.nodup_append.mp this).2.2 (List.mem_cons_self _ _) hmem
    obtain ⟨⟨ha, hf⟩, hnd, hall, hno, hen, hfr⟩ := hok1
    refine ⟨⟨?_, ?_⟩, hnd, hall, ?_, ?_, ?_⟩
    · unfold chain at ha ⊢
      refine seg_congr _ _ _ _ _ (fun a _ => ?_) ha
      by_cases has : a = s
      · subst has; simp only [Function.update_same]
      · simp only [Function.update_noteq has]
    · unfold chain at hf ⊢
      refine seg_congr _ _ _ _ _ (fun a _ => ?_) hf
      by_cases has : a = s
      · subst has; simp only [Function.update_same]
      · simp only [Function.update_noteq has]
    · intro i
      by_cases his : i = s
      · subst his; simp only [Function.update_same]; exact hno i
      · simp only [Function.update_noteq his]; exact hno i
    · intro i hi
      by_cases his : i = s
      · subst his; simp only [Function.update_same]; exact hen i hi
      · simp only [Function.update_noteq his]; exact hen i hi
    · intro i hi
      have his : i ≠ s := fun e => hsf (e ▸ hi)
      simp only [Function.update_noteq his]; exact hfr i hi
  · intro i his
    simp only [Function.update_noteq his, hother i his]
    exact ⟨rfl, rfl, rfl, rfl⟩
  · simp only [Function.update_same, hslot]
  · simp only [Function.update_same, hslot]
  · simp only [Function.update_same]
  · simp only [Function.update_same]

/-- The loop of `delete_watchpoint` ends at the first slot of the list whose `NO` is
`num`. -/
theorem delete_watchpoint_loop_find (pool : Pool) (num : Int) :
    ∀ (l : List (Fin NR_WP)) (s : Option (Fin NR_WP)) (fuel : Nat),
    chain pool s l → l.length < fuel →
    delete_watchpoint_loop pool num fuel s =
      some (l.find? (fun a => decide ((pool.wp_pool a).NO = num))) := by
  intro l
  induction l with
  | nil =>
    intro s fuel hc hlen
    rw [chain_nil] at hc
    subst hc
    cases fuel with
    | zero => simp at hlen
    | succ fuel => rfl
  | cons a l ih =>
    intro s fuel hc hlen
    have hs := chain_head pool s a l hc
    subst hs
    unfold chain at hc
    rw [seg_cons] at hc
    cases fuel with
    | zero => simp at hlen
    | succ fuel =>
      simp only [List.length_cons, Nat.add_lt_add_iff_right] at hlen
      rw [delete_watchpoint_loop]
      by_cases hno : (pool.wp_pool a).NO = num
      · rw [if_pos hno, List.find?_cons_of_pos _ (by simpa using hno)]
      · rw [if_neg hno, List.find?_cons_of_neg _ (by simpa using hno)]
        exact ih _ fuel hc.2 hlen

/-- The search of `delete_watchpoint` on a well-formed pool. -/
theorem delete_watchpoint_loop_ok (pool : Pool) (active free : List (Fin NR_WP)) (num : Int)
    (h : PoolOK pool active free) :
    (∀ wp, wp ∈ active → ((wp.val : Nat) : Int) = num →
      delete_watchpoint_loop pool num (NR_WP + 1) pool.head = some (some wp)) ∧
    ((∀ wp, wp ∈ active → ((wp.val : Nat) : Int) ≠ num) →
      delete_watchpoint_loop pool num (NR_WP + 1) pool.head = some none) := by
  obtain ⟨⟨ha, _⟩, hnd, _, hno, _⟩ := h
  have hlen : active.length ≤ NR_WP := nodup_length_le active (List.nodup_append.mp hnd).1
  rw [delete_watchpoint_loop_find pool num active pool.head (NR_WP + 1) ha (by omega)]
  constructor
  · intro wp hw hnum
    cases hfind : active.find? (fun a => decide ((pool.wp_pool a).NO = num)) with
    | none =>
      have := List.find?_eq_none.mp hfind wp hw
      simp only [decide_eq_true_eq] at this
      exact absurd (by rw [hno wp]; exact hnum) this
    | some a =>
      have h1 := List.find?_some hfind
      simp only [decide_eq_true_eq] at h1
      rw [hno a, ← hnum] at h1
      have : a = wp := Fin.ext (by exact_mod_cast h1)
      rw [this]
  · intro hnone
    have : active.find? (fun a => decide ((pool.wp_pool a).NO = num)) = none := by
      apply List.find?_eq_none.mpr
      intro a hmem
      simp only [decide_eq_true_eq]
      rw [hno a]
      exact hnone a hmem
    rw [this]

/-- On the id of an active slot, `delete_watchpoint` is `free_wp` on that slot and returns
true. -/
theorem delete_watchpoint_active (pool : Pool) (active free : List (Fin NR_WP))
    (wp : Fin NR_WP) (h : PoolOK pool active free) (hw : wp ∈ active) :
    ∃ pool1, delete_watchpoint pool ((wp.val : Nat) : Int) = some (pool1, true) ∧
      free_wp pool (some wp) = some pool1 := by
  obtain ⟨pool1, hfree, _⟩ := free_wp_active pool active free wp h hw
  refine ⟨pool1, ?_, hfree⟩
  unfold delete_watchpoint
  rw [(delete_watchpoint_loop_ok pool active free _ h).1 wp hw rfl]
  simp only [hfree]

/-- On a number that is the id of no active slot, `delete_watchpoint` changes nothing and
returns false. -/
theorem delete_watchpoint_inactive (pool : Pool) (active free : List (Fin NR_WP)) (num : Int)
    (h : PoolOK pool active free) (hnum : ∀ wp, wp ∈ active → ((wp.val : Nat) : Int) ≠ num) :
    delete_watchpoint pool num = some (pool, false) := by
  unfold delete_watchpoint
  rw [(delete_watchpoint_loop_ok pool active free _ h).2 hnum]

/-- The loop of `check_watchpoints` stores values only: the two list heads and, in every
slot, the id, the pointer, the text and the flag stay as they are. -/
theorem check_watchpoints_loop_shape (m : Machine) : ∀ (fuel : Nat) (pool : Pool)
    (s : Option (Fin NR_WP)) (triggered : Bool) (pool1 : Pool) (r : Bool),
    check_watchpoints_loop m fuel pool s triggered = some (pool1, r) →
    pool1.head = pool.head ∧ pool1.free_ = pool.free_ ∧
      ∀ i, (pool1.wp_pool i).NO = (pool.wp_pool i).NO ∧
        (pool1.wp_pool i).next = (pool.wp_pool i).next ∧
        (pool1.wp_pool i).expr = (pool.wp_pool i).expr ∧
        (pool1.wp_pool i).enabled = (pool.wp_pool i).enabled := by
  intro fuel
  induction fuel with
  | zero => intro pool s triggered pool1 r h; simp [check_watchpoints_loop] at h
  | succ fuel ih =>
    intro pool s triggered pool1 r h
    cases s with
    | none =>
      simp only [check_watchpoints_loop, Option.some.injEq, Prod.mk.injEq] at h
      rw [← h.1]
      exact ⟨rfl, rfl, fun _ => ⟨rfl, rfl, rfl, rfl⟩⟩
    | some wp =>
      rw [check_watchpoints_loop] at h
      split at h
      · exact ih _ _ _ _ _ h
      · split at h
        · split at h
          · exact ih _ _ _ _ _ h
          · split at h
            · obtain ⟨h1, h2, h3⟩ := ih _ _ _ _ _ h
              refine ⟨h1, h2, fun i => ?_⟩
              have := h3 i
              by_cases hi : i = wp
              · subst hi
                simpa only [Function.update_same] using this
              · simpa only [Function.update_noteq hi] using this
            · exact ih _ _ _ _ _ h
        · exact absurd h (by simp)

theorem check_watchpoints_ok (m : Machine) (pool pool1 : Pool) (r : Bool)
    (active free : List (Fin NR_WP)) (hok : PoolOK pool active free)
    (h : check_watchpoints m pool = some (pool1, r)) : PoolOK pool1 active free := by
  obtain ⟨h1, h2, h3⟩ := check_watchpoints_loop_shape m _ _ _ _ _ _ h
  exact PoolOK_congr pool pool1 active free h1 h2 h3 hok

/-- Every pool state the program can be in is well formed. -/
theorem reachable_ok (pool : Pool) (h : Reachable pool) :
    ∃ active free, PoolOK pool active free := by
  induction h with
  | init pool => exact ⟨[], all_slots, init_ok pool⟩
  | @new_wp pool _ ih =>
    obtain ⟨active, free, hok⟩ := ih
    cases free with
    | nil =>
      have := (chain_nil pool _).mp hok.1.2
      rw [new_wp_none pool this]
      exact ⟨active, [], hok⟩
    | cons s free => exact ⟨s :: active, free, (new_wp_ok pool active free s hok).2.1⟩
  | @free_wp pool pool1 wp _ hfree ih =>
    obtain ⟨active, free, hok⟩ := ih
    cases wp with
    | none =>
      simp only [Nemu.free_wp, Option.some.injEq] at hfree
      rw [← hfree]
      exact ⟨active, free, hok⟩
    | some wp =>
      by_cases hw : wp ∈ active
      · obtain ⟨pool2, h2, hok2, _⟩ := free_wp_active pool active free wp hok hw
        rw [h2] at hfree
        rw [← Option.some.inj hfree]
        exact ⟨_, _, hok2⟩
      · rw [free_wp_inactive pool active free wp hok hw] at hfree
        rw [← Option.some.inj hfree]
        exact ⟨active, free, hok⟩
  | @set_watchpoint pool pool1 m e r _ hset ih =>
    obtain ⟨active, free, hok⟩ := ih
    rcases set_watchpoint_cases m pool pool1 e r hset with ⟨h1, _⟩ | ⟨s, val, hf, _, hlen, hv, _⟩
    · rw [h1]; exact ⟨active, free, hok⟩
    · cases free with
      | nil =>
        have := (chain_nil pool _).mp hok.1.2
        rw [this] at hf
        exact absurd hf (by simp)
      | cons s1 free =>
        have hs1 := chain_head pool _ s1 free hok.1.2
        rw [hf] at hs1
        have hs : s = s1 := Option.some.inj hs1
        subst hs
        obtain ⟨pool2, h2, hok2, _⟩ := set_watchpoint_ok m pool e val active free s hok hlen hv
        rw [h2] at hset
        simp only [Option.some.injEq, Prod.mk.injEq] at hset
        rw [← hset.1]
        exact ⟨_, _, hok2⟩
  | @delete_watchpoint pool pool1 num r _ hdel ih =>
    obtain ⟨active, free, hok⟩ := ih
    by_cases hex : ∃ wp, wp ∈ active ∧ ((wp.val : Nat) : Int) = num
    · obtain ⟨wp, hw, hnum⟩ := hex
      obtain ⟨pool2, h2, h3⟩ := delete_watchpoint_active pool active free wp hok hw
      rw [hnum, hdel] at h2
      simp only [Option.some.injEq, Prod.mk.injEq] at h2
      obtain ⟨pool3, h4, hok3, _⟩ := free_wp_active pool active free wp hok hw
      rw [h3] at h4
      rw [h2.1, Option.some.inj h4]
      exact ⟨_, _, hok3⟩
    · have hnone : ∀ wp, wp ∈ active → ((wp.val : Nat) : Int) ≠ num :=
        fun wp hw hnum => hex ⟨wp, hw, hnum⟩
      rw [delete_watchpoint_inactive pool active free num hok hnone] at hdel
      simp only [Option.some.injEq, Prod.mk.injEq] at hdel
      rw [← hdel.1]
      exact ⟨active, free, hok⟩
  | @check_watchpoints pool pool1 m r _ hchk ih =>
    obtain ⟨active, free, hok⟩ := ih
    exact ⟨active, free, check_watchpoints_ok m pool pool1 r active free hok hchk⟩

/-! ## Lexical errors fail the evaluation -/

/-- After `n` successful calls of `set_watchpoint` with no deletion, at least `n` slots are
active. -/
theorem setRun_ok (n : Nat) (pool : Pool) (h : SetRun n pool) :
    ∃ active free, PoolOK pool active free ∧ n ≤ active.length := by
  induction h with
  | init pool => exact ⟨[], all_slots, init_ok pool, le_refl _⟩
  | @set_ok n pool pool1 m e wp _ hset ih =>
    obtain ⟨active, free, hok, hn⟩ := ih
    rcases set_watchpoint_cases m pool pool1 e _ hset with ⟨_, h2⟩ | ⟨s, val, hf, _, hlen, hv, _⟩
    · exact absurd h2 (by simp)
    · cases free with
      | nil =>
        have := (chain_nil pool _).mp hok.1.2
        rw [this] at hf
        exact absurd hf (by simp)
      | cons s1 free =>
        have hs1 := chain_head pool _ s1 free hok.1.2
        rw [hf] at hs1
        have hs : s = s1 := Option.some.inj hs1
        subst hs
        obtain ⟨pool2, h2, hok2, _⟩ := set_watchpoint_ok m pool e val active free s hok hlen hv
        rw [h2] at hset
        simp only [Option.some.injEq, Prod.mk.injEq] at hset
        rw [← hset.1]
        exact ⟨_, _, hok2, by simp only [List.length_cons]; omega⟩
  | @set_null n pool pool1 m e _ hset ih =>
    obtain ⟨active, free, hok, hn⟩ := ih
    rcases set_watchpoint_cases m pool pool1 e _ hset with ⟨h1, _⟩ | ⟨s, val, _, h2, _⟩
    · rw [h1]; exact ⟨active, free, hok, hn⟩
    · exact absurd h2 (by simp)
  | @check n pool pool1 m r _ hchk ih =>
    obtain ⟨active, free, hok, hn⟩ := ih
    exact ⟨active, free, check_watchpoints_ok m pool pool1 r active free hok hchk, hn⟩

theorem poolOK_lengths (pool : Pool) (active free : List (Fin NR_WP))
    (h : PoolOK pool active free) : active.length + free.length = NR_WP := by
  have := nodup_all_length (active ++ free) h.2.1 h.2.2.1
  simpa using this

theorem expr_one (m : Machine) : expr m ['1'] = ExprOutcome.returned 1 true := by
  have h := num_expr m ['1'] (by decide) (by decide) (by decide)
  exact h

/-- The text `1` can be set `n` times in a row, for every `n` up to 32. -/
theorem pool_after_sets_ok (m : Machine) : ∀ n, n ≤ NR_WP →
    SetRun n (pool_after_sets m ['1'] n) ∧
      ∃ active free, PoolOK (pool_after_sets m ['1'] n) active free ∧ active.length = n := by
  intro n
  induction n with
  | zero => intro _; exact ⟨SetRun.init _, [], all_slots, init_ok _, rfl⟩
  | succ n ih =>
    intro hn
    obtain ⟨hrun, active, free, hok, hlen⟩ := ih (by omega)
    have hsum := poolOK_lengths _ active free hok
    cases free with
    | nil => simp only [List.length_nil] at hsum; omega
    | cons s free =>
      obtain ⟨pool1, h1, hok1, _⟩ :=
        set_watchpoint_ok m _ ['1'] 1 active free s hok (by decide) (expr_one m)
      have hdef : pool_after_sets m ['1'] (n + 1) = pool1 := by
        rw [pool_after_sets, h1]
      rw [hdef]
      exact ⟨SetRun.set_ok m ['1'] s hrun h1, s :: active, free, hok1, by
        simp only [List.length_cons, hlen]⟩

/-- C14: pool exhaustion. Starting from `init_wp_pool`, after 32 successful calls of
`set_watchpoint` with no deletion in between, the next call of `set_watchpoint` returns
`NULL` for every text, valid or not, and leaves the pool unchanged. More generally `new_wp`
returns `NULL` and changes nothing when the free list is empty, it returns a slot when the
free list is not empty, and then, in a state the program can be in, the pool changes. The
active list of a pool state the program can be in never has more than 32 slots. -/
theorem pool_exhaustion :
    (∀ pool, SetRun NR_WP pool →
      ∀ (m : Machine) (e : List Char), set_watchpoint m pool e = some (pool, none)) ∧
    (∀ pool : Pool, pool.free_ = none → new_wp pool = (pool, none)) ∧
    (∀ pool : Pool, pool.free_ ≠ none → (new_wp pool).2 ≠ none) ∧
    (∀ pool, Reachable pool → pool.free_ ≠ none → (new_wp pool).1 ≠ pool) ∧
    (∀ pool, Reachable pool →
      ∃ active, chain pool pool.head active ∧ active.length ≤ NR_WP) := by
  refine ⟨?_, new_wp_none, ?_, ?_, ?_⟩
  · intro pool hrun m e
    obtain ⟨active, free, hok, hn⟩ := setRun_ok _ pool hrun
    have hsum := poolOK_lengths pool active free hok
    have hfree : free = [] := List.length_eq_zero.mp (by omega)
    subst hfree
    exact set_watchpoint_full m pool e ((chain_nil pool _).mp hok.1.2)
  · intro pool hne
    cases hf : pool.free_ with
    | none => exact absurd hf hne
    | some s => rw [new_wp_some pool s hf]; simp
  · intro pool hr hne heq
    obtain ⟨active, free, hok⟩ := reachable_ok pool hr
    cases free with
    | nil => exact hne ((chain_nil pool _).mp hok.1.2)
    | cons s free =>
      have h1 := (new_wp_ok pool active free s hok).2.1
      rw [heq] at h1
      have := chain_unique pool _ _ _ h1.1.1 hok.1.1
      exact absurd this (by simp)
  · intro pool hr
    obtain ⟨active, free, hok⟩ := reachable_ok pool hr
    exact ⟨active, hok.1.1, nodup_length_le active (List.nodup_append.mp hok.2.1).1⟩

/-- Witness for C14: after 32 calls `set_watchpoint("1")` since `init_wp_pool`, one more call
returns `NULL` and leaves the pool as it is. -/
theorem pool_exhaustion_witness :
    SetRun NR_WP (pool_after_sets zeroMachine ['1'] NR_WP) ∧
      set_watchpoint zeroMachine (pool_after_sets zeroMachine ['1'] NR_WP) ['1'] =
        some (pool_after_sets zeroMachine ['1'] NR_WP, none) ∧
      Reachable (init_wp_pool pool_start) ∧
      ∃ active, chain (init_wp_pool pool_start) (init_wp_pool pool_start).head active ∧
        active.length ≤ NR_WP :=
  ⟨(pool_after_sets_ok zeroMachine NR_WP (le_refl _)).1,
    pool_exhaustion.1 _ (pool_after_sets_ok zeroMachine NR_WP (le_refl _)).1 zeroMachine ['1'],
    Reachable.init pool_start,
    pool_exhaustion.2.2.2.2 _ (Reachable.init pool_start)⟩

/-! ## C15, C16: the invariants of the pool -/

/-- C15: the free list and the active list partition the pool. In every pool state reachable
from `init_wp_pool` by calls of `new_wp`, `free_wp` (on any slot, active or not, or on
`NULL`), `set_watchpoint`, `delete_watchpoint` and `check_watchpoints`, following `next` from
`head` and from `free_` ends at `NULL` after finitely many slots; neither list visits a slot
twice, no slot is on both lists, and every one of the 32 slots occurs exactly once on the two
lists together. -/
theorem partition_invariant (pool : Pool) (h : Reachable pool) :
    ∃ active free, chain pool pool.head active ∧ chain pool pool.free_ free ∧
      active.Nodup ∧ free.Nodup ∧ (∀ i, i ∈ active → i ∉ free) ∧
      (∀ i : Fin NR_WP, (active ++ free).count i = 1) ∧
      active.length + free.length = NR_WP := by
  obtain ⟨active, free, hok⟩ := reachable_ok pool h
  have hnd := List.nodup_append.mp hok.2.1
  exact ⟨active, free, hok.1.1, hok.1.2, hnd.1, hnd.2.1, fun i h1 h2 => hnd.2.2 h1 h2,
    fun i => List.count_eq_one_of_mem hok.2.1 (hok.2.2.1 i), poolOK_lengths pool active free hok⟩

/-- Witness for C15: the state `init_wp_pool` leaves. -/
theorem partition_invariant_witness :
    Reachable (init_wp_pool pool_start) ∧
      ∃ active free, chain (init_wp_pool pool_start) (init_wp_pool pool_start).head active ∧
        chain (init_wp_pool pool_start) (init_wp_pool pool_start).free_ free ∧
        active.Nodup ∧ free.Nodup ∧ (∀ i, i ∈ active → i ∉ free) ∧
        (∀ i : Fin NR_WP, (active ++ free).count i = 1) ∧
        active.length + free.length = NR_WP :=
  ⟨Reachable.init pool_start, partition_invariant _ (Reachable.init pool_start)⟩

/-- C16: the status of the slots. In every pool state reachable from `init_wp_pool` by calls
of `new_wp`, `free_wp`, `set_watchpoint`, `delete_watchpoint` and `check_watchpoints`, the
`NO` of slot `i` is `i`, every slot on the active list has `enabled` true, and every slot on
the free list has `enabled` false and holds the empty text. -/
theorem slot_status_invariant (pool : Pool) (h : Reachable pool) :
    (∀ i : Fin NR_WP, (pool.wp_pool i).NO = ((i.val : Nat) : Int)) ∧
    (∃ active free, lists pool active free) ∧
    (∀ active free, lists pool active free →
      (∀ i, i ∈ active → (pool.wp_pool i).enabled = true) ∧
      (∀ i, i ∈ free → (pool.wp_pool i).enabled = false ∧ (pool.wp_pool i).expr = [])) := by
  obtain ⟨active, free, hok⟩ := reachable_ok pool h
  refine ⟨hok.2.2.2.1, ⟨active, free, hok.1⟩, ?_⟩
  intro active1 free1 hl
  have h1 := chain_unique pool _ _ _ hl.1 hok.1.1
  have h2 := chain_unique pool _ _ _ hl.2 hok.1.2
  rw [h1, h2]
  exact ⟨hok.2.2.2.2.1, hok.2.2.2.2.2⟩

/-- Witness for C16: the state after `init_wp_pool` and `set_watchpoint("1")`. -/
theorem slot_status_invariant_witness :
    Reachable (pool_after_sets zeroMachine ['1'] 1) ∧
      (∀ i : Fin NR_WP, ((pool_after_sets zeroMachine ['1'] 1).wp_pool i).NO = ((i.val : Nat) : Int)) ∧
      (∃ active free, lists (pool_after_sets zeroMachine ['1'] 1) active free) :=
  have hr : Reachable (pool_after_sets zeroMachine ['1'] 1) :=
    Reachable.set_watchpoint zeroMachine ['1'] (some 0) (Reachable.init pool_start) rfl
  ⟨hr, (slot_status_invariant _ hr).1, (slot_status_invariant _ hr).2.1⟩

/-! ## C17, C18: `set_watchpoint` -/

theorem strlen_replicate (n : Nat) (c : Char) (hc : c ≠ NUL) :
    strlen (List.replicate n c) = n := by
  rw [strlen_of_no_NUL _ (fun x hx => by rw [List.eq_of_mem_replicate hx]; exact hc),
    List.length_replicate]

/-- C17: `set_watchpoint` is atomic on failure. If the text has 256 characters or more, or if
`expr` reports failure on it, `set_watchpoint` returns `NULL` and the pool is unchanged: the
two lists and every field of every slot are as before. -/
theorem set_watchpoint_atomic (m : Machine) (pool : Pool) (e : List Char) :
    (256 ≤ strlen e → set_watchpoint m pool e = some (pool, none)) ∧
    (∀ val, expr m e = ExprOutcome.returned val false →
      set_watchpoint m pool e = some (pool, none)) := by
  refine ⟨set_watchpoint_long m pool e, fun val hv => ?_⟩
  by_cases h : 256 ≤ strlen e
  · exact set_watchpoint_long m pool e h
  · exact set_watchpoint_fail m pool e val (by omega) hv

/-- Witness for C17: the text `1/0`, on which `expr` reports failure, and a text of 256
zeros. -/
theorem set_watchpoint_atomic_witness :
    expr zeroMachine ['1', '/', '0'] = ExprOutcome.returned 0 false ∧
      set_watchpoint zeroMachine (init_wp_pool pool_start) ['1', '/', '0'] =
        some (init_wp_pool pool_start, none) ∧
      256 ≤ strlen (List.replicate 256 '0') ∧
      set_watchpoint zeroMachine (init_wp_pool pool_start) (List.replicate 256 '0') =
        some (init_wp_pool pool_start, none) :=
  ⟨by decide,
    (set_watchpoint_atomic zeroMachine (init_wp_pool pool_start) ['1', '/', '0']).2 0
      (by decide),
    (strlen_replicate 256 '0' (by decide)).ge,
    (set_watchpoint_atomic zeroMachine (init_wp_pool pool_start) (List.replicate 256 '0')).1
      (strlen_replicate 256 '0' (by decide)).ge⟩

/-- C18: the postcondition of `set_watchpoint` on success. In a pool state the program can
be in, with the active list `active` and the free list `s :: free`, if the text has fewer
than 256 characters and `expr` evaluates it successfully to `v`, then `set_watchpoint`
returns the slot `s`; afterwards the active list is `s :: active`, the free list is `free`,
the slot `s` is enabled, holds the given text (as a C string) and the value `v`, its `NO` is
unchanged, and every other slot has the `NO`, text, stored value and flag it had. -/
theorem set_watchpoint_success (m : Machine) (pool : Pool) (e : List Char) (v : Nat)
    (s : Fin NR_WP) (active free : List (Fin NR_WP)) (hr : Reachable pool)
    (hl : lists pool active (s :: free)) (hlen : strlen e < 256)
    (hv : expr m e = ExprOutcome.returned v true) :
    ∃ pool1, set_watchpoint m pool e = some (pool1, some s) ∧
      lists pool1 (s :: active) free ∧
      (pool1.wp_pool s).enabled = true ∧
      (pool1.wp_pool s).expr = strcpy e ∧
      ((∀ c, c ∈ e → c ≠ NUL) → (pool1.wp_pool s).expr = e) ∧
      (pool1.wp_pool s).old_val = v ∧
      (pool1.wp_pool s).NO = (pool.wp_pool s).NO ∧
      ∀ i, i ≠ s → (pool1.wp_pool i).NO = (pool.wp_pool i).NO ∧
        (pool1.wp_pool i).expr = (pool.wp_pool i).expr ∧
        (pool1.wp_pool i).old_val = (pool.wp_pool i).old_val ∧
        (pool1.wp_pool i).enabled = (pool.wp_pool i).enabled := by
  obtain ⟨active1, free1, hok⟩ := reachable_ok pool hr
  have h1 := chain_unique pool _ _ _ hok.1.1 hl.1
  have h2 := chain_unique pool _ _ _ hok.1.2 hl.2
  subst h1 h2
  obtain ⟨pool1, hset, hok1, hother, hno, hen, hex, hval⟩ :=
    set_watchpoint_ok m pool e v active1 free s hok hlen hv
  exact ⟨pool1, hset, hok1.1, hen, hex, fun hc => by rw [hex, strcpy_of_no_NUL e hc], hval,
    hno, hother⟩

/-- Witness for C18: `set_watchpoint("$a0")` in the state `init_wp_pool` leaves returns the
slot 0. -/
theorem set_watchpoint_success_witness :
    Reachable (init_wp_pool pool_start) ∧ lists (init_wp_pool pool_start) [] (0 :: later_slots) ∧
      expr zeroMachine ['$', 'a', '0'] = ExprOutcome.returned 0 true ∧
      ∃ pool1, set_watchpoint zeroMachine (init_wp_pool pool_start) ['$', 'a', '0'] =
          some (pool1, some 0) ∧
        lists pool1 [0] later_slots ∧ (pool1.wp_pool 0).expr = ['$', 'a', '0'] :=
  ⟨Reachable.init pool_start, init_lists pool_start, by decide,
    (set_watchpoint_success zeroMachine (init_wp_pool pool_start) ['$', 'a', '0'] 0 0 []
      later_slots (Reachable.init pool_start) (init_lists pool_start) (by decide)
      (by decide)).imp
      (fun _ h => ⟨h.1, h.2.1, h.2.2.2.2.1 (by decide)⟩)⟩

/-! ## C19, C20: deletion and reuse -/

/-- On a numeric literal of any length `expr` succeeds. -/
theorem num_expr_success (m : Machine) (s : List Char) (hs : isNumLit s = true) :
    ∃ v, expr m s = ExprOutcome.returned v true := by
  have hl : lex (s ++ []) 0 [] = LexOutcome.done [⟨TK_NUM, s.take 31⟩] := by
    rw [lex_num s [] 0 [] hs nil_sep (by simp), lex_nil]
    rfl
  rw [List.append_nil] at hl
  have hm := make_token_of_lex s _ hl
  refine ⟨(eval_single m ⟨TK_NUM, s.take 31⟩ true).1, ?_⟩
  apply expr_of_evalL m s _ 1 _ _ hm
  have hp : post_process none (post_process none [⟨TK_NUM, s.take 31⟩]) =
      [⟨TK_NUM, s.take 31⟩] := rfl
  rw [hp, evalL]
  simp only [List.length_singleton, one_ne_zero, if_false, if_true, List.headD_cons]
  exact congrArg some (Prod.ext rfl (eval_single_num_flag m _ true))

theorem isNumLit_zeros (n : Nat) : isNumLit (List.replicate (n + 1) '0') = true := by
  have h : isDecLit (List.replicate (n + 1) '0') = true := by
    simp only [isDecLit, Bool.and_eq_true, Bool.not_eq_true', List.all_eq_true]
    refine ⟨by simp [List.replicate_succ], fun c hc => ?_⟩
    rw [List.eq_of_mem_replicate hc]
    decide
  simp [isNumLit, h]

/-- The state after `init_wp_pool` and one successful `set_watchpoint`: the slot 0 is the
only active one. -/
theorem pool_after_one_set (e : List Char) (v : Nat) (hlen : strlen e < 256)
    (hv : expr zeroMachine e = ExprOutcome.returned v true) :
    set_watchpoint zeroMachine (init_wp_pool pool_start) e =
        some (pool_after_sets zeroMachine e 1, some 0) ∧
      Reachable (pool_after_sets zeroMachine e 1) ∧
      PoolOK (pool_after_sets zeroMachine e 1) [0] later_slots := by
  obtain ⟨pool1, h1, hok1, _⟩ := set_watchpoint_ok zeroMachine (init_wp_pool pool_start) e v
    [] later_slots 0 (init_ok pool_start) hlen hv
  have hdef : pool_after_sets zeroMachine e 1 = pool1 := by
    rw [pool_after_sets, pool_after_sets, h1]
  rw [hdef]
  exact ⟨h1, Reachable.set_watchpoint zeroMachine e (some 0) (Reachable.init pool_start) h1,
    hok1⟩

/-- C19, as the specification states it, fails: after `init_wp_pool` and
`set_watchpoint("$a0")` the watchpoint with id 0 is active and `delete_watchpoint(0)`
returns true; the text of 256 zeros evaluates successfully, and the next call of
`set_watchpoint` with it returns `NULL`, not the watchpoint with id 0. -/
theorem slot_reuse_refuted :
    ∃ pool1, Reachable (pool_after_sets zeroMachine ['$', 'a', '0'] 1) ∧
      chain (pool_after_sets zeroMachine ['$', 'a', '0'] 1)
        (pool_after_sets zeroMachine ['$', 'a', '0'] 1).head [0] ∧
      ((pool_after_sets zeroMachine ['$', 'a', '0'] 1).wp_pool 0).NO = 0 ∧
      delete_watchpoint (pool_after_sets zeroMachine ['$', 'a', '0'] 1) 0 =
        some (pool1, true) ∧
      (∃ v, expr zeroMachine (List.replicate 256 '0') = ExprOutcome.returned v true) ∧
      set_watchpoint zeroMachine pool1 (List.replicate 256 '0') = some (pool1, none) := by
  obtain ⟨_, hr, hok⟩ := pool_after_one_set ['$', 'a', '0'] 0 (by decide) (by decide)
  obtain ⟨pool1, hdel, _⟩ := delete_watchpoint_active _ [0] later_slots 0 hok
    (List.mem_singleton_self _)
  exact ⟨pool1, hr, hok.1.1, hok.2.2.2.1 0, hdel,
    num_expr_success zeroMachine _ (isNumLit_zeros 255),
    set_watchpoint_long zeroMachine pool1 _ (strlen_replicate 256 '0' (by decide)).ge⟩

/-- C19, amended: slot reuse is last in, first out. In every pool state the program can be
in, if the slot `wp` of the active list has the id `n`, then `delete_watchpoint(n)` returns
true, and the next call of `set_watchpoint`, with a text of fewer than 256 characters that
`expr` evaluates successfully and with no other pool operation in between, returns a
watchpoint with the same id `n`. -/
theorem slot_reuse_lifo (pool : Pool) (n : Int) (active : List (Fin NR_WP)) (wp : Fin NR_WP)
    (hr : Reachable pool) (hc : chain pool pool.head active) (hw : wp ∈ active)
    (hn : (pool.wp_pool wp).NO = n) :
    ∃ pool1, delete_watchpoint pool n = some (pool1, true) ∧
      ∀ (m : Machine) (e : List Char) (v : Nat), strlen e < 256 →
        expr m e = ExprOutcome.returned v true →
        ∃ pool2 s, set_watchpoint m pool1 e = some (pool2, some s) ∧
          (pool2.wp_pool s).NO = n := by
  obtain ⟨active1, free, hok⟩ := reachable_ok pool hr
  have h1 := chain_unique pool _ _ _ hok.1.1 hc
  subst h1
  have hno : ((wp.val : Nat) : Int) = n := by rw [← hok.2.2.2.1 wp]; exact hn
  obtain ⟨pool1, hdel, hfree⟩ := delete_watchpoint_active pool active1 free wp hok hw
  obtain ⟨pool2, hfree2, hok2, _, hno2, _⟩ := free_wp_active pool active1 free wp hok hw
  rw [hfree] at hfree2
  have h12 : pool1 = pool2 := Option.some.inj hfree2
  subst h12
  rw [hno] at hdel
  refine ⟨pool1, hdel, fun m e v hlen hv => ?_⟩
  obtain ⟨pool3, hset, _, _, hno3, _⟩ :=
    set_watchpoint_ok m pool1 e v (active1.erase wp) free wp hok2 hlen hv
  exact ⟨pool3, wp, hset, by rw [hno3, hno2, hn]⟩

/-- Witness for C19, amended: after `init_wp_pool`, `set_watchpoint("$a0")` returns the
watchpoint with id 0, `delete_watchpoint(0)` returns true, and the next
`set_watchpoint("$a0")` returns a watchpoint with id 0 again. -/
theorem slot_reuse_lifo_witness :
    set_watchpoint zeroMachine (init_wp_pool pool_start) ['$', 'a', '0'] =
        some (pool_after_sets zeroMachine ['$', 'a', '0'] 1, some 0) ∧
      ((pool_after_sets zeroMachine ['$', 'a', '0'] 1).wp_pool 0).NO = 0 ∧
      ∃ pool1, delete_watchpoint (pool_after_sets zeroMachine ['$', 'a', '0'] 1) 0 =
          some (pool1, true) ∧
        ∃ pool2 s, set_watchpoint zeroMachine pool1 ['$', 'a', '0'] = some (pool2, some s) ∧
          (pool2.wp_pool s).NO = 0 :=
  have h := pool_after_one_set ['$', 'a', '0'] 0 (by decide) (by decide)
  ⟨h.1, h.2.2.2.2.2.1 0,
    (slot_reuse_lifo (pool_after_sets zeroMachine ['$', 'a', '0'] 1) 0 [0] 0 h.2.1
      h.2.2.1.1 (List.mem_singleton_self _) (h.2.2.2.2.2.1 0)).imp
      (fun _ h1 => ⟨h1.1, h1.2 zeroMachine ['$', 'a', '0'] 0 (by decide) (by decide)⟩)⟩

/-- C20: `delete_watchpoint` succeeds exactly for the ids of active watchpoints. In every
pool state the program can be in, with the active list `active` and the free list `free`,
and for every integer `n`, `delete_watchpoint(n)` returns, and it returns true if and only
if a slot of the active list has the id `n`. When it returns false the pool is unchanged.
When it returns true, a slot `wp` with the id `n` is removed from the active list, whose
other slots stay in their order, and becomes the head of the free list, with `enabled`
false and the empty text; every other slot keeps its `NO`, text, stored value and flag; and
`delete_watchpoint(n)` called again at once returns false. -/
theorem delete_exactly_active (pool : Pool) (n : Int) (active free : List (Fin NR_WP))
    (hr : Reachable pool) (hl : lists pool active free) :
    ∃ pool1 r, delete_watchpoint pool n = some (pool1, r) ∧
      (r = true ↔ ∃ wp, wp ∈ active ∧ (pool.wp_pool wp).NO = n) ∧
      (r = false → pool1 = pool) ∧
      (r = true → ∃ wp, wp ∈ active ∧ (pool.wp_pool wp).NO = n ∧
        lists pool1 (active.erase wp) (wp :: free) ∧
        (pool1.wp_pool wp).enabled = false ∧ (pool1.wp_pool wp).expr = [] ∧
        (∀ i, i ≠ wp → (pool1.wp_pool i).NO = (pool.wp_pool i).NO ∧
          (pool1.wp_pool i).expr = (pool.wp_pool i).expr ∧
          (pool1.wp_pool i).old_val = (pool.wp_pool i).old_val ∧
          (pool1.wp_pool i).enabled = (pool.wp_pool i).enabled) ∧
        delete_watchpoint pool1 n = some (pool1, false)) := by
  obtain ⟨active1, free1, hok⟩ := reachable_ok pool hr
  have h1 := chain_unique pool _ _ _ hok.1.1 hl.1
  have h2 := chain_unique pool _ _ _ hok.1.2 hl.2
  subst h1 h2
  have hno := hok.2.2.2.1
  by_cases hex : ∃ wp, wp ∈ active1 ∧ (pool.wp_pool wp).NO = n
  · obtain ⟨wp, hw, hn⟩ := hex
    have hval : ((wp.val : Nat) : Int) = n := by rw [← hno wp]; exact hn
    obtain ⟨pool1, hdel, hfree⟩ := delete_watchpoint_active pool active1 free1 wp hok hw
    obtain ⟨pool2, hfree2, hok2, hsame, _⟩ := free_wp_active pool active1 free1 wp hok hw
    rw [hfree] at hfree2
    have h12 : pool1 = pool2 := Option.some.inj hfree2
    subst h12
    rw [hval] at hdel
    refine ⟨pool1, true, hdel, ⟨fun _ => ⟨wp, hw, hn⟩, fun _ => rfl⟩,
      fun h => absurd h (by simp), fun _ => ⟨wp, hw, hn, hok2.1,
        (hok2.2.2.2.2.2 wp (List.mem_cons_self _ _)).1,
        (hok2.2.2.2.2.2 wp (List.mem_cons_self _ _)).2, hsame, ?_⟩⟩
    apply delete_watchpoint_inactive pool1 _ _ n hok2
    intro a ha hna
    have hnda := (List.nodup_append.mp hok.2.1).1
    have hne := ((List.Nodup.mem_erase_iff hnda).mp ha).1
    rw [← hval] at hna
    exact hne (Fin.ext (by exact_mod_cast hna))
  · have hnone : ∀ wp, wp ∈ active1 → ((wp.val : Nat) : Int) ≠ n := by
      intro wp hw hv
      exact hex ⟨wp, hw, by rw [hno wp]; exact hv⟩
    refine ⟨pool, false, delete_watchpoint_inactive pool active1 free1 n hok hnone,
      ⟨fun h => absurd h (by simp), fun h => absurd h hex⟩, fun _ => rfl,
      fun h => absurd h (by simp)⟩

/-- Witness for C20: the state after `init_wp_pool` and `set_watchpoint("$a0")`, in which the
slot 0 is the only active one, and the number 0. -/
theorem delete_exactly_active_witness :
    Reachable (pool_after_sets zeroMachine ['$', 'a', '0'] 1) ∧
      lists (pool_after_sets zeroMachine ['$', 'a', '0'] 1) [0] later_slots ∧
      ∃ pool1 r, delete_watchpoint (pool_after_sets zeroMachine ['$', 'a', '0'] 1) 0 =
          some (pool1, r) ∧
        (r = true ↔ ∃ wp, wp ∈ [(0 : Fin NR_WP)] ∧
          ((pool_after_sets zeroMachine ['$', 'a', '0'] 1).wp_pool wp).NO = 0) :=
  have h := pool_after_one_set ['$', 'a', '0'] 0 (by decide) (by decide)
  ⟨h.2.1, h.2.2.1,
    (delete_exactly_active (pool_after_sets zeroMachine ['$', 'a', '0'] 1) 0 [0] later_slots
      h.2.1 h.2.2.1).imp (fun _ h1 => h1.imp (fun _ h2 => ⟨h2.1, h2.2.1⟩))⟩

/-! ## The pool after `check_watchpoints` -/

theorem checked_of_returned (m : Machine) (w : WP) (v : Nat) (b : Bool)
    (h : expr m w.expr = ExprOutcome.returned v b) :
    checked m w =
      if !w.enabled then w
      else if !b then w
      else if v ≠ w.old_val then { w with old_val := v } else w := by
  unfold checked
  rw [h]

theorem fires_of_returned (m : Machine) (w : WP) (v : Nat) (b : Bool)
    (h : expr m w.expr = ExprOutcome.returned v b) :
    fires m w = if !w.enabled then false else (b && decide (v ≠ w.old_val)) := by
  unfold fires
  rw [h]

theorem checked_shape (m : Machine) (w : WP) :
    (checked m w).NO = w.NO ∧ (checked m w).next = w.next ∧ (checked m w).expr = w.expr ∧
      (checked m w).enabled = w.enabled := by
  unfold checked
  split
  · exact ⟨rfl, rfl, rfl, rfl⟩
  · split
    · split
      · exact ⟨rfl, rfl, rfl, rfl⟩
      · split <;> exact ⟨rfl, rfl, rfl, rfl⟩
    · exact ⟨rfl, rfl, rfl, rfl⟩

/-- One iteration of the loop of `check_watchpoints` at the slot `wp`, when `expr` returns
on its text: the loop goes on at the next slot, with the record of `wp` checked. -/
theorem check_watchpoints_loop_step (m : Machine) (fuel : Nat) (pool : Pool) (wp : Fin NR_WP)
    (triggered : Bool) (v : Nat) (b : Bool)
    (h : expr m (pool.wp_pool wp).expr = ExprOutcome.returned v b) :
    check_watchpoints_loop m (fuel + 1) pool (some wp) triggered =
      check_watchpoints_loop m fuel
        { pool with wp_pool := Function.update pool.wp_pool wp (checked m (pool.wp_pool wp)) }
        (pool.wp_pool wp).next (triggered || fires m (pool.wp_pool wp)) := by
  rw [check_watchpoints_loop, checked_of_returned m _ v b h, fires_of_returned m _ v b h]
  by_cases hen : (pool.wp_pool wp).enabled = true
  · simp only [hen, Bool.not_true, Bool.false_eq_true, if_false, h]
    cases b with
    | false =>
      simp only [Bool.not_false, if_true, Bool.false_and, Bool.or_false,
        Function.update_eq_self]
    | true =>
      simp only [Bool.not_true, Bool.false_eq_true, if_false, Bool.true_and]
      by_cases hv : v = (pool.wp_pool wp).old_val
      · simp only [hv, ne_eq, not_true_eq_false, if_false, decide_False, Bool.or_false,
          Function.update_eq_self]
      · simp only [ne_eq, hv, not_false_eq_true, if_true, decide_True, Bool.or_true]
  · have hen2 : (pool.wp_pool wp).enabled = false := by
      cases h0 : (pool.wp_pool wp).enabled with
      | true => exact absurd h0 hen
      | false => rfl
    simp only [hen2, Bool.not_false, if_true, Bool.or_false, Function.update_eq_self]

theorem any_congr_mem (l : List (Fin NR_WP)) (f g : Fin NR_WP → Bool)
    (h : ∀ i, i ∈ l → f i = g i) : l.any f = l.any g := by
  induction l with
  | nil => rfl
  | cons a l ih =>
    simp only [List.any_cons, h a (List.mem_cons_self _ _),
      ih (fun i hi => h i (List.mem_cons_of_mem _ hi))]

/-- The loop of `check_watchpoints` along a list without repetition, when `expr` returns on
the text of every slot of the list: it returns; every record of the list is checked once,
the other records are untouched, and `triggered` is set exactly when one of the records
fires. -/
theorem check_watchpoints_loop_run (m : Machine) : ∀ (l : List (Fin NR_WP)) (fuel : Nat)
    (pool : Pool) (s : Option (Fin NR_WP)) (triggered : Bool),
    chain pool s l → l.Nodup → l.length < fuel →
    (∀ i, i ∈ l → ∃ v b, expr m (pool.wp_pool i).expr = ExprOutcome.returned v b) →
    ∃ pool1, check_watchpoints_loop m fuel pool s triggered =
        some (pool1, triggered || l.any (fun i => fires m (pool.wp_pool i))) ∧
      pool1.head = pool.head ∧ pool1.free_ = pool.free_ ∧
      (∀ i, i ∈ l → pool1.wp_pool i = checked m (pool.wp_pool i)) ∧
      (∀ i, i ∉ l → pool1.wp_pool i = pool.wp_pool i) := by
  intro l
  induction l with
  | nil =>
    intro fuel pool s triggered hc _ hlen _
    rw [chain_nil] at hc
    subst hc
    cases fuel with
    | zero => simp at hlen
    | succ fuel =>
      refine ⟨pool, ?_, rfl, rfl, fun i hi => absurd hi (List.not_mem_nil i), fun _ _ => rfl⟩
      simp [check_watchpoints_loop]
  | cons a l ih =>
    intro fuel pool s triggered hc hnd hlen hret
    have hs := chain_head pool s a l hc
    subst hs
    unfold chain at hc
    rw [seg_cons] at hc
    have ha : a ∉ l := (List.nodup_cons.mp hnd).1
    cases fuel with
    | zero => simp at hlen
    | succ fuel =>
      simp only [List.length_cons, Nat.add_lt_add_iff_right] at hlen
      obtain ⟨v, b, hv⟩ := hret a (List.mem_cons_self _ _)
      rw [check_watchpoints_loop_step m fuel pool a triggered v b hv]
      have hother : ∀ i, i ≠ a →
          (Function.update pool.wp_pool a (checked m (pool.wp_pool a))) i = pool.wp_pool i :=
        fun i hi => Function.update_noteq hi _ _
      obtain ⟨pool1, h1, h2, h3, h4, h5⟩ := ih fuel
        { pool with wp_pool := Function.update pool.wp_pool a (checked m (pool.wp_pool a)) }
        (pool.wp_pool a).next (triggered || fires m (pool.wp_pool a))
        (by
          unfold chain
          apply seg_congr pool _ l _ _ _ hc.2
          intro i hi
          have hia : i ≠ a := fun e => ha (e ▸ hi)
          simp only [hother i hia])
        (List.nodup_cons.mp hnd).2 hlen
        (by
          intro i hi
          have hia : i ≠ a := fun e => ha (e ▸ hi)
          simp only [hother i hia]
          exact hret i (List.mem_cons_of_mem _ hi))
      refine ⟨pool1, ?_, h2, h3, ?_, ?_⟩
      · rw [h1]
        have hany : l.any (fun i => fires m
            ((Function.update pool.wp_pool a (checked m (pool.wp_pool a))) i)) =
            l.any (fun i => fires m (pool.wp_pool i)) := by
          apply any_congr_mem
          intro i hi
          have hia : i ≠ a := fun e => ha (e ▸ hi)
          simp only [hother i hia]
        simp only [hany, List.any_cons, Bool.or_assoc]
      · intro i hi
        rcases List.mem_cons.mp hi with hia | hil
        · subst hia
          rw [h5 i ha]
          simp only [Function.update_same]
        · have hia : i ≠ a := fun e => ha (e ▸ hil)
          rw [h4 i hil]
          simp only [hother i hia]
      · intro i hi
        have hia : i ≠ a := fun e => hi (e ▸ List.mem_cons_self _ _)
        have hil : i ∉ l := fun h => hi (List.mem_cons_of_mem _ h)
        rw [h5 i hil]
        simp only [hother i hia]

/-- The text a record holds has fewer than 256 characters, in every pool state the
program can be in. -/
theorem reachable_text (pool : Pool) (h : Reachable pool) :
    ∀ i, (pool.wp_pool i).expr.length < 256 := by
  induction h with
  | init pool => intro i; exact Nat.zero_lt_succ _
  | @new_wp pool _ ih =>
    intro i
    cases hf : pool.free_ with
    | none => rw [new_wp_none pool hf]; exact ih i
    | some s =>
      rw [new_wp_some pool s hf]
      by_cases his : i = s
      · subst his; simp only [Function.update_same]; exact ih i
      · simp only [Function.update_noteq his]; exact ih i
  | @free_wp pool pool1 wp hreach hfree ih =>
    intro i
    obtain ⟨active, free, hok⟩ := reachable_ok pool hreach
    cases wp with
    | none =>
      simp only [Nemu.free_wp, Option.some.injEq] at hfree
      rw [← hfree]; exact ih i
    | some wp =>
      by_cases hw : wp ∈ active
      · obtain ⟨pool2, h2, hok2, hsame, _⟩ := free_wp_active pool active free wp hok hw
        rw [h2] at hfree
        rw [← Option.some.inj hfree]
        by_cases hiw : i = wp
        · rw [hiw, (hok2.2.2.2.2.2 wp (List.mem_cons_self _ _)).2]
          exact Nat.zero_lt_succ _
        · rw [(hsame i hiw).2.1]; exact ih i
      · rw [free_wp_inactive pool active free wp hok hw] at hfree
        rw [← Option.some.inj hfree]; exact ih i
  | @set_watchpoint pool pool1 m e r _ hset ih =>
    intro i
    rcases set_watchpoint_cases m pool pool1 e r hset with ⟨h1, _⟩ | ⟨s, val, hf, _, hlen, _, h1⟩
    · rw [h1]; exact ih i
    · rw [h1, new_wp_some pool s hf]
      by_cases his : i = s
      · subst his
        simp only [Function.update_same, strcpy_length]
        exact hlen
      · simp only [Function.update_noteq his]; exact ih i
  | @delete_watchpoint pool pool1 num r hreach hdel ih =>
    intro i
    obtain ⟨active, free, hok⟩ := reachable_ok pool hreach
    by_cases hex : ∃ wp, wp ∈ active ∧ ((wp.val : Nat) : Int) = num
    · obtain ⟨wp, hw, hnum⟩ := hex
      obtain ⟨pool2, h2, h3⟩ := delete_watchpoint_active pool active free wp hok hw
      rw [hnum, hdel] at h2
      simp only [Option.some.injEq, Prod.mk.injEq] at h2
      obtain ⟨pool3, h4, hok3, hsame, _⟩ := free_wp_active pool active free wp hok hw
      rw [h3] at h4
      rw [h2.1, Option.some.inj h4]
      by_cases hiw : i = wp
      · rw [hiw, (hok3.2.2.2.2.2 wp (List.mem_cons_self _ _)).2]
        exact Nat.zero_lt_succ _
      · rw [(hsame i hiw).2.1]; exact ih i
    · have hnone : ∀ wp, wp ∈ active → ((wp.val : Nat) : Int) ≠ num :=
        fun wp hw hnum => hex ⟨wp, hw, hnum⟩
      rw [delete_watchpoint_inactive pool active free num hok hnone] at hdel
      simp only [Option.some.injEq, Prod.mk.injEq] at hdel
      rw [← hdel.1]; exact ih i
  | @check_watchpoints pool pool1 m r _ hchk ih =>
    intro i
    obtain ⟨_, _, h3⟩ := check_watchpoints_loop_shape m _ _ _ _ _ _ hchk
    rw [(h3 i).2.2.1]; exact ih i

/-- In every pool state the program can be in, `expr` returns on the text of every
record. -/
theorem reachable_expr_returns (m : Machine) (pool : Pool) (h : Reachable pool)
    (i : Fin NR_WP) : ∃ v b, expr m (pool.wp_pool i).expr = ExprOutcome.returned v b := by
  apply expr_returns
  have h1 := reachable_text pool h i
  have h2 := strlen_le (pool.wp_pool i).expr
  omega

/-- The call `check_watchpoints` in a pool state the program can be in: it returns; every
active record is checked once, the free records are untouched, and the result is true
exactly when one of the active records fires. -/
theorem check_watchpoints_run (m : Machine) (pool : Pool) (active free : List (Fin NR_WP))
    (hr : Reachable pool) (hl : lists pool active free) :
    ∃ pool1, check_watchpoints m pool =
        some (pool1, active.any (fun i => fires m (pool.wp_pool i))) ∧
      pool1.head = pool.head ∧ pool1.free_ = pool.free_ ∧
      (∀ i, i ∈ active → pool1.wp_pool i = checked m (pool.wp_pool i)) ∧
      (∀ i, i ∉ active → pool1.wp_pool i = pool.wp_pool i) := by
  obtain ⟨active1, free1, hok⟩ := reachable_ok pool hr
  have h1 := chain_unique pool _ _ _ hok.1.1 hl.1
  subst h1
  have hnd := (List.nodup_append.mp hok.2.1).1
  have hlen := nodup_length_le active1 hnd
  obtain ⟨pool1, h1, h2⟩ := check_watchpoints_loop_run m active1 (NR_WP + 1) pool pool.head
    false hl.1 hnd (by omega) (fun i _ => reachable_expr_returns m pool hr i)
  refine ⟨pool1, ?_, h2⟩
  unfold check_watchpoints
  rw [h1, Bool.false_or]

/-! ## C21, C22: `check_watchpoints` -/

/-- C21: `check_watchpoints` detects changes and tolerates failures. In every pool state the
program can be in, with the active list `active` and the free list `free`, and in every
machine state, `check_watchpoints` returns, and it returns true if and only if the text of
some active slot evaluates successfully to a value different from the stored one. The
evaluation of every active slot returns, with success or with failure. After the call every
active slot whose text evaluated successfully stores the value of the evaluation; every
active slot whose text failed to evaluate keeps its stored value and is still enabled; the
two lists are the same lists; every slot has the `NO`, text and flag it had, and every free
slot the stored value it had. -/
theorem check_watchpoints_detects (m : Machine) (pool : Pool)
    (active free : List (Fin NR_WP)) (hr : Reachable pool) (hl : lists pool active free) :
    ∃ pool1 r, check_watchpoints m pool = some (pool1, r) ∧
      (r = true ↔ ∃ wp, wp ∈ active ∧ ∃ v,
        expr m (pool.wp_pool wp).expr = ExprOutcome.returned v true ∧
          v ≠ (pool.wp_pool wp).old_val) ∧
      (∀ wp, wp ∈ active → ∃ v b, expr m (pool.wp_pool wp).expr = ExprOutcome.returned v b) ∧
      (∀ wp, wp ∈ active → ∀ v, expr m (pool.wp_pool wp).expr = ExprOutcome.returned v true →
        (pool1.wp_pool wp).old_val = v) ∧
      (∀ wp, wp ∈ active → ∀ v, expr m (pool.wp_pool wp).expr = ExprOutcome.returned v false →
        (pool1.wp_pool wp).old_val = (pool.wp_pool wp).old_val ∧
          (pool1.wp_pool wp).enabled = true) ∧
      lists pool1 active free ∧
      (∀ i, (pool1.wp_pool i).NO = (pool.wp_pool i).NO ∧
        (pool1.wp_pool i).expr = (pool.wp_pool i).expr ∧
        (pool1.wp_pool i).enabled = (pool.wp_pool i).enabled) ∧
      (∀ i, i ∈ free → (pool1.wp_pool i).old_val = (pool.wp_pool i).old_val) := by
  obtain ⟨active1, free1, hok⟩ := reachable_ok pool hr
  have h1 := chain_unique pool _ _ _ hok.1.1 hl.1
  have h2 := chain_unique pool _ _ _ hok.1.2 hl.2
  subst h1 h2
  obtain ⟨pool1, hrun, _, _, hact, hrest⟩ := check_watchpoints_run m pool active1 free1 hr hl
  have hen := hok.2.2.2.2.1
  have hdisj := (List.nodup_append.mp hok.2.1).2.2
  have hshape : ∀ i, (pool1.wp_pool i).NO = (pool.wp_pool i).NO ∧
      (pool1.wp_pool i).next = (pool.wp_pool i).next ∧
      (pool1.wp_pool i).expr = (pool.wp_pool i).expr ∧
      (pool1.wp_pool i).enabled = (pool.wp_pool i).enabled := by
    intro i
    by_cases hi : i ∈ active1
    · rw [hact i hi]; exact checked_shape m _
    · rw [hrest i hi]; exact ⟨rfl, rfl, rfl, rfl⟩
  refine ⟨pool1, _, hrun, ?_, fun wp _ => reachable_expr_returns m pool hr wp, ?_, ?_,
    (check_watchpoints_ok m pool pool1 _ active1 free1 hok hrun).1,
    fun i => ⟨(hshape i).1, (hshape i).2.2.1, (hshape i).2.2.2⟩, ?_⟩
  · rw [List.any_eq_true]
    constructor
    · rintro ⟨wp, hw, hf⟩
      obtain ⟨v, b, hv⟩ := reachable_expr_returns m pool hr wp
      rw [fires_of_returned m _ v b hv, hen wp hw] at hf
      simp only [Bool.not_true, Bool.false_eq_true, if_false, Bool.and_eq_true,
        decide_eq_true_eq] at hf
      rw [hf.1] at hv
      exact ⟨wp, hw, v, hv, hf.2⟩
    · rintro ⟨wp, hw, v, hv, hne⟩
      refine ⟨wp, hw, ?_⟩
      rw [fires_of_returned m _ v true hv, hen wp hw]
      simp only [Bool.not_true, Bool.false_eq_true, if_false, Bool.true_and,
        decide_eq_true_eq]
      exact hne
  · intro wp hw v hv
    rw [hact wp hw, checked_of_returned m _ v true hv, hen wp hw]
    simp only [Bool.not_true, Bool.false_eq_true, if_false]
    by_cases hne : v = (pool.wp_pool wp).old_val
    · rw [if_neg (by simpa using hne)]; exact hne.symm
    · rw [if_pos hne]
  · intro wp hw v hv
    rw [hact wp hw, checked_of_returned m _ v false hv, hen wp hw]
    simp only [Bool.not_true, Bool.false_eq_true, if_false, Bool.not_false, if_true]
    exact ⟨trivial, hen wp hw⟩
  · intro i hi
    have hia : i ∉ active1 := fun h => hdisj h hi
    rw [hrest i hia]

/-- Witness for C21: the state after `init_wp_pool` and `set_watchpoint("$a0")` with
register `a0` at 0, checked in a machine state in which `a0` holds 5. -/
theorem check_watchpoints_detects_witness :
    Reachable (pool_after_sets zeroMachine ['$', 'a', '0'] 1) ∧
      lists (pool_after_sets zeroMachine ['$', 'a', '0'] 1) [0] later_slots ∧
      ∃ pool1 r, check_watchpoints a0Machine (pool_after_sets zeroMachine ['$', 'a', '0'] 1) =
          some (pool1, r) ∧
        (r = true ↔ ∃ wp, wp ∈ [(0 : Fin NR_WP)] ∧ ∃ v,
          expr a0Machine ((pool_after_sets zeroMachine ['$', 'a', '0'] 1).wp_pool wp).expr =
              ExprOutcome.returned v true ∧
            v ≠ ((pool_after_sets zeroMachine ['$', 'a', '0'] 1).wp_pool wp).old_val) :=
  have h := pool_after_one_set ['$', 'a', '0'] 0 (by decide) (by decide)
  ⟨h.2.1, h.2.2.1,
    (check_watchpoints_detects a0Machine (pool_after_sets zeroMachine ['$', 'a', '0'] 1) [0]
      later_slots h.2.1 h.2.2.1).imp (fun _ h1 => h1.imp (fun _ h2 => ⟨h2.1, h2.2.1⟩))⟩

/-- A record that has been checked does not change, and does not fire, when it is checked
again in the same machine state. -/
theorem checked_again (m : Machine) (w : WP) :
    checked m (checked m w) = checked m w ∧ fires m (checked m w) = false := by
  cases h : expr m w.expr with
  | returned v b =>
    have hw := checked_of_returned m w v b h
    have he : expr m (checked m w).expr = ExprOutcome.returned v b := by
      rw [(checked_shape m w).2.2.1]; exact h
    rw [checked_of_returned m _ v b he, fires_of_returned m _ v b he,
      (checked_shape m w).2.2.2]
    cases hen : w.enabled with
    | false => simp
    | true =>
      cases b with
      | false => simp
      | true =>
        rw [hen] at hw
        simp only [Bool.not_true, Bool.false_eq_true, if_false] at hw ⊢
        by_cases hv : v = w.old_val
        · rw [if_neg (by simpa using hv)] at hw
          rw [hw]
          simp [hv]
        · rw [if_pos hv] at hw
          rw [hw]
          simp
  | overflow =>
    have hw : checked m w = w := by
      unfold checked; rw [h]; simp
    rw [hw, hw]
    refine ⟨rfl, ?_⟩
    unfold fires; rw [h]; simp
  | out_of_fuel =>
    have hw : checked m w = w := by
      unfold checked; rw [h]; simp
    rw [hw, hw]
    refine ⟨rfl, ?_⟩
    unfold fires; rw [h]; simp

theorem pool_ext (a b : Pool) (h1 : a.head = b.head) (h2 : a.free_ = b.free_)
    (h3 : ∀ i, a.wp_pool i = b.wp_pool i) : a = b := by
  cases a
  cases b
  simp only at h1 h2 h3
  subst h1 h2
  have : ∀ f g : Fin NR_WP → WP, (∀ i, f i = g i) → f = g := fun f g h => funext h
  rw [this _ _ h3]

/-- A second call of `check_watchpoints`, in the same machine state and right after the
first, changes nothing and returns false. -/
theorem check_watchpoints_twice (m : Machine) (pool : Pool) (active free : List (Fin NR_WP))
    (hr : Reachable pool) (hl : lists pool active free) :
    ∃ pool1, check_watchpoints m pool =
        some (pool1, active.any (fun i => fires m (pool.wp_pool i))) ∧
      (∀ i, i ∈ active → pool1.wp_pool i = checked m (pool.wp_pool i)) ∧
      check_watchpoints m pool1 = some (pool1, false) := by
  obtain ⟨active1, free1, hok⟩ := reachable_ok pool hr
  have h1 := chain_unique pool _ _ _ hok.1.1 hl.1
  have h2 := chain_unique pool _ _ _ hok.1.2 hl.2
  subst h1 h2
  obtain ⟨pool1, hrun, _, _, hact, hrest⟩ := check_watchpoints_run m pool active1 free1 hr hl
  have hr1 : Reachable pool1 := Reachable.check_watchpoints m _ hr hrun
  have hl1 := (check_watchpoints_ok m pool pool1 _ active1 free1 hok hrun).1
  obtain ⟨pool2, hrun2, hh, hf, hact2, hrest2⟩ :=
    check_watchpoints_run m pool1 active1 free1 hr1 hl1
  have hany : active1.any (fun i => fires m (pool1.wp_pool i)) = false := by
    rw [List.any_eq_false]
    intro i hi
    rw [hact i hi, (checked_again m _).2]
    simp
  have heq : pool2 = pool1 := by
    apply pool_ext pool2 pool1 hh hf
    intro i
    by_cases hi : i ∈ active1
    · rw [hact2 i hi, hact i hi, (checked_again m _).1]
    · rw [hrest2 i hi]
  rw [hany, heq] at hrun2
  exact ⟨pool1, hrun, hact, hrun2⟩

/-- C22: a value transition triggers exactly once. In every pool state the program can be
in, `check_watchpoints` returns, and when it is called again at once, in the same machine
state and with no pool operation in between, the second call returns false and leaves the
pool as the first call left it, every stored value included. -/
theorem second_check_silent (m : Machine) (pool : Pool) (hr : Reachable pool) :
    ∃ pool1 r, check_watchpoints m pool = some (pool1, r) ∧
      check_watchpoints m pool1 = some (pool1, false) := by
  obtain ⟨active, free, hok⟩ := reachable_ok pool hr
  obtain ⟨pool1, h1, _, h2⟩ := check_watchpoints_twice m pool active free hr hok.1
  exact ⟨pool1, _, h1, h2⟩

/-- Witness for C22: with a watchpoint on `$a0` whose stored value is 0 and register `a0`
holding 5, the first call of `check_watchpoints` returns true and stores 5, and the second
call returns false. -/
theorem second_check_silent_witness :
    ((pool_after_sets zeroMachine ['$', 'a', '0'] 1).wp_pool 0).expr = ['$', 'a', '0'] ∧
      ((pool_after_sets zeroMachine ['$', 'a', '0'] 1).wp_pool 0).old_val = 0 ∧
      expr a0Machine ['$', 'a', '0'] = ExprOutcome.returned 5 true ∧
      ∃ pool1, check_watchpoints a0Machine (pool_after_sets zeroMachine ['$', 'a', '0'] 1) =
          some (pool1, true) ∧
        (pool1.wp_pool 0).old_val = 5 ∧
        check_watchpoints a0Machine pool1 = some (pool1, false) := by
  have h := pool_after_one_set ['$', 'a', '0'] 0 (by decide) (by decide)
  obtain ⟨pool0, hset, _, _, _, hen, htext, hval⟩ :=
    set_watchpoint_ok zeroMachine (init_wp_pool pool_start) ['$', 'a', '0'] 0 [] later_slots 0
      (init_ok pool_start) (by decide) (by decide)
  rw [h.1] at hset
  simp only [Option.some.injEq, Prod.mk.injEq, and_true] at hset
  rw [← hset] at hen htext hval
  have htext1 : ((pool_after_sets zeroMachine ['$', 'a', '0'] 1).wp_pool 0).expr =
      ['$', 'a', '0'] := by rw [htext]; decide
  have he : expr a0Machine ['$', 'a', '0'] = ExprOutcome.returned 5 true := by decide
  obtain ⟨pool1, r, h1, h2⟩ :=
    second_check_silent a0Machine (pool_after_sets zeroMachine ['$', 'a', '0'] 1) h.2.1
  obtain ⟨pool2, h3, h4, _⟩ := check_watchpoints_twice a0Machine
    (pool_after_sets zeroMachine ['$', 'a', '0'] 1) [0] later_slots h.2.1 h.2.2.1
  rw [h1] at h3
  simp only [Option.some.injEq, Prod.mk.injEq] at h3
  obtain ⟨h5, h6⟩ := h3
  subst h5
  have he0 : expr a0Machine ((pool_after_sets zeroMachine ['$', 'a', '0'] 1).wp_pool 0).expr =
      ExprOutcome.returned 5 true := by rw [htext1]; exact he
  have hr : r = true := by
    rw [h6]
    simp only [List.any_cons, List.any_nil, Bool.or_false]
    rw [fires_of_returned a0Machine _ 5 true he0, hen, hval]
    decide
  have hold : (pool1.wp_pool 0).old_val = 5 := by
    rw [h4 0 (List.mem_singleton_self _), checked_of_returned a0Machine _ 5 true he0, hen, hval]
    decide
  rw [hr] at h1
  exact ⟨htext1, hval, he, pool1, h1, hold, h2⟩

/-! ## C23, C24: tokens to the left of a unary main operator -/

theorem double_minus_lex (a : List Char) (ha : isNumLit a = true) :
    make_token ('-' :: '-' :: a) =
      LexOutcome.done [⟨TK_NEGATIVE, ['-']⟩, ⟨TK_NEGATIVE, ['-']⟩, ⟨TK_NUM, a.take 31⟩] := by
  have e1 : '-' :: '-' :: a = '-' :: '-' :: (a ++ []) := by simp
  rw [e1]
  have hl : lex ('-' :: '-' :: (a ++ [])) 0 [] =
      LexOutcome.done [⟨MINUS, ['-']⟩, ⟨MINUS, ['-']⟩, ⟨TK_NUM, a.take 31⟩] := by
    rw [lex_minus _ _ _ (by simp), lex_minus _ _ _ (by simp),
      lex_num a _ _ _ ha nil_sep (by simp), lex_nil]
    rfl
  rw [make_token_of_lex _ _ hl]
  rfl

theorem double_minus_eval (m : Machine) (a : List Char) (ha : isNumLit a = true)
    (va : litVal a < 2 ^ 64) :
    evalL m 2 [⟨TK_NEGATIVE, ['-']⟩, ⟨TK_NEGATIVE, ['-']⟩, ⟨TK_NUM, a⟩] true =
      some (wneg (litVal a % WORD), true) := by
  simp [evalL, check_parenthesesL, find_main_opL, scanL, find_main_op_step, priority, noTok,
    (fun s => eval_single_num m a s ha va), ha]

/-- C23, what the code does: of two adjacent unary minus signs only the second is applied.
For every numeric literal `a` of at most 31 characters and of value below `2 ^ 32`, the
main operator of the tokens of `--a` is the second `-`, at index 1, and `expr("--a")`
succeeds and returns `(2 ^ 32 - a) mod 2 ^ 32`, the value of `-a`; the token at index 0 is
never looked at. -/
theorem double_minus_negates_once (m : Machine) (a : List Char) (ha : isNumLit a = true)
    (la : a.length ≤ 31) (va : litVal a < 2 ^ 32) :
    make_token ('-' :: '-' :: a) =
      LexOutcome.done [⟨TK_NEGATIVE, ['-']⟩, ⟨TK_NEGATIVE, ['-']⟩, ⟨TK_NUM, a⟩] ∧
    find_main_op [⟨TK_NEGATIVE, ['-']⟩, ⟨TK_NEGATIVE, ['-']⟩, ⟨TK_NUM, a⟩] 0 2 = 1 ∧
    expr m ('-' :: '-' :: a) = ExprOutcome.returned ((2 ^ 32 - litVal a) % 2 ^ 32) true := by
  have wa : litVal a % WORD = litVal a := Nat.mod_eq_of_lt va
  have hlex := double_minus_lex a ha
  rw [take31 a la] at hlex
  refine ⟨hlex, rfl, ?_⟩
  apply expr_of_evalL m _ _ 2 _ _ hlex
  have hp : post_process none [⟨TK_NEGATIVE, ['-']⟩, ⟨TK_NEGATIVE, ['-']⟩, ⟨TK_NUM, a⟩] =
      [⟨TK_NEGATIVE, ['-']⟩, ⟨TK_NEGATIVE, ['-']⟩, ⟨TK_NUM, a⟩] := rfl
  rw [hp, double_minus_eval m a ha (lt_trans va (by norm_num)), wa]
  have va1 : litVal a < 4294967296 := va
  simp only [wneg, WORD, Nat.mod_eq_of_lt va1]
  norm_num

/-- Witness for C23: `expr("--3")` returns `2 ^ 32 - 3`, not 3. -/
theorem double_minus_negates_once_witness :
    litVal ['3'] = 3 ∧
      expr zeroMachine ['-', '-', '3'] = ExprOutcome.returned 4294967293 true ∧
      expr zeroMachine ['-', '-', '3'] ≠ ExprOutcome.returned 3 true :=
  ⟨by decide,
    (double_minus_negates_once zeroMachine ['3'] (by decide) (by decide) (by decide)).2.2,
    by decide⟩

theorem unbalanced_eval (m : Machine) :
    evalL m 2 tokens_unbalanced true = some (4294967293, true) := by
  have h3 : eval_single m ⟨TK_NUM, ['3']⟩ true = (3, true) := by
    rw [eval_single_num m ['3'] true (by decide) (by decide)]; rfl
  simp [tokens_unbalanced, evalL, check_parenthesesL, find_main_opL, scanL, find_main_op_step,
    priority, noTok, h3, wneg, WORD]

/-- C24: unbalanced parentheses are not always rejected. The text `)(-3` is tokenized into
`')'`, `'('`, `NEGATIVE`, `NUM`; the parentheses of the range are not balanced (the depth
is negative after the first token); the range is not a matched pair, `find_main_op` selects
the `NEGATIVE` token at index 2, and `expr` returns `2 ^ 32 - 3` with `*success` true, in
every machine state. -/
theorem unbalanced_parentheses_accepted (m : Machine) :
    make_token [')', '(', '-', '3'] = LexOutcome.done tokens_unbalanced ∧
    ¬ balancedRange tokens_unbalanced 0 3 ∧
    depthFrom tokens_unbalanced 0 1 = -1 ∧
    check_parentheses tokens_unbalanced 0 3 = false ∧
    find_main_op tokens_unbalanced 0 3 = 2 ∧
    (tok tokens_unbalanced 2).type = TK_NEGATIVE ∧
    expr m [')', '(', '-', '3'] = ExprOutcome.returned (2 ^ 32 - 3) true := by
  have hlex : make_token [')', '(', '-', '3'] = LexOutcome.done tokens_unbalanced := by decide
  refine ⟨hlex, ?_, by decide, by decide, by decide, by decide, ?_⟩
  · intro hb
    have := hb.1 1 (by decide)
    exact absurd this (by decide)
  · apply expr_of_evalL m _ _ 2 _ _ hlex
    have hp : post_process none tokens_unbalanced = tokens_unbalanced := rfl
    rw [hp, unbalanced_eval]
    rfl

/-! ## C25: enclosing parentheses -/

/-- The loop of `check_parentheses` from the index `p + k` on, with `count` the depth in
front of that index: it answers true exactly when the depth is not zero after any later
token but the last, and zero after the last. -/
theorem check_parentheses_loop_spec (tokens : List Token) (p : Int) (len : Nat) :
    ∀ (n k : Nat), k + n = len →
    (check_parentheses_loop tokens (p + (len : Int) - 1) n (p + (k : Int))
        (depthFrom tokens p k) = true ↔
      (∀ j : Nat, k < j → j + 1 ≤ len → depthFrom tokens p j ≠ 0) ∧
        depthFrom tokens p len = 0) := by
  intro n
  induction n with
  | zero =>
    intro k hk
    have hkl : k = len := by omega
    subst hkl
    simp only [check_parentheses_loop, decide_eq_true_eq]
    constructor
    · intro h; exact ⟨fun j h1 h2 => by omega, h⟩
    · intro h; exact h.2
  | succ n ih =>
    intro k hk
    rw [check_parentheses_loop]
    have hd : paren_count (tok tokens (p + (k : Int))) (depthFrom tokens p k) =
        depthFrom tokens p (k + 1) := rfl
    rw [hd]
    have e1 : p + (k : Int) + 1 = p + ((k + 1 : Nat) : Int) := by push_cast; ring
    by_cases hc : depthFrom tokens p (k + 1) = 0 ∧ p + (k : Int) < p + (len : Int) - 1
    · rw [if_pos hc]
      constructor
      · intro h; exact absurd h (by simp)
      · intro h
        exact absurd hc.1 (h.1 (k + 1) (by omega) (by omega))
    · rw [if_neg hc, e1, ih (k + 1) (by omega)]
      constructor
      · rintro ⟨h1, h2⟩
        refine ⟨fun j hj hjl => ?_, h2⟩
        by_cases hjk : j = k + 1
        · subst hjk
          intro h0
          exact hc ⟨h0, by omega⟩
        · exact h1 j (by omega) hjl
      · rintro ⟨h1, h2⟩
        exact ⟨fun j hj hjl => h1 j (by omega) hjl, h2⟩

/-- On a range with at least one token, `check_parentheses` answers true exactly when the
first token is a `(`, the last a `)`, and the last is the one that matches the first. -/
theorem check_parentheses_spec (tokens : List Token) (p q : Int) (hpq : p ≤ q) :
    check_parentheses tokens p q = true ↔
      (tok tokens p).type = LPAREN ∧ (tok tokens q).type = RPAREN ∧ closesAt tokens p q := by
  unfold check_parentheses closesAt
  have hlen : q = p + (((q - p).toNat + 1 : Nat) : Int) - 1 := by push_cast; omega
  have hl2 : (q - p + 1).toNat = (q - p).toNat + 1 := by omega
  by_cases hty : (tok tokens p).type ≠ LPAREN ∨ (tok tokens q).type ≠ RPAREN
  · rw [if_pos hty]
    constructor
    · intro h; exact absurd h (by simp)
    · rintro ⟨h1, h2, _⟩
      rcases hty with h | h
      · exact absurd h1 h
      · exact absurd h2 h
  · rw [if_neg hty]
    have hty1 : (tok tokens p).type = LPAREN ∧ (tok tokens q).type = RPAREN := by
      constructor
      · by_contra h; exact hty (Or.inl h)
      · by_contra h; exact hty (Or.inr h)
    have hne : p ≠ q := by
      intro h
      rw [h] at hty1
      rw [hty1.2] at hty1
      exact absurd hty1.1 (by decide)
    have hlt : p < q := lt_of_le_of_ne hpq hne
    have h := check_parentheses_loop_spec tokens p ((q - p).toNat + 1) ((q - p).toNat + 1) 0
      (by omega)
    have e0 : p + ((0 : Nat) : Int) = p := by simp
    have hd0 : depthFrom tokens p 0 = 0 := rfl
    rw [e0, hd0, ← hlen] at h
    rw [hl2, h]
    constructor
    · rintro ⟨h1, h2⟩
      exact ⟨hty1.1, hty1.2, hlt, fun k hk1 hk2 => h1 k (by omega) (by omega), h2⟩
    · rintro ⟨_, _, _, h1, h2⟩
      exact ⟨fun j hj hjl => h1 j (by omega) (by omega), h2⟩

/-! ### The text `(s)` -/

theorem spanLen_stop (cls : Char → Bool) (x : Char) (rest : List Char) (hx : cls x = false) :
    ∀ e : List Char, spanLen cls (e ++ x :: rest) = spanLen cls e := by
  intro e
  induction e with
  | nil => simp [spanLen, hx]
  | cons c cs ih =>
    rw [List.cons_append]
    simp only [spanLen, ih]

/-- A pattern none of whose pieces accepts the character `x` matches the same way whether
or not the text goes on with `x`. -/
theorem regexec_stop (x : Char) (rest : List Char) (ps : List Piece) :
    ∀ e : List Char, (∀ pc, pc ∈ ps → pc.cls x = false) →
    regexec ps (e ++ x :: rest) = regexec ps e := by
  induction ps with
  | nil => intro e _; rfl
  | cons pc ps ih =>
    intro e hp
    have hx := hp pc (List.mem_cons_self _ _)
    have hps : ∀ pc1, pc1 ∈ ps → pc1.cls x = false :=
      fun pc1 h1 => hp pc1 (List.mem_cons_of_mem _ h1)
    unfold regexec
    by_cases hplus : pc.plus = true
    · rw [if_pos hplus, if_pos hplus, spanLen_stop pc.cls x rest hx e]
      by_cases h0 : spanLen pc.cls e = 0
      · rw [if_pos h0, if_pos h0]
      · rw [if_neg h0, if_neg h0, List.drop_append_of_le_length (spanLen_le _ _), ih _ hps]
    · rw [if_neg hplus, if_neg hplus]
      cases e with
      | nil => simp [hx]
      | cons c cs =>
        simp only [List.cons_append]
        rw [ih cs hps]

/-- On a text that is not empty, the same holds when the first piece is not repeated,
whatever it accepts. -/
theorem regexec_stop_cons (x : Char) (rest : List Char) (pc : Piece) (ps : List Piece)
    (c : Char) (cs : List Char) (h1 : pc.plus = false ∨ pc.cls x = false)
    (hps : ∀ pc1, pc1 ∈ ps → pc1.cls x = false) :
    regexec (pc :: ps) (c :: cs ++ x :: rest) = regexec (pc :: ps) (c :: cs) := by
  rcases h1 with h1 | h1
  · unfold regexec
    rw [if_neg (by rw [h1]; simp), if_neg (by rw [h1]; simp)]
    simp only [List.cons_append]
    rw [regexec_stop x rest ps cs hps]
  · have := regexec_stop x rest (pc :: ps) (c :: cs) (by
      intro pc1 hpc1
      rcases List.mem_cons.mp hpc1 with h | h
      · rw [h]; exact h1
      · exact hps pc1 h)
    exact this

/-- No pattern of the table has a `)` after its first piece, and the one that starts with a
`)` has nothing else. -/
theorem rules_close : ∀ r, r ∈ rules → ∃ pc ps, r.1 = pc :: ps ∧
    (pc.plus = false ∨ pc.cls ')' = false) ∧ ∀ pc1, pc1 ∈ ps → pc1.cls ')' = false := by
  intro r hr
  simp only [rules, List.mem_cons, List.mem_singleton, List.not_mem_nil, or_false] at hr
  rcases hr with hr | hr | hr | hr | hr | hr | hr | hr | hr | hr | hr | hr | hr | hr | hr |
    hr | hr
  all_goals subst hr
  all_goals refine ⟨_, _, rfl, ?_, ?_⟩
  all_goals first
    | exact Or.inl rfl
    | exact Or.inr (by decide)
    | (intro pc1 hpc1
       exact absurd hpc1 (List.not_mem_nil pc1))
    | (intro pc1 hpc1
       rw [List.mem_singleton] at hpc1
       subst hpc1
       decide)
    | (intro pc1 hpc1
       rw [List.mem_cons, List.mem_singleton] at hpc1
       rcases hpc1 with h | h
       · subst h; decide
       · subst h; decide)

theorem first_match_close (c : Char) (cs : List Char) :
    ∀ rs : List (List Piece × TokenType), (∀ r, r ∈ rs → r ∈ rules) →
    first_match rs (c :: cs ++ [')']) = first_match rs (c :: cs) := by
  intro rs
  induction rs with
  | nil => intro _; rfl
  | cons r rs ih =>
    intro hsub
    obtain ⟨pc, ps, hr, h1, h2⟩ := rules_close r (hsub r (List.mem_cons_self _ _))
    simp only [first_match]
    rw [hr, regexec_stop_cons ')' [] pc ps c cs h1 h2,
      ih (fun r1 h => hsub r1 (List.mem_cons_of_mem _ h))]

/-- The tokens of a text followed by a `)` are the tokens of the text and one `)`. -/
theorem lex_close : ∀ (n : Nat) (s : List Char), s.length ≤ n → ∀ (position : Nat)
    (acc ts : List Token), lex s position acc = LexOutcome.done ts →
    (∀ c, c ∈ s → c ≠ NUL) → ts.length < 1024 →
    lex (s ++ [')']) position acc = LexOutcome.done (ts ++ [⟨RPAREN, [')']⟩]) := by
  intro n
  induction n with
  | zero =>
    intro s hs position acc ts h _ hlen
    have : s = [] := List.length_eq_zero.mp (by omega)
    subst this
    rw [lex_nil] at h
    injection h with h
    subst h
    rw [List.nil_append, lex_rparen _ _ _ hlen, lex_nil]
  | succ n ih =>
    intro s hs position acc ts h hnul hlen
    cases s with
    | nil =>
      rw [lex_nil] at h
      injection h with h
      subst h
      rw [List.nil_append, lex_rparen _ _ _ hlen, lex_nil]
    | cons c cs =>
      have hc : c ≠ NUL := hnul c (List.mem_cons_self _ _)
      rw [lex_cons, if_neg hc] at h
      rw [List.cons_append, lex_cons, if_neg hc, ← List.cons_append,
        first_match_close c cs rules (fun _ h => h)]
      cases hm : first_match rules (c :: cs) with
      | none => rw [hm] at h; exact absurd h (by simp)
      | some r =>
        obtain ⟨len, ty⟩ := r
        rw [hm] at h
        simp only [] at h ⊢
        have hb := first_match_bounds _ _ _ hm
        have hd : ((c :: cs).drop len).length ≤ n := by
          simp only [List.length_drop, List.length_cons] at hs ⊢; omega
        have hdrop : (c :: cs ++ [')']).drop len = (c :: cs).drop len ++ [')'] :=
          List.drop_append_of_le_length hb.2
        have htake : (c :: cs ++ [')']).take (min len 31) = (c :: cs).take (min len 31) :=
          List.take_append_of_le_length (by omega)
        have hnul1 : ∀ x, x ∈ (c :: cs).drop len → x ≠ NUL :=
          fun x hx => hnul x (List.mem_of_mem_drop hx)
        rw [hdrop, htake]
        by_cases hty : ty = TK_NOTYPE
        · rw [if_pos hty] at h ⊢
          exact ih _ hd _ _ _ h hnul1 hlen
        · rw [if_neg hty] at h ⊢
          by_cases hov : 1024 ≤ acc.length
          · rw [if_pos hov] at h; exact absurd h (by simp)
          · rw [if_neg hov] at h ⊢
            exact ih _ hd _ _ _ h hnul1 hlen

theorem classify_after_lparen (t : Token) : classify (some LPAREN) t = classify none t := by
  simp [classify]

theorem post_process_after_lparen (ts : List Token) :
    post_process (some LPAREN) ts = post_process none ts := by
  cases ts with
  | nil => rfl
  | cons t ts => simp only [post_process, classify_after_lparen]

theorem post_process_snoc (t : Token) (h1 : t.type ≠ STAR) (h2 : t.type ≠ MINUS) :
    ∀ (ts : List Token) (prev : Option TokenType),
    post_process prev (ts ++ [t]) = post_process prev ts ++ [t] := by
  intro ts
  induction ts with
  | nil =>
    intro prev
    simp only [List.nil_append, post_process, classify_not_unary prev t h1 h2]
  | cons x xs ih =>
    intro prev
    rw [List.cons_append, post_process, post_process, ih, List.cons_append]

/-- The post-processing loop on the tokens of `(s)` leaves the two parentheses and treats the
tokens between them as it treats the tokens of `s`. -/
theorem post_process_enclosed (raw : List Token) :
    post_process none (⟨LPAREN, ['(']⟩ :: raw ++ [⟨RPAREN, [')']⟩]) =
      ⟨LPAREN, ['(']⟩ :: post_process none raw ++ [⟨RPAREN, [')']⟩] := by
  have h1 : post_process none (⟨LPAREN, ['(']⟩ :: raw ++ [⟨RPAREN, [')']⟩]) =
      ⟨LPAREN, ['(']⟩ :: post_process (some LPAREN) (raw ++ [⟨RPAREN, [')']⟩]) := rfl
  rw [h1, post_process_snoc _ (by decide) (by decide), post_process_after_lparen]
  rfl

theorem paren_count_add (t : Token) (a b : Int) : paren_count t (a + b) = a + paren_count t b := by
  unfold paren_count
  split
  · ring
  · split
    · ring
    · rfl

theorem depthFrom_cons (x : Token) (xs : List Token) : ∀ k : Nat,
    depthFrom (x :: xs) 0 (k + 1) = paren_count x 0 + depthFrom xs 0 k := by
  intro k
  induction k with
  | zero =>
    have h : tok (x :: xs) (0 + ((0 : Nat) : Int)) = x := rfl
    simp only [depthFrom, h]
    ring
  | succ k ih =>
    have h : tok (x :: xs) (0 + ((k + 1 : Nat) : Int)) = tok xs (0 + (k : Int)) := by
      have e1 : (0 : Int) + ((k + 1 : Nat) : Int) = ((k + 1 : Nat) : Int) := by simp
      have e2 : (0 : Int) + (k : Int) = ((k : Nat) : Int) := by simp
      rw [e1, e2, tok_ofNat, tok_ofNat]
      rfl
    rw [depthFrom, h, ih, paren_count_add]
    rfl

theorem depthFrom_append (xs ys : List Token) : ∀ k : Nat, k ≤ xs.length →
    depthFrom (xs ++ ys) 0 k = depthFrom xs 0 k := by
  intro k
  induction k with
  | zero => intro _; rfl
  | succ k ih =>
    intro hk
    have h : tok (xs ++ ys) (0 + (k : Int)) = tok xs (0 + (k : Int)) := by
      have e2 : (0 : Int) + (k : Int) = ((k : Nat) : Int) := by simp
      rw [e2, tok_ofNat, tok_ofNat]
      simp only [List.getD_eq_getElem?_getD]
      rw [List.getElem?_append_left (by omega)]
    rw [depthFrom, depthFrom, h, ih (by omega)]

theorem depthFrom_snoc (xs : List Token) (t : Token) :
    depthFrom (xs ++ [t]) 0 (xs.length + 1) = paren_count t (depthFrom xs 0 xs.length) := by
  have h : tok (xs ++ [t]) (0 + (xs.length : Int)) = t := by
    have e2 : (0 : Int) + (xs.length : Int) = ((xs.length : Nat) : Int) := by simp
    rw [e2, tok_ofNat]
    simp only [List.getD_eq_getElem?_getD]
    rw [List.getElem?_append_right (le_refl _)]
    simp
  rw [depthFrom, h, depthFrom_append xs [t] xs.length (le_refl _)]

/-- Around tokens with balanced parentheses, a `(` in front and a `)` behind are a matched
pair. -/
theorem check_parenthesesL_enclosed (ts : List Token)
    (hb : balancedRange ts 0 ((ts.length : Int) - 1)) :
    check_parenthesesL (⟨LPAREN, ['(']⟩ :: ts ++ [⟨RPAREN, [')']⟩]) = true := by
  have hlen : ((ts.length : Int) - 1 - 0 + 1).toNat = ts.length := by omega
  obtain ⟨hb1, hb2⟩ := hb
  rw [hlen] at hb1 hb2
  have hcp := check_parentheses_eq [] (⟨LPAREN, ['(']⟩ :: ts ++ [⟨RPAREN, [')']⟩]) []
    (by simp)
  simp only [List.nil_append, List.append_nil, List.length_nil, Nat.cast_zero,
    List.length_cons, List.length_append, List.length_singleton] at hcp
  rw [← hcp]
  have hq : ((0 : Int) + (((ts.length + 1 + 1 : Nat)) : Int) - 1) =
      ((ts.length + 1 : Nat) : Int) := by push_cast; ring
  rw [hq, check_parentheses_spec _ _ _ (by omega)]
  have hd1 : ∀ k : Nat, depthFrom (⟨LPAREN, ['(']⟩ :: ts ++ [⟨RPAREN, [')']⟩]) 0 (k + 1) =
      1 + depthFrom (ts ++ [⟨RPAREN, [')']⟩]) 0 k := by
    intro k
    rw [List.cons_append, depthFrom_cons]
    rfl
  refine ⟨rfl, ?_, ?_, ?_, ?_⟩
  · rw [tok_ofNat]
    simp only [List.cons_append, List.getD_eq_getElem?_getD, List.getElem?_cons_succ]
    rw [List.getElem?_append_right (le_refl _)]
    simp
  · omega
  · intro k hk1 hk2
    obtain ⟨j, rfl⟩ : ∃ j, k = j + 1 := ⟨k - 1, by omega⟩
    have hj : j ≤ ts.length := by omega
    rw [hd1, depthFrom_append ts _ j hj]
    have := hb1 j hj
    omega
  · have e : (((ts.length + 1 : Nat) : Int) - 0).toNat + 1 = (ts.length + 1) + 1 := by omega
    rw [e, hd1, depthFrom_snoc, hb2]
    rfl

/-- The function `eval` on a range enclosed in matched parentheses is `eval` on the inside. -/
theorem evalL_enclosed (m : Machine) (fuel : Nat) (ts : List Token) (success : Bool)
    (hcp : check_parenthesesL (⟨LPAREN, ['(']⟩ :: ts ++ [⟨RPAREN, [')']⟩]) = true) :
    evalL m (fuel + 1) (⟨LPAREN, ['(']⟩ :: ts ++ [⟨RPAREN, [')']⟩]) success =
      evalL m fuel ts success := by
  rw [evalL, if_neg (by simp), if_neg (by simp), if_pos hcp]
  simp only [List.cons_append, List.tail_cons, List.dropLast_concat]

/-- C25: enclosing parentheses are transparent, and only a truly enclosing pair is stripped.
On every range `[p, q]` with at least one token, `check_parentheses(p, q)` returns true if
and only if the token at `p` is a `(`, the token at `q` is a `)`, and the `)` that matches
the token at `p` is the token at `q`; it is false on the tokens of `(1)+(2)`. For every
text `s` (a C string, with no NUL inside) that `make_token` tokenizes into at most 1022
tokens whose parentheses are balanced, `expr` on `(s)` returns what `expr` returns on `s`,
value and `*success`, in every machine state. -/
theorem enclosing_parentheses_transparent :
    (∀ (tokens : List Token) (p q : Int), p ≤ q →
      (check_parentheses tokens p q = true ↔
        (tok tokens p).type = LPAREN ∧ (tok tokens q).type = RPAREN ∧ closesAt tokens p q)) ∧
    check_parentheses tokens_two_groups 0 6 = false ∧
    (∀ (m : Machine) (s : List Char) (ts : List Token),
      (∀ c, c ∈ s → c ≠ NUL) → make_token s = LexOutcome.done ts → ts.length ≤ 1022 →
      balancedRange ts 0 ((ts.length : Int) - 1) →
      expr m ('(' :: s ++ [')']) = expr m s) := by
  refine ⟨check_parentheses_spec, by decide, ?_⟩
  intro m s ts hnul hmt hlen hbal
  obtain ⟨raw, hraw, hts⟩ := make_token_done s ts hmt
  have hrl : raw.length = ts.length := by rw [hts, post_process_length]
  -- the tokens of `(s)`
  have hlex : lex ('(' :: s ++ [')']) 0 [] =
      LexOutcome.done (⟨LPAREN, ['(']⟩ :: raw ++ [⟨RPAREN, [')']⟩]) := by
    have h1 := lex_append_acc s (0 + 1) raw [⟨LPAREN, ['(']⟩] hraw
      (by simp only [List.length_singleton]; omega)
    have h2 := lex_close s.length s (le_refl _) (0 + 1) _ _ h1 hnul
      (by simp only [List.length_append, List.length_singleton]; omega)
    rw [List.cons_append, lex_lparen _ _ _ (by simp)]
    exact h2
  have hmt2 : make_token ('(' :: s ++ [')']) =
      LexOutcome.done (⟨LPAREN, ['(']⟩ :: ts ++ [⟨RPAREN, [')']⟩]) := by
    rw [make_token_of_lex _ _ hlex, post_process_enclosed, ← hts]
  have hidem : post_process none ts = ts := by rw [hts, post_process_idem]
  have hidem2 : post_process none (⟨LPAREN, ['(']⟩ :: ts ++ [⟨RPAREN, [')']⟩]) =
      ⟨LPAREN, ['(']⟩ :: ts ++ [⟨RPAREN, [')']⟩] := by
    rw [post_process_enclosed, hidem]
  obtain ⟨r, hr⟩ := evalL_total m (ts.length + 1) ts true (Nat.lt_succ_self _)
  have hs : expr m s = ExprOutcome.returned r.1 r.2 := by
    apply expr_of_evalL m s ts (ts.length + 1) r.1 r.2 hmt
    rw [hidem]
    exact hr
  rw [hs]
  apply expr_of_evalL m _ _ (ts.length + 1 + 1) r.1 r.2 hmt2
  rw [hidem2, evalL_enclosed m _ ts true (check_parenthesesL_enclosed ts hbal)]
  exact hr

/-- Witness for C25: the tokens of `(1)+(2)` from index 0 to 2, and the text `1+2`. -/
theorem enclosing_parentheses_transparent_witness :
    (check_parentheses tokens_two_groups 0 2 = true ↔
        (tok tokens_two_groups 0).type = LPAREN ∧ (tok tokens_two_groups 2).type = RPAREN ∧
          closesAt tokens_two_groups 0 2) ∧
      expr zeroMachine ['(', '1', '+', '2', ')'] = expr zeroMachine ['1', '+', '2'] :=
  ⟨enclosing_parentheses_transparent.1 tokens_two_groups 0 2 (by decide),
    enclosing_parentheses_transparent.2.2 zeroMachine ['1', '+', '2']
      [⟨TK_NUM, ['1']⟩, ⟨PLUS, ['+']⟩, ⟨TK_NUM, ['2']⟩] (by decide) (by decide) (by decide)
      ⟨fun k hk => by
        have hk3 : k ≤ 3 := hk
        interval_cases k <;> decide, by decide⟩⟩

/-! ## C26: lexemes of more than 31 characters -/

/-- A pattern without a repeated piece matches as many characters as it has pieces. -/
theorem regexec_fixed (ps : List Piece) : ∀ (e : List Char) (n : Nat),
    (∀ pc, pc ∈ ps → pc.plus = false) → regexec ps e = some n → n = ps.length := by
  induction ps with
  | nil =>
    intro e n _ h
    simp only [regexec, Option.some.injEq] at h
    rw [← h]; rfl
  | cons pc ps ih =>
    intro e n hp h
    unfold regexec at h
    rw [if_neg (by rw [hp pc (List.mem_cons_self _ _)]; simp)] at h
    split at h
    · simp at h
    · split at h
      · rename_i c cs1 _
        cases hr : regexec ps cs1 with
        | none => rw [hr] at h; simp at h
        | some k =>
          rw [hr] at h
          simp only [Option.map_some', Option.some.injEq] at h
          have := ih cs1 k (fun pc1 h1 => hp pc1 (List.mem_cons_of_mem _ h1)) hr
          rw [List.length_cons, ← h, this]
      · simp at h

/-- A match of more than 31 characters that stores a token is a number or a register
reference. -/
theorem long_match_kind (e : List Char) (len : Nat) (ty : TokenType)
    (h : first_match rules e = some (len, ty)) (hlen : 31 < len) (hty : ty ≠ TK_NOTYPE) :
    ty = TK_NUM ∨ ty = TK_REG := by
  obtain ⟨r, hr, h1, h2⟩ := first_match_mem rules e len ty h
  simp only [rules, List.mem_cons, List.mem_singleton, List.not_mem_nil, or_false] at hr
  rcases hr with hr | hr | hr | hr | hr | hr | hr | hr | hr | hr | hr | hr | hr | hr | hr |
    hr | hr
  all_goals subst hr
  all_goals subst h2
  all_goals dsimp only at h1 hty ⊢
  all_goals first
    | exact Or.inl rfl
    | exact Or.inr rfl
    | exact absurd rfl hty
    | (have hl := regexec_fixed _ _ _ (by simp [chr]) h1
       simp only [List.length_cons, List.length_nil] at hl
       omega)

/-- A property that every token has when it is stored holds for all the tokens of a
finished run of the loop of `make_token`. -/
theorem lex_forall (P : Token → Prop)
    (hP : ∀ (e : List Char) (len : Nat) (ty : TokenType),
      first_match rules e = some (len, ty) → P ⟨ty, e.take (min len 31)⟩) :
    ∀ (n : Nat) (e : List Char), e.length ≤ n → ∀ (position : Nat)
    (acc ts : List Token), lex e position acc = LexOutcome.done ts →
    (∀ t ∈ acc, P t) → ∀ t ∈ ts, P t := by
  intro n
  induction n with
  | zero =>
    intro e he position acc ts h hacc
    have : e = [] := List.length_eq_zero.mp (by omega)
    subst this
    rw [lex_nil] at h
    injection h with h
    rw [← h]; exact hacc
  | succ n ih =>
    intro e he position acc ts h hacc
    cases e with
    | nil =>
      rw [lex_nil] at h
      injection h with h
      rw [← h]; exact hacc
    | cons c cs =>
      rw [lex_cons] at h
      by_cases hc : c = NUL
      · rw [if_pos hc] at h
        injection h with h
        rw [← h]; exact hacc
      · rw [if_neg hc] at h
        cases hm : first_match rules (c :: cs) with
        | none => rw [hm] at h; exact absurd h (by simp)
        | some r =>
          obtain ⟨len, ty⟩ := r
          rw [hm] at h
          simp only [] at h
          have hb := first_match_bounds _ _ _ hm
          have hd : ((c :: cs).drop len).length ≤ n := by
            simp only [List.length_drop, List.length_cons] at he ⊢; omega
          by_cases hty : ty = TK_NOTYPE
          · rw [if_pos hty] at h
            exact ih _ hd _ _ _ h hacc
          · rw [if_neg hty] at h
            by_cases hov : 1024 ≤ acc.length
            · rw [if_pos hov] at h; exact absurd h (by simp)
            · rw [if_neg hov] at h
              apply ih _ hd _ _ _ h
              intro t ht
              simp only [List.mem_append, List.mem_singleton] at ht
              rcases ht with ht | ht
              · exact hacc t ht
              · rw [ht]; exact hP _ _ _ hm

theorem classify_str (prev : Option TokenType) (t : Token) : (classify prev t).str = t.str := by
  unfold classify
  dsimp only
  split <;> split <;> rfl

theorem post_process_str (ts : List Token) : ∀ (prev : Option TokenType) (t : Token),
    t ∈ post_process prev ts → ∃ t0, t0 ∈ ts ∧ t.str = t0.str := by
  induction ts with
  | nil => intro prev t ht; simp [post_process] at ht
  | cons x xs ih =>
    intro prev t ht
    simp only [post_process, List.mem_cons] at ht
    rcases ht with ht | ht
    · exact ⟨x, List.mem_cons_self _ _, by rw [ht, classify_str]⟩
    · obtain ⟨t0, h0, h1⟩ := ih _ t ht
      exact ⟨t0, List.mem_cons_of_mem _ h0, h1⟩

theorem loopAt_str (e : List Char) (position : Nat) (tokens : List Token)
    (h : LoopAt e position tokens) : ∀ t, t ∈ tokens → t.str.length ≤ 31 := by
  induction h with
  | start => intro t ht; simp at ht
  | skip position tokens c len _ _ _ _ ih => exact ih
  | store position tokens c len ty _ _ _ _ _ _ ih =>
    intro t ht
    simp only [List.mem_append, List.mem_singleton] at ht
    rcases ht with ht | ht
    · exact ih t ht
    · rw [ht]
      simp only [List.length_take]
      omega

theorem long_reg_lex (n : List Char) (hne : n ≠ []) (hal : ∀ c ∈ n, isAlnum c = true) :
    make_token ('$' :: n) = LexOutcome.done [⟨TK_REG, ('$' :: n).take 31⟩] := by
  have hm := first_match_reg n [] hne hal (by intro c hc; simp at hc)
  rw [List.append_nil] at hm
  have hl : lex ('$' :: n) 0 [] = LexOutcome.done [⟨TK_REG, ('$' :: n).take 31⟩] := by
    rw [lex_step '$' n 0 [] _ _ (by decide) hm (by decide) (by simp)]
    have h1 : ('$' :: n).drop (n.length + 1) = [] := by simp
    have h2 : ('$' :: n).take (min (n.length + 1) 31) = ('$' :: n).take 31 := by
      rcases Nat.le_total (n.length + 1) 31 with hle | hle
      · rw [Nat.min_eq_left hle, List.take_of_length_le (by simp),
          List.take_of_length_le (by simpa using hle)]
      · rw [Nat.min_eq_right hle]
    rw [h1, h2, lex_nil]
    rfl
  rw [make_token_of_lex _ _ hl]
  rfl

theorem long_num_lex (a : List Char) (ha : isNumLit a = true) :
    make_token a = LexOutcome.done [⟨TK_NUM, a.take 31⟩] := by
  have hl : lex (a ++ []) 0 [] = LexOutcome.done [⟨TK_NUM, a.take 31⟩] := by
    rw [lex_num a [] 0 [] ha nil_sep (by simp), lex_nil]
    rfl
  rw [List.append_nil] at hl
  rw [make_token_of_lex a _ hl]
  rfl

/-- C26: over-long lexemes are truncated, not rejected. Whenever the loop of `make_token`
is at an offset where the first matching rule matches more than 31 characters and stores a
token, with an entry of `tokens[1024]` left for it, the rule is one of the two number rules
or the register rule; the loop stores a token with the first 31 characters of the lexeme,
goes on at the offset after the whole lexeme, and the run of `make_token` is the run from
there. Every token text the loop stores, and every token text `make_token` returns, has at
most 31 characters. A numeric literal, or a `$` with letters and digits, of any length is
one token, with its first 31 characters. -/
theorem long_lexeme_truncated :
    (∀ (e : List Char) (position : Nat) (tokens : List Token) (c : Char) (len : Nat)
        (ty : TokenType),
      LoopAt e position tokens → (e.drop position).head? = some c → c ≠ NUL →
      first_match rules (e.drop position) = some (len, ty) → 31 < len → ty ≠ TK_NOTYPE →
      tokens.length < 1024 →
      (ty = TK_NUM ∨ ty = TK_REG) ∧
      LoopAt e (position + len) (tokens ++ [⟨ty, (e.drop position).take 31⟩]) ∧
      lex e 0 [] = lex (e.drop (position + len)) (position + len)
        (tokens ++ [⟨ty, (e.drop position).take 31⟩])) ∧
    (∀ (e : List Char) (position : Nat) (tokens : List Token),
      LoopAt e position tokens → ∀ t, t ∈ tokens → t.str.length ≤ 31) ∧
    (∀ (e : List Char) (ts : List Token),
      make_token e = LexOutcome.done ts → ∀ t, t ∈ ts → t.str.length ≤ 31) ∧
    (∀ a : List Char, isNumLit a = true →
      make_token a = LexOutcome.done [⟨TK_NUM, a.take 31⟩]) ∧
    (∀ n : List Char, n ≠ [] → (∀ c, c ∈ n → isAlnum c = true) →
      make_token ('$' :: n) = LexOutcome.done [⟨TK_REG, ('$' :: n).take 31⟩]) := by
  refine ⟨?_, loopAt_str, ?_, long_num_lex, long_reg_lex⟩
  · intro e position tokens c len ty hat hc hnul hm hlen hty hroom
    have hnext := LoopAt.store position tokens c len ty hat hc hnul hm hty hroom
    rw [Nat.min_eq_right (by omega)] at hnext
    exact ⟨long_match_kind _ len ty hm hlen hty, hnext, loopAt_lex e _ _ hnext⟩
  · intro e ts h t ht
    obtain ⟨raw, hraw, hts⟩ := make_token_done e ts h
    rw [hts] at ht
    obtain ⟨t0, h0, h1⟩ := post_process_str raw none t ht
    rw [h1]
    refine lex_forall (fun t => t.str.length ≤ 31) ?_ e.length e (le_refl _) 0 [] raw hraw
      (by simp) t0 h0
    intro e1 len ty _
    simp only [List.length_take]
    omega

/-- Witness for C26: the numeral of 31 zeros and a final `7`, alone in the text: the loop
stores one token with the 31 zeros and ends after the numeral. -/
theorem long_lexeme_truncated_witness :
    LoopAt (zeros31 ++ ['7']) 0 [] ∧
      first_match rules ((zeros31 ++ ['7']).drop 0) = some (32, TK_NUM) ∧
      LoopAt (zeros31 ++ ['7']) (0 + 32) ([] ++ [⟨TK_NUM, ((zeros31 ++ ['7']).drop 0).take 31⟩]) ∧
      make_token (zeros31 ++ ['7']) = LexOutcome.done [⟨TK_NUM, zeros31⟩] :=
  ⟨LoopAt.start, by decide,
    (long_lexeme_truncated.1 (zeros31 ++ ['7']) 0 [] '0' 32 TK_NUM LoopAt.start (by decide)
      (by decide) (by decide) (by decide) (by decide) (by decide)).2.1,
    long_lexeme_truncated.2.2.2.1 (zeros31 ++ ['7']) (by decide)⟩

/-! ## C27: termination of `eval` -/

/-- With as much fuel as tokens, and at least 1, `evalL` returns: the nesting of the calls
is at most the number of tokens. -/
theorem evalL_total_sharp (m : Machine) : ∀ (fuel : Nat) (xs : List Token) (success : Bool),
    1 ≤ fuel → xs.length ≤ fuel → ∃ r, evalL m fuel xs success = some r := by
  intro fuel
  induction fuel with
  | zero => intro xs success h; omega
  | succ fuel ih =>
    intro xs success _ hle
    rw [evalL]
    split
    · exact ⟨_, rfl⟩
    · rename_i h0
      split
      · exact ⟨_, rfl⟩
      · rename_i h1
        have hf : 1 ≤ fuel := by omega
        split
        · apply ih _ _ hf
          simp only [List.length_dropLast, List.length_tail]; omega
        · split
          · exact ⟨_, rfl⟩
          · rename_i h3
            have hb := find_main_opL_bounds xs
            have hk : (find_main_opL xs).toNat < xs.length := by omega
            have hdrop : (xs.drop ((find_main_opL xs).toNat + 1)).length ≤ fuel := by
              simp only [List.length_drop]; omega
            have htake : (xs.take (find_main_opL xs).toNat).length ≤ fuel := by
              simp only [List.length_take]; omega
            split
            · obtain ⟨r, hr⟩ := ih _ success hf hdrop
              rw [hr]; obtain ⟨v, s⟩ := r
              cases s <;> exact ⟨_, rfl⟩
            · split
              · obtain ⟨r, hr⟩ := ih _ success hf hdrop
                rw [hr]; obtain ⟨v, s⟩ := r
                cases s <;> exact ⟨_, rfl⟩
              · obtain ⟨r, hr⟩ := ih _ success hf htake
                rw [hr]; obtain ⟨v, s⟩ := r
                cases s with
                | false => exact ⟨_, rfl⟩
                | true =>
                  obtain ⟨r2, hr2⟩ := ih _ true hf hdrop
                  simp only [if_true]
                  rw [hr2]; obtain ⟨v2, s2⟩ := r2
                  cases s2 <;> exact ⟨_, rfl⟩

/-- C27: evaluation always terminates. For every content of the token buffer and every
range `[p, q]` within the stored tokens, `find_main_op(p, q)` returns -1 or an index `op`
with `p ≤ op ≤ q`, so that the ranges `[p, op - 1]`, `[op + 1, q]` and `[p + 1, q - 1]` of
the recursive calls are strictly shorter than `[p, q]`; and `eval(p, q)` returns, with a
nesting of calls of at most the number of tokens of the range (one call for an empty
range): the embedding returns a result with that much fuel, and with any larger fuel. -/
theorem eval_terminates (m : Machine) (tokens : List Token) (p q : Int) (success : Bool)
    (hp : 0 ≤ p) (hq : q < (tokens.length : Int)) :
    (find_main_op tokens p q = -1 ∨
      (p ≤ find_main_op tokens p q ∧ find_main_op tokens p q ≤ q)) ∧
    ∀ fuel, 1 ≤ fuel → (q - p + 1).toNat ≤ fuel →
      ∃ r, eval m tokens fuel p q success = some r := by
  by_cases hpq : p ≤ q
  · obtain ⟨pre, xs, post, ht, hpe, hqe, _⟩ := range_split tokens p q hp hpq hq
    constructor
    · have h := find_main_op_eq pre xs post
      rw [← ht, ← hpe, ← hqe] at h
      rw [h]
      rcases find_main_opL_bounds xs with hb | hb
      · left; rw [if_pos hb]
      · right
        rw [if_neg (by omega)]
        omega
    · intro fuel h1 hfuel
      rw [eval_eq_evalL_aux m fuel tokens pre xs post p q success ht hpe hqe]
      exact evalL_total_sharp m fuel xs success h1 (by omega)
  · constructor
    · left
      unfold find_main_op
      have h0 : (q - p + 1).toNat = 0 := by omega
      rw [h0]
      rfl
    · intro fuel h1 _
      obtain ⟨n, rfl⟩ : ∃ n, fuel = n + 1 := ⟨fuel - 1, by omega⟩
      rw [eval, if_pos (by omega)]
      exact ⟨_, rfl⟩

/-- Witness for C27: the range of the five tokens of `10-2-3`, with fuel 5. -/
theorem eval_terminates_witness :
    (find_main_op tokens_10_minus_2_minus_3 0 4 = -1 ∨
      ((0 : Int) ≤ find_main_op tokens_10_minus_2_minus_3 0 4 ∧
        find_main_op tokens_10_minus_2_minus_3 0 4 ≤ 4)) ∧
      ∃ r, eval zeroMachine tokens_10_minus_2_minus_3 5 0 4 true = some r :=
  ⟨(eval_terminates zeroMachine tokens_10_minus_2_minus_3 0 4 true (by decide)
      (by decide)).1,
    (eval_terminates zeroMachine tokens_10_minus_2_minus_3 0 4 true (by decide)
      (by decide)).2 5 (by decide) (by decide)⟩

/-! ## C28: the capacity of the token buffer -/

theorem ones1025_lex : lex ones1025 0 [] = LexOutcome.overflow := by
  obtain ⟨p1, hp1⟩ := lex_ones 1024 ['1'] 0 [] (by rw [List.length_nil]) (by
    intro c hc
    simp only [List.head?_cons, Option.some.injEq] at hc
    rw [← hc]; decide)
  unfold ones1025
  rw [hp1]
  have hm : first_match rules ['1'] = some (1, TK_NUM) := by decide
  have hl : 1024 ≤ ([] ++ List.replicate 1024 (⟨TK_NUM, ['1']⟩ : Token)).length := by
    rw [List.nil_append, List.length_replicate]
  rw [lex_cons, if_neg (by decide), hm]
  simp only [reduceCtorEq, if_false, if_pos hl]

/-- C28, what the code does: the text of 1025 numerals `1` separated by single spaces has
no character outside the patterns of the rules, and on it the loop of `make_token`, with
1024 tokens stored, stores the next token at index 1024, outside `tokens[1024]`: nothing
makes `make_token` return false before that store, in any machine state, and the run of
`expr` goes through it. -/
theorem token_buffer_overflow (m : Machine) :
    (∀ c, c ∈ ones1025 → inAlphabet c = true) ∧
      make_token ones1025 = LexOutcome.overflow ∧
      expr m ones1025 = ExprOutcome.overflow := by
  have h1 : make_token ones1025 = LexOutcome.overflow := by
    rw [make_token_eq, ones1025_lex]
  refine ⟨?_, h1, ?_⟩
  · intro c hc
    simp only [ones1025, List.mem_append, List.mem_flatten, List.mem_replicate,
      List.mem_singleton] at hc
    rcases hc with ⟨l, ⟨_, rfl⟩, hl⟩ | rfl
    · revert hl c; decide
    · decide
  · rw [expr_eq, h1]

/-! ## C29: the second post-processing pass -/

/-- C29: the unary reclassification pass is idempotent. Applying the post-processing loop to
tokens that have been through it changes no token, whatever the kind in front of the first
one; so the pass that `expr` runs after `make_token` leaves the tokens of `make_token` as
they are, and `expr` computes what it would compute without that pass, on every text and in
every machine state. -/
theorem second_pass_idempotent :
    (∀ (prev : Option TokenType) (ts : List Token),
      post_process prev (post_process prev ts) = post_process prev ts) ∧
    (∀ (e : List Char) (tokens : List Token),
      make_token e = LexOutcome.done tokens → post_process none tokens = tokens) ∧
    (∀ (m : Machine) (e : List Char), expr m e = expr_without_second_pass m e) := by
  have h2 : ∀ (e : List Char) (tokens : List Token),
      make_token e = LexOutcome.done tokens → post_process none tokens = tokens := by
    intro e tokens h
    obtain ⟨raw, _, hts⟩ := make_token_done e tokens h
    rw [hts, post_process_idem]
  refine ⟨fun prev ts => post_process_idem ts prev, h2, ?_⟩
  intro m e
  unfold expr expr_without_second_pass
  cases h : make_token e with
  | done tokens =>
    simp only [h2 e tokens h]
    try rfl
  | no_match p => rfl
  | overflow => rfl
  | out_of_fuel => rfl

/-- Witness for C29: the tokens of `-1*-2`, and `expr` on that text. -/
theorem second_pass_idempotent_witness :
    make_token ['-', '1', '*', '-', '2'] =
        LexOutcome.done [⟨TK_NEGATIVE, ['-']⟩, ⟨TK_NUM, ['1']⟩, ⟨STAR, ['*']⟩,
          ⟨TK_NEGATIVE, ['-']⟩, ⟨TK_NUM, ['2']⟩] ∧
      post_process none [⟨TK_NEGATIVE, ['-']⟩, ⟨TK_NUM, ['1']⟩, ⟨STAR, ['*']⟩,
          ⟨TK_NEGATIVE, ['-']⟩, ⟨TK_NUM, ['2']⟩] =
        [⟨TK_NEGATIVE, ['-']⟩, ⟨TK_NUM, ['1']⟩, ⟨STAR, ['*']⟩, ⟨TK_NEGATIVE, ['-']⟩,
          ⟨TK_NUM, ['2']⟩] :=
  ⟨by decide, second_pass_idempotent.2.1 ['-', '1', '*', '-', '2'] _ (by decide)⟩

end Nemu
